import Mathlib

/-!
# json5cpp: a shallow embedding of the value model, the builder and the parser

Bytes of the input text and of the string buffer are natural numbers below 256.
A 64-bit cell (`_data`) is a natural number; the bit masks are those of
`json5.hpp`.  Addresses are natural numbers as well: a document records the
addresses at which its two buffers live, and a pointer into the cell buffer is
`values_data + index * sizeof_value`.
-/

namespace json5

/-! ## Base declarations -/

/-- Modelled from the spec: the header json5_base.hpp is not part of the sources; a
location is the line / column / byte-offset triple attached to values and errors. -/
structure location where
  line : Nat
  column : Nat
  offset : Nat
deriving DecidableEq, Repr

/-- Modelled from the spec: the header json5_base.hpp is not part of the sources; these are
the discriminants of a structured error listed in the error-handling section. -/
inductive error_kind where
  | none
  | syntax_error
  | comma_expected
  | colon_expected
  | string_expected
  | number_expected
  | array_expected
  | object_expected
  | wrong_array_size
  | invalid_literal
  | invalid_enum
  | invalid_escape_seq
  | unexpected_end
  | invalid_root
  | could_not_open
deriving DecidableEq, Repr

/-- Modelled from the spec: the header json5_base.hpp is not part of the sources; an error is
a discriminant plus the source location at which it occurred (`error{ type, _loc }`), and
`{ error::none }` leaves the location zeroed. -/
structure error where
  type : error_kind
  loc : location
deriving DecidableEq, Repr

/-- The value `{ error::none }`. -/
def error.ok : error := ⟨error_kind.none, ⟨0, 0, 0⟩⟩

/-- The test `if ( auto err = ... )`: an error converts to true when its type is not none. -/
def error.failed (e : error) : Bool := decide (e.type ≠ error_kind.none)

/-- Modelled from the spec: the header json5_base.hpp is not part of the sources; the logical
types of a value. -/
inductive value_type where
  | null
  | boolean
  | number
  | string
  | array
  | object
deriving DecidableEq, Repr

/-- What the sources take from outside the repository: the floating-point text conversion of
the C++ library (`std::from_chars` on a double, returning the 64 bits of the result, or
nothing on a conversion error), the size in bytes of one `detail::value` cell, and the
zero-terminated byte string found at an address outside a document. -/
structure env where
  from_chars : List Nat → Option Nat
  sizeof_value : Nat
  c_str_at : Nat → List Nat

/-! ## detail::value -/

def mask_nanbits : Nat := 0xFFF0000000000000
def mask_type : Nat := 0xFFF7000000000000
def mask_is_document : Nat := 0x0008000000000000
def mask_payload : Nat := 0x0000FFFFFFFFFFFF
def type_false : Nat := 0xFFF1000000000000
def type_true : Nat := 0xFFF2000000000000
def type_string : Nat := 0xFFF3000000000000
def type_string_off : Nat := 0xFFF4000000000000
def type_array : Nat := 0xFFF5000000000000
def type_object : Nat := 0xFFF6000000000000
def type_null : Nat := 0xFFF7000000000000

/-- The complement `~mask_payload` of a 64-bit mask. -/
def not_mask_payload : Nat := 0xFFFF000000000000

/-- The complement `~mask_type` of a 64-bit mask. -/
def not_mask_type : Nat := 0x0008FFFFFFFFFFFF

/-- A cell: the NaN-boxed 64 bits and the location in the source file. -/
structure value where
  data : Nat
  loc : location
deriving DecidableEq, Repr

namespace value

/-- The constructor `value()`: the null value. -/
def null : value := ⟨type_null, ⟨0, 0, 0⟩⟩

/-- The constructor `value( bool val )`. -/
def of_bool (val : Bool) : value := ⟨if val then type_true else type_false, ⟨0, 0, 0⟩⟩

/-- The constructor `value( double val )`, on the 64 bits of the double. -/
def of_double (bits : Nat) : value := ⟨bits, ⟨0, 0, 0⟩⟩

/-- The constructor `value( value_type t, uint64_t data )`. -/
def of_type (t : value_type) (data : Nat) : value :=
  if t = value_type.object then ⟨type_object ||| data, ⟨0, 0, 0⟩⟩
  else if t = value_type.array then ⟨type_array ||| data, ⟨0, 0, 0⟩⟩
  else if t = value_type.string then ⟨type_string ||| data, ⟨0, 0, 0⟩⟩
  else ⟨data, ⟨0, 0, 0⟩⟩

def is_null (v : value) : Bool := decide (v.data = type_null)

def is_boolean (v : value) : Bool := decide (v.data = type_true ∨ v.data = type_false)

def is_number (v : value) : Bool := decide (v.data &&& mask_nanbits ≠ mask_nanbits)

def is_string (v : value) : Bool := decide (v.data &&& mask_type = type_string)

def is_object (v : value) : Bool := decide (v.data &&& mask_type = type_object)

def is_array (v : value) : Bool := decide (v.data &&& mask_type = type_array)

def is_document (v : value) : Bool := decide (v.data &&& mask_is_document = mask_is_document)

/-- The getter `payload<T>()`: the lower 48 bits. -/
def payload (v : value) : Nat := v.data &&& mask_payload

/-- The setter `payload( uint64_t p )`: `_data = ( _data & ~mask_payload ) | p`. -/
def set_payload (v : value) (p : Nat) : value :=
  { v with data := (v.data &&& not_mask_payload) ||| p }

/-- The method `type()`. -/
def type (v : value) : value_type :=
  if v.data &&& mask_nanbits ≠ mask_nanbits then value_type.number
  else if v.data &&& mask_type = type_object then value_type.object
  else if v.data &&& mask_type = type_array then value_type.array
  else if v.data &&& mask_type = type_string then value_type.string
  else if v.data = type_true ∨ v.data = type_false then value_type.boolean
  else value_type.null

/-- The getter `get_bool( defaultValue )`. -/
def get_bool (v : value) (defaultValue : Bool) : Bool :=
  if v.data = type_true then true
  else if v.data = type_false then false
  else defaultValue

end value

/-! ## Conversions between a count and a double -/

/-- The position of the highest set bit of `n`, found in at most `fuel` halvings. -/
def high_bit : Nat → Nat → Nat
  | 0, _ => 0
  | fuel + 1, n => if n < 2 then 0 else high_bit fuel (n / 2) + 1

/-- The conversion `double( count )` of an unsigned 64-bit count, as the 64 bits of the
IEEE-754 binary64 result (round to nearest, ties to even, above 2^53). -/
def double_of_size (n : Nat) : Nat :=
  if n = 0 then 0
  else
    let e := high_bit 64 n
    if e ≤ 52 then (1023 + e) * 2 ^ 52 + (n * 2 ^ (52 - e) - 2 ^ 52)
    else
      let s := e - 52
      let q := n / 2 ^ s
      let r := n % 2 ^ s
      let half := 2 ^ (s - 1)
      let q1 := if r > half ∨ (r = half ∧ q % 2 = 1) then q + 1 else q
      if q1 = 2 ^ 53 then (1023 + e + 1) * 2 ^ 52
      else (1023 + e) * 2 ^ 52 + (q1 - 2 ^ 52)

/-- The conversion `size_t( _double )` of the 64 bits of a double: truncation towards zero.
Negative values, infinities, NaNs and values of at least 2^64, for which the C++ conversion
is undefined, give 0 here. -/
def size_of_double (bits : Nat) : Nat :=
  let sign := bits / 2 ^ 63
  let ex := (bits / 2 ^ 52) % 2 ^ 11
  let m := bits % 2 ^ 52
  if sign ≠ 0 ∨ ex = 2047 ∨ ex < 1023 ∨ ex ≥ 1023 + 64 then 0
  else if ex ≥ 1075 then (2 ^ 52 + m) * 2 ^ (ex - 1075)
  else (2 ^ 52 + m) / 2 ^ (1075 - ex)

/-- The getter `get_number<size_t>()` with its default of 0. -/
def value.get_number_size (v : value) : Nat :=
  if v.is_number then size_of_double v.data else 0

/-! ## document -/

/-- A document: its own root cell (`_data`, `_loc`), the byte buffer `_strings`, the cell
buffer `_values`, and the addresses `_strings.data()` and `_values.data()` of the two
buffers. -/
structure document where
  data : Nat
  loc : location
  strings : List Nat
  values : List value
  strings_data : Nat
  values_data : Nat
deriving DecidableEq, Repr

/-- The bytes of a zero-terminated string stored in `bytes`: those before the first zero. -/
def c_str (bytes : List Nat) : List Nat := bytes.takeWhile (fun b => decide (b ≠ 0))

namespace document

/-- The document seen as a `detail::value` (its base class). -/
def to_value (doc : document) : value := ⟨doc.data, doc.loc⟩

/-- The call `alloc_string( str, size_t( -1 ) )`, where `str` holds the bytes of the
zero-terminated argument: nothing is stored for an empty string, otherwise the bytes and a
terminating zero are appended. -/
def alloc_string (doc : document) (str : List Nat) : Nat × document :=
  let length := str.length
  if length = 0 then (0, doc)
  else (doc.strings.length, { doc with strings := doc.strings ++ str ++ [0] })

/-- The operator `document::operator+( const char* ch )`. -/
def add_c_str (doc : document) (ch : List Nat) : document := (doc.alloc_string ch).2

/-- The operator `document::operator+( const char ch )`: a one-character string is built and
its zero-terminated data is added. -/
def add_char (doc : document) (ch : Nat) : document := doc.add_c_str (c_str [ch])

/-- The method `document::reset()`. -/
def reset (doc : document) : document :=
  { doc with data := type_null ||| mask_is_document, values := [], strings := [0] }

/-- The bytes of the zero-terminated string at address `p`, when `p` points into the byte
buffer. -/
def c_str_at (doc : document) (p : Nat) : Option (List Nat) :=
  if doc.strings_data ≤ p ∧ p < doc.strings_data + doc.strings.length then
    some (c_str (doc.strings.drop (p - doc.strings_data)))
  else Option.none

/-- The cell at address `p`, when `p` points at a cell of the cell buffer. -/
def cell_at (e : env) (doc : document) (p : Nat) : Option value :=
  if doc.values_data ≤ p ∧ (p - doc.values_data) % e.sizeof_value = 0 then
    doc.values.get? ((p - doc.values_data) / e.sizeof_value)
  else Option.none

end document

/-- The method `value::relink( prevDoc, doc )`; it returns the relinked cell and the document,
whose byte buffer grows when a string from outside is taken in.  Pointer differences are
taken as natural-number differences. -/
def value.relink (e : env) (prevDoc : Option document) (doc : document) (v : value) :
    value × document :=
  if v.data &&& mask_type = type_string then
    let r : value × document :=
      match prevDoc with
      | some prev => (v.set_payload (v.payload - prev.strings_data), doc)
      | Option.none =>
        let str := v.payload
        if str < doc.strings_data ∨ str ≥ doc.strings_data + doc.strings.length then
          let a := doc.alloc_string (e.c_str_at str)
          (v.set_payload a.1, a.2)
        else (v.set_payload (v.payload - doc.strings_data), doc)
    ({ r.1 with data := (r.1.data &&& not_mask_type) ||| type_string_off }, r.2)
  else if v.is_object ∨ v.is_array then
    let v1 : value :=
      match prevDoc with
      | some prev => v.set_payload ((v.payload - prev.values_data) / e.sizeof_value)
      | Option.none => v
    (v1.set_payload (doc.values_data + v1.payload * e.sizeof_value), doc)
  else (v, doc)

/-- The loop `for ( auto &v : _values ) v.relink( prevDoc, *this )` over the cells `vs`. -/
def relink_all (e : env) (prevDoc : Option document) : List value → document → List value × document
  | [], doc => ([], doc)
  | v :: vs, doc =>
    let r := v.relink e prevDoc doc
    let rs := relink_all e prevDoc vs r.2
    (r.1 :: rs.1, rs.2)

namespace document

/-- One step of `convert_string_offsets()` on a cell. -/
def convert_string_offset (doc : document) (v : value) : value :=
  if v.data &&& mask_type = type_string_off then
    let v1 := v.set_payload (doc.strings_data + v.payload)
    { v1 with data := (v1.data &&& not_mask_type) ||| type_string }
  else v

/-- The method `document::convert_string_offsets()`. -/
def convert_string_offsets (doc : document) : document :=
  { doc with values := doc.values.map doc.convert_string_offset }

/-- The method `document::assign_root( root )`. -/
def assign_root (e : env) (doc : document) (root : value) : document :=
  let doc1 := { doc with data := root.data ||| mask_is_document }
  let r := relink_all e Option.none doc1.values doc1
  let doc2 := { r.2 with values := r.1 }
  let s := doc2.to_value.relink e Option.none doc2
  let doc3 := { s.2 with data := s.1.data, loc := s.1.loc }
  doc3.convert_string_offsets

end document

/-! ## Views -/

/-- The getter `get_c_str()` followed by a read of the string it points to, inside the
document `doc`: the bytes before the terminating zero, or the default when the value is not a
string. -/
def value.get_c_str (doc : document) (v : value) (defaultValue : List Nat) : Option (List Nat) :=
  if v.is_string then doc.c_str_at v.payload else some defaultValue

/-- An array view: the address `_value` of the first element (0 is the null pointer) and the
number `_count` of elements. -/
structure array_view where
  _value : Nat
  _count : Nat
deriving DecidableEq, Repr

/-- An object view: the address `_pair` of the first key (0 is the null pointer) and the
number `_count` of pairs. -/
structure object_view where
  _pair : Nat
  _count : Nat
deriving DecidableEq, Repr

namespace array_view

/-- The constructor `array_view( const detail::value &v )`, reading the count cell in front
of the elements from the document `doc`; nothing when that cell is outside the cell buffer. -/
def of_value (e : env) (doc : document) (v : value) : Option array_view :=
  let p := if v.is_array then v.payload + e.sizeof_value else 0
  if p ≠ 0 then
    match doc.cell_at e (p - e.sizeof_value) with
    | some c => some ⟨p, c.get_number_size⟩
    | Option.none => Option.none
  else some ⟨p, 0⟩

def is_valid (a : array_view) : Bool := decide (a._value ≠ 0)

def size (a : array_view) : Nat := a._count

def empty (a : array_view) : Bool := decide (a._count = 0)

/-- The operator `array_view::operator[]( size_t index )`; nothing when the cell read is
outside the cell buffer. -/
def get (e : env) (doc : document) (a : array_view) (index : Nat) : Option value :=
  if index < a._count then doc.cell_at e (a._value + index * e.sizeof_value)
  else some value.null

end array_view

namespace object_view

/-- The constructor `object_view( const detail::value &v )`, reading the count cell in front
of the pairs from the document `doc`; nothing when that cell is outside the cell buffer. -/
def of_value (e : env) (doc : document) (v : value) : Option object_view :=
  let p := if v.is_object then v.payload + e.sizeof_value else 0
  if p ≠ 0 then
    match doc.cell_at e (p - e.sizeof_value) with
    | some c => some ⟨p, c.get_number_size / 2⟩
    | Option.none => Option.none
  else some ⟨p, 0⟩

def is_valid (o : object_view) : Bool := decide (o._pair ≠ 0)

def size (o : object_view) : Nat := o._count

def empty (o : object_view) : Bool := decide (o.size = 0)

/-- The pair `*iter` of an iterator standing at address `pair`: the key string and the value
cell; nothing when a read is outside the buffers. -/
def deref (e : env) (doc : document) (pair : Nat) : Option (List Nat × value) :=
  match doc.cell_at e pair, doc.cell_at e (pair + e.sizeof_value) with
  | some k, some v =>
    match k.get_c_str doc [] with
    | some s => some (s, v)
    | Option.none => Option.none
  | _, _ => Option.none

/-- The pairs met by `for ( auto iter = begin(); iter != end(); ++iter )`, in order: `n` pairs
from address `pair` on. -/
def pairs_from (e : env) (doc : document) : Nat → Nat → Option (List (List Nat × value))
  | 0, _ => some []
  | n + 1, pair =>
    match deref e doc pair, pairs_from e doc n (pair + 2 * e.sizeof_value) with
    | some kv, some rest => some (kv :: rest)
    | _, _ => Option.none

/-- The pairs of the whole iteration from `begin()` to `end()`. -/
def pairs (e : env) (doc : document) (o : object_view) : Option (List (List Nat × value)) :=
  pairs_from e doc o._count o._pair

end object_view

/-! ## builder -/

/-- The builder: the document it writes to, the open frames `_stack`, the scratch buffer
`_values` and the pending counts `_counts`; the back of a vector is the end of the list. -/
structure builder where
  doc : document
  stack : List value
  values : List value
  counts : List Nat
deriving DecidableEq, Repr

/-- The statement `_counts.back() += k`. -/
def add_to_back (k : Nat) : List Nat → List Nat
  | [] => []
  | [c] => [c + k]
  | c :: d :: cs => c :: add_to_back k (d :: cs)

/-- The truncation `char( x )` of an unsigned value to one byte. -/
def to_char (x : Nat) : Nat := x % 256

namespace builder

/-- The overload `new_string( string_offset )`: a cell tagged as a pending string offset. -/
def new_string (stringOffset : Nat) : value := value.of_type value_type.null (type_string_off ||| stringOffset)

def string_buffer_offset (b : builder) : Nat := b.doc.strings.length

/-- The overload `string_buffer_add( char ch )`. -/
def string_buffer_add (b : builder) (ch : Nat) : builder :=
  { b with doc := { b.doc with strings := b.doc.strings ++ [ch] } }

/-- The method `string_buffer_add_utf8( uint32_t ch )`; every byte goes, in order, through
`document::operator+( char )`. -/
def string_buffer_add_utf8 (b : builder) (ch : Nat) : builder :=
  if ch ≤ 0x7f then
    { b with doc := [to_char ch].foldl document.add_char b.doc }
  else if 0x80 ≤ ch ∧ ch ≤ 0x7ff then
    { b with doc := [to_char (0xc0 ||| (ch >>> 6)),
                     to_char (0x80 ||| (ch &&& 0x3f))].foldl document.add_char b.doc }
  else if 0x800 ≤ ch ∧ ch ≤ 0xffff then
    { b with doc := [to_char (0xe0 ||| (ch >>> 12)),
                     to_char (0x80 ||| ((ch >>> 6) &&& 0x3f)),
                     to_char (0x80 ||| (ch &&& 0x3f))].foldl document.add_char b.doc }
  else if 0x10000 ≤ ch ∧ ch ≤ 0x1fffff then
    { b with doc := [to_char (0xf0 ||| (ch >>> 18)),
                     to_char (0x80 ||| ((ch >>> 12) &&& 0x3f)),
                     to_char (0x80 ||| ((ch >>> 6) &&& 0x3f)),
                     to_char (0x80 ||| (ch &&& 0x3f))].foldl document.add_char b.doc }
  else if 0x200000 ≤ ch ∧ ch ≤ 0x3ffffff then
    { b with doc := [to_char (0xf8 ||| (ch >>> 24)),
                     to_char (0x80 ||| ((ch >>> 18) &&& 0x3f)),
                     to_char (0x80 ||| ((ch >>> 12) &&& 0x3f)),
                     to_char (0x80 ||| ((ch >>> 6) &&& 0x3f)),
                     to_char (0x80 ||| (ch &&& 0x3f))].foldl document.add_char b.doc }
  else if 0x4000000 ≤ ch ∧ ch ≤ 0x7fffffff then
    { b with doc := [to_char (0xfc ||| (ch >>> 30)),
                     to_char (0x80 ||| ((ch >>> 24) &&& 0x3f)),
                     to_char (0x80 ||| ((ch >>> 18) &&& 0x3f)),
                     to_char (0x80 ||| ((ch >>> 12) &&& 0x3f)),
                     to_char (0x80 ||| ((ch >>> 6) &&& 0x3f)),
                     to_char (0x80 ||| (ch &&& 0x3f))].foldl document.add_char b.doc }
  else b

def push_object (b : builder) : builder :=
  { b with stack := b.stack ++ [value.of_type value_type.object 0], counts := b.counts ++ [0] }

def push_array (b : builder) : builder :=
  { b with stack := b.stack ++ [value.of_type value_type.array 0], counts := b.counts ++ [0] }

/-- The operator `builder::operator+=( detail::value v )`. -/
def append (b : builder) (v : value) : builder :=
  { b with values := b.values ++ [v], counts := add_to_back 1 b.counts }

/-- Modelled from the spec: `add_item` is declared in json5_builder.hpp and called by the
parser, and its body is not part of the sources; item-append "appends one value to the
scratch buffer and increments the current frame's pending count". -/
def add_item (b : builder) (v : value) : builder :=
  { b with values := b.values ++ [v], counts := add_to_back 1 b.counts }

/-- The method `builder::pop()`; it returns the finished value and the builder.  With no
open frame (undefined in the C++ code) the frame is taken to be a null value with count 0. -/
def pop (e : env) (b : builder) : value × builder :=
  let result := b.stack.getLastD value.null
  let count := b.counts.getLastD 0
  let result := result.set_payload b.doc.values.length
  let startIndex := b.values.length - count
  let doc1 := { b.doc with
    values := b.doc.values ++ [value.of_double (double_of_size count)] ++ b.values.drop startIndex }
  let b1 : builder :=
    { doc := doc1, stack := b.stack.dropLast, values := b.values.take startIndex,
      counts := b.counts.dropLast }
  if b1.stack.isEmpty then
    let doc2 := doc1.assign_root e result
    (doc2.to_value, { b1 with doc := doc2 })
  else (result, b1)

/-- The method `builder::reset()`. -/
def reset (b : builder) : builder :=
  { b with doc := { b.doc with data := type_null, values := [], strings := [0] } }

end builder

/-! ## parser -/

/-- The parser: the builder it extends, the bytes from `_cursor` on (there are `_size` of
them) and the running location `_loc`. -/
structure parser extends builder where
  input : List Nat
  loc : location
deriving DecidableEq, Repr

inductive token_type where
  | unknown
  | identifier
  | string
  | number
  | colon
  | comma
  | object_begin
  | object_end
  | array_begin
  | array_end
  | literal_true
  | literal_false
  | literal_null
  | literal_NaN
deriving DecidableEq, Repr

/-- The state `parsingComment` of the tokenizer. -/
inductive comment_type where
  | none
  | line
  | block
deriving DecidableEq, Repr

/-- The C function `isalpha` in the "C" locale, on an `int`. -/
def isalpha (ch : Int) : Bool := decide ((65 ≤ ch ∧ ch ≤ 90) ∨ (97 ≤ ch ∧ ch ≤ 122))

/-- The C function `isdigit`, on an `int`. -/
def isdigit (ch : Int) : Bool := decide (48 ≤ ch ∧ ch ≤ 57)

/-- The conversion `char( ch )` of an `int` to one byte: a byte converts to itself and the
end-of-input mark -1 to 255. -/
def to_byte (ch : Int) : Nat := if 0 ≤ ch then ch.toNat else (ch % 256).toNat

/-- The C function `strchr( s, ch ) != nullptr`: `ch` is converted to a byte, and the
terminating zero of `s` counts as part of the string. -/
def strchr (s : List Nat) (ch : Int) : Bool := decide (to_byte ch = 0 ∨ to_byte ch ∈ s)

/-- The string literal "{}[]:,". -/
def punctuation : List Nat := [123, 125, 91, 93, 58, 44]

/-- The string literal "0123456789abcdefABCDEF". -/
def hexChars : List Nat :=
  [48, 49, 50, 51, 52, 53, 54, 55, 56, 57, 97, 98, 99, 100, 101, 102, 65, 66, 67, 68, 69, 70]

/-- The value of a hexadecimal digit. -/
def hex_digit_value (c : Nat) : Option Nat :=
  if 48 ≤ c ∧ c ≤ 57 then some (c - 48)
  else if 97 ≤ c ∧ c ≤ 102 then some (c - 87)
  else if 65 ≤ c ∧ c ≤ 70 then some (c - 55)
  else Option.none

/-- The call `std::from_chars( code, code + 5, unicodeChar, 16 )` on the bytes of `code`: the
leading hexadecimal digits are accumulated onto `acc`, which starts at 0 and stays 0 when
there is no digit. -/
def from_chars_hex : List Nat → Nat → Nat
  | [], acc => acc
  | c :: cs, acc =>
    match hex_digit_value c with
    | some d => from_chars_hex cs (acc * 16 + d)
    | Option.none => acc

namespace parser

def eof (p : parser) : Bool := p.input.isEmpty

def make_error (p : parser) (type : error_kind) : error := ⟨type, p.loc⟩

/-- The method `parser::next()`: the byte read (or -1) and the parser after it. -/
def next (p : parser) : Int × parser :=
  match p.input with
  | [] => (-1, p)
  | c :: rest =>
    let loc1 : location := if c = 10 then { p.loc with column := 0, line := p.loc.line + 1 } else p.loc
    ((c : Int), { p with input := rest,
                         loc := { loc1 with column := loc1.column + 1, offset := loc1.offset + 1 } })

def peek (p : parser) : Int :=
  match p.input with
  | [] => -1
  | c :: _ => (c : Int)

/-- The builder call `string_buffer_add( char )` on the parser. -/
def add (p : parser) (ch : Nat) : parser := { p with tobuilder := p.tobuilder.string_buffer_add ch }

/-- The loop of `peek_next_token`; `n` bounds the number of iterations and is the number of
bytes left, every iteration that goes on consumes a byte.  A test `c && next()` whose left
side says that the byte ahead is a given non-zero byte is taken to succeed, `next()`
returning that byte. -/
def peek_next_token_loop : Nat → comment_type → token_type → parser → error × token_type × parser
  | 0, _, result, p => (p.make_error error_kind.unexpected_end, result, p)
  | n + 1, parsingComment, result, p =>
    if p.eof then (p.make_error error_kind.unexpected_end, result, p)
    else
      let ch := p.peek
      if ch = 10 then
        let pc := if parsingComment = comment_type.line then comment_type.none else parsingComment
        peek_next_token_loop n pc result p.next.2
      else if parsingComment ≠ comment_type.none ∨ (ch > 0 ∧ ch ≤ 32) then
        if parsingComment = comment_type.block ∧ ch = 42 then
          let p1 := p.next.2
          let pc := if p1.peek = 47 then comment_type.none else parsingComment
          peek_next_token_loop n pc result p1.next.2
        else peek_next_token_loop n parsingComment result p.next.2
      else if ch = 47 then
        let p1 := p.next.2
        if p1.peek = 47 then peek_next_token_loop n comment_type.line result p1.next.2
        else if p1.peek = 42 then peek_next_token_loop n comment_type.block result p1.next.2
        else (p1.make_error error_kind.syntax_error, result, p1)
      else if strchr punctuation ch then
        let result1 :=
          if ch = 123 then token_type.object_begin
          else if ch = 125 then token_type.object_end
          else if ch = 91 then token_type.array_begin
          else if ch = 93 then token_type.array_end
          else if ch = 58 then token_type.colon
          else if ch = 44 then token_type.comma
          else result
        (error.ok, result1, p)
      else if isalpha ch ∨ ch = 95 then (error.ok, token_type.identifier, p)
      else if isdigit ch ∨ ch = 46 ∨ ch = 43 ∨ ch = 45 then
        let p1 := if ch = 43 then p.next.2 else p
        (error.ok, token_type.number, p1)
      else if ch = 34 ∨ ch = 39 then (error.ok, token_type.string, p)
      else (p.make_error error_kind.syntax_error, result, p)

/-- The method `peek_next_token( result )`; `result` comes in with the value the caller's
variable holds. -/
def peek_next_token (p : parser) (result : token_type) : error × token_type × parser :=
  peek_next_token_loop p.input.length comment_type.none result p

/-- The loop of `parse_number`, filling `buff`. -/
def parse_number_loop : Nat → List Nat → parser → List Nat × parser
  | 0, buff, p => (buff, p)
  | n + 1, buff, p =>
    if p.eof ∨ ¬ buff.length < 256 then (buff, p)
    else
      let r := p.next
      let buff1 := buff ++ [to_byte r.1]
      let ch := r.2.peek
      if (ch > 0 ∧ ch ≤ 32) ∨ ch = 44 ∨ ch = 125 ∨ ch = 93 then (buff1, r.2)
      else parse_number_loop n buff1 r.2

/-- The method `parse_number( result )` (the `std::from_chars` branch, which json5_input.hpp
selects whenever the header charconv exists); `result` is the 64 bits of the double. -/
def parse_number (e : env) (p : parser) (result : Nat) : error × Nat × parser :=
  let r := parse_number_loop p.input.length [] p
  match e.from_chars r.1 with
  | Option.none => (r.2.make_error error_kind.syntax_error, result, r.2)
  | some d => (error.ok, d, r.2)

/-- The loop `for ( i < S ) if ( !strchr( hexChars, code[i] = char( next() ) ) ) return ...`:
the bytes read, or nothing when one of them is rejected. -/
def read_hex : Nat → List Nat → parser → Option (List Nat) × parser
  | 0, code, p => (some code, p)
  | S + 1, code, p =>
    let r := p.next
    if strchr hexChars r.1 then read_hex S (code ++ [to_byte r.1]) r.2
    else (Option.none, r.2)

/-- The loop of `parse_string`: an error returned from inside the loop, or nothing when the
loop is left by `break` or at the end of input. -/
def parse_string_loop : Nat → Bool → parser → Option error × parser
  | 0, _, p => (Option.none, p)
  | n + 1, singleQuoted, p =>
    if p.eof then (Option.none, p)
    else
      let ch := p.peek
      if (singleQuoted = true ∧ ch = 39) ∨ (singleQuoted = false ∧ ch = 34) then
        (Option.none, p.next.2)
      else if ch = 92 then
        let p1 := p.next.2
        let ch := p1.peek
        if ch = 10 ∨ ch = 118 ∨ ch = 102 then parse_string_loop n singleQuoted p1.next.2
        else if ch = 116 then parse_string_loop n singleQuoted (p1.next.2.add 9)
        else if ch = 110 then parse_string_loop n singleQuoted (p1.next.2.add 10)
        else if ch = 114 then parse_string_loop n singleQuoted (p1.next.2.add 13)
        else if ch = 98 then parse_string_loop n singleQuoted (p1.next.2.add 8)
        else if ch = 92 then parse_string_loop n singleQuoted (p1.next.2.add 92)
        else if ch = 39 then parse_string_loop n singleQuoted (p1.next.2.add 39)
        else if ch = 34 then parse_string_loop n singleQuoted (p1.next.2.add 34)
        else if ch = 47 then parse_string_loop n singleQuoted (p1.next.2.add 47)
        else if ch = 48 then parse_string_loop n singleQuoted (p1.next.2.add 0)
        else if ch = 120 ∨ ch = 117 then
          let r := read_hex (if ch = 120 then 2 else 4) [] p1.next.2
          match r.1 with
          | Option.none => (some (r.2.make_error error_kind.invalid_escape_seq), r.2)
          | some code =>
            let unicodeChar := from_chars_hex code 0
            parse_string_loop n singleQuoted
              { r.2 with tobuilder := r.2.tobuilder.string_buffer_add_utf8 (unicodeChar % 2 ^ 32) }
        else (some (p1.make_error error_kind.invalid_escape_seq), p1)
      else
        let r := p.next
        parse_string_loop n singleQuoted (r.2.add (to_byte r.1))

/-- The method `parse_string( result )`; `result` is the offset of the string. -/
def parse_string (p : parser) : error × Nat × parser :=
  let singleQuoted := decide (p.peek = 39)
  let p1 := p.next.2
  let result := p1.string_buffer_offset
  let r := parse_string_loop p1.input.length singleQuoted p1
  match r.1 with
  | some err => (err, result, r.2)
  | Option.none =>
    if r.2.eof then (r.2.make_error error_kind.unexpected_end, result, r.2)
    else (error.ok, result, r.2.add 0)

/-- The loop of `parse_identifier`. -/
def parse_identifier_loop : Nat → parser → parser
  | 0, p => p
  | n + 1, p =>
    if p.eof then p
    else
      let r := p.next
      let p1 := r.2.add (to_byte r.1)
      let ch := p1.peek
      if ¬ isalpha ch ∧ ¬ isdigit ch ∧ ch ≠ 95 then p1
      else parse_identifier_loop n p1

/-- The method `parse_identifier( result )`; `result` is the offset of the key. -/
def parse_identifier (p : parser) : error × Nat × parser :=
  let result := p.string_buffer_offset
  let firstCh := p.peek
  let isString := decide (firstCh = 39 ∨ firstCh = 34)
  let p1 := if isString then p.next.2 else p
  if isString = true ∧ ¬ isalpha p1.peek ∧ p1.peek ≠ 95 then
    (p1.make_error error_kind.syntax_error, result, p1)
  else
    let p2 := parse_identifier_loop p1.input.length p1
    if isString then
      let r := p2.next
      if firstCh ≠ r.1 then (r.2.make_error error_kind.syntax_error, result, r.2)
      else (error.ok, result, r.2.add 0)
    else (error.ok, result, p2.add 0)

/-- The chain `next() == c1 && next() == c2 && ...`: it stops reading at the first byte that
differs. -/
def expect_chars : List Nat → parser → Bool × parser
  | [], p => (true, p)
  | x :: xs, p =>
    let r := p.next
    if r.1 = (x : Int) then expect_chars xs r.2 else (false, r.2)

/-- The method `parse_literal( result )`. -/
def parse_literal (p : parser) (result : token_type) : error × token_type × parser :=
  let ch := p.peek
  if ch = 116 then
    let r := expect_chars [114, 117, 101] p.next.2
    if r.1 then (error.ok, token_type.literal_true, r.2)
    else (r.2.make_error error_kind.invalid_literal, result, r.2)
  else if ch = 102 then
    let r := expect_chars [97, 108, 115, 101] p.next.2
    if r.1 then (error.ok, token_type.literal_false, r.2)
    else (r.2.make_error error_kind.invalid_literal, result, r.2)
  else if ch = 110 then
    let r := expect_chars [117, 108, 108] p.next.2
    if r.1 then (error.ok, token_type.literal_null, r.2)
    else (r.2.make_error error_kind.invalid_literal, result, r.2)
  else if ch = 78 then
    let r := expect_chars [97, 78] p.next.2
    if r.1 then (error.ok, token_type.literal_NaN, r.2)
    else (r.2.make_error error_kind.invalid_literal, result, r.2)
  else (p.make_error error_kind.invalid_literal, result, p)

end parser

/-- The 64 bits of the double `NAN`. -/
def NAN : Nat := 0x7FF8000000000000

namespace parser

mutual

/-- The method `parse_value( result )`: the error, the value of `result` afterwards (what
came in when an error is returned) and the parser.  The first argument bounds the depth of
the calls; `Option.none` means that the bound was reached. -/
def parse_value (e : env) : Nat → value → parser → Option (error × value × parser)
  | 0, _, _ => Option.none
  | n + 1, result, p =>
    let t := p.peek_next_token token_type.unknown
    if t.1.failed then some (t.1, result, t.2.2)
    else
      let p1 := t.2.2
      let loc := p1.loc
      match t.2.1 with
      | token_type.number =>
        let r := p1.parse_number e 0
        if r.1.failed then some (r.1, result, r.2.2)
        else some (error.ok, { value.of_double r.2.1 with loc := loc }, r.2.2)
      | token_type.string =>
        let r := p1.parse_string
        if r.1.failed then some (r.1, result, r.2.2)
        else some (error.ok, { builder.new_string r.2.1 with loc := loc }, r.2.2)
      | token_type.identifier =>
        let r := p1.parse_literal token_type.unknown
        if r.1.failed then some (r.1, result, r.2.2)
        else if r.2.1 = token_type.literal_true then
          some (error.ok, { value.of_bool true with loc := loc }, r.2.2)
        else if r.2.1 = token_type.literal_false then
          some (error.ok, { value.of_bool false with loc := loc }, r.2.2)
        else if r.2.1 = token_type.literal_null then
          some (error.ok, { value.null with loc := loc }, r.2.2)
        else if r.2.1 = token_type.literal_NaN then
          some (error.ok, { value.of_double NAN with loc := loc }, r.2.2)
        else some (r.2.2.make_error error_kind.invalid_literal, result, r.2.2)
      | token_type.object_begin =>
        match parse_object e n { p1 with tobuilder := p1.tobuilder.push_object } with
        | Option.none => Option.none
        | some r =>
          if r.1.failed then some (r.1, result, r.2)
          else
            let q := r.2.tobuilder.pop e
            some (error.ok, { q.1 with loc := loc }, { r.2 with tobuilder := q.2 })
      | token_type.array_begin =>
        match parse_array e n { p1 with tobuilder := p1.tobuilder.push_array } with
        | Option.none => Option.none
        | some r =>
          if r.1.failed then some (r.1, result, r.2)
          else
            let q := r.2.tobuilder.pop e
            some (error.ok, { q.1 with loc := loc }, { r.2 with tobuilder := q.2 })
      | _ => some (p1.make_error error_kind.syntax_error, result, p1)

/-- The method `parse_object()`. -/
def parse_object (e : env) : Nat → parser → Option (error × parser)
  | 0, _ => Option.none
  | n + 1, p => parse_object_loop e n false p.next.2

/-- The loop `while ( !eof() )` of `parse_object`, entered with the flag `expectComma`. -/
def parse_object_loop (e : env) : Nat → Bool → parser → Option (error × parser)
  | 0, _, _ => Option.none
  | n + 1, expectComma, p =>
    if p.eof then some (p.make_error error_kind.unexpected_end, p)
    else
      let t := p.peek_next_token token_type.unknown
      if t.1.failed then some (t.1, t.2.2)
      else
        let p1 := t.2.2
        let tt := t.2.1
        if tt = token_type.identifier ∨ tt = token_type.string then
          if expectComma then some (p1.make_error error_kind.comma_expected, p1)
          else
            let keyLoc := p1.loc
            let k := p1.parse_identifier
            if k.1.failed then some (k.1, k.2.2)
            else
              let keyOffset := k.2.1
              let t2 := k.2.2.peek_next_token tt
              if t2.1.failed then some (t2.1, t2.2.2)
              else if t2.2.1 ≠ token_type.colon then
                some (t2.2.2.make_error error_kind.colon_expected, t2.2.2)
              else
                match parse_value e n value.null t2.2.2.next.2 with
                | Option.none => Option.none
                | some r =>
                  if r.1.failed then some (r.1, r.2.2)
                  else
                    let newValue := r.2.1
                    let key : value := { builder.new_string keyOffset with loc := keyLoc }
                    let p2 : parser :=
                      { r.2.2 with tobuilder := (r.2.2.tobuilder.add_item key).add_item newValue }
                    parse_object_loop e n true p2
        else if tt = token_type.object_end then some (error.ok, p1.next.2)
        else if tt = token_type.comma then
          if !expectComma then some (p1.make_error error_kind.syntax_error, p1)
          else parse_object_loop e n false p1.next.2
        else
          some (if expectComma then p1.make_error error_kind.comma_expected
                else p1.make_error error_kind.syntax_error, p1)

/-- The method `parse_array()`. -/
def parse_array (e : env) : Nat → parser → Option (error × parser)
  | 0, _ => Option.none
  | n + 1, p => parse_array_loop e n false p.next.2

/-- The loop `while ( !eof() )` of `parse_array`, entered with the flag `expectComma`. -/
def parse_array_loop (e : env) : Nat → Bool → parser → Option (error × parser)
  | 0, _, _ => Option.none
  | n + 1, expectComma, p =>
    if p.eof then some (p.make_error error_kind.unexpected_end, p)
    else
      let t := p.peek_next_token token_type.unknown
      if t.1.failed then some (t.1, t.2.2)
      else
        let p1 := t.2.2
        let tt := t.2.1
        if tt = token_type.array_end then some (error.ok, p1.next.2)
        else if expectComma then
          if tt ≠ token_type.comma then some (p1.make_error error_kind.comma_expected, p1)
          else parse_array_loop e n false p1.next.2
        else
          match parse_value e n value.null p1 with
          | Option.none => Option.none
          | some r =>
            if r.1.failed then some (r.1, r.2.2)
            else
              let newValue := r.2.1
              parse_array_loop e n true { r.2.2 with tobuilder := r.2.2.tobuilder.add_item newValue }

end

/-- The method `parse()`.  The call `parse_value( _doc )` writes its result into the root
cell of the document. -/
def parse (e : env) (p : parser) : Option (error × parser) :=
  let p0 : parser :=
    { p with tobuilder := p.tobuilder.reset,
             loc := if p.input ≠ [] then ⟨1, 1, 0⟩ else ⟨0, 0, 0⟩ }
  match parse_value e (3 * p0.input.length + 1) p0.doc.to_value p0 with
  | Option.none => Option.none
  | some r =>
    if r.1.failed then some (r.1, r.2.2)
    else
      let p1 : parser := { r.2.2 with doc := { r.2.2.doc with data := r.2.1.data, loc := r.2.1.loc } }
      if !p1.doc.to_value.is_array && !p1.doc.to_value.is_object then
        some (p1.make_error error_kind.invalid_root, p1)
      else some (error.ok, p1)

end parser

/-- The function `from_string( str, doc )`: the error returned and the document afterwards. -/
def from_string (e : env) (str : List Nat) (doc : document) : Option (error × document) :=
  let r : parser := { doc := doc, stack := [], values := [], counts := [], input := str, loc := ⟨0, 0, 0⟩ }
  (r.parse e).map (fun x => (x.1, x.2.doc))

end json5

namespace json5

/-! ## Notions used to state the properties -/

/-- The location after one more byte `c` has been read by `next()`. -/
def location.after (loc : location) (c : Nat) : location :=
  let loc1 : location := if c = 10 then { loc with column := 0, line := loc.line + 1 } else loc
  { loc1 with column := loc1.column + 1, offset := loc1.offset + 1 }

/-- The location after the bytes `cs` have been read one by one. -/
def location.advance (loc : location) : List Nat → location
  | [] => loc
  | c :: cs => location.advance (loc.after c) cs

/-- The parser `q` has read some bytes `c` off the input of `p`, and its location has moved
over them. -/
def parser.reads (p q : parser) : Prop :=
  ∃ c, p.input = c ++ q.input ∧ q.loc = p.loc.advance c

/-- The parser `q` has the builder of `p` except for the bytes of the string buffer. -/
structure parser.keeps (p q : parser) : Prop where
  stack : q.stack = p.stack
  values : q.values = p.values
  counts : q.counts = p.counts
  doc_data : q.doc.data = p.doc.data
  doc_loc : q.doc.loc = p.doc.loc
  doc_values : q.doc.values = p.doc.values
  strings_data : q.doc.strings_data = p.doc.strings_data
  values_data : q.doc.values_data = p.doc.values_data



/-- The token that `peek_next_token` reports for a first significant byte `c` other than a
plus sign; `result` is what the caller's variable held. -/
def token_class (result : token_type) (c : Nat) : token_type :=
  if c = 123 then token_type.object_begin
  else if c = 125 then token_type.object_end
  else if c = 91 then token_type.array_begin
  else if c = 93 then token_type.array_end
  else if c = 58 then token_type.colon
  else if c = 44 then token_type.comma
  else if c = 0 then result
  else if isalpha c ∨ c = 95 then token_type.identifier
  else if isdigit c ∨ c = 46 ∨ c = 45 then token_type.number
  else token_type.string

/-- The byte `c` starts a token other than a number written with a plus sign: the zero
byte, a bracket, colon or comma, a letter or underscore, a digit, point or minus sign, or a
quote. -/
def token_start (c : Nat) : Bool :=
  decide (c = 0 ∨ c ∈ punctuation ∨ isalpha c = true ∨ c = 95 ∨ isdigit c = true ∨ c = 46 ∨
    c = 45 ∨ c = 34 ∨ c = 39)

/-- The bytes that `peek_next_token` skips as whitespace outside a comment. -/
def is_space (w : Nat) : Bool := decide (0 < w ∧ w ≤ 32)

/-- What a grammar routine of the parser guarantees when it goes from `p` to `q`, `ok` telling
whether it returned without error: bytes were read, the buffers did not move, a successful
call leaves the open frames as they were and has read at least one byte, and the root cell
is untouched unless the outermost frame was closed. -/
structure parser.nests (p q : parser) (ok : Bool) : Prop where
  reads : p.reads q
  strings_data : q.doc.strings_data = p.doc.strings_data
  values_data : q.doc.values_data = p.doc.values_data
  doc_loc : q.doc.loc = p.doc.loc
  frames : ok = true → q.stack = p.stack ∧ q.counts.length = p.counts.length
  shorter : ok = true → q.input.length < p.input.length
  doc_data : (p.stack ≠ [] ∨ ok = false) → q.doc.data = p.doc.data


/-- The value of a text made of decimal digits only, onto the accumulator `acc`. -/
def digits_value : List Nat → Nat → Option Nat
  | [], acc => some acc
  | c :: cs, acc => if 48 ≤ c ∧ c ≤ 57 then digits_value cs (acc * 10 + (c - 48)) else Option.none

/-- A conversion for the examples: it accepts exactly the non-empty texts of decimal digits
whose value is below 2^53 and returns the double of that value, as `std::from_chars` does on
them. -/
def example_from_chars (s : List Nat) : Option Nat :=
  if s = [] then Option.none
  else
    match digits_value s 0 with
    | some n => if n < 2 ^ 53 then some (double_of_size n) else Option.none
    | Option.none => Option.none

/-- The environment of the examples: the conversion above, cells of 24 bytes, and no string
outside the document. -/
def example_env : env := ⟨example_from_chars, 24, fun _ => []⟩

/-- The document of the examples: a freshly constructed document (`document::document()`)
whose buffers live at the addresses 4096 and 8192. -/
def example_doc : document :=
  document.reset ⟨type_null, ⟨0, 0, 0⟩, [], [], 4096, 8192⟩

/-- The bytes of a text of ASCII characters. -/
def bytes (s : String) : List Nat := s.toList.map Char.toNat

/-- The parser `p` after it has read the bytes `consumed`, has `rest` left to read and has
appended the bytes `added` to the string buffer. -/
def parser.with_scan (p : parser) (consumed rest added : List Nat) : parser :=
  { p with input := rest, loc := p.loc.advance consumed,
           doc := { p.doc with strings := p.doc.strings ++ added } }

/-! ### Pieces of a quoted string -/

/-- One piece of the body of a quoted string: an unescaped byte, a backslash followed by a
byte, or a backslash followed by a newline. -/
inductive str_item where
  | plain (c : Nat)
  | escape (c : Nat)
  | continuation
deriving DecidableEq, Repr

/-- The byte that a simple escape stands for, by the byte after the backslash:
t n r b backslash apostrophe quote slash 0. -/
def simple_escape (c : Nat) : Option Nat :=
  if c = 116 then some 9
  else if c = 110 then some 10
  else if c = 114 then some 13
  else if c = 98 then some 8
  else if c = 92 then some 92
  else if c = 39 then some 39
  else if c = 34 then some 34
  else if c = 47 then some 47
  else if c = 48 then some 0
  else Option.none

namespace str_item

/-- The bytes of the piece in the source text. -/
def source : str_item → List Nat
  | plain c => [c]
  | escape c => [92, c]
  | continuation => [92, 10]

/-- The bytes that the piece stands for. -/
def decoded : str_item → List Nat
  | plain c => [c]
  | escape c => (simple_escape c).toList
  | continuation => []

/-- The piece is well formed inside a string quoted with `q`: an unescaped byte is neither
the backslash nor the closing quote, and an escape is one of the simple escapes. -/
def ok (q : Nat) : str_item → Prop
  | plain c => c ≠ 92 ∧ c ≠ q
  | escape c => (simple_escape c).isSome = true
  | continuation => True

end str_item

/-- The source text of a sequence of pieces. -/
def items_source (items : List str_item) : List Nat := items.flatMap str_item.source

/-- The bytes that a sequence of pieces stands for. -/
def items_decoded (items : List str_item) : List Nat := items.flatMap str_item.decoded

namespace parser

/-- Both relations at once: what every scalar routine of the parser guarantees. -/
def scans (p q : parser) : Prop := p.reads q ∧ p.keeps q

/-- The invariant of `parse_value` at a given bound on the depth. -/
def value_nests (e : env) (n : Nat) : Prop :=
  ∀ result p r, parse_value e n result p = some r → p.nests r.2.2 (!r.1.failed)

/-- The invariant of `parse_object` and `parse_array` at a given bound on the depth. -/
def frame_nests (f : Nat → parser → Option (error × parser)) (n : Nat) : Prop :=
  ∀ p r, f n p = some r → p.stack ≠ [] → p.nests r.2 (!r.1.failed)

/-- The invariant of the two loops at a given bound on the depth. -/
def loop_nests (f : Nat → Bool → parser → Option (error × parser)) (n : Nat) : Prop :=
  ∀ c p r, f n c p = some r → p.stack ≠ [] → p.nests r.2 (!r.1.failed)

/-- At bound `n`, `parse_value` returns on every input of at most `n / 3` bytes. -/
def value_total (e : env) (n : Nat) : Prop :=
  ∀ result p, 3 * p.input.length ≤ n → 1 ≤ n → (parse_value e n result p).isSome = true

def frame_total (f : Nat → parser → Option (error × parser)) (n : Nat) : Prop :=
  ∀ p, p.input ≠ [] → 3 * p.input.length ≤ n + 1 → (f n p).isSome = true

def loop_total (f : Nat → Bool → parser → Option (error × parser)) (n : Nat) : Prop :=
  ∀ c p, 3 * p.input.length + 1 ≤ n → (f n c p).isSome = true

/-- The parser at the point where `parse()` calls `parse_value( _doc )`: the builder reset
and the location at the start of the text. -/
def start (str : List Nat) (doc : document) : parser :=
  { doc := { doc with data := type_null, values := [], strings := [0] },
    stack := [], values := [], counts := [], input := str,
    loc := if str ≠ [] then ⟨1, 1, 0⟩ else ⟨0, 0, 0⟩ }

/-- A call of one of the grammar routines: `parse_value( result )`, or an iteration of the
loop of `parse_object` or of `parse_array` with its flag `expectComma`, together with the
parser it starts from. -/
inductive call where
  | value (result : value) (p : parser)
  | object_loop (expectComma : Bool) (p : parser)
  | array_loop (expectComma : Bool) (p : parser)

/-- The call returns the error `err` (for a large enough bound on the depth). -/
def call.fails (e : env) (c : call) (err : error) : Prop :=
  err.failed = true ∧
  match c with
  | call.value result p => ∃ n v q, parse_value e n result p = some (err, v, q)
  | call.object_loop b p => ∃ n q, parse_object_loop e n b p = some (err, q)
  | call.array_loop b p => ∃ n q, parse_array_loop e n b p = some (err, q)

/-- The parser a call starts from. -/
def call.state : call → parser
  | call.value _ p => p
  | call.object_loop _ p => p
  | call.array_loop _ p => p

/-- The calls that the run of `parse()` from `p0` goes through on the way down to the place
it is working at: the root call of `parse_value`; the loop entered when a value opens with a
bracket; the loop iteration after a comma; the value of an array element or of an object
entry; and the loop iteration after a value that was parsed without error. -/
inductive on_spine (e : env) (p0 : parser) : call → Prop where
  | root : on_spine e p0 (call.value p0.doc.to_value p0)
  | object_begin (result : value) (p : parser) :
      on_spine e p0 (call.value result p) →
      (p.peek_next_token token_type.unknown).1.failed = false →
      (p.peek_next_token token_type.unknown).2.1 = token_type.object_begin →
      on_spine e p0 (call.object_loop false
        (parser.next { (p.peek_next_token token_type.unknown).2.2 with
          tobuilder := (p.peek_next_token token_type.unknown).2.2.tobuilder.push_object }).2)
  | array_begin (result : value) (p : parser) :
      on_spine e p0 (call.value result p) →
      (p.peek_next_token token_type.unknown).1.failed = false →
      (p.peek_next_token token_type.unknown).2.1 = token_type.array_begin →
      on_spine e p0 (call.array_loop false
        (parser.next { (p.peek_next_token token_type.unknown).2.2 with
          tobuilder := (p.peek_next_token token_type.unknown).2.2.tobuilder.push_array }).2)
  | array_comma (p : parser) :
      on_spine e p0 (call.array_loop true p) →
      (p.peek_next_token token_type.unknown).1.failed = false →
      (p.peek_next_token token_type.unknown).2.1 = token_type.comma →
      on_spine e p0 (call.array_loop false (p.peek_next_token token_type.unknown).2.2.next.2)
  | array_element (p : parser) :
      on_spine e p0 (call.array_loop false p) →
      (p.peek_next_token token_type.unknown).1.failed = false →
      (p.peek_next_token token_type.unknown).2.1 ≠ token_type.array_end →
      on_spine e p0 (call.value value.null (p.peek_next_token token_type.unknown).2.2)
  | array_next (p : parser) (n : Nat) (r : error × value × parser) :
      on_spine e p0 (call.array_loop false p) →
      (p.peek_next_token token_type.unknown).1.failed = false →
      (p.peek_next_token token_type.unknown).2.1 ≠ token_type.array_end →
      parse_value e n value.null (p.peek_next_token token_type.unknown).2.2 = some r →
      r.1.failed = false →
      on_spine e p0 (call.array_loop true
        { r.2.2 with tobuilder := r.2.2.tobuilder.add_item r.2.1 })
  | object_comma (p : parser) :
      on_spine e p0 (call.object_loop true p) →
      (p.peek_next_token token_type.unknown).1.failed = false →
      (p.peek_next_token token_type.unknown).2.1 = token_type.comma →
      on_spine e p0 (call.object_loop false (p.peek_next_token token_type.unknown).2.2.next.2)
  | object_value (p : parser) :
      on_spine e p0 (call.object_loop false p) →
      (p.peek_next_token token_type.unknown).1.failed = false →
      ((p.peek_next_token token_type.unknown).2.1 = token_type.identifier ∨
        (p.peek_next_token token_type.unknown).2.1 = token_type.string) →
      (p.peek_next_token token_type.unknown).2.2.parse_identifier.1.failed = false →
      ((p.peek_next_token token_type.unknown).2.2.parse_identifier.2.2.peek_next_token
        (p.peek_next_token token_type.unknown).2.1).1.failed = false →
      ((p.peek_next_token token_type.unknown).2.2.parse_identifier.2.2.peek_next_token
        (p.peek_next_token token_type.unknown).2.1).2.1 = token_type.colon →
      on_spine e p0 (call.value value.null
        ((p.peek_next_token token_type.unknown).2.2.parse_identifier.2.2.peek_next_token
          (p.peek_next_token token_type.unknown).2.1).2.2.next.2)
  | object_next (p : parser) (n : Nat) (r : error × value × parser) :
      on_spine e p0 (call.object_loop false p) →
      (p.peek_next_token token_type.unknown).1.failed = false →
      ((p.peek_next_token token_type.unknown).2.1 = token_type.identifier ∨
        (p.peek_next_token token_type.unknown).2.1 = token_type.string) →
      (p.peek_next_token token_type.unknown).2.2.parse_identifier.1.failed = false →
      ((p.peek_next_token token_type.unknown).2.2.parse_identifier.2.2.peek_next_token
        (p.peek_next_token token_type.unknown).2.1).1.failed = false →
      ((p.peek_next_token token_type.unknown).2.2.parse_identifier.2.2.peek_next_token
        (p.peek_next_token token_type.unknown).2.1).2.1 = token_type.colon →
      parse_value e n value.null
        ((p.peek_next_token token_type.unknown).2.2.parse_identifier.2.2.peek_next_token
          (p.peek_next_token token_type.unknown).2.1).2.2.next.2 = some r →
      r.1.failed = false →
      on_spine e p0 (call.object_loop true
        { r.2.2 with tobuilder := (r.2.2.tobuilder.add_item
            { builder.new_string (p.peek_next_token token_type.unknown).2.2.parse_identifier.2.1
              with loc := (p.peek_next_token token_type.unknown).2.2.loc }).add_item r.2.1 })

end parser

end json5

namespace json5

/-! ### Escapes that `parse_string` rejects -/

/-- The bytes that may follow a backslash inside a quoted string without being rejected on
the spot: newline, v, f, the nine simple escapes t n r b backslash apostrophe quote slash 0,
and x and u. -/
def escape_starts : List Nat := [10, 118, 102, 116, 110, 114, 98, 92, 39, 34, 47, 48, 120, 117]

/-- What follows a hex escape that is cut short: the end of the input, or a byte that is
neither a hexadecimal digit nor zero. -/
def hex_stop (tail : List Nat) : Prop :=
  tail = [] ∨ ∃ c t, tail = c :: t ∧ c ≠ 0 ∧ c ∉ hexChars

/-- The text `tail` after a backslash does not continue an escape: it is empty, or its first
byte is none of `escape_starts`, or it is x followed by fewer than 2, or u followed by fewer
than 4, hexadecimal digits and then the end of the input or a byte that is neither a
hexadecimal digit nor zero. -/
def rejected_escape (tail : List Nat) : Prop :=
  tail = [] ∨ (∃ c t, tail = c :: t ∧ c ∉ escape_starts) ∨
  ∃ x hs tail2, tail = x :: (hs ++ tail2) ∧
    ((x = 120 ∧ hs.length < 2) ∨ (x = 117 ∧ hs.length < 4)) ∧
    (∀ h ∈ hs, h ∈ hexChars) ∧ hex_stop tail2

end json5

namespace json5

/-! ### Flat arrays and objects of scalars -/

/-- A scalar as it is written in a text: one of the literals true, false, null, or a quoted
string given by its quote (single or double) and its pieces. -/
inductive scalar where
  | lit_true
  | lit_false
  | lit_null
  | str (sq : Bool) (items : List str_item)

namespace scalar

/-- The bytes of the scalar in the source text. -/
def source : scalar → List Nat
  | lit_true => [116, 114, 117, 101]
  | lit_false => [102, 97, 108, 115, 101]
  | lit_null => [110, 117, 108, 108]
  | str sq items => (if sq then 39 else 34) :: (items_source items ++ [if sq then 39 else 34])

/-- The scalar is well formed: the pieces of a string are. -/
def ok : scalar → Prop
  | str sq items => ∀ it ∈ items, it.ok (if sq then 39 else 34)
  | _ => True

/-- The bytes that parsing the scalar appends to the string buffer. -/
def added : scalar → List Nat
  | str _ items => items_decoded items ++ [0]
  | _ => []

/-- The 64 bits of the cell that `parse_value` returns for the scalar when the string buffer
holds `off` bytes. -/
def cell_data (off : Nat) : scalar → Nat
  | lit_true => type_true
  | lit_false => type_false
  | lit_null => type_null
  | str _ _ => type_string_off ||| off

/-- The cell `c` of the finished document `doc` holds the scalar: the literal it is, or a
string whose bytes up to the terminating zero are those the pieces stand for. -/
def held_by (doc : document) (c : value) : scalar → Prop
  | lit_true => c.is_boolean = true ∧ c.get_bool false = true
  | lit_false => c.is_boolean = true ∧ c.get_bool true = false
  | lit_null => c.is_null = true
  | str _ items => c.is_string = true ∧ c.get_c_str doc [] = some (c_str (items_decoded items))

end scalar

/-- An element of a flat array: a scalar with whitespace before and after it. -/
structure element where
  pre : List Nat
  v : scalar
  post : List Nat

/-- The bytes of an element in the source text. -/
def element.text (el : element) : List Nat := el.pre ++ el.v.source ++ el.post

/-- The element is well formed: whitespace around a well-formed scalar. -/
def element.ok (el : element) : Prop :=
  (∀ w ∈ el.pre, is_space w = true) ∧ el.v.ok ∧ (∀ w ∈ el.post, is_space w = true)

/-- The texts `xs` joined by commas. -/
def comma_join : List (List Nat) → List Nat
  | [] => []
  | [x] => x
  | x :: y :: r => x ++ 44 :: comma_join (y :: r)

/-- The text of a flat array: an opening bracket, the elements separated by commas, the
closing bracket, and whatever follows. -/
def array_text (els : List element) (rest : List Nat) : List Nat :=
  91 :: (comma_join (els.map element.text) ++ 93 :: rest)

/-- The cells of the elements, in order, when the string buffer holds `off` bytes before the
first of them. -/
def cells_data (off : Nat) : List scalar → List Nat
  | [] => []
  | v :: vs => v.cell_data off :: cells_data (off + v.added.length) vs

/-- The bytes that the scalars append to the string buffer, in order. -/
def all_added (vs : List scalar) : List Nat := vs.flatMap scalar.added

/-- A byte that may go on an unquoted key: a letter, a digit or an underscore. -/
def ident_byte (c : Nat) : Bool := isalpha c || isdigit c || decide (c = 95)

/-- The bytes are an identifier: a letter or an underscore, then letters, digits and
underscores. -/
def is_identifier : List Nat → Bool
  | [] => false
  | c :: r => (isalpha c || decide (c = 95)) && r.all ident_byte

/-- An entry of a flat object: whitespace, an unquoted key, whitespace, the colon, and the
value with whitespace around it. -/
structure entry where
  pre : List Nat
  key : List Nat
  mid : List Nat
  val : element

/-- The bytes of an entry in the source text. -/
def entry.text (en : entry) : List Nat := en.pre ++ en.key ++ en.mid ++ 58 :: en.val.text

/-- The entry is well formed: the key is an identifier, whitespace is whitespace and the
value is well formed. -/
def entry.ok (en : entry) : Prop :=
  (∀ w ∈ en.pre, is_space w = true) ∧
  is_identifier en.key = true ∧
  (∀ w ∈ en.mid, is_space w = true) ∧ en.val.ok

/-- The key of an entry seen as the scalar whose cell it gets: a string of unescaped bytes. -/
def entry.key_scalar (en : entry) : scalar := scalar.str false (en.key.map str_item.plain)

/-- The scalars of the entries in the order of their cells: key, value, key, value. -/
def entry_scalars : List entry → List scalar
  | [] => []
  | en :: ens => en.key_scalar :: en.val.v :: entry_scalars ens

/-- The text of a flat object: an opening brace, the entries separated by commas, the
closing brace, and whatever follows. -/
def object_text (ens : List entry) (rest : List Nat) : List Nat :=
  123 :: (comma_join (ens.map entry.text) ++ 125 :: rest)

/-- The cell is neither a linked string nor a container: `relink` leaves it alone. -/
def value.is_leaf (v : value) : Prop :=
  v.data &&& mask_type ≠ type_string ∧ v.data &&& mask_type ≠ type_object ∧
    v.data &&& mask_type ≠ type_array

/-- The document `doc` is what the outermost `pop` leaves of a flat container holding the
scalars `vs`: the root carries the tag, the document flag and the address of the cell
buffer; the string buffer holds the initial zero and the bytes of the scalars; the cell
buffer holds the count and one converted cell for each scalar. -/
structure document.is_flat (doc : document) (tag : Nat) (vs : List scalar) : Prop where
  data : doc.data = (tag ||| mask_is_document) ||| doc.values_data
  strings : doc.strings = [0] ++ all_added vs
  values : ∃ cells, cells.map value.data = cells_data 1 vs ∧
    doc.values = (value.of_double (double_of_size cells.length) :: cells).map
      doc.convert_string_offset

/-- The parser `p` after it has read the bytes `consumed`, has `rest` left to read, has
appended the bytes `added` to the string buffer and the cells `cells` to the scratch buffer,
counting `k` more items in the innermost open frame. -/
def parser.with_items (p : parser) (consumed rest added : List Nat) (cells : List value)
    (k : Nat) : parser :=
  { p with input := rest, loc := p.loc.advance consumed,
           doc := { p.doc with strings := p.doc.strings ++ added },
           values := p.values ++ cells, counts := add_to_back k p.counts }

end json5

namespace json5

/-! ### Texts that differ at the end -/

/-- The text `l` with its last `n` bytes replaced by the bytes `s`. -/
def resuffix (n : Nat) (s l : List Nat) : List Nat := l.take (l.length - n) ++ s

/-- The parser `p` on the input whose last `n` bytes are replaced by `s`. -/
def parser.resuffix (p : parser) (n : Nat) (s : List Nat) : parser :=
  { p with input := json5.resuffix n s p.input }

/-- A byte at which `parse_number` stops: whitespace, a comma or a closing bracket. -/
def number_stop (c : Nat) : Bool :=
  decide ((0 < c ∧ c ≤ 32) ∨ c = 44 ∨ c = 125 ∨ c = 93)

/-- The text starts with a byte at which `parse_number` stops. -/
def stops_number (s : List Nat) : Prop := ∃ c t, s = c :: t ∧ number_stop c = true

end json5

namespace json5

/-! ## Reading values: numbers, indexing, lookup, equality -/

/-- The 64 bits are those of a double that is not a number: the exponent field is all ones
and the fraction is not zero. -/
def double_is_nan (bits : Nat) : Bool :=
  decide ((bits / 2 ^ 52) % 2 ^ 11 = 2047 ∧ bits % 2 ^ 52 ≠ 0)

/-- The comparison `_double == other._double` on the 64 bits of two doubles: a NaN equals
nothing, the two zeros are equal, and otherwise the bits decide. -/
def double_eq (x y : Nat) : Bool :=
  !double_is_nan x && !double_is_nan y &&
    (decide (x = y) || decide (x % 2 ^ 63 = 0 ∧ y % 2 ^ 63 = 0))

namespace value

/-- The getter `get_number<T>( defaultValue )`; `cast` is the conversion `T( _double )` of the
64 bits of the double to the type `T`. -/
def get_number {T : Type} (cast : Nat → T) (v : value) (defaultValue : T) : T :=
  if v.is_number then cast v.data else defaultValue

/-- The method `try_get_number<T>( out )`: the flag returned and the value of `out`
afterwards. -/
def try_get_number {T : Type} (cast : Nat → T) (v : value) (out : T) : Bool × T :=
  if !v.is_number then (false, out)
  else (true, cast v.data)

end value

namespace array_view

/-- The iterator `begin()`: the address of the first element. -/
def begin (a : array_view) : Nat := a._value

/-- The iterator `end()`: the address `_value + _count` past the last element. -/
def end_ (e : env) (a : array_view) : Nat := a._value + a._count * e.sizeof_value

/-- The operator `array_view::operator==`. -/
def eq (a other : array_view) : Bool := decide (a._value = other._value)

/-- The operator `array_view::operator!=`. -/
def ne (a other : array_view) : Bool := !(a.eq other)

end array_view

namespace object_view

/-- The iterator `begin()`: the address of the first key. -/
def begin (o : object_view) : Nat := o._pair

/-- The iterator `end()`: the address `_pair + _count * 2` past the last pair. -/
def end_ (e : env) (o : object_view) : Nat := o._pair + o._count * 2 * e.sizeof_value

/-- The loop `for ( auto iter = begin(); iter != end(); ++iter )` of `find`, from the
iterator `iter` on; `fin` is `end()`.  The first argument bounds the number of iterations;
nothing is returned when the bound is reached or a read is outside the buffers. -/
def find_loop (e : env) (doc : document) (key : List Nat) (fin : Nat) : Nat → Nat → Option Nat
  | 0, _ => Option.none
  | n + 1, iter =>
    if iter ≠ fin then
      match deref e doc iter with
      | Option.none => Option.none
      | some kv => if key = kv.1 then some iter else find_loop e doc key fin n (iter + 2 * e.sizeof_value)
    else some fin

/-- The method `object_view::find( key )`: the iterator returned. -/
def find (e : env) (doc : document) (o : object_view) (key : List Nat) : Option Nat :=
  if key ≠ [] then find_loop e doc key (o.end_ e) (o._count + 1) o.begin
  else some (o.end_ e)

/-- The operator `object_view::operator[]( string_view key )`. -/
def get_key (e : env) (doc : document) (o : object_view) (key : List Nat) : Option value :=
  match o.find e doc key with
  | Option.none => Option.none
  | some iter =>
    if iter ≠ o.end_ e then (deref e doc iter).map Prod.snd
    else some value.null

/-- The operator `object_view::operator[]( size_t index )`: the key and the value of the
pair, the empty pair when the index is out of range. -/
def get_index (e : env) (doc : document) (o : object_view) (index : Nat) :
    Option (List Nat × value) :=
  if index ≥ o._count then some ([], value.null)
  else deref e doc (o._pair + index * 2 * e.sizeof_value)

/-- The operator `object_view::operator==`. -/
def eq (o other : object_view) : Bool := decide (o._pair = other._pair)

/-- The operator `object_view::operator!=`. -/
def ne (o other : object_view) : Bool := !(o.eq other)

end object_view

namespace value

/-- The operator `value::operator[]( string_view key )`, the value living in `doc`. -/
def index_key (e : env) (doc : document) (v : value) (key : List Nat) : Option value :=
  if !v.is_object then some value.null
  else
    match object_view.of_value e doc v with
    | Option.none => Option.none
    | some ov => ov.get_key e doc key

/-- The operator `value::operator[]( size_t index )`, the value living in `doc`. -/
def index (e : env) (doc : document) (v : value) (index : Nat) : Option value :=
  if !v.is_array then some value.null
  else
    match array_view.of_value e doc v with
    | Option.none => Option.none
    | some av => av.get e doc index

/-- The operator `value::operator==`, the value living in `doc` and `other` in `odoc`;
nothing when a string or a count cell to be read is outside the buffers. -/
def eq (e : env) (doc odoc : document) (v other : value) : Option Bool :=
  let t := v.type
  if t = other.type then
    if t = value_type.null then some true
    else if t = value_type.boolean then some (decide (v.data = other.data))
    else if t = value_type.number then some (double_eq v.data other.data)
    else if t = value_type.string then
      match doc.c_str_at v.payload, odoc.c_str_at other.payload with
      | some s1, some s2 => some (decide (s1 = s2))
      | _, _ => Option.none
    else if t = value_type.array then
      match array_view.of_value e doc v, array_view.of_value e odoc other with
      | some a1, some a2 => some (a1.eq a2)
      | _, _ => Option.none
    else if t = value_type.object then
      match object_view.of_value e doc v, object_view.of_value e odoc other with
      | some o1, some o2 => some (o1.eq o2)
      | _, _ => Option.none
    else some false
  else some false

/-- The operator `value::operator!=`. -/
def ne (e : env) (doc odoc : document) (v other : value) : Option Bool :=
  (v.eq e doc odoc other).map (fun r => !r)

end value

/-! ## Building an object by keys -/

namespace builder

/-- The overload `string_buffer_add( string_view str )`, where `str` holds the bytes of the
view: the zero-terminated data goes through `document::operator+( const char* )`, one more
zero is pushed, and the offset at which the buffer stood is returned. -/
def string_buffer_add_str (b : builder) (str : List Nat) : Nat × builder :=
  let offset := b.string_buffer_offset
  let doc1 := b.doc.add_c_str (c_str str)
  (offset, { b with doc := { doc1 with strings := doc1.strings ++ [0] } })

/-- The operator `builder::operator[]( string_offset keyOffset )` and the assignment of `v`
to the cell it returns a reference to, as in `b[key] = v`. -/
def set_at_offset (b : builder) (keyOffset : Nat) (v : value) : builder :=
  { b with values := b.values ++ [new_string keyOffset] ++ [v],
           counts := add_to_back 2 b.counts }

/-- The operator `builder::operator[]( string_view key )` and the assignment of `v` to the
cell it returns a reference to. -/
def set_at_key (b : builder) (key : List Nat) (v : value) : builder :=
  let r := b.string_buffer_add_str key
  r.2.set_at_offset r.1 v

end builder

/-- The document built by `push_object(); b[""] = true; pop();` on the document of the
examples: an object whose only pair has the empty key. -/
def empty_key_doc : document :=
  ((((⟨example_doc, [], [], []⟩ : builder).push_object).set_at_key []
    (value.of_bool true)).pop example_env).2.doc

/-- The document built by `push_object(); b["a"] = true; b["b"] = false; pop();` on the
document of the examples. -/
def two_key_doc : document :=
  (((((⟨example_doc, [], [], []⟩ : builder).push_object).set_at_key [97]
    (value.of_bool true)).set_at_key [98] (value.of_bool false)).pop example_env).2.doc

/-- The document built by `push_array(); b += true; pop();` on the document of the
examples. -/
def one_item_doc : document :=
  ((((⟨example_doc, [], [], []⟩ : builder).push_array).append (value.of_bool true)).pop
    example_env).2.doc

/-- The builder after `push_object(); b["a"] = true;` on the document of the examples: one
open frame with two pending cells. -/
def one_key_builder : builder :=
  ((⟨example_doc, [], [], []⟩ : builder).push_object).set_at_key [97] (value.of_bool true)

/-- The builder after `push_array(); push_array(); b += true;` on the document of the
examples: two open frames, the inner one with one pending cell. -/
def inner_builder : builder :=
  (((⟨example_doc, [], [], []⟩ : builder).push_array).push_array).append (value.of_bool true)

/-! ## Copying a document -/

namespace document

/-- The method `assign_copy( copy )` on the document `self`, whose fields `strings_data` and
`values_data` are the addresses at which its two buffers live once they hold the copied
contents. -/
def assign_copy (e : env) (self copy : document) : document :=
  let doc1 := { self with data := copy.data, strings := copy.strings, values := copy.values }
  let r := relink_all e (some copy) doc1.values doc1
  let doc2 := { r.2 with values := r.1 }
  let s := doc2.to_value.relink e (some copy) doc2
  let doc3 := { s.2 with data := s.1.data, loc := s.1.loc }
  doc3.convert_string_offsets

end document

/-- A document to copy into in the examples: its buffers live at the addresses 20000 and
30000. -/
def copy_target : document := ⟨type_null, ⟨0, 0, 0⟩, [], [], 20000, 30000⟩

/-! ## Well-formed documents -/

/-- The cell `c` is linked into the document `doc`: it is not a pending string; when it is a
string its payload is the address of a byte of the string buffer, and when it is a container
its payload is the address of a cell of the cell buffer. -/
structure value.linked (e : env) (doc : document) (c : value) : Prop where
  not_pending : c.data &&& mask_type ≠ type_string_off
  string : c.is_string = true →
    ∃ o, o < doc.strings.length ∧ c.payload = doc.strings_data + o
  container : c.is_object = true ∨ c.is_array = true →
    ∃ i, i < doc.values.length ∧ c.payload = doc.values_data + i * e.sizeof_value

/-- The document is well formed: every cell of the cell buffer and the root are linked into
the document's own buffers. -/
structure document.well_formed (e : env) (doc : document) : Prop where
  cells : ∀ c ∈ doc.values, c.linked e doc
  root : doc.to_value.linked e doc

end json5

namespace json5

/-! ### The iterations of a loop -/

namespace parser

/-- The iterations that the loop of `parse_array`, entered at `p0` with the flag `c0`, goes
through: it goes on from an iteration that expects a comma by reading one, and from an
iteration that expects none by parsing an element without error. -/
inductive array_steps (e : env) (c0 : Bool) (p0 : parser) : Bool → parser → Prop where
  | start : array_steps e c0 p0 c0 p0
  | comma (p : parser) :
      array_steps e c0 p0 true p →
      (p.peek_next_token token_type.unknown).1.failed = false →
      (p.peek_next_token token_type.unknown).2.1 = token_type.comma →
      array_steps e c0 p0 false (p.peek_next_token token_type.unknown).2.2.next.2
  | element (p : parser) (n : Nat) (r : error × value × parser) :
      array_steps e c0 p0 false p →
      (p.peek_next_token token_type.unknown).1.failed = false →
      (p.peek_next_token token_type.unknown).2.1 ≠ token_type.array_end →
      parse_value e n value.null (p.peek_next_token token_type.unknown).2.2 = some r →
      r.1.failed = false →
      array_steps e c0 p0 true { r.2.2 with tobuilder := r.2.2.tobuilder.add_item r.2.1 }

/-- The iterations that the loop of `parse_object`, entered at `p0` with the flag `c0`, goes
through: it goes on from an iteration that expects a comma by reading one, and from an
iteration that expects none by parsing a key, the colon and a value without error. -/
inductive object_steps (e : env) (c0 : Bool) (p0 : parser) : Bool → parser → Prop where
  | start : object_steps e c0 p0 c0 p0
  | comma (p : parser) :
      object_steps e c0 p0 true p →
      (p.peek_next_token token_type.unknown).1.failed = false →
      (p.peek_next_token token_type.unknown).2.1 = token_type.comma →
      object_steps e c0 p0 false (p.peek_next_token token_type.unknown).2.2.next.2
  | entry (p : parser) (n : Nat) (r : error × value × parser) :
      object_steps e c0 p0 false p →
      (p.peek_next_token token_type.unknown).1.failed = false →
      ((p.peek_next_token token_type.unknown).2.1 = token_type.identifier ∨
        (p.peek_next_token token_type.unknown).2.1 = token_type.string) →
      (p.peek_next_token token_type.unknown).2.2.parse_identifier.1.failed = false →
      ((p.peek_next_token token_type.unknown).2.2.parse_identifier.2.2.peek_next_token
        (p.peek_next_token token_type.unknown).2.1).1.failed = false →
      ((p.peek_next_token token_type.unknown).2.2.parse_identifier.2.2.peek_next_token
        (p.peek_next_token token_type.unknown).2.1).2.1 = token_type.colon →
      parse_value e n value.null
        ((p.peek_next_token token_type.unknown).2.2.parse_identifier.2.2.peek_next_token
          (p.peek_next_token token_type.unknown).2.1).2.2.next.2 = some r →
      r.1.failed = false →
      object_steps e c0 p0 true
        { r.2.2 with tobuilder := (r.2.2.tobuilder.add_item
            { builder.new_string (p.peek_next_token token_type.unknown).2.2.parse_identifier.2.1
              with loc := (p.peek_next_token token_type.unknown).2.2.loc }).add_item r.2.1 }

/-- The parser at which the loop of the root container is entered, for a text whose first
token is an opening bracket: the frame pushed and the bracket consumed. -/
def root_loop (t : List Nat) (doc : document) (array : Bool) : parser :=
  let p1 := ((start t doc).peek_next_token token_type.unknown).2.2
  (parser.next { p1 with tobuilder :=
    if array then p1.tobuilder.push_array else p1.tobuilder.push_object }).2

/-- The root array of the text `body ++ 93 :: rest` is closed by the bracket that follows
`body`, and the loop meets that bracket after an element, when it expects a comma: the
first token of the text is the opening bracket, and the loop of the root array goes through
iterations up to a parser that expects a comma and whose next token is the closing bracket,
with `rest` behind it. -/
def closes_array (e : env) (doc : document) (body rest : List Nat) : Prop :=
  ((start (body ++ 93 :: rest) doc).peek_next_token token_type.unknown).1.failed = false ∧
  ((start (body ++ 93 :: rest) doc).peek_next_token token_type.unknown).2.1 =
    token_type.array_begin ∧
  ∃ p, array_steps e false (root_loop (body ++ 93 :: rest) doc true) true p ∧
    (p.peek_next_token token_type.unknown).1.failed = false ∧
    (p.peek_next_token token_type.unknown).2.1 = token_type.array_end ∧
    (p.peek_next_token token_type.unknown).2.2.input = 93 :: rest

/-- The root object of the text `body ++ 125 :: rest` is closed by the brace that follows
`body`, and the loop meets that brace after an entry, when it expects a comma. -/
def closes_object (e : env) (doc : document) (body rest : List Nat) : Prop :=
  ((start (body ++ 125 :: rest) doc).peek_next_token token_type.unknown).1.failed = false ∧
  ((start (body ++ 125 :: rest) doc).peek_next_token token_type.unknown).2.1 =
    token_type.object_begin ∧
  ∃ p, object_steps e false (root_loop (body ++ 125 :: rest) doc false) true p ∧
    (p.peek_next_token token_type.unknown).1.failed = false ∧
    (p.peek_next_token token_type.unknown).2.1 = token_type.object_end ∧
    (p.peek_next_token token_type.unknown).2.2.input = 125 :: rest

end parser

/-- The document that the text `{a:1, b:2}` parses to, on the document of the examples. -/
def two_entry_doc : document :=
  match from_string example_env (bytes "\x7ba:1, b:2\x7d") example_doc with
  | some r => r.2
  | Option.none => example_doc

end json5

namespace json5

/-! ### Keys in quotes -/

/-- The entry whose cells the text `"k": null` leaves: the key `k` and the literal null. -/
def null_entry (k : List Nat) : entry := ⟨[], k, [], ⟨[32], scalar.lit_null, []⟩⟩

/-- The text of an object with one pair: the key `k` in double quotes, and null. -/
def quoted_key_text (k : List Nat) : List Nat :=
  123 :: 34 :: (k ++ 34 :: 58 :: 32 :: [110, 117, 108, 108, 125])

/-! ### Moving a document -/

namespace document

/-- The document `d` once its two vectors have been moved out by `std::move`: they are
empty, and `data()` of an empty moved-from vector is the null pointer, as the standard
libraries in use leave it. -/
def moved_out (d : document) : document :=
  { d with strings := [], values := [], strings_data := 0, values_data := 0 }

/-- The method `assign_rvalue( rValue )` on the document `self`. Moving the vectors hands
the buffers of `rValue` over to `self`, at the addresses where they are; the cells are then
relinked against `rValue`, which by then is the moved-out document. -/
def assign_rvalue (e : env) (self rValue : document) : document :=
  let doc1 := { self with
    data := rValue.data, strings := rValue.strings, values := rValue.values,
    strings_data := rValue.strings_data, values_data := rValue.values_data }
  let r := relink_all e (some rValue.moved_out) doc1.values doc1
  let doc2 := { r.2 with values := r.1 }
  doc2.convert_string_offsets

end document

/-- A freshly constructed document whose buffers live at the addresses 4096 and 24000, the
second a multiple of the size of a cell in the examples. -/
def aligned_doc : document :=
  document.reset ⟨type_null, ⟨0, 0, 0⟩, [], [], 4096, 24000⟩

/-- The document built by `push_object(); push_array(); b += true; v = pop(); b["a"] = v;
pop();` on `aligned_doc`: an object whose only pair has the key `a` and an array of one
element as its value. -/
def nested_doc : document :=
  let b0 := ((⟨aligned_doc, [], [], []⟩ : builder).push_object).push_array
  let r := (b0.append (value.of_bool true)).pop example_env
  ((r.2.set_at_key [97] r.1).pop example_env).2.doc

end json5

namespace json5

/-! ## Reflection -/

/-- A `string_view` into a zero-terminated string: `data` holds the bytes found from
`data()` on, up to the terminating zero, and `length` is the length of the view. -/
structure string_view where
  data : List Nat
  length : Nat
deriving DecidableEq, Repr

namespace string_view

def empty (s : string_view) : Bool := decide (s.length = 0)

/-- The characters of the view: the first `length` bytes. -/
def text (s : string_view) : List Nat := s.data.take s.length

end string_view

/-- The comparison `c <= 32` on a `char` that is not zero; `char` is taken to be signed, as
it is on x86, so that the bytes from 128 on are negative. -/
def char_le_32 (c : Nat) : Bool := decide (c ≤ 32 ∨ 128 ≤ c)

/-- The first loop of `get_name_slice`, `while ( numCommas > 0 && *names )`: what is left
of the string once `numCommas` commas have gone by. -/
def skip_commas : List Nat → Nat → List Nat
  | [], _ => []
  | c :: s, numCommas =>
    if numCommas = 0 then c :: s
    else if c = 44 then skip_commas s (numCommas - 1)
    else skip_commas s numCommas

/-- The function `get_name_slice( names, index )`, where `names` holds the bytes of the
zero-terminated table. -/
def get_name_slice (names : List Nat) (index : Nat) : string_view :=
  let s1 := skip_commas (c_str names) index
  let s2 := s1.dropWhile char_le_32
  let length := (s2.takeWhile (fun c => !char_le_32 c && decide (c ≠ 44))).length
  ⟨s2, length⟩

namespace builder

/-- The overload `new_string( string_view str )`, that is
`new_string( string_buffer_add( str ) )`. What goes into the buffer are the bytes at
`str.data()` up to the terminating zero: `string_buffer_add` hands the pointer to
`document::operator+( const char* )`, and the length of the view is not looked at. -/
def new_string_view (b : builder) (str : string_view) : value × builder :=
  let r := b.string_buffer_add_str str.data
  (new_string r.1, r.2)

/-- The statement `w[key] = v` for a key that is a `string_view`; `operator[]` calls
`string_buffer_add( key )` as `new_string` does. -/
def set_at_view (b : builder) (key : string_view) (v : value) : builder :=
  b.set_at_key key.data v

end builder

/-- Modelled from the spec: the header json5_base.hpp is not part of the sources; for an
enum type "a name/value lookup table is supplied", the names as one delimiter-separated
string (`enum_table<T>::names`) parallel to the values (`enum_table<T>::values`, here the
integers that the enumerators convert to). -/
structure enum_table where
  names : List Nat
  values : List Int
deriving DecidableEq, Repr

/-- Modelled from the spec: the header json5_base.hpp, which declares the named field list,
is not part of the sources. A value of a native type that reflection handles: a bool, an
int, a double (its 64 bits), a `std::string`, an enum (with its lookup table when one is
supplied, and the integer it converts to), a `std::vector` (with a default-constructed
element, which `emplace_back()` appends), an array of fixed size, and a structure, which
"a compile-time ordered list of (field reference, field name) pairs" describes, "names
provided as one delimiter-separated string table parallel to the field list". -/
inductive native where
  | bool (b : Bool)
  | int (i : Int)
  | double (bits : Nat)
  | string (s : List Nat)
  | enum_ (table : Option enum_table) (v : Int)
  | vector (proto : native) (items : List native)
  | array (items : List native)
  | class_ (names : List Nat) (fields : List native)

/-! ### Conversions between an int and a double -/

/-- The conversion `double( in )` of an int, as the 64 bits of the result. -/
def double_of_int (i : Int) : Nat :=
  if i < 0 then 2 ^ 63 + double_of_size i.natAbs else double_of_size i.natAbs

/-- The conversion `int( _double )` of the 64 bits of a double to a 32-bit int: truncation
towards zero. For the NaNs, the infinities and the doubles whose truncation does not fit an
int the C++ conversion is undefined; the value is then INT_MIN, -2^31, which is what the
conversion instruction of x86-64 (`cvttsd2si`) gives. -/
def int_of_double (bits : Nat) : Int :=
  let sign := bits / 2 ^ 63
  let ex := (bits / 2 ^ 52) % 2 ^ 11
  let m := bits % 2 ^ 52
  if ex ≥ 1023 + 32 then -(2 ^ 31 : Int)
  else
    let mag : Nat :=
      if ex < 1023 then 0
      else if ex ≥ 1075 then (2 ^ 52 + m) * 2 ^ (ex - 1075)
      else (2 ^ 52 + m) / 2 ^ (1075 - ex)
    let t : Int := if sign = 0 then (mag : Int) else -(mag : Int)
    if t < -(2 ^ 31 : Int) ∨ (2 ^ 31 : Int) ≤ t then -(2 ^ 31 : Int) else t

/-! ### Writing -/

/-- The loop `while ( true )` of `write_enum` from `index` on. The first argument bounds
the number of iterations; `Option.none` means that the bound was reached. Reading
`values` past its end, which is undefined in C++, gives 0. -/
def write_enum_loop (t : enum_table) (w : builder) (v : Int) :
    Nat → Nat → Option (value × builder)
  | 0, _ => Option.none
  | n + 1, index =>
    let name := get_name_slice t.names index
    if name.empty then some (value.of_double (double_of_int v), w)
    else if v = t.values.getD index 0 then some (w.new_string_view name)
    else write_enum_loop t w v n (index + 1)

/-- The function `write_enum( w, in )`; the table has no more names than bytes, which
bounds the loop. -/
def write_enum (t : enum_table) (w : builder) (v : Int) : Option (value × builder) :=
  write_enum_loop t w v (t.names.length + 2) 0

/-- The implicit conversion of an argument of `builder::operator()` to `detail::value`, by
the constructors `value( bool )`, `value( int )` and `value( double )`. The other types
have no conversion to `detail::value`: a program that hands one of them over does not
compile, and nothing is returned for them. -/
def native.to_value : native → Option value
  | native.bool b => some (value.of_bool b)
  | native.int i => some (value.of_double (double_of_int i))
  | native.double bits => some (value.of_double bits)
  | _ => Option.none

/-- The loop `for ( size_t i = 0; i < numItems; ++i ) w( in[i] )` of `write_array`. -/
def add_items (w : builder) : List native → Option builder
  | [] => some w
  | x :: xs =>
    match x.to_value with
    | Option.none => Option.none
    | some v => add_items (w.add_item v) xs

/-- The function `write_array( w, in, numItems )`. -/
def write_array (e : env) (w : builder) (items : List native) : Option (value × builder) :=
  (add_items w.push_array items).map (fun w1 => w1.pop e)

/-- The overloads of `write( w, in )`: the value returned and the writer afterwards. The
types without an overload of their own, the structures and the enums, go to the template
`write( writer &w, const T &in )`, whose call `write( w, in )` is a call of that same
template with the same argument. The first argument bounds the depth of the calls;
`Option.none` means that the bound was reached. -/
def write (e : env) : Nat → builder → native → Option (value × builder)
  | 0, _, _ => Option.none
  | n + 1, w, x =>
    match x with
    | native.bool b => some (value.of_bool b, w)
    | native.int i => some (value.of_double (double_of_int i), w)
    | native.double bits => some (value.of_double bits, w)
    | native.string s => some (w.new_string_view ⟨s, s.length⟩)
    | native.vector _ items => write_array e w items
    | native.array items => write_array e w items
    | native.enum_ _ _ =>
      match write e n w.push_object x with
      | Option.none => Option.none
      | some r => some (r.2.pop e)
    | native.class_ _ _ =>
      match write e n w.push_object x with
      | Option.none => Option.none
      | some r => some (r.2.pop e)

/-- The value that the named-list writer assigns for the field `f`: the branches of
`if constexpr ( std::is_enum_v<Type> )`. -/
def write_field (e : env) (n : Nat) (w : builder) (f : native) : Option (value × builder) :=
  match f with
  | native.enum_ (some t) v => write_enum t w v
  | native.enum_ Option.none v => write e n w (native.int v)
  | _ => write e n w f

/-- The function `write< Index >( w, t )` on a named field list with the name table `names`
whose fields from `Index` on are `fields`. In `w[name] = write( w, in )` the right operand
is evaluated first. -/
def write_fields (e : env) (n : Nat) (names : List Nat) :
    builder → Nat → List native → Option builder
  | w, _, [] => some w
  | w, index, f :: fs =>
    let name := get_name_slice names index
    let r : Option builder :=
      if !name.empty then (write_field e n w f).map (fun r => r.2.set_at_view name r.1)
      else some w
    match r with
    | Option.none => Option.none
    | some w1 => write_fields e n names w1 (index + 1) fs

/-- The function `to_document( doc, in )`: a writer on `doc`, and `detail::write( w, in )`. -/
def to_document (e : env) (n : Nat) (doc : document) (x : native) : Option document :=
  (write e n ⟨doc, [], [], []⟩ x).map (fun r => r.2.doc)

/-! ### Reading -/

/-- The overload `read( in, bool &out )`: the error and `out` afterwards. -/
def read_bool (v : value) (out : Bool) : error × Bool :=
  if !v.is_boolean then (⟨error_kind.number_expected, v.loc⟩, out)
  else (error.ok, v.get_bool false)

/-- The function `read_number( in, out )`; `cast` is the conversion `T( _double )`. -/
def read_number {T : Type} (cast : Nat → T) (v : value) (out : T) : error × T :=
  let r := v.try_get_number cast out
  if r.1 then (error.ok, r.2) else (⟨error_kind.number_expected, v.loc⟩, r.2)

/-- The overload `read( in, string &out )`, the value living in `doc`; nothing when the
string to be read is outside the buffers. -/
def read_string (doc : document) (v : value) (out : List Nat) : Option (error × List Nat) :=
  if !v.is_string then some (⟨error_kind.string_expected, v.loc⟩, out)
  else (v.get_c_str doc []).map (fun s => (error.ok, s))

/-- The loop `while ( true )` of `read_enum` from `index` on. The first argument bounds
the number of iterations; nothing is returned when the bound is reached or the string to be
read is outside the buffers. -/
def read_enum_loop (doc : document) (t : enum_table) (v : value) (out : Int) :
    Nat → Nat → Option (error × Int)
  | 0, _ => Option.none
  | n + 1, index =>
    let name := get_name_slice t.names index
    if name.empty then some (⟨error_kind.invalid_enum, v.loc⟩, out)
    else if v.is_string then
      match doc.c_str_at v.payload with
      | Option.none => Option.none
      | some s =>
        if name.text = s then some (error.ok, t.values.getD index 0)
        else read_enum_loop doc t v out n (index + 1)
    else if v.is_number ∧ v.get_number int_of_double 0 = t.values.getD index 0 then
      some (error.ok, t.values.getD index 0)
    else read_enum_loop doc t v out n (index + 1)

/-- The function `read_enum( in, out )`. -/
def read_enum (doc : document) (t : enum_table) (v : value) (out : Int) :
    Option (error × Int) :=
  if !v.is_string && !v.is_number then some (⟨error_kind.string_expected, v.loc⟩, out)
  else read_enum_loop doc t v out (t.names.length + 2) 0

/-- The loop `for ( const auto &i : arr )` of the overload of `read` for a `std::vector`,
over the `n` cells from the `i`-th on; `rd` reads one cell into a default-constructed
element, and `out` holds the elements appended so far. -/
def read_vector_loop {T : Type} (e : env) (doc : document) (rd : value → Option (error × T))
    (a : array_view) : Nat → Nat → List T → Option (error × List T)
  | 0, _, out => some (error.ok, out)
  | n + 1, i, out =>
    match doc.cell_at e (a._value + i * e.sizeof_value) with
    | Option.none => Option.none
    | some c =>
      match rd c with
      | Option.none => Option.none
      | some r =>
        if r.1.failed then some (r.1, out ++ [r.2])
        else read_vector_loop e doc rd a n (i + 1) (out ++ [r.2])

mutual

/-- The overloads of `read( in, out )`, the value living in `doc`: the error and `out`
afterwards; nothing when a read is outside the buffers. An enum, which has no overload of
its own, is read as the named-list reader reads a field of its type. -/
def read (e : env) (doc : document) : value → native → Option (error × native)
  | v, native.bool out => some ((read_bool v out).1, native.bool (read_bool v out).2)
  | v, native.int out =>
    some ((read_number int_of_double v out).1, native.int (read_number int_of_double v out).2)
  | v, native.double out =>
    some ((read_number id v out).1, native.double (read_number id v out).2)
  | v, native.string out => (read_string doc v out).map (fun r => (r.1, native.string r.2))
  | v, native.enum_ (some t) out =>
    (read_enum doc t v out).map (fun r => (r.1, native.enum_ (some t) r.2))
  | v, native.enum_ Option.none out =>
    let r := read_number int_of_double v 0
    if r.1.failed then some (r.1, native.enum_ Option.none out)
    else some (error.ok, native.enum_ Option.none r.2)
  | v, native.vector proto out =>
    if !v.is_array && !v.is_null then
      some (⟨error_kind.array_expected, v.loc⟩, native.vector proto out)
    else
      match array_view.of_value e doc v with
      | Option.none => Option.none
      | some arr =>
        (read_vector_loop e doc (fun c => read e doc c proto) arr arr._count 0 []).map
          (fun r => (r.1, native.vector proto r.2))
  | v, native.array out =>
    if !v.is_array then some (⟨error_kind.array_expected, v.loc⟩, native.array out)
    else
      match array_view.of_value e doc v with
      | Option.none => Option.none
      | some arr =>
        if arr.size ≠ out.length then
          some (⟨error_kind.wrong_array_size, v.loc⟩, native.array out)
        else (read_items e doc arr 0 out).map (fun r => (r.1, native.array r.2))
  | v, native.class_ names out =>
    if !v.is_object then some (⟨error_kind.object_expected, v.loc⟩, native.class_ names out)
    else
      match object_view.of_value e doc v with
      | Option.none => Option.none
      | some obj =>
        (read_fields e doc obj names 0 out).map (fun r => (r.1, native.class_ names r.2))

/-- The loop `for ( size_t i = 0; i < numItems; ++i )` of `read_array` from `i` on, over
the elements `out[i]` and the following. -/
def read_items (e : env) (doc : document) (arr : array_view) :
    Nat → List native → Option (error × List native)
  | _, [] => some (error.ok, [])
  | i, x :: xs =>
    match arr.get e doc i with
    | Option.none => Option.none
    | some c =>
      match read e doc c x with
      | Option.none => Option.none
      | some r =>
        if r.1.failed then some (r.1, r.2 :: xs)
        else
          match read_items e doc arr (i + 1) xs with
          | Option.none => Option.none
          | some rs => some (rs.1, r.2 :: rs.2)

/-- The function `read< Index >( obj, t )` on a named field list with the name table
`names` whose fields from `Index` on are the list given. -/
def read_fields (e : env) (doc : document) (obj : object_view) (names : List Nat) :
    Nat → List native → Option (error × List native)
  | _, [] => some (error.ok, [])
  | index, f :: fs =>
    let name := get_name_slice names index
    match obj.find e doc name.text with
    | Option.none => Option.none
    | some iter =>
      let r : Option (error × native) :=
        if iter ≠ obj.end_ e then
          match object_view.deref e doc iter with
          | Option.none => Option.none
          | some kv => read e doc kv.2 f
        else some (error.ok, f)
      match r with
      | Option.none => Option.none
      | some r =>
        if r.1.failed then some (r.1, r.2 :: fs)
        else
          match read_fields e doc obj names (index + 1) fs with
          | Option.none => Option.none
          | some rs => some (if rs.1.failed then rs.1 else error.ok, r.2 :: rs.2)

end

/-- What `read< Index >( obj, t )` does with the field `f` at `Index` before it goes on to
the next one: the field is read from the value that `find` returns for its name, and left
alone when `find` returns `end()`. -/
def read_field (e : env) (doc : document) (obj : object_view) (names : List Nat)
    (index : Nat) (f : native) : Option (error × native) :=
  match obj.find e doc (get_name_slice names index).text with
  | Option.none => Option.none
  | some iter =>
    if iter ≠ obj.end_ e then
      match object_view.deref e doc iter with
      | Option.none => Option.none
      | some kv => read e doc kv.2 f
    else some (error.ok, f)

/-- What `read_array` does with the element `x` at index `i`: `read( arr[i], out[i] )`. -/
def read_item (e : env) (doc : document) (arr : array_view) (i : Nat) (x : native) :
    Option (error × native) :=
  match arr.get e doc i with
  | Option.none => Option.none
  | some c => read e doc c x

/-- The shape that the loop of `read_array` and the recursion of the named-list reader
share: `step i x` reads the `i`-th destination `x`; the first error ends the walk, with the
destinations after it left as they were. -/
def read_chain (step : Nat → native → Option (error × native)) :
    Nat → List native → Option (error × List native)
  | _, [] => some (error.ok, [])
  | i, x :: xs =>
    match step i x with
    | Option.none => Option.none
    | some r =>
      if r.1.failed then some (r.1, r.2 :: xs)
      else
        match read_chain step (i + 1) xs with
        | Option.none => Option.none
        | some rs => some (rs.1, r.2 :: rs.2)

/-- The function `from_document( doc, out )`. -/
def from_document (e : env) (doc : document) (out : native) : Option (error × native) :=
  read e doc doc.to_value out

/-! ### Examples -/

/-- A writer on the document of the examples with an object frame open:
`writer w( doc, wp ); w.push_object();`. -/
def example_writer : builder := (⟨example_doc, [], [], []⟩ : builder).push_object

/-- The lookup table of an enum with the enumerators `red = 0` and `green = 1`. -/
def color_table : enum_table := ⟨bytes "red, green", [0, 1]⟩

end json5

namespace json5

/-! ## Fresh objects and the fields of a double -/

/-- The constructor `document::document()`: the base `detail::value()` is the null value,
then `reset()` runs; the two buffers live at the addresses `strings_data` and
`values_data`. -/
def document.new (strings_data values_data : Nat) : document :=
  document.reset ⟨type_null, ⟨0, 0, 0⟩, [], [], strings_data, values_data⟩

/-- The constructor `builder::builder( document &doc )`: no frame, no pending value. -/
def builder.new (doc : document) : builder := ⟨doc, [], [], []⟩

/-- The stack invariant of the builder: the frame stack `_stack` and the count stack
`_counts` have the same length, and the pending counts add up to the length of the scratch
buffer `_values`. -/
def builder.balanced (b : builder) : Prop :=
  b.stack.length = b.counts.length ∧ b.counts.sum = b.values.length

instance (b : builder) : Decidable b.balanced :=
  inferInstanceAs (Decidable (b.stack.length = b.counts.length ∧ b.counts.sum = b.values.length))

/-- The sign bit of the 64 bits of a double. -/
def double_sign (bits : Nat) : Nat := bits / 2 ^ 63

/-- The 11 exponent bits of the 64 bits of a double; 2047 marks the infinities and the
NaNs. -/
def double_exponent (bits : Nat) : Nat := bits / 2 ^ 52 % 2 ^ 11

/-- The 64 bits of the double negative infinity. -/
def negative_infinity : Nat := 0xFFF0000000000000

/-- The 64 bits of the double positive infinity. -/
def positive_infinity : Nat := 0x7FF0000000000000

/-- One entry of a name table: whitespace, the name, whitespace. -/
structure name_entry where
  pre : List Nat
  name : List Nat
  post : List Nat
deriving DecidableEq, Repr

/-- The text of an entry. -/
def name_entry.text (n : name_entry) : List Nat := n.pre ++ n.name ++ n.post

/-- The entry is well formed: the bytes around the name are whitespace (1 to 32), and the
name is a non-empty run of printable ASCII characters other than the space and the
comma. -/
def name_entry.ok (n : name_entry) : Prop :=
  (∀ w ∈ n.pre, is_space w = true) ∧ n.name ≠ [] ∧
  (∀ c ∈ n.name, 32 < c ∧ c < 127 ∧ c ≠ 44) ∧ (∀ w ∈ n.post, is_space w = true)

/-- The name table of the entries: their texts separated by commas. -/
def name_table (ns : List name_entry) : List Nat := comma_join (ns.map name_entry.text)

/-- The parser after `n` calls of `next()`. -/
def parser.next_n : Nat → parser → parser
  | 0, p => p
  | n + 1, p => parser.next_n n p.next.2

/-- The number of bytes of `cs` behind its last newline, all of them when it has none. -/
def since_newline (cs : List Nat) : Nat :=
  (cs.reverse.takeWhile (fun c => decide (c ≠ 10))).length

/-! ## Sequences of calls on a builder -/

/-- One call on a builder: `push_object()`, `push_array()`, the item append `b += v` of a
scalar `v`, the item append of the value that the call of `pop()` of index `i` returned,
and `pop()`. -/
inductive builder_op where
  | push_object
  | push_array
  | scalar (v : value)
  | popped (i : Nat)
  | pop
deriving DecidableEq, Repr

namespace builder

/-- One call on a builder that is kept together with the values that its calls of `pop()`
have returned so far; a value that was not returned yet reads as null. -/
def apply (e : env) (s : builder × List value) : builder_op → builder × List value
  | builder_op.push_object => (s.1.push_object, s.2)
  | builder_op.push_array => (s.1.push_array, s.2)
  | builder_op.scalar v => (s.1.append v, s.2)
  | builder_op.popped i => (s.1.append (s.2.getD i value.null), s.2)
  | builder_op.pop => ((s.1.pop e).2, s.2 ++ [(s.1.pop e).1])

/-- The calls `ops` one after the other. -/
def run (e : env) (ops : List builder_op) (s : builder × List value) : builder × List value :=
  ops.foldl (apply e) s

end builder

end json5

namespace json5

/-! ## The body of a quoted string, hex escapes included -/

/-- A document with empty buffers, to see what a call appends to a buffer. -/
def empty_document : document := ⟨0, ⟨0, 0, 0⟩, [], [], 0, 0⟩

/-- The bytes that `string_buffer_add_utf8( ch )` appends to the byte buffer. -/
def utf8_added (ch : Nat) : List Nat :=
  ((⟨empty_document, [], [], []⟩ : builder).string_buffer_add_utf8 ch).doc.strings

/-- One piece of the body of a quoted string that the loop of `parse_string` goes past: an
unescaped byte, a simple escape or a line continuation; a backslash followed by `v` or
`f`; or a backslash followed by `x` and two, or by `u` and four, bytes that `read_hex`
accepts. -/
inductive body_item where
  | piece (it : str_item)
  | skipped (c : Nat)
  | hex (x : Nat) (digits : List Nat)
deriving DecidableEq, Repr

namespace body_item

/-- The bytes of the piece in the source text. -/
def source : body_item → List Nat
  | piece it => it.source
  | skipped c => [92, c]
  | hex x digits => 92 :: x :: digits

/-- The bytes that the piece adds to the byte buffer: nothing for a backslash followed by
`v` or `f`, and for a hex escape what `string_buffer_add_utf8` appends for the number that
`std::from_chars` reads off the digits. -/
def decoded : body_item → List Nat
  | piece it => it.decoded
  | skipped _ => []
  | hex _ digits => utf8_added (from_chars_hex digits 0 % 2 ^ 32)

/-- The piece is well formed inside a string quoted with `q`. -/
def ok (q : Nat) : body_item → Prop
  | piece it => it.ok q
  | skipped c => c = 118 ∨ c = 102
  | hex x digits =>
    ((x = 120 ∧ digits.length = 2) ∨ (x = 117 ∧ digits.length = 4)) ∧
      ∀ d ∈ digits, strchr hexChars (d : Int) = true

end body_item

/-- The source text of a sequence of pieces. -/
def body_source (items : List body_item) : List Nat := items.flatMap body_item.source

/-- The bytes that a sequence of pieces adds to the byte buffer. -/
def body_decoded (items : List body_item) : List Nat := items.flatMap body_item.decoded

end json5

namespace json5

/-! ## Reading bytes -/

theorem location.advance_append (loc : location) (a b : List Nat) :
    loc.advance (a ++ b) = (loc.advance a).advance b := by
  induction a generalizing loc with
  | nil => rfl
  | cons c cs ih => simp [location.advance, ih]

namespace parser

theorem next_cons (p : parser) (c : Nat) (rest : List Nat) (h : p.input = c :: rest) :
    p.next = ((c : Int), { p with input := rest, loc := p.loc.after c }) := by
  simp [next, h, location.after]

theorem next_nil (p : parser) (h : p.input = []) : p.next = (-1, p) := by
  simp [next, h]

theorem peek_cons (p : parser) (c : Nat) (rest : List Nat) (h : p.input = c :: rest) :
    p.peek = (c : Int) := by
  simp [peek, h]

theorem peek_nil (p : parser) (h : p.input = []) : p.peek = -1 := by
  simp [peek, h]

theorem eof_iff (p : parser) : p.eof = true ↔ p.input = [] := by
  simp [eof]

@[simp] theorem next_tobuilder (p : parser) : p.next.2.tobuilder = p.tobuilder := by
  unfold next; split <;> rfl

@[simp] theorem add_input (p : parser) (ch : Nat) : (p.add ch).input = p.input := rfl

@[simp] theorem add_loc (p : parser) (ch : Nat) : (p.add ch).loc = p.loc := rfl

theorem reads_refl (p : parser) : p.reads p := ⟨[], rfl, rfl⟩

theorem reads_trans {p q r : parser} (h1 : p.reads q) (h2 : q.reads r) : p.reads r := by
  obtain ⟨a, ha, la⟩ := h1
  obtain ⟨b, hb, lb⟩ := h2
  exact ⟨a ++ b, by simp [ha, hb], by rw [lb, la, location.advance_append]⟩

theorem reads_next (p : parser) : p.reads p.next.2 := by
  cases h : p.input with
  | nil => rw [next_nil p h]; exact reads_refl p
  | cons c rest =>
    rw [next_cons p c rest h]
    exact ⟨[c], by simp [h], rfl⟩

theorem reads_of_eq {p q r : parser} (h : p.reads q) (hi : r.input = q.input) (hl : r.loc = q.loc) :
    p.reads r := by
  obtain ⟨a, ha, la⟩ := h
  exact ⟨a, by rw [ha, hi], by rw [hl, la]⟩

theorem reads_length {p q : parser} (h : p.reads q) : q.input.length ≤ p.input.length := by
  obtain ⟨a, ha, _⟩ := h
  simp [ha]

theorem keeps_refl (p : parser) : p.keeps p := ⟨rfl, rfl, rfl, rfl, rfl, rfl, rfl, rfl⟩

theorem keeps_trans {p q r : parser} (h1 : p.keeps q) (h2 : q.keeps r) : p.keeps r :=
  ⟨h2.stack.trans h1.stack, h2.values.trans h1.values, h2.counts.trans h1.counts,
   h2.doc_data.trans h1.doc_data, h2.doc_loc.trans h1.doc_loc,
   h2.doc_values.trans h1.doc_values, h2.strings_data.trans h1.strings_data,
   h2.values_data.trans h1.values_data⟩

theorem keeps_next (p : parser) : p.keeps p.next.2 := by
  have h := next_tobuilder p
  have hs : p.next.2.stack = p.stack := congrArg builder.stack h
  have hv : p.next.2.values = p.values := congrArg builder.values h
  have hc : p.next.2.counts = p.counts := congrArg builder.counts h
  have hd : p.next.2.doc = p.doc := congrArg builder.doc h
  exact ⟨hs, hv, hc, by rw [hd], by rw [hd], by rw [hd], by rw [hd], by rw [hd]⟩

theorem keeps_add (p : parser) (ch : Nat) : p.keeps (p.add ch) :=
  ⟨rfl, rfl, rfl, rfl, rfl, rfl, rfl, rfl⟩

theorem scans_refl (p : parser) : p.scans p := ⟨reads_refl p, keeps_refl p⟩

theorem scans_trans {p q r : parser} (h1 : p.scans q) (h2 : q.scans r) : p.scans r :=
  ⟨reads_trans h1.1 h2.1, keeps_trans h1.2 h2.2⟩

theorem scans_next (p : parser) : p.scans p.next.2 := ⟨reads_next p, keeps_next p⟩

theorem scans_add (p : parser) (ch : Nat) : p.scans (p.add ch) :=
  ⟨⟨[], rfl, rfl⟩, keeps_add p ch⟩

theorem scans_next_add (p : parser) (ch : Nat) : p.scans (p.next.2.add ch) :=
  scans_trans (scans_next p) (scans_add _ ch)

theorem ite_ind {α : Type} (P : α → Prop) (c : Prop) [Decidable c] (a b : α)
    (ha : c → P a) (hb : ¬ c → P b) : P (if c then a else b) := by
  by_cases h : c
  · rw [if_pos h]; exact ha h
  · rw [if_neg h]; exact hb h

theorem peek_next_token_loop_scans (n : Nat) (pc : comment_type) (result : token_type)
    (p : parser) : p.scans (peek_next_token_loop n pc result p).2.2 := by
  induction n generalizing pc result p with
  | zero => exact scans_refl p
  | succ n ih =>
    rw [peek_next_token_loop]
    repeat (first
      | (refine ite_ind (fun r : error × token_type × parser => p.scans r.2.2) _ _ _
          (fun _ => ?_) (fun _ => ?_))
      | exact scans_trans (scans_next p) (ih _ _ _)
      | exact scans_trans (scans_trans (scans_next p) (scans_next _)) (ih _ _ _)
      | exact scans_refl p
      | exact scans_next p
      | (refine ite_ind (fun r : parser => p.scans r) _ _ _ (fun _ => ?_) (fun _ => ?_)))

theorem peek_next_token_scans (p : parser) (result : token_type) :
    p.scans (p.peek_next_token result).2.2 :=
  peek_next_token_loop_scans _ _ _ _

theorem parse_number_loop_scans (n : Nat) (buff : List Nat) (p : parser) :
    p.scans (parse_number_loop n buff p).2 := by
  induction n generalizing buff p with
  | zero => exact scans_refl p
  | succ n ih =>
    rw [parse_number_loop]
    repeat (first
      | (refine ite_ind (fun r : List Nat × parser => p.scans r.2) _ _ _
          (fun _ => ?_) (fun _ => ?_))
      | exact scans_trans (scans_next p) (ih _ _)
      | exact scans_refl p
      | exact scans_next p)

theorem parse_number_scans (e : env) (p : parser) (result : Nat) :
    p.scans (p.parse_number e result).2.2 := by
  unfold parse_number
  dsimp only
  split <;> exact parse_number_loop_scans _ _ _

theorem read_hex_scans (S : Nat) (code : List Nat) (p : parser) :
    p.scans (read_hex S code p).2 := by
  induction S generalizing code p with
  | zero => exact scans_refl p
  | succ S ih =>
    rw [read_hex]
    refine ite_ind (fun r : Option (List Nat) × parser => p.scans r.2) _ _ _
      (fun _ => ?_) (fun _ => ?_)
    · exact scans_trans (scans_next p) (ih _ _)
    · exact scans_next p

theorem add_char_keeps (doc : document) (ch : Nat) :
    (doc.add_char ch).data = doc.data ∧ (doc.add_char ch).loc = doc.loc ∧
    (doc.add_char ch).values = doc.values ∧ (doc.add_char ch).strings_data = doc.strings_data ∧
    (doc.add_char ch).values_data = doc.values_data := by
  unfold document.add_char document.add_c_str document.alloc_string
  dsimp only
  split <;> simp

theorem foldl_add_char_keeps (cs : List Nat) (doc : document) :
    (cs.foldl document.add_char doc).data = doc.data ∧
    (cs.foldl document.add_char doc).loc = doc.loc ∧
    (cs.foldl document.add_char doc).values = doc.values ∧
    (cs.foldl document.add_char doc).strings_data = doc.strings_data ∧
    (cs.foldl document.add_char doc).values_data = doc.values_data := by
  induction cs generalizing doc with
  | nil => simp
  | cons c cs ih =>
    have h1 := add_char_keeps doc c
    have h2 := ih (doc.add_char c)
    simp only [List.foldl_cons]
    refine ⟨h2.1.trans h1.1, h2.2.1.trans h1.2.1, h2.2.2.1.trans h1.2.2.1,
      h2.2.2.2.1.trans h1.2.2.2.1, h2.2.2.2.2.trans h1.2.2.2.2⟩

theorem scans_add_utf8 (p : parser) (ch : Nat) :
    p.scans { p with tobuilder := p.tobuilder.string_buffer_add_utf8 ch } := by
  refine ⟨⟨[], rfl, rfl⟩, ?_⟩
  unfold builder.string_buffer_add_utf8
  repeat (first
    | (refine ite_ind (fun b : builder => p.keeps { p with tobuilder := b }) _ _ _
        (fun _ => ?_) (fun _ => ?_))
    | exact keeps_refl p
    | exact ⟨rfl, rfl, rfl, (foldl_add_char_keeps _ _).1, (foldl_add_char_keeps _ _).2.1,
        (foldl_add_char_keeps _ _).2.2.1, (foldl_add_char_keeps _ _).2.2.2.1,
        (foldl_add_char_keeps _ _).2.2.2.2⟩)

theorem parse_string_loop_scans (n : Nat) (sq : Bool) (p : parser) :
    p.scans (parse_string_loop n sq p).2 := by
  induction n generalizing p with
  | zero => exact scans_refl p
  | succ n ih =>
    rw [parse_string_loop]
    repeat (first
      | (refine ite_ind (fun r : Option error × parser => p.scans r.2) _ _ _
          (fun _ => ?_) (fun _ => ?_))
      | exact scans_refl p
      | exact scans_next p
      | exact scans_trans (scans_next_add p _) (ih _)
      | exact scans_trans (scans_trans (scans_next p) (scans_next _)) (ih _)
      | exact scans_trans (scans_trans (scans_next p) (scans_next_add _ _)) (ih _)
      | (dsimp only
         have hr := read_hex_scans (if p.next.2.peek = 120 then 2 else 4) [] p.next.2.next.2
         cases hc : (read_hex (if p.next.2.peek = 120 then 2 else 4) [] p.next.2.next.2).1 with
         | none => exact scans_trans (scans_trans (scans_next p) (scans_next _)) hr
         | some code =>
           exact scans_trans (scans_trans (scans_trans (scans_trans (scans_next p)
             (scans_next _)) hr) (scans_add_utf8 _ _)) (ih _)))

theorem parse_string_scans (p : parser) : p.scans p.parse_string.2.2 := by
  unfold parse_string
  dsimp only
  have h := parse_string_loop_scans p.next.2.input.length (decide (p.peek = 39)) p.next.2
  split
  · exact scans_trans (scans_next p) h
  · split
    · exact scans_trans (scans_next p) h
    · exact scans_trans (scans_trans (scans_next p) h) (scans_add _ 0)

theorem parse_identifier_loop_scans (n : Nat) (p : parser) :
    p.scans (parse_identifier_loop n p) := by
  induction n generalizing p with
  | zero => exact scans_refl p
  | succ n ih =>
    rw [parse_identifier_loop]
    repeat (first
      | (refine ite_ind (fun r : parser => p.scans r) _ _ _ (fun _ => ?_) (fun _ => ?_))
      | exact scans_refl p
      | exact scans_next_add p _
      | exact scans_trans (scans_next_add p _) (ih _))

theorem parse_identifier_scans (p : parser) : p.scans p.parse_identifier.2.2 := by
  unfold parse_identifier
  dsimp only
  have h1 : p.scans (if decide (p.peek = 39 ∨ p.peek = 34) = true then p.next.2 else p) := by
    split
    · exact scans_next p
    · exact scans_refl p
  have h2 := parse_identifier_loop_scans
    (if decide (p.peek = 39 ∨ p.peek = 34) = true then p.next.2 else p).input.length
    (if decide (p.peek = 39 ∨ p.peek = 34) = true then p.next.2 else p)
  repeat (first
    | (refine ite_ind (fun r : error × Nat × parser => p.scans r.2.2) _ _ _
        (fun _ => ?_) (fun _ => ?_))
    | exact h1
    | exact scans_trans h1 h2
    | exact scans_trans (scans_trans h1 h2) (scans_add _ 0)
    | exact scans_trans (scans_trans h1 h2) (scans_next _)
    | exact scans_trans (scans_trans h1 h2) (scans_next_add _ 0))

theorem expect_chars_scans (xs : List Nat) (p : parser) : p.scans (expect_chars xs p).2 := by
  induction xs generalizing p with
  | nil => exact scans_refl p
  | cons x xs ih =>
    rw [expect_chars]
    refine ite_ind (fun r : Bool × parser => p.scans r.2) _ _ _ (fun _ => ?_) (fun _ => ?_)
    · exact scans_trans (scans_next p) (ih _)
    · exact scans_next p

theorem parse_literal_scans (p : parser) (result : token_type) :
    p.scans (p.parse_literal result).2.2 := by
  unfold parse_literal
  repeat (first
    | (refine ite_ind (fun r : error × token_type × parser => p.scans r.2.2) _ _ _
        (fun _ => ?_) (fun _ => ?_))
    | exact scans_refl p
    | exact scans_trans (scans_next p) (expect_chars_scans _ _))

end parser

end json5

namespace json5

namespace parser

@[simp] theorem to_byte_cast (c : Nat) : to_byte (c : Int) = c := by
  simp [to_byte]

theorem token_class_punct (result : token_type) (c : Nat)
    (h : strchr punctuation (c : Int) = true) :
    (if (c : Int) = 123 then token_type.object_begin
      else if (c : Int) = 125 then token_type.object_end
      else if (c : Int) = 91 then token_type.array_begin
      else if (c : Int) = 93 then token_type.array_end
      else if (c : Int) = 58 then token_type.colon
      else if (c : Int) = 44 then token_type.comma
      else result) = token_class result c := by
  simp only [strchr, punctuation, to_byte_cast, decide_eq_true_eq, List.mem_cons,
    List.mem_singleton, List.not_mem_nil, or_false] at h
  rcases h with h | h | h | h | h | h | h <;> subst h <;> simp [token_class]

theorem cast_eq_lit (c : Nat) (k : Nat) : ((c : Int) = (k : Int)) = (c = k) := by
  apply propext
  exact Int.ofNat_inj

theorem token_class_ident (result : token_type) (c : Nat)
    (h0 : ¬ strchr punctuation (c : Int) = true) (h : isalpha (c : Int) = true ∨ (c : Int) = 95) :
    token_type.identifier = token_class result c := by
  simp only [strchr, punctuation, to_byte_cast, decide_eq_true_eq, List.mem_cons,
    List.mem_singleton, List.not_mem_nil, or_false, not_or] at h0
  obtain ⟨h1, h2, h3, h4, h5, h6, h7⟩ := h0
  have e95 := cast_eq_lit c 95
  simp only [Nat.cast_ofNat] at e95
  rw [e95] at h
  simp [token_class, h1, h2, h3, h4, h5, h6, h7, h]

theorem token_class_number (result : token_type) (c : Nat)
    (h0 : ¬ strchr punctuation (c : Int) = true)
    (h1 : ¬ (isalpha (c : Int) = true ∨ (c : Int) = 95))
    (h : isdigit (c : Int) = true ∨ (c : Int) = 46 ∨ (c : Int) = 43 ∨ (c : Int) = 45)
    (h43 : c ≠ 43) :
    token_type.number = token_class result c := by
  simp only [strchr, punctuation, to_byte_cast, decide_eq_true_eq, List.mem_cons,
    List.mem_singleton, List.not_mem_nil, or_false, not_or] at h0
  obtain ⟨g1, g2, g3, g4, g5, g6, g7⟩ := h0
  have e95 := cast_eq_lit c 95
  have e46 := cast_eq_lit c 46
  have e43 := cast_eq_lit c 43
  have e45 := cast_eq_lit c 45
  simp only [Nat.cast_ofNat] at e95 e46 e43 e45
  rw [e95] at h1
  rw [e46, e43, e45] at h
  have h' : isdigit (c : Int) = true ∨ c = 46 ∨ c = 45 := by
    rcases h with h | h | h | h
    · exact Or.inl h
    · exact Or.inr (Or.inl h)
    · exact absurd h h43
    · exact Or.inr (Or.inr h)
  simp [token_class, g1, g2, g3, g4, g5, g6, g7, h1, h']

theorem token_class_string (result : token_type) (c : Nat)
    (h0 : ¬ strchr punctuation (c : Int) = true)
    (h1 : ¬ (isalpha (c : Int) = true ∨ (c : Int) = 95))
    (h2 : ¬ (isdigit (c : Int) = true ∨ (c : Int) = 46 ∨ (c : Int) = 43 ∨ (c : Int) = 45)) :
    token_type.string = token_class result c := by
  simp only [strchr, punctuation, to_byte_cast, decide_eq_true_eq, List.mem_cons,
    List.mem_singleton, List.not_mem_nil, or_false, not_or] at h0
  obtain ⟨g1, g2, g3, g4, g5, g6, g7⟩ := h0
  have e95 := cast_eq_lit c 95
  have e46 := cast_eq_lit c 46
  have e43 := cast_eq_lit c 43
  have e45 := cast_eq_lit c 45
  simp only [Nat.cast_ofNat] at e95 e46 e43 e45
  rw [e95] at h1
  rw [e46, e43, e45] at h2
  have h2' : ¬ (isdigit (c : Int) = true ∨ c = 46 ∨ c = 45) := by
    intro h
    apply h2
    rcases h with h | h | h
    · exact Or.inl h
    · exact Or.inr (Or.inl h)
    · exact Or.inr (Or.inr (Or.inr h))
  simp [token_class, g1, g2, g3, g4, g5, g6, g7, h1, h2']

theorem peek_next_token_loop_token (n : Nat) (pc : comment_type) (result : token_type)
    (p : parser) :
    (peek_next_token_loop n pc result p).1.failed = false →
      (peek_next_token_loop n pc result p).1 = error.ok ∧
      (((peek_next_token_loop n pc result p).2.1 = token_type.number ∧
        (peek_next_token_loop n pc result p).2.2.input.length < p.input.length) ∨
       ∃ c rest, (peek_next_token_loop n pc result p).2.2.input = c :: rest ∧
        (peek_next_token_loop n pc result p).2.1 = token_class result c) := by
  induction n generalizing pc result p with
  | zero => intro h; simp [peek_next_token_loop, make_error, error.failed] at h
  | succ n ih =>
    rw [peek_next_token_loop]
    cases hi : p.input with
    | nil =>
      have he : p.eof = true := by simp [eof, hi]
      rw [if_pos he]
      intro h; simp [make_error, error.failed] at h
    | cons c rest =>
      have he : ¬ (p.eof = true) := by simp [eof, hi]
      have hp : p.peek = (c : Int) := peek_cons p c rest hi
      have hl : p.next.2.input.length < (c :: rest).length := by
        rw [next_cons p c rest hi]; simp
      have hl2 : p.next.2.next.2.input.length < (c :: rest).length :=
        lt_of_le_of_lt (reads_length (reads_next _)) hl
      rw [if_neg he, hp]
      dsimp only
      repeat (first
        | (refine ite_ind (fun r : error × token_type × parser => r.1.failed = false →
            r.1 = error.ok ∧ ((r.2.1 = token_type.number ∧
              r.2.2.input.length < (c :: rest).length) ∨
              ∃ c1 rest1, r.2.2.input = c1 :: rest1 ∧ r.2.1 = token_class result c1))
            _ _ _ (fun _ => ?_) (fun _ => ?_))
        | (intro h; exact Bool.noConfusion h)
        | (intro h
           obtain ⟨h1, h2⟩ := ih _ _ _ h
           refine ⟨h1, ?_⟩
           rcases h2 with ⟨h3, h4⟩ | h3
           · exact Or.inl ⟨h3, lt_trans h4 (by assumption)⟩
           · exact Or.inr h3)
        | (intro _
           refine ⟨rfl, Or.inr ⟨c, rest, hi, ?_⟩⟩
           first
           | (refine token_class_punct _ _ ?_; assumption)
           | (apply token_class_ident <;> assumption)
           | (apply token_class_string <;> assumption))
        | (intro _
           refine ⟨rfl, ?_⟩
           by_cases h43 : c = 43
           · refine Or.inl ⟨rfl, ?_⟩
             rw [if_pos (by exact_mod_cast h43)]
             exact hl
           · refine Or.inr ⟨c, rest, ?_, ?_⟩
             · rw [if_neg (by exact_mod_cast h43)]
               exact hi
             · apply token_class_number <;> assumption))

end parser

end json5

namespace json5

/-! ## The builder under relinking and pop -/

theorem value.set_payload_loc (v : value) (x : Nat) : (v.set_payload x).loc = v.loc := rfl

theorem alloc_string_frame (doc : document) (str : List Nat) :
    (doc.alloc_string str).2.data = doc.data ∧ (doc.alloc_string str).2.loc = doc.loc ∧
    (doc.alloc_string str).2.values = doc.values ∧
    (doc.alloc_string str).2.strings_data = doc.strings_data ∧
    (doc.alloc_string str).2.values_data = doc.values_data := by
  unfold document.alloc_string
  dsimp only
  split <;> simp

theorem value.relink_frame (e : env) (prev : Option document) (doc : document) (v : value) :
    (v.relink e prev doc).1.loc = v.loc ∧
    (v.relink e prev doc).2.data = doc.data ∧ (v.relink e prev doc).2.loc = doc.loc ∧
    (v.relink e prev doc).2.values = doc.values ∧
    (v.relink e prev doc).2.strings_data = doc.strings_data ∧
    (v.relink e prev doc).2.values_data = doc.values_data := by
  unfold value.relink
  have ha := alloc_string_frame doc (e.c_str_at v.payload)
  split
  · dsimp only
    cases prev with
    | none =>
      dsimp only
      split
      · exact ⟨rfl, ha⟩
      · exact ⟨rfl, rfl, rfl, rfl, rfl, rfl⟩
    | some prev => exact ⟨rfl, rfl, rfl, rfl, rfl, rfl⟩
  · split
    · cases prev <;> exact ⟨rfl, rfl, rfl, rfl, rfl, rfl⟩
    · exact ⟨rfl, rfl, rfl, rfl, rfl, rfl⟩

theorem relink_all_frame (e : env) (prev : Option document) (vs : List value) (doc : document) :
    (relink_all e prev vs doc).2.data = doc.data ∧ (relink_all e prev vs doc).2.loc = doc.loc ∧
    (relink_all e prev vs doc).2.values = doc.values ∧
    (relink_all e prev vs doc).2.strings_data = doc.strings_data ∧
    (relink_all e prev vs doc).2.values_data = doc.values_data := by
  induction vs generalizing doc with
  | nil => exact ⟨rfl, rfl, rfl, rfl, rfl⟩
  | cons v vs ih =>
    have h1 := value.relink_frame e prev doc v
    have h2 := ih (v.relink e prev doc).2
    simp only [relink_all]
    exact ⟨h2.1.trans h1.2.1, h2.2.1.trans h1.2.2.1, h2.2.2.1.trans h1.2.2.2.1,
      h2.2.2.2.1.trans h1.2.2.2.2.1, h2.2.2.2.2.trans h1.2.2.2.2.2⟩

theorem assign_root_frame (e : env) (doc : document) (root : value) :
    (doc.assign_root e root).loc = doc.loc ∧
    (doc.assign_root e root).strings_data = doc.strings_data ∧
    (doc.assign_root e root).values_data = doc.values_data := by
  unfold document.assign_root
  dsimp only
  have h1 := relink_all_frame e Option.none doc.values
    { doc with data := root.data ||| mask_is_document }
  generalize relink_all e Option.none doc.values
    { doc with data := root.data ||| mask_is_document } = r at h1
  have h2 := value.relink_frame e Option.none { r.2 with values := r.1 }
    (document.to_value { r.2 with values := r.1 })
  generalize value.relink e Option.none { r.2 with values := r.1 }
    (document.to_value { r.2 with values := r.1 }) = s at h2
  simp only [document.convert_string_offsets]
  refine ⟨?_, ?_, ?_⟩
  · rw [h2.1]; exact h1.2.1
  · rw [h2.2.2.2.2.1]; exact h1.2.2.2.1
  · rw [h2.2.2.2.2.2]; exact h1.2.2.2.2

namespace builder

theorem pop_frame (e : env) (b : builder) :
    (b.pop e).2.stack = b.stack.dropLast ∧ (b.pop e).2.counts = b.counts.dropLast ∧
    (b.pop e).2.doc.loc = b.doc.loc ∧ (b.pop e).2.doc.strings_data = b.doc.strings_data ∧
    (b.pop e).2.doc.values_data = b.doc.values_data ∧
    (b.stack.dropLast ≠ [] → (b.pop e).2.doc.data = b.doc.data) := by
  unfold pop
  dsimp only
  split
  · rename_i h
    have ha := assign_root_frame e
      { b.doc with values := b.doc.values ++ [value.of_double (double_of_size (b.counts.getLastD 0))] ++
          List.drop (b.values.length - b.counts.getLastD 0) b.values }
      ((b.stack.getLastD value.null).set_payload b.doc.values.length)
    refine ⟨rfl, rfl, ha.1, ha.2.1, ha.2.2, ?_⟩
    intro hne
    simp at h
    exact absurd h hne
  · exact ⟨rfl, rfl, rfl, rfl, rfl, fun _ => rfl⟩

end builder

namespace parser

theorem nests_of_scans {p q : parser} (ok : Bool) (h : p.scans q)
    (hs : ok = true → q.input.length < p.input.length) : p.nests q ok :=
  ⟨h.1, h.2.strings_data, h.2.values_data, h.2.doc_loc,
    fun _ => ⟨h.2.stack, by rw [h.2.counts]⟩, hs, fun _ => h.2.doc_data⟩

theorem nests_fail_of_scans {p q : parser} (h : p.scans q) : p.nests q false :=
  nests_of_scans false h (fun h => Bool.noConfusion h)

end parser

end json5

namespace json5

namespace parser

theorem next_shorter (p : parser) (h : p.input ≠ []) :
    p.next.2.input.length < p.input.length := by
  cases hi : p.input with
  | nil => exact absurd hi h
  | cons c rest => rw [next_cons p c rest hi]; simp

theorem parse_number_loop_shorter (n : Nat) (p : parser) (h : p.input ≠ []) :
    (parse_number_loop (n + 1) [] p).2.input.length < p.input.length := by
  rw [parse_number_loop]
  have he : ¬ (p.eof = true ∨ ¬ ([] : List Nat).length < 256) := by
    simp [eof, h]
  rw [if_neg he]
  dsimp only
  split
  · exact next_shorter p h
  · exact lt_of_le_of_lt (reads_length (parse_number_loop_scans _ _ _).1) (next_shorter p h)

theorem parse_number_shorter (e : env) (p : parser) (result : Nat) (h : p.input ≠ []) :
    (p.parse_number e result).2.2.input.length < p.input.length := by
  unfold parse_number
  dsimp only
  have hl : p.input.length = (p.input.length - 1) + 1 := by
    have := List.length_pos.mpr h
    omega
  have h1 := parse_number_loop_shorter (p.input.length - 1) p h
  rw [← hl] at h1
  split <;> exact h1

theorem parse_string_shorter (p : parser) (h : p.input ≠ []) :
    p.parse_string.2.2.input.length < p.input.length := by
  unfold parse_string
  dsimp only
  have h1 := reads_length
    (parse_string_loop_scans p.next.2.input.length (decide (p.peek = 39)) p.next.2).1
  have h2 := next_shorter p h
  split
  · exact lt_of_le_of_lt h1 h2
  · split
    · exact lt_of_le_of_lt h1 h2
    · exact lt_of_le_of_lt h1 h2

theorem parse_literal_shorter (p : parser) (result : token_type) :
    (p.parse_literal result).1.failed = false →
    (p.parse_literal result).2.2.input.length < p.input.length := by
  by_cases hne : p.input = []
  · intro h
    simp [parse_literal, peek_nil p hne, make_error, error.failed] at h
  · have h2 := next_shorter p hne
    unfold parse_literal
    repeat (first
      | (refine ite_ind (fun r : error × token_type × parser => r.1.failed = false →
          r.2.2.input.length < p.input.length) _ _ _ (fun _ => ?_) (fun _ => ?_))
      | (intro h; exact Bool.noConfusion h)
      | (intro _; exact lt_of_le_of_lt (reads_length (expect_chars_scans _ _).1) h2))

end parser

end json5

namespace json5

namespace parser

theorem peek_next_token_token (p : parser) (result : token_type) :
    (p.peek_next_token result).1.failed = false →
      (p.peek_next_token result).1 = error.ok ∧
      (((p.peek_next_token result).2.1 = token_type.number ∧
        (p.peek_next_token result).2.2.input.length < p.input.length) ∨
       ∃ c rest, (p.peek_next_token result).2.2.input = c :: rest ∧
        (p.peek_next_token result).2.1 = token_class result c) :=
  peek_next_token_loop_token _ _ _ _

theorem scans_push_object (p : parser) :
    p.reads { p with tobuilder := p.tobuilder.push_object } := ⟨[], rfl, rfl⟩

theorem nests_pop (e : env) (p p1 q : parser) (f : value) (hs : p.scans p1)
    (hq : parser.nests { p1 with stack := p1.stack ++ [f], counts := p1.counts ++ [0] } q true) :
    p.nests { q with tobuilder := (q.tobuilder.pop e).2 } true := by
  have hp := builder.pop_frame e q.tobuilder
  obtain ⟨hst, hcl⟩ := hq.frames rfl
  have hst' : q.stack = p.stack ++ [f] := by rw [hst]; simp [hs.2.stack]
  have hcl' : q.counts.length = p.counts.length + 1 := by rw [hcl]; simp [hs.2.counts]
  have hdl : q.stack.dropLast = p.stack := by rw [hst']; simp
  have hr : p1.reads q := hq.reads
  refine ⟨?_, ?_, ?_, ?_, ?_, ?_, ?_⟩
  · exact reads_trans hs.1 hr
  · exact hp.2.2.2.1.trans (hq.strings_data.trans hs.2.strings_data)
  · exact hp.2.2.2.2.1.trans (hq.values_data.trans hs.2.values_data)
  · exact hp.2.2.1.trans (hq.doc_loc.trans hs.2.doc_loc)
  · intro _
    refine ⟨hp.1.trans hdl, ?_⟩
    show (q.tobuilder.pop e).2.counts.length = p.counts.length
    rw [hp.2.1, List.length_dropLast]
    show q.counts.length - 1 = p.counts.length
    omega
  · intro _
    exact lt_of_lt_of_le (hq.shorter rfl) (reads_length hs.1)
  · intro h
    rcases h with h | h
    · have h1 : q.stack.dropLast ≠ [] := by rw [hdl]; exact h
      have h2 : q.doc.data = p1.doc.data := hq.doc_data (Or.inl (by simp))
      exact (hp.2.2.2.2.2 h1).trans (h2.trans hs.2.doc_data)
    · exact Bool.noConfusion h

theorem nests_push_fail (p p1 q : parser) (f : value) (hs : p.scans p1)
    (hq : parser.nests { p1 with stack := p1.stack ++ [f], counts := p1.counts ++ [0] } q false) :
    p.nests q false := by
  have hr : p1.reads q := hq.reads
  refine ⟨reads_trans hs.1 hr, hq.strings_data.trans hs.2.strings_data,
    hq.values_data.trans hs.2.values_data, hq.doc_loc.trans hs.2.doc_loc,
    fun h => Bool.noConfusion h, fun h => Bool.noConfusion h, fun _ => ?_⟩
  have h2 : q.doc.data = p1.doc.data := hq.doc_data (Or.inr rfl)
  exact h2.trans hs.2.doc_data

theorem value_nests_succ (e : env) (n : Nat) (hO : frame_nests (parse_object e) n)
    (hA : frame_nests (parse_array e) n) : value_nests e (n + 1) := by
  intro result p
  rw [parse_value]
  have hs := peek_next_token_scans p token_type.unknown
  have htok := peek_next_token_token p token_type.unknown
  generalize p.peek_next_token token_type.unknown = t at hs htok ⊢
  obtain ⟨terr, tt, p1⟩ := t
  dsimp only at hs htok ⊢
  refine ite_ind (fun o : Option (error × value × parser) =>
    ∀ r, o = some r → p.nests r.2.2 (!r.1.failed)) _ _ _ (fun hf => ?_) (fun hf => ?_)
  · intro r h
    cases h
    simp only [hf, Bool.not_true]
    exact nests_fail_of_scans hs
  · have hf' : terr.failed = false := by simpa using hf
    obtain ⟨hok, hcls⟩ := htok hf'
    have fail_leaf : ∀ (err : error) (q : parser), err.failed = true → p1.scans q →
        ∀ r, some (err, result, q) = some r → p.nests r.2.2 (!r.1.failed) := by
      intro err q he hq r h
      cases h
      simp only [he, Bool.not_true]
      exact nests_fail_of_scans (scans_trans hs hq)
    have synt : ∀ r, some (p1.make_error error_kind.syntax_error, result, p1) = some r →
        p.nests r.2.2 (!r.1.failed) := fail_leaf _ _ rfl (scans_refl p1)
    have ok_leaf : ∀ (v : value) (q : parser), p1.scans q →
        q.input.length < p.input.length →
        ∀ r, some (error.ok, v, q) = some r → p.nests r.2.2 (!r.1.failed) := by
      intro v q hq hl r h
      cases h
      exact nests_of_scans true (scans_trans hs hq) (fun _ => hl)
    cases tt <;> dsimp only <;> try exact synt
    case number =>
      have hl : (p1.parse_number e 0).2.2.input.length < p.input.length := by
        rcases hcls with ⟨_, h2⟩ | ⟨c, rest, h1, _⟩
        · exact lt_of_le_of_lt (reads_length (parse_number_scans e p1 0).1) h2
        · exact lt_of_lt_of_le (parse_number_shorter e p1 0 (by simp [h1])) (reads_length hs.1)
      refine ite_ind (fun o : Option (error × value × parser) =>
        ∀ r, o = some r → p.nests r.2.2 (!r.1.failed)) _ _ _ (fun hf => ?_) (fun hf => ?_)
      · exact fail_leaf _ _ hf (parse_number_scans e p1 0)
      · exact ok_leaf _ _ (parse_number_scans e p1 0) hl
    case string =>
      have hl : p1.parse_string.2.2.input.length < p.input.length := by
        rcases hcls with ⟨h1, _⟩ | ⟨c, rest, h1, _⟩
        · exact absurd h1 (by decide)
        · exact lt_of_lt_of_le (parse_string_shorter p1 (by simp [h1])) (reads_length hs.1)
      refine ite_ind (fun o : Option (error × value × parser) =>
        ∀ r, o = some r → p.nests r.2.2 (!r.1.failed)) _ _ _ (fun hf => ?_) (fun hf => ?_)
      · exact fail_leaf _ _ hf (parse_string_scans p1)
      · exact ok_leaf _ _ (parse_string_scans p1) hl
    case identifier =>
      refine ite_ind (fun o : Option (error × value × parser) =>
        ∀ r, o = some r → p.nests r.2.2 (!r.1.failed)) _ _ _ (fun hf => ?_) (fun hf => ?_)
      · exact fail_leaf _ _ hf (parse_literal_scans p1 _)
      · have hl : (p1.parse_literal token_type.unknown).2.2.input.length < p.input.length :=
          lt_of_lt_of_le (parse_literal_shorter p1 _ (by simpa using hf)) (reads_length hs.1)
        repeat (first
          | (refine ite_ind (fun o : Option (error × value × parser) =>
              ∀ r, o = some r → p.nests r.2.2 (!r.1.failed)) _ _ _ (fun _ => ?_) (fun _ => ?_))
          | exact ok_leaf _ _ (parse_literal_scans p1 _) hl
          | exact fail_leaf _ _ rfl (parse_literal_scans p1 _))
    case object_begin =>
      cases hc : parse_object e n { p1 with tobuilder := p1.tobuilder.push_object } with
      | none => intro r h; cases h
      | some r1 =>
        dsimp only
        have h1 := hO _ _ hc (by simp [builder.push_object])
        refine ite_ind (fun o : Option (error × value × parser) =>
          ∀ r, o = some r → p.nests r.2.2 (!r.1.failed)) _ _ _ (fun hf => ?_) (fun hf => ?_)
        · intro r h
          cases h
          simp only [hf, Bool.not_true] at h1 ⊢
          exact nests_push_fail p p1 r1.2 _ hs h1
        · intro r h
          cases h
          have hf' : r1.1.failed = false := by simpa using hf
          simp only [hf', Bool.not_false] at h1
          exact nests_pop e p p1 r1.2 _ hs h1
    case array_begin =>
      cases hc : parse_array e n { p1 with tobuilder := p1.tobuilder.push_array } with
      | none => intro r h; cases h
      | some r1 =>
        dsimp only
        have h1 := hA _ _ hc (by simp [builder.push_array])
        refine ite_ind (fun o : Option (error × value × parser) =>
          ∀ r, o = some r → p.nests r.2.2 (!r.1.failed)) _ _ _ (fun hf => ?_) (fun hf => ?_)
        · intro r h
          cases h
          simp only [hf, Bool.not_true] at h1 ⊢
          exact nests_push_fail p p1 r1.2 _ hs h1
        · intro r h
          cases h
          have hf' : r1.1.failed = false := by simpa using hf
          simp only [hf', Bool.not_false] at h1
          exact nests_pop e p p1 r1.2 _ hs h1

end parser

end json5

namespace json5

theorem add_to_back_length (k : Nat) (cs : List Nat) : (add_to_back k cs).length = cs.length := by
  induction cs with
  | nil => rfl
  | cons c cs ih =>
    cases cs with
    | nil => rfl
    | cons d ds => simp only [add_to_back, List.length_cons] at ih ⊢; omega

namespace parser

theorem nests_scans_left {p p1 q : parser} {ok : Bool} (hs : p.scans p1) (hq : p1.nests q ok) :
    p.nests q ok := by
  refine ⟨reads_trans hs.1 hq.reads, hq.strings_data.trans hs.2.strings_data,
    hq.values_data.trans hs.2.values_data, hq.doc_loc.trans hs.2.doc_loc, ?_, ?_, ?_⟩
  · intro h
    obtain ⟨h1, h2⟩ := hq.frames h
    exact ⟨h1.trans hs.2.stack, by rw [h2, hs.2.counts]⟩
  · intro h
    exact lt_of_lt_of_le (hq.shorter h) (reads_length hs.1)
  · intro h
    have h2 : q.doc.data = p1.doc.data := hq.doc_data (by rw [hs.2.stack]; exact h)
    exact h2.trans hs.2.doc_data

theorem nests_trans {p q r : parser} {ok : Bool} (hne : p.stack ≠ []) (h1 : p.nests q true)
    (h2 : q.nests r ok) : p.nests r ok := by
  obtain ⟨hst, hcl⟩ := h1.frames rfl
  refine ⟨reads_trans h1.reads h2.reads, h2.strings_data.trans h1.strings_data,
    h2.values_data.trans h1.values_data, h2.doc_loc.trans h1.doc_loc, ?_, ?_, ?_⟩
  · intro h
    obtain ⟨g1, g2⟩ := h2.frames h
    exact ⟨g1.trans hst, g2.trans hcl⟩
  · intro h
    exact lt_trans (h2.shorter h) (h1.shorter rfl)
  · intro _
    have g1 : q.doc.data = p.doc.data := h1.doc_data (Or.inl hne)
    have g2 : r.doc.data = q.doc.data := h2.doc_data (Or.inl (by rw [hst]; exact hne))
    exact g2.trans g1

theorem nests_add_item {p q : parser} (v : value) (h : p.nests q true) :
    p.nests { q with tobuilder := q.tobuilder.add_item v } true := by
  have hr : p.reads q := h.reads
  refine ⟨hr, h.strings_data, h.values_data, h.doc_loc, ?_, h.shorter, h.doc_data⟩
  intro _
  obtain ⟨h1, h2⟩ := h.frames rfl
  refine ⟨h1, ?_⟩
  show (add_to_back 1 q.counts).length = p.counts.length
  rw [add_to_back_length]
  exact h2

theorem frame_nests_object (e : env) (n : Nat) (hL : loop_nests (parse_object_loop e) n) :
    frame_nests (parse_object e) (n + 1) := by
  intro p r h hne
  rw [parse_object] at h
  exact nests_scans_left (scans_next p) (hL _ _ _ h (by rw [(keeps_next p).stack]; exact hne))

theorem frame_nests_array (e : env) (n : Nat) (hL : loop_nests (parse_array_loop e) n) :
    frame_nests (parse_array e) (n + 1) := by
  intro p r h hne
  rw [parse_array] at h
  exact nests_scans_left (scans_next p) (hL _ _ _ h (by rw [(keeps_next p).stack]; exact hne))

theorem loop_nests_array (e : env) (n : Nat) (hV : value_nests e n)
    (hL : loop_nests (parse_array_loop e) n) : loop_nests (parse_array_loop e) (n + 1) := by
  intro c p r h hne
  revert r
  rw [parse_array_loop]
  have fail_leaf : ∀ (err : error) (q : parser), err.failed = true → p.scans q →
      ∀ r, some (err, q) = some r → p.nests r.2 (!r.1.failed) := by
    intro err q he hq r h
    cases h
    simp only [he, Bool.not_true]
    exact nests_fail_of_scans hq
  refine ite_ind (fun o : Option (error × parser) =>
    ∀ r, o = some r → p.nests r.2 (!r.1.failed)) _ _ _ (fun hf => ?_) (fun hf => ?_)
  · exact fail_leaf _ _ rfl (scans_refl p)
  have hs := peek_next_token_scans p token_type.unknown
  have htok := peek_next_token_token p token_type.unknown
  generalize p.peek_next_token token_type.unknown = t at hs htok ⊢
  obtain ⟨terr, tt, p1⟩ := t
  dsimp only at hs htok ⊢
  refine ite_ind (fun o : Option (error × parser) =>
    ∀ r, o = some r → p.nests r.2 (!r.1.failed)) _ _ _ (fun hf => ?_) (fun hf => ?_)
  · exact fail_leaf _ _ hf hs
  have hf' : terr.failed = false := by simpa using hf
  obtain ⟨hok, hcls⟩ := htok hf'
  refine ite_ind (fun o : Option (error × parser) =>
    ∀ r, o = some r → p.nests r.2 (!r.1.failed)) _ _ _ (fun hend => ?_) (fun hend => ?_)
  · intro r h
    cases h
    have hl : p1.next.2.input.length < p.input.length := by
      rcases hcls with ⟨h1, _⟩ | ⟨c, rest, h1, _⟩
      · rw [hend] at h1; exact absurd h1 (by decide)
      · exact lt_of_lt_of_le (next_shorter p1 (by simp [h1])) (reads_length hs.1)
    exact nests_of_scans true (scans_trans hs (scans_next p1)) (fun _ => hl)
  refine ite_ind (fun o : Option (error × parser) =>
    ∀ r, o = some r → p.nests r.2 (!r.1.failed)) _ _ _ (fun hc => ?_) (fun hc => ?_)
  · refine ite_ind (fun o : Option (error × parser) =>
      ∀ r, o = some r → p.nests r.2 (!r.1.failed)) _ _ _ (fun hcm => ?_) (fun hcm => ?_)
    · exact fail_leaf _ _ rfl hs
    · intro r h
      exact nests_scans_left (scans_trans hs (scans_next p1))
        (hL _ _ _ h (by rw [(keeps_next p1).stack, hs.2.stack]; exact hne))
  · cases hv : parse_value e n value.null p1 with
    | none => intro r h; cases h
    | some r1 =>
      dsimp only
      have h1 := hV _ _ _ hv
      refine ite_ind (fun o : Option (error × parser) =>
        ∀ r, o = some r → p.nests r.2 (!r.1.failed)) _ _ _ (fun hf => ?_) (fun hf => ?_)
      · intro r h
        cases h
        simp only [hf, Bool.not_true] at h1 ⊢
        exact nests_scans_left hs h1
      · intro r h
        have hf' : r1.1.failed = false := by simpa using hf
        simp only [hf', Bool.not_false] at h1
        have h2 := nests_add_item r1.2.1 h1
        have hst : p1.stack ≠ [] := by rw [hs.2.stack]; exact hne
        have h3 := hL _ _ _ h (by
          show r1.2.2.stack ≠ []
          rw [(h1.frames rfl).1]; exact hst)
        exact nests_scans_left hs (nests_trans hst h2 h3)

theorem loop_nests_object (e : env) (n : Nat) (hV : value_nests e n)
    (hL : loop_nests (parse_object_loop e) n) : loop_nests (parse_object_loop e) (n + 1) := by
  intro c p r h hne
  revert r
  rw [parse_object_loop]
  have fail_leaf : ∀ (err : error) (q : parser), err.failed = true → p.scans q →
      ∀ r, some (err, q) = some r → p.nests r.2 (!r.1.failed) := by
    intro err q he hq r h
    cases h
    simp only [he, Bool.not_true]
    exact nests_fail_of_scans hq
  refine ite_ind (fun o : Option (error × parser) =>
    ∀ r, o = some r → p.nests r.2 (!r.1.failed)) _ _ _ (fun hf => ?_) (fun hf => ?_)
  · exact fail_leaf _ _ rfl (scans_refl p)
  have hs := peek_next_token_scans p token_type.unknown
  have htok := peek_next_token_token p token_type.unknown
  generalize p.peek_next_token token_type.unknown = t at hs htok ⊢
  obtain ⟨terr, tt, p1⟩ := t
  dsimp only at hs htok ⊢
  refine ite_ind (fun o : Option (error × parser) =>
    ∀ r, o = some r → p.nests r.2 (!r.1.failed)) _ _ _ (fun hf => ?_) (fun hf => ?_)
  · exact fail_leaf _ _ hf hs
  have hf' : terr.failed = false := by simpa using hf
  obtain ⟨hok, hcls⟩ := htok hf'
  have hst : p1.stack ≠ [] := by rw [hs.2.stack]; exact hne
  refine ite_ind (fun o : Option (error × parser) =>
    ∀ r, o = some r → p.nests r.2 (!r.1.failed)) _ _ _ (fun hkey => ?_) (fun hkey => ?_)
  · refine ite_ind (fun o : Option (error × parser) =>
      ∀ r, o = some r → p.nests r.2 (!r.1.failed)) _ _ _ (fun hc => ?_) (fun hc => ?_)
    · exact fail_leaf _ _ rfl hs
    have hk := scans_trans hs (parse_identifier_scans p1)
    refine ite_ind (fun o : Option (error × parser) =>
      ∀ r, o = some r → p.nests r.2 (!r.1.failed)) _ _ _ (fun hf => ?_) (fun hf => ?_)
    · exact fail_leaf _ _ hf hk
    have ht2 := scans_trans hk (peek_next_token_scans p1.parse_identifier.2.2 tt)
    refine ite_ind (fun o : Option (error × parser) =>
      ∀ r, o = some r → p.nests r.2 (!r.1.failed)) _ _ _ (fun hf => ?_) (fun hf => ?_)
    · exact fail_leaf _ _ hf ht2
    refine ite_ind (fun o : Option (error × parser) =>
      ∀ r, o = some r → p.nests r.2 (!r.1.failed)) _ _ _ (fun hf => ?_) (fun hf => ?_)
    · exact fail_leaf _ _ rfl ht2
    have h4 := scans_trans ht2 (scans_next (p1.parse_identifier.2.2.peek_next_token tt).2.2)
    cases hv : parse_value e n value.null
        (p1.parse_identifier.2.2.peek_next_token tt).2.2.next.2 with
    | none => intro r h; cases h
    | some r1 =>
      dsimp only
      have h1 := hV _ _ _ hv
      refine ite_ind (fun o : Option (error × parser) =>
        ∀ r, o = some r → p.nests r.2 (!r.1.failed)) _ _ _ (fun hf => ?_) (fun hf => ?_)
      · intro r h
        cases h
        simp only [hf, Bool.not_true] at h1 ⊢
        exact nests_scans_left h4 h1
      · intro r h
        have hf' : r1.1.failed = false := by simpa using hf
        simp only [hf', Bool.not_false] at h1
        have h2 := nests_add_item r1.2.1
          (nests_add_item { builder.new_string p1.parse_identifier.2.1 with loc := p1.loc } h1)
        have hst4 : (p1.parse_identifier.2.2.peek_next_token tt).2.2.next.2.stack ≠ [] := by
          rw [h4.2.stack]; exact hne
        have h3 := hL _ _ _ h (by
          show r1.2.2.stack ≠ []
          rw [(h1.frames rfl).1]; exact hst4)
        exact nests_scans_left h4 (nests_trans hst4 h2 h3)
  refine ite_ind (fun o : Option (error × parser) =>
    ∀ r, o = some r → p.nests r.2 (!r.1.failed)) _ _ _ (fun hend => ?_) (fun hend => ?_)
  · intro r h
    cases h
    have hl : p1.next.2.input.length < p.input.length := by
      rcases hcls with ⟨h1, _⟩ | ⟨c, rest, h1, _⟩
      · rw [hend] at h1; exact absurd h1 (by decide)
      · exact lt_of_lt_of_le (next_shorter p1 (by simp [h1])) (reads_length hs.1)
    exact nests_of_scans true (scans_trans hs (scans_next p1)) (fun _ => hl)
  refine ite_ind (fun o : Option (error × parser) =>
    ∀ r, o = some r → p.nests r.2 (!r.1.failed)) _ _ _ (fun hcm => ?_) (fun hcm => ?_)
  · refine ite_ind (fun o : Option (error × parser) =>
      ∀ r, o = some r → p.nests r.2 (!r.1.failed)) _ _ _ (fun hc => ?_) (fun hc => ?_)
    · exact fail_leaf _ _ rfl hs
    · intro r h
      exact nests_scans_left (scans_trans hs (scans_next p1))
        (hL _ _ _ h (by rw [(keeps_next p1).stack]; exact hst))
  · refine fail_leaf _ _ ?_ hs
    cases c <;> rfl

/-- The guarantees of the five grammar routines, at every bound on the depth. -/
theorem nests_all (e : env) (n : Nat) :
    value_nests e n ∧ frame_nests (parse_object e) n ∧ loop_nests (parse_object_loop e) n ∧
    frame_nests (parse_array e) n ∧ loop_nests (parse_array_loop e) n := by
  induction n with
  | zero =>
    refine ⟨?_, ?_, ?_, ?_, ?_⟩
    · intro result p r h; simp [parse_value] at h
    · intro p r h; simp [parse_object] at h
    · intro c p r h; simp [parse_object_loop] at h
    · intro p r h; simp [parse_array] at h
    · intro c p r h; simp [parse_array_loop] at h
  | succ n ih =>
    obtain ⟨hV, hO, hOL, hA, hAL⟩ := ih
    exact ⟨value_nests_succ e n hO hA, frame_nests_object e n hOL, loop_nests_object e n hV hOL,
      frame_nests_array e n hAL, loop_nests_array e n hV hAL⟩

theorem parse_value_nests (e : env) (n : Nat) (result : value) (p : parser)
    (r : error × value × parser) (h : parse_value e n result p = some r) :
    p.nests r.2.2 (!r.1.failed) :=
  (nests_all e n).1 result p r h

end parser

end json5

namespace json5

namespace parser

/-! ## The bound on the depth used by `parse` is never reached -/

theorem token_nonempty {p p1 : parser} {tt : token_type}
    (hcls : (tt = token_type.number ∧ p1.input.length < p.input.length) ∨
      ∃ c rest, p1.input = c :: rest ∧ tt = token_class token_type.unknown c)
    (hne : tt ≠ token_type.number) : p1.input ≠ [] := by
  rcases hcls with ⟨h1, _⟩ | ⟨c, rest, h1, _⟩
  · exact absurd h1 hne
  · simp [h1]

theorem value_total_succ (e : env) (n : Nat) (hO : frame_total (parse_object e) n)
    (hA : frame_total (parse_array e) n) : value_total e (n + 1) := by
  intro result p hn _
  rw [parse_value]
  have hs := peek_next_token_scans p token_type.unknown
  have htok := peek_next_token_token p token_type.unknown
  generalize p.peek_next_token token_type.unknown = t at hs htok ⊢
  obtain ⟨terr, tt, p1⟩ := t
  dsimp only at hs htok ⊢
  refine ite_ind (fun o : Option (error × value × parser) => o.isSome = true) _ _ _
    (fun hf => ?_) (fun hf => ?_)
  · rfl
  have hf' : terr.failed = false := by simpa using hf
  obtain ⟨hok, hcls⟩ := htok hf'
  have hlen := reads_length hs.1
  cases tt <;> dsimp only <;> try rfl
  case number => split <;> rfl
  case string => split <;> rfl
  case identifier =>
    repeat (first
      | (refine ite_ind (fun o : Option (error × value × parser) => o.isSome = true) _ _ _
          (fun _ => ?_) (fun _ => ?_))
      | rfl)
  case object_begin =>
    have h1 := hO { p1 with tobuilder := p1.tobuilder.push_object }
      (token_nonempty hcls (by decide)) (by show 3 * p1.input.length ≤ n + 1; omega)
    cases hc : parse_object e n { p1 with tobuilder := p1.tobuilder.push_object } with
    | none => rw [hc] at h1; exact Bool.noConfusion h1
    | some r1 => dsimp only; split <;> rfl
  case array_begin =>
    have h1 := hA { p1 with tobuilder := p1.tobuilder.push_array }
      (token_nonempty hcls (by decide)) (by show 3 * p1.input.length ≤ n + 1; omega)
    cases hc : parse_array e n { p1 with tobuilder := p1.tobuilder.push_array } with
    | none => rw [hc] at h1; exact Bool.noConfusion h1
    | some r1 => dsimp only; split <;> rfl

theorem frame_total_object (e : env) (n : Nat) (hL : loop_total (parse_object_loop e) n) :
    frame_total (parse_object e) (n + 1) := by
  intro p hne hn
  rw [parse_object]
  have := next_shorter p hne
  exact hL _ _ (by omega)

theorem frame_total_array (e : env) (n : Nat) (hL : loop_total (parse_array_loop e) n) :
    frame_total (parse_array e) (n + 1) := by
  intro p hne hn
  rw [parse_array]
  have := next_shorter p hne
  exact hL _ _ (by omega)

theorem loop_total_array (e : env) (n : Nat) (hV : value_total e n)
    (hL : loop_total (parse_array_loop e) n) : loop_total (parse_array_loop e) (n + 1) := by
  intro c p hn
  rw [parse_array_loop]
  refine ite_ind (fun o : Option (error × parser) => o.isSome = true) _ _ _
    (fun hf => ?_) (fun hf => ?_)
  · rfl
  have hpos : 0 < p.input.length := by
    apply List.length_pos.mpr
    simpa [eof] using hf
  have hs := peek_next_token_scans p token_type.unknown
  have htok := peek_next_token_token p token_type.unknown
  generalize p.peek_next_token token_type.unknown = t at hs htok ⊢
  obtain ⟨terr, tt, p1⟩ := t
  dsimp only at hs htok ⊢
  have hlen := reads_length hs.1
  refine ite_ind (fun o : Option (error × parser) => o.isSome = true) _ _ _
    (fun hf => ?_) (fun hf => ?_)
  · rfl
  have hf' : terr.failed = false := by simpa using hf
  obtain ⟨hok, hcls⟩ := htok hf'
  refine ite_ind (fun o : Option (error × parser) => o.isSome = true) _ _ _
    (fun hend => ?_) (fun hend => ?_)
  · rfl
  refine ite_ind (fun o : Option (error × parser) => o.isSome = true) _ _ _
    (fun hc => ?_) (fun hc => ?_)
  · refine ite_ind (fun o : Option (error × parser) => o.isSome = true) _ _ _
      (fun hcm => ?_) (fun hcm => ?_)
    · rfl
    · have hcm' : tt = token_type.comma := by simpa using hcm
      have := next_shorter p1 (token_nonempty hcls (by rw [hcm']; decide))
      exact hL _ _ (by omega)
  · have h1 := hV value.null p1 (by omega) (by omega)
    cases hv : parse_value e n value.null p1 with
    | none => rw [hv] at h1; exact Bool.noConfusion h1
    | some r1 =>
      dsimp only
      refine ite_ind (fun o : Option (error × parser) => o.isSome = true) _ _ _
        (fun hf => ?_) (fun hf => ?_)
      · rfl
      · have hf' : r1.1.failed = false := by simpa using hf
        have h2 := (parse_value_nests e n _ _ _ hv).shorter (by simp [hf'])
        exact hL _ _ (by show 3 * r1.2.2.input.length + 1 ≤ n; omega)

theorem loop_total_object (e : env) (n : Nat) (hV : value_total e n)
    (hL : loop_total (parse_object_loop e) n) : loop_total (parse_object_loop e) (n + 1) := by
  intro c p hn
  rw [parse_object_loop]
  refine ite_ind (fun o : Option (error × parser) => o.isSome = true) _ _ _
    (fun hf => ?_) (fun hf => ?_)
  · rfl
  have hpos : 0 < p.input.length := by
    apply List.length_pos.mpr
    simpa [eof] using hf
  have hs := peek_next_token_scans p token_type.unknown
  have htok := peek_next_token_token p token_type.unknown
  generalize p.peek_next_token token_type.unknown = t at hs htok ⊢
  obtain ⟨terr, tt, p1⟩ := t
  dsimp only at hs htok ⊢
  have hlen := reads_length hs.1
  refine ite_ind (fun o : Option (error × parser) => o.isSome = true) _ _ _
    (fun hf => ?_) (fun hf => ?_)
  · rfl
  have hf' : terr.failed = false := by simpa using hf
  obtain ⟨hok, hcls⟩ := htok hf'
  refine ite_ind (fun o : Option (error × parser) => o.isSome = true) _ _ _
    (fun hkey => ?_) (fun hkey => ?_)
  · refine ite_ind (fun o : Option (error × parser) => o.isSome = true) _ _ _
      (fun hc => ?_) (fun hc => ?_)
    · rfl
    have hk := reads_length (parse_identifier_scans p1).1
    refine ite_ind (fun o : Option (error × parser) => o.isSome = true) _ _ _
      (fun hf => ?_) (fun hf => ?_)
    · rfl
    have ht2 := reads_length (peek_next_token_scans p1.parse_identifier.2.2 tt).1
    refine ite_ind (fun o : Option (error × parser) => o.isSome = true) _ _ _
      (fun hf => ?_) (fun hf => ?_)
    · rfl
    refine ite_ind (fun o : Option (error × parser) => o.isSome = true) _ _ _
      (fun hf => ?_) (fun hf => ?_)
    · rfl
    have h4 := reads_length (reads_next (p1.parse_identifier.2.2.peek_next_token tt).2.2)
    have h1 := hV value.null (p1.parse_identifier.2.2.peek_next_token tt).2.2.next.2
      (by omega) (by omega)
    cases hv : parse_value e n value.null
        (p1.parse_identifier.2.2.peek_next_token tt).2.2.next.2 with
    | none => rw [hv] at h1; exact Bool.noConfusion h1
    | some r1 =>
      dsimp only
      refine ite_ind (fun o : Option (error × parser) => o.isSome = true) _ _ _
        (fun hf => ?_) (fun hf => ?_)
      · rfl
      · have hf' : r1.1.failed = false := by simpa using hf
        have h2 := (parse_value_nests e n _ _ _ hv).shorter (by simp [hf'])
        exact hL _ _ (by show 3 * r1.2.2.input.length + 1 ≤ n; omega)
  refine ite_ind (fun o : Option (error × parser) => o.isSome = true) _ _ _
    (fun hend => ?_) (fun hend => ?_)
  · rfl
  refine ite_ind (fun o : Option (error × parser) => o.isSome = true) _ _ _
    (fun hcm => ?_) (fun hcm => ?_)
  · refine ite_ind (fun o : Option (error × parser) => o.isSome = true) _ _ _
      (fun hc => ?_) (fun hc => ?_)
    · rfl
    · have := next_shorter p1 (token_nonempty hcls (by rw [hcm]; decide))
      exact hL _ _ (by omega)
  · rfl

theorem total_all (e : env) (n : Nat) :
    value_total e n ∧ frame_total (parse_object e) n ∧ loop_total (parse_object_loop e) n ∧
    frame_total (parse_array e) n ∧ loop_total (parse_array_loop e) n := by
  induction n with
  | zero =>
    refine ⟨?_, ?_, ?_, ?_, ?_⟩
    · intro result p _ h; omega
    · intro p hne h
      have := List.length_pos.mpr hne
      omega
    · intro c p h; omega
    · intro p hne h
      have := List.length_pos.mpr hne
      omega
    · intro c p h; omega
  | succ n ih =>
    obtain ⟨hV, hO, hOL, hA, hAL⟩ := ih
    exact ⟨value_total_succ e n hO hA, frame_total_object e n hOL, loop_total_object e n hV hOL,
      frame_total_array e n hAL, loop_total_array e n hV hAL⟩

theorem parse_total (e : env) (p : parser) : (p.parse e).isSome = true := by
  unfold parse
  dsimp only
  have h := (total_all e (3 * p.input.length + 1)).1
    { p with tobuilder := p.tobuilder.reset, loc := if p.input ≠ [] then ⟨1, 1, 0⟩ else ⟨0, 0, 0⟩ }.doc.to_value
    { p with tobuilder := p.tobuilder.reset, loc := if p.input ≠ [] then ⟨1, 1, 0⟩ else ⟨0, 0, 0⟩ }
    (by show 3 * p.input.length ≤ 3 * p.input.length + 1; omega) (by omega)
  revert h
  cases parse_value e (3 * p.input.length + 1)
    { p with tobuilder := p.tobuilder.reset, loc := if p.input ≠ [] then ⟨1, 1, 0⟩ else ⟨0, 0, 0⟩ }.doc.to_value
    { p with tobuilder := p.tobuilder.reset, loc := if p.input ≠ [] then ⟨1, 1, 0⟩ else ⟨0, 0, 0⟩ } with
  | none => intro h; exact Bool.noConfusion h
  | some r =>
    intro _
    dsimp only
    split
    · rfl
    · split <;> rfl

theorem from_string_total (e : env) (str : List Nat) (doc : document) :
    (from_string e str doc).isSome = true := by
  unfold from_string
  simp only [Option.isSome_map']
  exact parse_total e _

end parser

end json5

namespace json5

/-! ## Bits of a cell -/

theorem mask_is_document_eq : mask_is_document = 2 ^ 51 := by decide

theorem and_two_pow_eq_iff (x i : Nat) : x &&& 2 ^ i = 2 ^ i ↔ x.testBit i = true := by
  constructor
  · intro h
    have h1 : (x &&& 2 ^ i).testBit i = (2 ^ i).testBit i := by rw [h]
    rw [Nat.testBit_and, Nat.testBit_two_pow_self] at h1
    simpa using h1
  · intro h
    apply Nat.eq_of_testBit_eq
    intro j
    rw [Nat.testBit_and, Nat.testBit_two_pow]
    by_cases hj : i = j
    · subst hj; simp [h]
    · simp [hj]

theorem value.is_document_iff (v : value) : v.is_document = true ↔ v.data.testBit 51 = true := by
  unfold value.is_document
  rw [decide_eq_true_eq, mask_is_document_eq]
  exact and_two_pow_eq_iff _ _

theorem value.set_payload_is_document (v : value) (x : Nat) (h : v.is_document = true) :
    (v.set_payload x).is_document = true := by
  rw [value.is_document_iff] at h ⊢
  show ((v.data &&& not_mask_payload) ||| x).testBit 51 = true
  rw [Nat.testBit_or, Nat.testBit_and, h]
  have : not_mask_payload.testBit 51 = true := by decide
  simp [this]

theorem is_document_retag (v : value) (t : Nat) (h : v.is_document = true) :
    value.is_document { v with data := (v.data &&& not_mask_type) ||| t } = true := by
  rw [value.is_document_iff] at h ⊢
  show ((v.data &&& not_mask_type) ||| t).testBit 51 = true
  rw [Nat.testBit_or, Nat.testBit_and, h]
  have : not_mask_type.testBit 51 = true := by decide
  simp [this]

theorem value.relink_is_document (e : env) (prev : Option document) (doc : document) (v : value)
    (h : v.is_document = true) : (v.relink e prev doc).1.is_document = true := by
  unfold value.relink
  split
  · dsimp only
    apply is_document_retag
    cases prev with
    | none =>
      dsimp only
      split <;> exact value.set_payload_is_document _ _ h
    | some prev => exact value.set_payload_is_document _ _ h
  · split
    · apply value.set_payload_is_document
      cases prev with
      | none => exact h
      | some prev => exact value.set_payload_is_document _ _ h
    · exact h

theorem assign_root_is_document (e : env) (doc : document) (root : value) :
    (doc.assign_root e root).to_value.is_document = true := by
  unfold document.assign_root
  dsimp only
  have h1 := relink_all_frame e Option.none doc.values
    { doc with data := root.data ||| mask_is_document }
  generalize relink_all e Option.none doc.values
    { doc with data := root.data ||| mask_is_document } = r at h1
  have h0 : (document.to_value { r.2 with values := r.1 }).is_document = true := by
    rw [value.is_document_iff]
    show r.2.data.testBit 51 = true
    rw [h1.1]
    show (root.data ||| mask_is_document).testBit 51 = true
    rw [Nat.testBit_or]
    have : mask_is_document.testBit 51 = true := by decide
    simp [this]
  have h2 := value.relink_is_document e Option.none { r.2 with values := r.1 } _ h0
  exact h2

theorem small_and_mask_type (x : Nat) (h : x < 2 ^ 48) : x &&& mask_type = 0 := by
  apply Nat.eq_of_testBit_eq
  intro i
  rw [Nat.testBit_and, Nat.zero_testBit]
  by_cases hi : i < 48
  · have : mask_type.testBit i = false := by
      interval_cases i <;> decide
    simp [this]
  · have : x.testBit i = false :=
      Nat.testBit_lt_two_pow (lt_of_lt_of_le h (Nat.pow_le_pow_right (by decide) (by omega)))
    simp [this]

theorem new_string_type (off : Nat) (h : off < 2 ^ 48) :
    (builder.new_string off).data &&& mask_type = type_string_off := by
  show (type_string_off ||| off) &&& mask_type = type_string_off
  rw [Nat.and_comm, Nat.and_or_distrib_left, Nat.and_comm mask_type off, small_and_mask_type off h]
  decide

namespace parser

theorem peek_next_token_loop_tobuilder (n : Nat) (pc : comment_type) (result : token_type)
    (p : parser) : (peek_next_token_loop n pc result p).2.2.tobuilder = p.tobuilder := by
  induction n generalizing pc result p with
  | zero => rfl
  | succ n ih =>
    rw [peek_next_token_loop]
    repeat (first
      | (refine ite_ind (fun r : error × token_type × parser => r.2.2.tobuilder = p.tobuilder)
          _ _ _ (fun _ => ?_) (fun _ => ?_))
      | rfl
      | exact next_tobuilder p
      | exact (ih _ _ _).trans (next_tobuilder p)
      | exact (ih _ _ _).trans ((next_tobuilder _).trans (next_tobuilder p))
      | exact (next_tobuilder _).trans (next_tobuilder p)
      | (refine ite_ind (fun r : parser => r.tobuilder = p.tobuilder) _ _ _
          (fun _ => ?_) (fun _ => ?_)))

theorem peek_next_token_tobuilder (p : parser) (result : token_type) :
    (p.peek_next_token result).2.2.tobuilder = p.tobuilder :=
  peek_next_token_loop_tobuilder _ _ _ _

end parser

end json5

namespace json5

namespace builder

theorem pop_root_is_document (e : env) (b : builder) (h : b.stack.dropLast = []) :
    (b.pop e).1.is_document = true := by
  unfold pop
  dsimp only
  rw [if_pos (by simp [h])]
  exact assign_root_is_document e _ _

end builder

namespace parser

theorem parse_number_ok (e : env) (p : parser) (result : Nat)
    (h : (p.parse_number e result).1.failed = false) :
    ∃ s, e.from_chars s = some (p.parse_number e result).2.1 := by
  unfold parse_number at h ⊢
  dsimp only at h ⊢
  cases hc : e.from_chars (parse_number_loop p.input.length [] p).1 with
  | none => rw [hc] at h; exact Bool.noConfusion h
  | some d => exact ⟨_, hc⟩

theorem parse_string_offset (p : parser) : p.parse_string.2.1 = p.doc.strings.length := by
  unfold parse_string
  dsimp only
  have h : p.next.2.string_buffer_offset = p.doc.strings.length := by
    show p.next.2.tobuilder.doc.strings.length = p.doc.strings.length
    rw [next_tobuilder]
  split
  · exact h
  · split <;> exact h

/-- A value that `parse_value` returns with no frame open is either no container or carries
the document flag. -/
theorem parse_value_root (e : env)
    (hconv : ∀ s d, e.from_chars s = some d →
      (value.of_double d).is_array = true ∨ (value.of_double d).is_object = true →
      (value.of_double d).is_document = true)
    (n : Nat) (result : value) (p : parser) (hst : p.stack = [])
    (hstr : p.doc.strings.length < 2 ^ 48) :
    ∀ r, parse_value e n result p = some r → r.1.failed = false →
      r.2.1.is_array = true ∨ r.2.1.is_object = true → r.2.1.is_document = true := by
  cases n with
  | zero => intro r h; simp [parse_value] at h
  | succ n =>
    rw [parse_value]
    have hs := peek_next_token_scans p token_type.unknown
    have hb := peek_next_token_tobuilder p token_type.unknown
    generalize p.peek_next_token token_type.unknown = t at hs hb ⊢
    obtain ⟨terr, tt, p1⟩ := t
    dsimp only at hs hb ⊢
    have fail_leaf : ∀ (err : error) (q : parser), err.failed = true →
        ∀ r, some (err, result, q) = some r → r.1.failed = false →
        r.2.1.is_array = true ∨ r.2.1.is_object = true → r.2.1.is_document = true := by
      intro err q he r h hok
      cases h
      rw [he] at hok
      exact Bool.noConfusion hok
    have lit_leaf : ∀ (d : Nat) (l : location) (q : parser),
        (value.mk d ⟨0, 0, 0⟩).is_array = false → (value.mk d ⟨0, 0, 0⟩).is_object = false →
        ∀ r, some (error.ok, value.mk d l, q) = some r → r.1.failed = false →
        r.2.1.is_array = true ∨ r.2.1.is_object = true → r.2.1.is_document = true := by
      intro d l q h1 h2 r h _ hc
      cases h
      have g1 : (value.mk d l).is_array = false := h1
      have g2 : (value.mk d l).is_object = false := h2
      rcases hc with hc | hc
      · rw [g1] at hc; exact Bool.noConfusion hc
      · rw [g2] at hc; exact Bool.noConfusion hc
    refine ite_ind (fun o : Option (error × value × parser) =>
      ∀ r, o = some r → r.1.failed = false →
        r.2.1.is_array = true ∨ r.2.1.is_object = true → r.2.1.is_document = true) _ _ _
      (fun hf => ?_) (fun hf => ?_)
    · exact fail_leaf _ _ hf
    cases tt <;> dsimp only <;> try exact fail_leaf _ _ rfl
    case number =>
      refine ite_ind (fun o : Option (error × value × parser) =>
        ∀ r, o = some r → r.1.failed = false →
          r.2.1.is_array = true ∨ r.2.1.is_object = true → r.2.1.is_document = true) _ _ _
        (fun hf => ?_) (fun hf => ?_)
      · exact fail_leaf _ _ hf
      · intro r h _ hc
        cases h
        obtain ⟨s, hs⟩ := parse_number_ok e p1 0 (by simpa using hf)
        exact hconv s _ hs hc
    case string =>
      refine ite_ind (fun o : Option (error × value × parser) =>
        ∀ r, o = some r → r.1.failed = false →
          r.2.1.is_array = true ∨ r.2.1.is_object = true → r.2.1.is_document = true) _ _ _
        (fun hf => ?_) (fun hf => ?_)
      · exact fail_leaf _ _ hf
      · have hoff : p1.parse_string.2.1 < 2 ^ 48 := by
          rw [parse_string_offset]
          have : p1.doc = p.doc := congrArg builder.doc hb
          rw [this]
          exact hstr
        have ht := new_string_type _ hoff
        refine lit_leaf _ _ _ ?_ ?_
        · show decide ((builder.new_string p1.parse_string.2.1).data &&& mask_type = type_array)
            = false
          rw [ht]; decide
        · show decide ((builder.new_string p1.parse_string.2.1).data &&& mask_type = type_object)
            = false
          rw [ht]; decide
    case identifier =>
      repeat (first
        | (refine ite_ind (fun o : Option (error × value × parser) =>
            ∀ r, o = some r → r.1.failed = false →
              r.2.1.is_array = true ∨ r.2.1.is_object = true → r.2.1.is_document = true) _ _ _
            (fun hf => ?_) (fun hf => ?_))
        | exact fail_leaf _ _ (by assumption)
        | exact fail_leaf _ _ rfl
        | (refine lit_leaf _ _ _ ?_ ?_ <;> decide))
    case object_begin =>
      cases hc : parse_object e n { p1 with tobuilder := p1.tobuilder.push_object } with
      | none => intro r h; cases h
      | some r1 =>
        dsimp only
        have h1 := (nests_all e n).2.1 _ _ hc (by simp [builder.push_object])
        refine ite_ind (fun o : Option (error × value × parser) =>
          ∀ r, o = some r → r.1.failed = false →
            r.2.1.is_array = true ∨ r.2.1.is_object = true → r.2.1.is_document = true) _ _ _
          (fun hf => ?_) (fun hf => ?_)
        · exact fail_leaf _ _ hf
        · intro r h _ _
          cases h
          have hf' : r1.1.failed = false := by simpa using hf
          simp only [hf', Bool.not_false] at h1
          have h2 : r1.2.stack = p1.stack ++ [value.of_type value_type.object 0] :=
            (h1.frames rfl).1
          have h3 : r1.2.stack.dropLast = [] := by
            rw [h2, hs.2.stack, hst]; rfl
          exact builder.pop_root_is_document e r1.2.tobuilder h3
    case array_begin =>
      cases hc : parse_array e n { p1 with tobuilder := p1.tobuilder.push_array } with
      | none => intro r h; cases h
      | some r1 =>
        dsimp only
        have h1 := (nests_all e n).2.2.2.1 _ _ hc (by simp [builder.push_array])
        refine ite_ind (fun o : Option (error × value × parser) =>
          ∀ r, o = some r → r.1.failed = false →
            r.2.1.is_array = true ∨ r.2.1.is_object = true → r.2.1.is_document = true) _ _ _
          (fun hf => ?_) (fun hf => ?_)
        · exact fail_leaf _ _ hf
        · intro r h _ _
          cases h
          have hf' : r1.1.failed = false := by simpa using hf
          simp only [hf', Bool.not_false] at h1
          have h2 : r1.2.stack = p1.stack ++ [value.of_type value_type.array 0] :=
            (h1.frames rfl).1
          have h3 : r1.2.stack.dropLast = [] := by
            rw [h2, hs.2.stack, hst]; rfl
          exact builder.pop_root_is_document e r1.2.tobuilder h3

end parser

end json5

namespace json5

theorem type_null_not_container :
    (value.mk type_null ⟨0, 0, 0⟩).is_object = false ∧
    (value.mk type_null ⟨0, 0, 0⟩).is_array = false := by decide

theorem error.failed_iff (err : error) : err.failed = true ↔ err.type ≠ error_kind.none := by
  simp [error.failed]

theorem parser.parse_root (e : env) (p : parser) (hst : p.stack = [])
    (hconv : ∀ s d, e.from_chars s = some d →
      (value.of_double d).is_array = true ∨ (value.of_double d).is_object = true →
      (value.of_double d).is_document = true) :
    ∃ err q, p.parse e = some (err, q) ∧
      (err.type = error_kind.none →
        (q.doc.to_value.is_object = true ∨ q.doc.to_value.is_array = true) ∧
        q.doc.to_value.is_document = true) ∧
      (err.type ≠ error_kind.none →
        q.doc.to_value.is_object = false ∧ q.doc.to_value.is_array = false) := by
  unfold parser.parse
  dsimp only
  split
  · rename_i heq
    refine absurd heq (Option.ne_none_iff_isSome.mpr ?_)
    exact (parser.total_all e _).1 _ _ (Nat.le_succ _) (Nat.succ_pos _)
  · rename_i r heq
    have hn := parser.parse_value_nests e _ _ _ _ heq
    have hr : r.1.failed = false → r.2.1.is_array = true ∨ r.2.1.is_object = true →
        r.2.1.is_document = true := by
      refine parser.parse_value_root e hconv _ _ _ ?_ ?_ r heq
      · exact hst
      · show 1 < 2 ^ 48
        decide
    by_cases hf : r.1.failed = true
    · rw [if_pos hf]
      refine ⟨_, _, rfl, ?_, ?_⟩
      · intro h
        exact absurd h ((error.failed_iff _).mp hf)
      · intro _
        have hd : r.2.2.doc.data = type_null := hn.doc_data (Or.inr (by simp [hf]))
        constructor
        · show decide (r.2.2.doc.data &&& mask_type = type_object) = false
          rw [hd]; decide
        · show decide (r.2.2.doc.data &&& mask_type = type_array) = false
          rw [hd]; decide
    · rw [if_neg hf]
      have hf' : r.1.failed = false := by simpa using hf
      have hr' := hr hf'
      by_cases hc : (!(value.mk r.2.1.data r.2.1.loc).is_array &&
          !(value.mk r.2.1.data r.2.1.loc).is_object) = true
      · have hc' : (!(document.to_value { r.2.2.doc with data := r.2.1.data, loc := r.2.1.loc }).is_array &&
            !(document.to_value { r.2.2.doc with data := r.2.1.data, loc := r.2.1.loc }).is_object)
            = true := hc
        rw [if_pos hc']
        refine ⟨_, _, rfl, ?_, ?_⟩
        · intro h
          exact absurd h (by simp [parser.make_error])
        · intro _
          simp only [Bool.and_eq_true, Bool.not_eq_true'] at hc
          exact ⟨hc.2, hc.1⟩
      · have hc' : ¬ (!(document.to_value { r.2.2.doc with data := r.2.1.data, loc := r.2.1.loc }).is_array &&
            !(document.to_value { r.2.2.doc with data := r.2.1.data, loc := r.2.1.loc }).is_object)
            = true := hc
        rw [if_neg hc']
        refine ⟨_, _, rfl, ?_, ?_⟩
        · intro _
          simp only [Bool.and_eq_true, Bool.not_eq_true', not_and, Bool.not_eq_false] at hc
          have hco : (value.mk r.2.1.data r.2.1.loc).is_array = true ∨
              (value.mk r.2.1.data r.2.1.loc).is_object = true := by
            by_cases ha : (value.mk r.2.1.data r.2.1.loc).is_array = true
            · exact Or.inl ha
            · exact Or.inr (hc (by simpa using ha))
          exact ⟨hco.symm, hr' hco⟩
        · intro h
          exact absurd rfl h

/-- C1: for every input text, `from_string` returns, and it returns `error::none` only if the
document is afterwards an object or an array and carries the document flag, and whenever it
returns an error the document is neither an object nor an array.  The floating-point
conversion of the C++ library is a parameter; it is assumed not to produce a bit pattern that
carries a container tag without the quiet-NaN bit, which is the bit of the document flag. -/
theorem from_string_root_contract (e : env) (str : List Nat) (doc : document)
    (hconv : ∀ s d, e.from_chars s = some d →
      (value.of_double d).is_array = true ∨ (value.of_double d).is_object = true →
      (value.of_double d).is_document = true) :
    ∃ err doc1, from_string e str doc = some (err, doc1) ∧
      (err.type = error_kind.none →
        (doc1.to_value.is_object = true ∨ doc1.to_value.is_array = true) ∧
        doc1.to_value.is_document = true) ∧
      (err.type ≠ error_kind.none →
        doc1.to_value.is_object = false ∧ doc1.to_value.is_array = false) := by
  obtain ⟨err, q, h1, h2, h3⟩ := parser.parse_root e
    { doc := doc, stack := [], values := [], counts := [], input := str, loc := ⟨0, 0, 0⟩ }
    rfl hconv
  refine ⟨err, q.doc, ?_, h2, h3⟩
  unfold from_string
  dsimp only
  rw [h1]
  rfl

end json5

namespace json5

/-! ## Counts stored as doubles -/

theorem high_bit_spec (fuel n : Nat) (h0 : 0 < n) (h : n < 2 ^ fuel) :
    2 ^ high_bit fuel n ≤ n ∧ n < 2 ^ (high_bit fuel n + 1) := by
  induction fuel generalizing n with
  | zero => simp at h; omega
  | succ f ih =>
    rw [high_bit]
    split
    · constructor <;> simp <;> omega
    · rename_i h2
      have h3 : 0 < n / 2 := by omega
      have h4 : n / 2 < 2 ^ f := by
        rw [Nat.pow_succ] at h
        omega
      obtain ⟨g1, g2⟩ := ih (n / 2) h3 h4
      constructor
      · rw [Nat.pow_succ]; omega
      · rw [Nat.pow_succ]; omega

theorem double_of_size_small (n : Nat) (h0 : 0 < n) (h : n < 2 ^ 53) :
    ∃ ex m, double_of_size n = (1023 + ex) * 2 ^ 52 + m ∧ ex ≤ 52 ∧ m < 2 ^ 52 ∧
      n * 2 ^ (52 - ex) = 2 ^ 52 + m := by
  obtain ⟨g1, g2⟩ := high_bit_spec 64 n h0 (lt_trans h (by decide))
  have he : high_bit 64 n ≤ 52 := by
    by_contra hc
    have : 2 ^ 53 ≤ 2 ^ high_bit 64 n := Nat.pow_le_pow_right (by decide) (by omega)
    omega
  refine ⟨high_bit 64 n, n * 2 ^ (52 - high_bit 64 n) - 2 ^ 52, ?_, he, ?_, ?_⟩
  · unfold double_of_size
    rw [if_neg (by omega)]
    dsimp only
    rw [if_pos he]
  · have : n * 2 ^ (52 - high_bit 64 n) < 2 ^ (high_bit 64 n + 1) * 2 ^ (52 - high_bit 64 n) :=
      Nat.mul_lt_mul_of_lt_of_le g2 (le_refl _) (Nat.pow_pos (by decide))
    rw [← Nat.pow_add] at this
    have e1 : high_bit 64 n + 1 + (52 - high_bit 64 n) = 53 := by omega
    rw [e1] at this
    omega
  · have : 2 ^ high_bit 64 n * 2 ^ (52 - high_bit 64 n) ≤ n * 2 ^ (52 - high_bit 64 n) :=
      Nat.mul_le_mul_right _ g1
    rw [← Nat.pow_add] at this
    have e1 : high_bit 64 n + (52 - high_bit 64 n) = 52 := by omega
    rw [e1] at this
    omega

theorem double_of_size_lt (n : Nat) (h : n < 2 ^ 53) : double_of_size n < 2 ^ 63 := by
  by_cases h0 : n = 0
  · subst h0; decide
  · obtain ⟨ex, m, h1, h2, h3, _⟩ := double_of_size_small n (by omega) h
    rw [h1]
    have : (1023 + ex) * 2 ^ 52 ≤ 1075 * 2 ^ 52 := Nat.mul_le_mul_right _ (by omega)
    have e : (2:Nat) ^ 63 = 2048 * 2 ^ 52 := by decide
    omega

theorem size_of_double_of_size (n : Nat) (h : n < 2 ^ 53) :
    size_of_double (double_of_size n) = n := by
  by_cases h0 : n = 0
  · subst h0; decide
  · obtain ⟨ex, m, h1, h2, h3, h4⟩ := double_of_size_small n (by omega) h
    have hlt := double_of_size_lt n h
    rw [h1] at hlt ⊢
    unfold size_of_double
    have hs : ((1023 + ex) * 2 ^ 52 + m) / 2 ^ 63 = 0 := Nat.div_eq_of_lt hlt
    have hd : ((1023 + ex) * 2 ^ 52 + m) / 2 ^ 52 = 1023 + ex := by
      rw [Nat.add_comm, Nat.add_mul_div_right _ _ (Nat.pow_pos (by decide)),
        Nat.div_eq_of_lt h3, Nat.zero_add]
    have hm : ((1023 + ex) * 2 ^ 52 + m) % 2 ^ 52 = m := by
      rw [Nat.add_comm, Nat.add_mul_mod_self_right, Nat.mod_eq_of_lt h3]
    have he : (1023 + ex) % 2 ^ 11 = 1023 + ex := Nat.mod_eq_of_lt (by
      have : (2:Nat) ^ 11 = 2048 := by decide
      omega)
    dsimp only
    rw [hs, hd, hm, he]
    rw [if_neg (by omega)]
    by_cases h52 : ex = 52
    · subst h52
      rw [if_pos (by omega)]
      simp at h4 ⊢
      omega
    · rw [if_neg (by omega)]
      have e1 : 1075 - (1023 + ex) = 52 - ex := by omega
      rw [e1, ← h4]
      exact Nat.mul_div_cancel _ (Nat.pow_pos (by decide))

theorem lt_two_pow_63_is_number (d : Nat) (h : d < 2 ^ 63) :
    (value.of_double d).is_number = true := by
  unfold value.is_number value.of_double
  rw [decide_eq_true_eq]
  dsimp only
  intro hc
  have h1 : (d &&& mask_nanbits).testBit 63 = mask_nanbits.testBit 63 := by rw [hc]
  rw [Nat.testBit_and, Nat.testBit_lt_two_pow h] at h1
  have : mask_nanbits.testBit 63 = true := by decide
  rw [this] at h1
  simp at h1

theorem is_number_not_tagged (v : value) (h : v.is_number = true) (t : Nat)
    (ht : t &&& mask_nanbits = mask_nanbits) (hm : mask_type &&& mask_nanbits = mask_nanbits) :
    ¬ (v.data &&& mask_type = t) := by
  intro hc
  unfold value.is_number at h
  rw [decide_eq_true_eq] at h
  apply h
  have : (v.data &&& mask_type) &&& mask_nanbits = t &&& mask_nanbits := by rw [hc]
  rw [Nat.and_assoc, hm, ht] at this
  exact this

theorem is_number_not_container (v : value) (h : v.is_number = true) :
    v.is_array = false ∧ v.is_object = false := by
  constructor
  · unfold value.is_array
    rw [decide_eq_false_iff_not]
    exact is_number_not_tagged v h _ (by decide) (by decide)
  · unfold value.is_object
    rw [decide_eq_false_iff_not]
    exact is_number_not_tagged v h _ (by decide) (by decide)

theorem example_from_chars_is_number (s : List Nat) (d : Nat)
    (h : example_env.from_chars s = some d) : (value.of_double d).is_number = true := by
  have h' : example_from_chars s = some d := h
  unfold example_from_chars at h'
  split at h'
  · exact absurd h' (by simp)
  · split at h'
    · split at h'
      · rename_i n _ hn
        have : double_of_size n = d := by simpa using h'
        rw [← this]
        exact lt_two_pow_63_is_number _ (double_of_size_lt n hn)
      · exact absurd h' (by simp)
    · exact absurd h' (by simp)

theorem example_env_conv (s : List Nat) (d : Nat) (h : example_env.from_chars s = some d) :
    (value.of_double d).is_array = true ∨ (value.of_double d).is_object = true →
    (value.of_double d).is_document = true := by
  intro hc
  obtain ⟨h1, h2⟩ := is_number_not_container _ (example_from_chars_is_number s d h)
  rcases hc with hc | hc
  · rw [h1] at hc; exact Bool.noConfusion hc
  · rw [h2] at hc; exact Bool.noConfusion hc

/-- Witness of C1 on the text `{a:1, b:2,}`. -/
theorem from_string_root_contract_witness :
    ∃ err doc1, from_string example_env (bytes "\x7ba:1, b:2,\x7d") example_doc = some (err, doc1) ∧
      (err.type = error_kind.none →
        (doc1.to_value.is_object = true ∨ doc1.to_value.is_array = true) ∧
        doc1.to_value.is_document = true) ∧
      (err.type ≠ error_kind.none →
        doc1.to_value.is_object = false ∧ doc1.to_value.is_array = false) :=
  from_string_root_contract example_env (bytes "\x7ba:1, b:2,\x7d") example_doc example_env_conv

end json5

namespace json5

namespace parser

/-! ## Explicit scanning states -/

theorem with_scan_nil (p : parser) : p.with_scan [] p.input [] = p := by
  simp [with_scan, location.advance]

theorem with_scan_with_scan (p : parser) (c1 r1 a1 c2 r2 a2 : List Nat) :
    (p.with_scan c1 r1 a1).with_scan c2 r2 a2 = p.with_scan (c1 ++ c2) r2 (a1 ++ a2) := by
  simp [with_scan, location.advance_append]

@[simp] theorem with_scan_input (p : parser) (c r a : List Nat) :
    (p.with_scan c r a).input = r := rfl

@[simp] theorem with_scan_strings (p : parser) (c r a : List Nat) :
    (p.with_scan c r a).doc.strings = p.doc.strings ++ a := rfl

@[simp] theorem with_scan_loc (p : parser) (c r a : List Nat) :
    (p.with_scan c r a).loc = p.loc.advance c := rfl

theorem next_with_scan (p : parser) (c : Nat) (rest : List Nat) (h : p.input = c :: rest) :
    p.next = ((c : Int), p.with_scan [c] rest []) := by
  rw [next_cons p c rest h]
  simp [with_scan, location.advance]

theorem add_with_scan (p : parser) (ch : Nat) : p.add ch = p.with_scan [] p.input [ch] := by
  simp [add, with_scan, builder.string_buffer_add, location.advance]

theorem next_add_with_scan (p : parser) (c : Nat) (rest : List Nat) (b : Nat)
    (h : p.input = c :: rest) : p.next.2.add b = p.with_scan [c] rest [b] := by
  rw [next_with_scan p c rest h, add_with_scan]
  simp [with_scan_with_scan]

theorem eof_cons (p : parser) (c : Nat) (rest : List Nat) (h : p.input = c :: rest) :
    p.eof = false := by simp [eof, h]

/-! ## The body of a quoted string -/

theorem items_source_cons (it : str_item) (its : List str_item) :
    items_source (it :: its) = it.source ++ items_source its := by
  simp [items_source]

theorem items_decoded_cons (it : str_item) (its : List str_item) :
    items_decoded (it :: its) = it.decoded ++ items_decoded its := by
  simp [items_decoded]

theorem simple_escape_cases (c : Nat) (h : (simple_escape c).isSome = true) :
    c = 116 ∨ c = 110 ∨ c = 114 ∨ c = 98 ∨ c = 92 ∨ c = 39 ∨ c = 34 ∨ c = 47 ∨ c = 48 := by
  unfold simple_escape at h
  by_contra hc
  simp only [not_or] at hc
  obtain ⟨h1, h2, h3, h4, h5, h6, h7, h8, h9⟩ := hc
  simp [h1, h2, h3, h4, h5, h6, h7, h8, h9] at h

/-- One step of the loop of `parse_string` on an unescaped byte. -/
theorem parse_string_loop_plain (n : Nat) (sq : Bool) (p : parser) (c : Nat) (rest : List Nat)
    (h : p.input = c :: rest) (h92 : c ≠ 92) (hq : c ≠ (if sq then 39 else 34)) :
    parse_string_loop (n + 1) sq p = parse_string_loop n sq (p.with_scan [c] rest [c]) := by
  rw [parse_string_loop, eof_cons p c rest h, peek_cons p c rest h]
  have h1 : ¬ ((sq = true ∧ (c : Int) = 39) ∨ (sq = false ∧ (c : Int) = 34)) := by
    cases sq <;> simp at hq ⊢ <;> exact_mod_cast hq
  have h2 : ¬ ((c : Int) = 92) := by exact_mod_cast h92
  simp only [Bool.false_eq_true, if_false, if_neg h1, if_neg h2]
  rw [next_with_scan p c rest h]
  simp only [to_byte_cast]
  rw [add_with_scan, with_scan_with_scan]
  simp

/-- One step of the loop of `parse_string` on the closing quote. -/
theorem parse_string_loop_quote (n : Nat) (sq : Bool) (p : parser) (rest : List Nat)
    (h : p.input = (if sq then 39 else 34) :: rest) :
    parse_string_loop (n + 1) sq p =
      (Option.none, p.with_scan [if sq then 39 else 34] rest []) := by
  rw [parse_string_loop, eof_cons p _ rest h, peek_cons p _ rest h]
  have h1 : ((sq = true ∧ (((if sq then 39 else 34 : Nat)) : Int) = 39) ∨
      (sq = false ∧ (((if sq then 39 else 34 : Nat)) : Int) = 34)) := by
    cases sq <;> simp
  simp only [Bool.false_eq_true, if_false, if_pos h1]
  rw [next_with_scan p _ rest h]

/-- One step of the loop of `parse_string` on a backslash followed by a newline. -/
theorem parse_string_loop_continuation (n : Nat) (sq : Bool) (p : parser) (rest : List Nat)
    (h : p.input = 92 :: 10 :: rest) :
    parse_string_loop (n + 1) sq p = parse_string_loop n sq (p.with_scan [92, 10] rest []) := by
  rw [parse_string_loop, eof_cons p _ _ h, peek_cons p _ _ h]
  have h1 : ¬ ((sq = true ∧ ((92 : Nat) : Int) = 39) ∨ (sq = false ∧ ((92 : Nat) : Int) = 34)) := by
    cases sq <;> simp
  simp only [Bool.false_eq_true, if_false, if_neg h1]
  rw [next_with_scan p _ _ h]
  have hi : (p.with_scan [92] (10 :: rest) []).input = 10 :: rest := rfl
  simp only [Nat.cast_ofNat, if_true, peek_cons _ _ _ hi, true_or]
  rw [next_with_scan _ _ _ hi, with_scan_with_scan]
  rfl

/-- One step of the loop of `parse_string` on a simple escape. -/
theorem parse_string_loop_escape (n : Nat) (sq : Bool) (p : parser) (c b : Nat)
    (rest : List Nat) (h : p.input = 92 :: c :: rest) (hb : simple_escape c = some b) :
    parse_string_loop (n + 1) sq p = parse_string_loop n sq (p.with_scan [92, c] rest [b]) := by
  rw [parse_string_loop, eof_cons p _ _ h, peek_cons p _ _ h]
  have h1 : ¬ ((sq = true ∧ ((92 : Nat) : Int) = 39) ∨ (sq = false ∧ ((92 : Nat) : Int) = 34)) := by
    cases sq <;> simp
  simp only [Bool.false_eq_true, if_false, if_neg h1]
  rw [next_with_scan p _ _ h]
  have hi : (p.with_scan [92] (c :: rest) []).input = c :: rest := rfl
  simp only [Nat.cast_ofNat, if_true, peek_cons _ _ _ hi]
  have hc := simple_escape_cases c (by rw [hb]; rfl)
  rcases hc with hc | hc | hc | hc | hc | hc | hc | hc | hc <;> subst hc <;>
    simp only [simple_escape] at hb <;> simp at hb <;> subst hb <;>
    simp [next_add_with_scan _ _ _ _ hi, with_scan_with_scan]

end parser

end json5

namespace json5

namespace parser

theorem parse_string_loop_items (sq : Bool) (items : List str_item)
    (hok : ∀ it ∈ items, it.ok (if sq then 39 else 34)) (p : parser) (n : Nat)
    (rest : List Nat)
    (h : p.input = items_source items ++ (if sq then 39 else 34) :: rest)
    (hn : p.input.length ≤ n) :
    parse_string_loop n sq p =
      (Option.none, p.with_scan (items_source items ++ [if sq then 39 else 34]) rest
        (items_decoded items)) := by
  induction items generalizing p n with
  | nil =>
    have h' : p.input = (if sq then 39 else 34) :: rest := by simpa [items_source] using h
    obtain ⟨m, rfl⟩ : ∃ m, n = m + 1 := ⟨n - 1, by rw [h'] at hn; simp at hn; omega⟩
    rw [parse_string_loop_quote m sq p rest h']
    simp [items_source, items_decoded]
  | cons it its ih =>
    have hok' : ∀ it ∈ its, it.ok (if sq then 39 else 34) :=
      fun x hx => hok x (List.mem_cons_of_mem _ hx)
    have hit := hok it (List.mem_cons_self _ _)
    rw [items_source_cons] at h
    obtain ⟨m, rfl⟩ : ∃ m, n = m + 1 := by
      refine ⟨n - 1, ?_⟩
      have : 0 < p.input.length := by
        rw [h]; cases it <;> simp [str_item.source]
      omega
    rw [items_source_cons, items_decoded_cons]
    cases it with
    | plain c =>
      have h' : p.input = c :: (items_source its ++ (if sq then 39 else 34) :: rest) := by
        simpa [str_item.source] using h
      rw [parse_string_loop_plain m sq p c _ h' hit.1 hit.2]
      rw [ih hok' _ m (by simp) (by rw [h'] at hn; simp at hn ⊢; omega)]
      simp [with_scan_with_scan, str_item.source, str_item.decoded]
    | escape c =>
      have h' : p.input = 92 :: c :: (items_source its ++ (if sq then 39 else 34) :: rest) := by
        simpa [str_item.source] using h
      obtain ⟨b, hb⟩ := Option.isSome_iff_exists.mp hit
      rw [parse_string_loop_escape m sq p c b _ h' hb]
      rw [ih hok' _ m (by simp) (by rw [h'] at hn; simp at hn ⊢; omega)]
      simp [with_scan_with_scan, str_item.source, str_item.decoded, hb]
    | continuation =>
      have h' : p.input = 92 :: 10 :: (items_source its ++ (if sq then 39 else 34) :: rest) := by
        simpa [str_item.source] using h
      rw [parse_string_loop_continuation m sq p _ h']
      rw [ih hok' _ m (by simp) (by rw [h'] at hn; simp at hn ⊢; omega)]
      simp [with_scan_with_scan, str_item.source, str_item.decoded]

/-- The whole of `parse_string` on a quoted string made of well-formed pieces. -/
theorem parse_string_items (sq : Bool) (items : List str_item)
    (hok : ∀ it ∈ items, it.ok (if sq then 39 else 34)) (p : parser) (rest : List Nat)
    (h : p.input = (if sq then 39 else 34) :: (items_source items ++
      (if sq then 39 else 34) :: rest)) :
    p.parse_string =
      if rest = [] then
        ((p.with_scan ((if sq then 39 else 34) :: (items_source items ++
            [if sq then 39 else 34])) rest (items_decoded items)).make_error
            error_kind.unexpected_end,
          p.doc.strings.length,
          p.with_scan ((if sq then 39 else 34) :: (items_source items ++
            [if sq then 39 else 34])) rest (items_decoded items))
      else
        (error.ok, p.doc.strings.length,
          p.with_scan ((if sq then 39 else 34) :: (items_source items ++
            [if sq then 39 else 34])) rest (items_decoded items ++ [0])) := by
  unfold parse_string
  dsimp only
  have hsq : decide (p.peek = 39) = sq := by
    rw [peek_cons p _ _ h]
    cases sq <;> simp
  rw [hsq, next_with_scan p _ _ h]
  dsimp only
  rw [parse_string_loop_items sq items hok _ _ rest (by simp) (le_refl _)]
  dsimp only
  rw [with_scan_with_scan]
  by_cases hr : rest = []
  · subst hr
    simp [eof, builder.string_buffer_offset, with_scan]
  · rw [if_neg hr]
    have : (p.with_scan ([if sq then 39 else 34] ++ (items_source items ++
        [if sq then 39 else 34])) rest ([] ++ items_decoded items)).eof = false := by
      simp [eof, hr]
    rw [this]
    simp [add_with_scan, with_scan_with_scan, builder.string_buffer_offset, with_scan,
      location.advance]

end parser

end json5

namespace json5

namespace parser

/-! ## A larger bound on the depth does not change a result -/

theorem parse_value_mono_succ (e : env) (n : Nat)
    (hO : ∀ p x, parse_object e n p = some x → parse_object e (n + 1) p = some x)
    (hA : ∀ p x, parse_array e n p = some x → parse_array e (n + 1) p = some x) :
    ∀ result p x, parse_value e (n + 1) result p = some x →
      parse_value e (n + 1 + 1) result p = some x := by
  intro result p x h
  rw [parse_value] at h ⊢
  generalize p.peek_next_token token_type.unknown = t at h ⊢
  obtain ⟨terr, tt, p1⟩ := t
  dsimp only at h ⊢
  by_cases hf : terr.failed = true
  · rw [if_pos hf] at h ⊢; exact h
  · rw [if_neg hf] at h ⊢
    cases tt <;> dsimp only at h ⊢ <;> try exact h
    · cases hc : parse_object e n { p1 with tobuilder := p1.tobuilder.push_object } with
      | none => rw [hc] at h; cases h
      | some r => rw [hc] at h; rw [hO _ _ hc]; exact h
    · cases hc : parse_array e n { p1 with tobuilder := p1.tobuilder.push_array } with
      | none => rw [hc] at h; cases h
      | some r => rw [hc] at h; rw [hA _ _ hc]; exact h

theorem parse_array_loop_mono_succ (e : env) (n : Nat)
    (hV : ∀ result p x, parse_value e n result p = some x →
      parse_value e (n + 1) result p = some x)
    (hL : ∀ c p x, parse_array_loop e n c p = some x → parse_array_loop e (n + 1) c p = some x) :
    ∀ c p x, parse_array_loop e (n + 1) c p = some x →
      parse_array_loop e (n + 1 + 1) c p = some x := by
  intro c p x h
  rw [parse_array_loop] at h ⊢
  by_cases he : p.eof = true
  · rw [if_pos he] at h ⊢; exact h
  rw [if_neg he] at h ⊢
  generalize p.peek_next_token token_type.unknown = t at h ⊢
  obtain ⟨terr, tt, p1⟩ := t
  dsimp only at h ⊢
  by_cases hf : terr.failed = true
  · rw [if_pos hf] at h ⊢; exact h
  rw [if_neg hf] at h ⊢
  by_cases hend : tt = token_type.array_end
  · rw [if_pos hend] at h ⊢; exact h
  rw [if_neg hend] at h ⊢
  by_cases hc : c = true
  · rw [if_pos hc] at h ⊢
    by_cases hcm : tt ≠ token_type.comma
    · rw [if_pos hcm] at h ⊢; exact h
    · rw [if_neg hcm] at h ⊢; exact hL _ _ _ h
  · rw [if_neg hc] at h ⊢
    cases hv : parse_value e n value.null p1 with
    | none => rw [hv] at h; cases h
    | some r =>
      rw [hv] at h
      rw [hV _ _ _ hv]
      dsimp only at h ⊢
      by_cases hf2 : r.1.failed = true
      · rw [if_pos hf2] at h ⊢; exact h
      · rw [if_neg hf2] at h ⊢; exact hL _ _ _ h

theorem parse_object_loop_mono_succ (e : env) (n : Nat)
    (hV : ∀ result p x, parse_value e n result p = some x →
      parse_value e (n + 1) result p = some x)
    (hL : ∀ c p x, parse_object_loop e n c p = some x →
      parse_object_loop e (n + 1) c p = some x) :
    ∀ c p x, parse_object_loop e (n + 1) c p = some x →
      parse_object_loop e (n + 1 + 1) c p = some x := by
  intro c p x h
  rw [parse_object_loop] at h ⊢
  by_cases he : p.eof = true
  · rw [if_pos he] at h ⊢; exact h
  rw [if_neg he] at h ⊢
  generalize p.peek_next_token token_type.unknown = t at h ⊢
  obtain ⟨terr, tt, p1⟩ := t
  dsimp only at h ⊢
  by_cases hf : terr.failed = true
  · rw [if_pos hf] at h ⊢; exact h
  rw [if_neg hf] at h ⊢
  by_cases hkey : tt = token_type.identifier ∨ tt = token_type.string
  · rw [if_pos hkey] at h ⊢
    by_cases hc : c = true
    · rw [if_pos hc] at h ⊢; exact h
    rw [if_neg hc] at h ⊢
    by_cases hk : p1.parse_identifier.1.failed = true
    · rw [if_pos hk] at h ⊢; exact h
    rw [if_neg hk] at h ⊢
    by_cases ht2 : (p1.parse_identifier.2.2.peek_next_token tt).1.failed = true
    · rw [if_pos ht2] at h ⊢; exact h
    rw [if_neg ht2] at h ⊢
    by_cases hcol : (p1.parse_identifier.2.2.peek_next_token tt).2.1 ≠ token_type.colon
    · rw [if_pos hcol] at h ⊢; exact h
    rw [if_neg hcol] at h ⊢
    cases hv : parse_value e n value.null
        (p1.parse_identifier.2.2.peek_next_token tt).2.2.next.2 with
    | none => rw [hv] at h; cases h
    | some r =>
      rw [hv] at h
      rw [hV _ _ _ hv]
      dsimp only at h ⊢
      by_cases hf2 : r.1.failed = true
      · rw [if_pos hf2] at h ⊢; exact h
      · rw [if_neg hf2] at h ⊢; exact hL _ _ _ h
  rw [if_neg hkey] at h ⊢
  by_cases hend : tt = token_type.object_end
  · rw [if_pos hend] at h ⊢; exact h
  rw [if_neg hend] at h ⊢
  by_cases hcm : tt = token_type.comma
  · rw [if_pos hcm] at h ⊢
    by_cases hc : (!c) = true
    · rw [if_pos hc] at h ⊢; exact h
    · rw [if_neg hc] at h ⊢; exact hL _ _ _ h
  · rw [if_neg hcm] at h ⊢; exact h

theorem mono_succ_all (e : env) (n : Nat) :
    (∀ result p x, parse_value e n result p = some x →
      parse_value e (n + 1) result p = some x) ∧
    (∀ p x, parse_object e n p = some x → parse_object e (n + 1) p = some x) ∧
    (∀ c p x, parse_object_loop e n c p = some x → parse_object_loop e (n + 1) c p = some x) ∧
    (∀ p x, parse_array e n p = some x → parse_array e (n + 1) p = some x) ∧
    (∀ c p x, parse_array_loop e n c p = some x → parse_array_loop e (n + 1) c p = some x) := by
  induction n with
  | zero =>
    refine ⟨?_, ?_, ?_, ?_, ?_⟩
    · intro result p x h; simp [parse_value] at h
    · intro p x h; simp [parse_object] at h
    · intro c p x h; simp [parse_object_loop] at h
    · intro p x h; simp [parse_array] at h
    · intro c p x h; simp [parse_array_loop] at h
  | succ n ih =>
    obtain ⟨hV, hO, hOL, hA, hAL⟩ := ih
    refine ⟨parse_value_mono_succ e n hO hA, ?_, parse_object_loop_mono_succ e n hV hOL, ?_,
      parse_array_loop_mono_succ e n hV hAL⟩
    · intro p x h
      rw [parse_object] at h ⊢
      exact hOL _ _ _ h
    · intro p x h
      rw [parse_array] at h ⊢
      exact hAL _ _ _ h

theorem parse_value_mono (e : env) (n m : Nat) (hnm : n ≤ m) (result : value) (p : parser)
    (x : error × value × parser) (h : parse_value e n result p = some x) :
    parse_value e m result p = some x := by
  induction m with
  | zero =>
    have : n = 0 := by omega
    subst this; exact h
  | succ m ih =>
    by_cases hm : n = m + 1
    · subst hm; exact h
    · exact (mono_succ_all e m).1 _ _ _ (ih (by omega))

theorem parse_object_loop_mono (e : env) (n m : Nat) (hnm : n ≤ m) (c : Bool) (p : parser)
    (x : error × parser) (h : parse_object_loop e n c p = some x) :
    parse_object_loop e m c p = some x := by
  induction m with
  | zero =>
    have : n = 0 := by omega
    subst this; exact h
  | succ m ih =>
    by_cases hm : n = m + 1
    · subst hm; exact h
    · exact (mono_succ_all e m).2.2.1 _ _ _ (ih (by omega))

theorem parse_array_loop_mono (e : env) (n m : Nat) (hnm : n ≤ m) (c : Bool) (p : parser)
    (x : error × parser) (h : parse_array_loop e n c p = some x) :
    parse_array_loop e m c p = some x := by
  induction m with
  | zero =>
    have : n = 0 := by omega
    subst this; exact h
  | succ m ih =>
    by_cases hm : n = m + 1
    · subst hm; exact h
    · exact (mono_succ_all e m).2.2.2.2 _ _ _ (ih (by omega))

end parser

end json5

namespace json5

namespace parser

/-! ## Errors travel up the spine -/

theorem peek_next_token_eof (p : parser) (result : token_type) (h : p.eof = true) :
    (p.peek_next_token result).1.failed = true := by
  unfold peek_next_token
  cases hn : p.input.length with
  | zero => rfl
  | succ n => rw [peek_next_token_loop, if_pos h]; rfl

theorem not_eof_of_token (p : parser) (result : token_type)
    (h : (p.peek_next_token result).1.failed = false) : ¬ (p.eof = true) := by
  intro he
  rw [peek_next_token_eof p result he] at h
  exact Bool.noConfusion h

theorem not_failed (err : error) (h : err.failed = false) : ¬ (err.failed = true) := by
  rw [h]; exact Bool.noConfusion

theorem on_spine_fails (e : env) (p0 : parser) (c : call) (err : error)
    (hs : on_spine e p0 c) (hf : c.fails e err) :
    (call.value p0.doc.to_value p0).fails e err := by
  induction hs with
  | root => exact hf
  | object_begin result p _ hok htt ih =>
    apply ih
    obtain ⟨herr, n, q, hq⟩ := hf
    refine ⟨herr, n + 1 + 1, result, q, ?_⟩
    rw [parse_value]
    dsimp only
    rw [if_neg (not_failed _ hok), htt]
    dsimp only
    rw [parse_object, hq]
    dsimp only
    rw [if_pos herr]
  | array_begin result p _ hok htt ih =>
    apply ih
    obtain ⟨herr, n, q, hq⟩ := hf
    refine ⟨herr, n + 1 + 1, result, q, ?_⟩
    rw [parse_value]
    dsimp only
    rw [if_neg (not_failed _ hok), htt]
    dsimp only
    rw [parse_array, hq]
    dsimp only
    rw [if_pos herr]
  | array_comma p _ hok htt ih =>
    apply ih
    obtain ⟨herr, n, q, hq⟩ := hf
    refine ⟨herr, n + 1, q, ?_⟩
    rw [parse_array_loop]
    rw [if_neg (not_eof_of_token p _ hok)]
    dsimp only
    rw [if_neg (not_failed _ hok), htt]
    simp only [reduceCtorEq, if_false, if_true, ne_eq, not_true_eq_false]
    exact hq
  | array_element p _ hok htt ih =>
    apply ih
    obtain ⟨herr, n, v, q, hq⟩ := hf
    refine ⟨herr, n + 1, q, ?_⟩
    rw [parse_array_loop]
    rw [if_neg (not_eof_of_token p _ hok)]
    dsimp only
    rw [if_neg (not_failed _ hok), if_neg htt]
    simp only [Bool.false_eq_true, if_false]
    rw [hq]
    dsimp only
    rw [if_pos herr]
  | array_next p n r _ hok htt hv hrok ih =>
    apply ih
    obtain ⟨herr, m, q, hq⟩ := hf
    refine ⟨herr, max n m + 1, q, ?_⟩
    rw [parse_array_loop]
    rw [if_neg (not_eof_of_token p _ hok)]
    dsimp only
    rw [if_neg (not_failed _ hok), if_neg htt]
    simp only [Bool.false_eq_true, if_false]
    rw [parse_value_mono e n (max n m) (le_max_left _ _) _ _ _ hv]
    dsimp only
    rw [if_neg (not_failed _ hrok)]
    exact parse_array_loop_mono e m (max n m) (le_max_right _ _) _ _ _ hq
  | object_comma p _ hok htt ih =>
    apply ih
    obtain ⟨herr, n, q, hq⟩ := hf
    refine ⟨herr, n + 1, q, ?_⟩
    rw [parse_object_loop]
    rw [if_neg (not_eof_of_token p _ hok)]
    dsimp only
    rw [if_neg (not_failed _ hok), htt]
    simp only [reduceCtorEq, if_false, if_true, or_self, Bool.not_true, Bool.false_eq_true]
    exact hq
  | object_value p _ hok htt hk ht2 hcol ih =>
    apply ih
    obtain ⟨herr, n, v, q, hq⟩ := hf
    refine ⟨herr, n + 1, q, ?_⟩
    rw [parse_object_loop]
    rw [if_neg (not_eof_of_token p _ hok)]
    dsimp only
    rw [if_neg (not_failed _ hok), if_pos htt]
    simp only [Bool.false_eq_true, if_false]
    rw [if_neg (not_failed _ hk), if_neg (not_failed _ ht2), hcol]
    simp only [ne_eq, not_true_eq_false, if_false]
    rw [hq]
    dsimp only
    rw [if_pos herr]
  | object_next p n r _ hok htt hk ht2 hcol hv hrok ih =>
    apply ih
    obtain ⟨herr, m, q, hq⟩ := hf
    refine ⟨herr, max n m + 1, q, ?_⟩
    rw [parse_object_loop]
    rw [if_neg (not_eof_of_token p _ hok)]
    dsimp only
    rw [if_neg (not_failed _ hok), if_pos htt]
    simp only [Bool.false_eq_true, if_false]
    rw [if_neg (not_failed _ hk), if_neg (not_failed _ ht2), hcol]
    simp only [ne_eq, not_true_eq_false, if_false]
    rw [parse_value_mono e n (max n m) (le_max_left _ _) _ _ _ hv]
    dsimp only
    rw [if_neg (not_failed _ hrok)]
    exact parse_object_loop_mono e m (max n m) (le_max_right _ _) _ _ _ hq

end parser

end json5

namespace json5

namespace parser

theorem from_string_of_root_fails (e : env) (str : List Nat) (doc : document) (err : error)
    (h : (call.value (start str doc).doc.to_value (start str doc)).fails e err) :
    ∃ doc1, from_string e str doc = some (err, doc1) := by
  obtain ⟨herr, n, v, q, hq⟩ := h
  have htot := (total_all e (3 * str.length + 1)).1 (start str doc).doc.to_value (start str doc)
    (by show 3 * str.length ≤ 3 * str.length + 1; omega) (by omega)
  obtain ⟨r, hr⟩ := Option.isSome_iff_exists.mp htot
  have h1 := parse_value_mono e n (max n (3 * str.length + 1)) (le_max_left _ _) _ _ _ hq
  have h2 := parse_value_mono e _ (max n (3 * str.length + 1)) (le_max_right _ _) _ _ _ hr
  rw [h1] at h2
  have h3 : r = (err, v, q) := (Option.some.inj h2).symm
  subst h3
  refine ⟨q.doc, ?_⟩
  unfold from_string parse
  dsimp only
  have hr' : parse_value e (3 * str.length + 1)
      (builder.reset { doc := doc, stack := [], values := [], counts := [] }).doc.to_value
      { tobuilder := builder.reset { doc := doc, stack := [], values := [], counts := [] },
        input := str, loc := if str ≠ [] then ⟨1, 1, 0⟩ else ⟨0, 0, 0⟩ } = some (err, v, q) := hr
  rw [hr']
  dsimp only
  rw [if_pos herr]
  rfl

theorem on_spine_error (e : env) (str : List Nat) (doc : document) (c : call) (err : error)
    (hs : on_spine e (start str doc) c) (hf : c.fails e err) :
    ∃ doc1, from_string e str doc = some (err, doc1) :=
  from_string_of_root_fails e str doc err (on_spine_fails e _ c err hs hf)

theorem reads_push (p q : parser) (b : builder) (h : p.reads q) :
    p.reads { q with tobuilder := b } := h

theorem on_spine_reads (e : env) (p0 : parser) (c : call) (hs : on_spine e p0 c) :
    p0.reads c.state := by
  induction hs with
  | root => exact reads_refl p0
  | object_begin result p _ hok htt ih =>
    have h1 : (p.peek_next_token token_type.unknown).2.2.reads
        { (p.peek_next_token token_type.unknown).2.2 with
          tobuilder := (p.peek_next_token token_type.unknown).2.2.tobuilder.push_object } :=
      ⟨[], rfl, rfl⟩
    exact reads_trans ih (reads_trans (peek_next_token_scans p _).1
      (reads_trans h1 (reads_next _)))
  | array_begin result p _ hok htt ih =>
    have h1 : (p.peek_next_token token_type.unknown).2.2.reads
        { (p.peek_next_token token_type.unknown).2.2 with
          tobuilder := (p.peek_next_token token_type.unknown).2.2.tobuilder.push_array } :=
      ⟨[], rfl, rfl⟩
    exact reads_trans ih (reads_trans (peek_next_token_scans p _).1
      (reads_trans h1 (reads_next _)))
  | array_comma p _ hok htt ih =>
    exact reads_trans ih (reads_trans (peek_next_token_scans p _).1 (reads_next _))
  | array_element p _ hok htt ih =>
    exact reads_trans ih (peek_next_token_scans p _).1
  | array_next p n r _ hok htt hv hrok ih =>
    have h1 := (parse_value_nests e n _ _ _ hv).reads
    exact reads_trans ih (reads_trans (peek_next_token_scans p _).1 h1)
  | object_comma p _ hok htt ih =>
    exact reads_trans ih (reads_trans (peek_next_token_scans p _).1 (reads_next _))
  | object_value p _ hok htt hk ht2 hcol ih =>
    exact reads_trans ih (reads_trans (peek_next_token_scans p _).1
      (reads_trans (parse_identifier_scans _).1
        (reads_trans (peek_next_token_scans _ _).1 (reads_next _))))
  | object_next p n r _ hok htt hk ht2 hcol hv hrok ih =>
    have h1 := (parse_value_nests e n _ _ _ hv).reads
    exact reads_trans ih (reads_trans (peek_next_token_scans p _).1
      (reads_trans (parse_identifier_scans _).1
        (reads_trans (peek_next_token_scans _ _).1 (reads_trans (reads_next _) h1))))

/-! ## The tokenizer over whitespace -/

/-- A byte that `peek_next_token` treats as whitespace outside a comment. -/
theorem peek_next_token_loop_space (n : Nat) (result : token_type) (p : parser) (w : Nat)
    (rest : List Nat) (h : p.input = w :: rest) (hw : 0 < w ∧ w ≤ 32) :
    peek_next_token_loop (n + 1) comment_type.none result p =
      peek_next_token_loop n comment_type.none result (p.with_scan [w] rest []) := by
  rw [peek_next_token_loop, eof_cons p w rest h, peek_cons p w rest h,
    next_with_scan p w rest h]
  simp only [Bool.false_eq_true, if_false]
  by_cases h10 : (w : Int) = 10
  · rw [if_pos h10]
    simp
  · rw [if_neg h10]
    have h1 : (comment_type.none ≠ comment_type.none ∨ ((w : Int) > 0 ∧ (w : Int) ≤ 32)) :=
      Or.inr ⟨by exact_mod_cast hw.1, by exact_mod_cast hw.2⟩
    rw [if_pos h1]
    have h2 : ¬ (comment_type.none = comment_type.block ∧ (w : Int) = 42) := by simp
    rw [if_neg h2]

theorem peek_next_token_loop_spaces (ws : List Nat) (hws : ∀ w ∈ ws, is_space w = true)
    (n : Nat) (result : token_type) (p : parser) (rest : List Nat) (h : p.input = ws ++ rest) :
    peek_next_token_loop (n + ws.length) comment_type.none result p =
      peek_next_token_loop n comment_type.none result (p.with_scan ws rest []) := by
  induction ws generalizing p with
  | nil =>
    have : p.with_scan [] rest [] = p := by
      have h' : rest = p.input := by simpa using h.symm
      rw [h']; exact with_scan_nil p
    rw [this]; rfl
  | cons w ws ih =>
    have hw : 0 < w ∧ w ≤ 32 := by
      have := hws w (List.mem_cons_self _ _)
      simpa [is_space] using this
    have h' : p.input = w :: (ws ++ rest) := by simpa using h
    have e1 : n + (w :: ws).length = (n + ws.length) + 1 := by simp; omega
    rw [e1, peek_next_token_loop_space _ result p w _ h' hw]
    rw [ih (fun x hx => hws x (List.mem_cons_of_mem _ hx)) _ (by simp)]
    rw [with_scan_with_scan]
    simp

theorem token_start_bounds (c : Nat) (h : token_start c = true) :
    ¬ (0 < c ∧ c ≤ 32) ∧ c ≠ 47 ∧ c ≠ 43 := by
  simp only [token_start, punctuation, isalpha, isdigit, decide_eq_true_eq, List.mem_cons,
    List.mem_singleton, List.not_mem_nil, or_false] at h
  omega

theorem peek_next_token_loop_head (n : Nat) (result : token_type) (p : parser) (c : Nat)
    (rest : List Nat) (h : p.input = c :: rest) (hc : token_start c = true) :
    peek_next_token_loop (n + 1) comment_type.none result p =
      (error.ok, token_class result c, p) := by
  obtain ⟨h1, h47, h43⟩ := token_start_bounds c hc
  rw [peek_next_token_loop, eof_cons p c rest h, peek_cons p c rest h]
  simp only [Bool.false_eq_true, if_false]
  have g10 : ¬ ((c : Int) = 10) := by
    intro hx
    have : c = 10 := by exact_mod_cast hx
    omega
  have gws : ¬ (comment_type.none ≠ comment_type.none ∨ ((c : Int) > 0 ∧ (c : Int) ≤ 32)) := by
    intro hx
    rcases hx with hx | ⟨hx, hy⟩
    · exact hx rfl
    · have a : 0 < c := by exact_mod_cast hx
      have b : c ≤ 32 := by exact_mod_cast hy
      exact h1 ⟨a, b⟩
  have g47 : ¬ ((c : Int) = 47) := by
    intro hx
    exact h47 (by exact_mod_cast hx)
  rw [if_neg g10, if_neg gws, if_neg g47]
  by_cases hp : strchr punctuation (c : Int) = true
  · rw [if_pos hp, token_class_punct result c hp]
  rw [if_neg hp]
  by_cases ha : isalpha (c : Int) = true ∨ (c : Int) = 95
  · rw [if_pos ha, ← token_class_ident result c hp ha]
  rw [if_neg ha]
  by_cases hd : isdigit (c : Int) = true ∨ (c : Int) = 46 ∨ (c : Int) = 43 ∨ (c : Int) = 45
  · rw [if_pos hd, ← token_class_number result c hp ha hd h43]
    have g43 : ¬ ((c : Int) = 43) := by
      intro hx
      exact h43 (by exact_mod_cast hx)
    rw [if_neg g43]
  rw [if_neg hd]
  have hq : (c : Int) = 34 ∨ (c : Int) = 39 := by
    simp only [token_start, punctuation, decide_eq_true_eq, List.mem_cons,
      List.mem_singleton, List.not_mem_nil, or_false] at hc
    simp only [strchr, punctuation, to_byte_cast, decide_eq_true_eq, List.mem_cons,
      List.mem_singleton, List.not_mem_nil, or_false] at hp
    have e95 := cast_eq_lit c 95
    have e46 := cast_eq_lit c 46
    have e43 := cast_eq_lit c 43
    have e45 := cast_eq_lit c 45
    have e34 := cast_eq_lit c 34
    have e39 := cast_eq_lit c 39
    simp only [Nat.cast_ofNat] at e95 e46 e43 e45 e34 e39
    rw [e95] at ha
    rw [e46, e43, e45] at hd
    rw [e34, e39]
    rcases hc with h0 | h0 | h0 | h0 | h0 | h0 | h0 | h0 | h0 <;>
    first
    | exact Or.inl h0
    | exact Or.inr h0
    | exact absurd (Or.inl h0) ha
    | exact absurd (Or.inr h0) ha
    | exact absurd (Or.inl h0) hd
    | exact absurd (Or.inr (Or.inl h0)) hd
    | exact absurd (Or.inr (Or.inr (Or.inr h0))) hd
    | (exfalso; omega)
  rw [if_pos hq, ← token_class_string result c hp ha hd]

/-- The tokenizer skips whitespace and reports the token of the first significant byte. -/
theorem peek_next_token_spaces (p : parser) (result : token_type) (ws : List Nat) (c : Nat)
    (rest : List Nat) (h : p.input = ws ++ c :: rest) (hws : ∀ w ∈ ws, is_space w = true)
    (hc : token_start c = true) :
    p.peek_next_token result =
      (error.ok, token_class result c, p.with_scan ws (c :: rest) []) := by
  unfold peek_next_token
  have e1 : p.input.length = (rest.length + 1) + ws.length := by rw [h]; simp; omega
  rw [e1, peek_next_token_loop_spaces ws hws _ result p _ h]
  exact peek_next_token_loop_head _ result _ c rest rfl hc

end parser

end json5

namespace json5

theorem key_start_token (result : token_type) (c : Nat)
    (h : isalpha c = true ∨ c = 95 ∨ c = 34 ∨ c = 39) :
    token_start c = true ∧
      (token_class result c = token_type.identifier ∨
        token_class result c = token_type.string) := by
  simp only [isalpha, decide_eq_true_eq] at h
  constructor
  · simp only [token_start, isalpha, decide_eq_true_eq]
    omega
  · unfold token_class
    simp only [isalpha, isdigit, decide_eq_true_eq]
    split_ifs <;> first | exact Or.inl rfl | exact Or.inr rfl | (exfalso; omega)

namespace parser

theorem start_loc (str : List Nat) (doc : document) (h : str ≠ []) :
    (start str doc).loc = ⟨1, 1, 0⟩ := by
  unfold start
  simp [h]

/-- The text before a byte of the input and the location of that byte, for a state that the
run has reached. -/
theorem on_spine_loc (e : env) (str : List Nat) (doc : document) (c : call)
    (hs : on_spine e (start str doc) c) (ws tail pre : List Nat)
    (hin : c.state.input = ws ++ tail) (ht : tail ≠ [])
    (hpre : str = pre ++ tail) :
    c.state.loc.advance ws = location.advance ⟨1, 1, 0⟩ pre := by
  obtain ⟨c0, h0, hl⟩ := on_spine_reads e _ c hs
  have hstr : str = c0 ++ c.state.input := h0
  have hne : str ≠ [] := by
    rw [hpre]
    intro hx
    exact ht (List.append_eq_nil.mp hx).2
  rw [hl, start_loc str doc hne, ← location.advance_append]
  have : c0 ++ ws = pre := by
    have hx : (c0 ++ ws) ++ tail = pre ++ tail := by
      rw [← hpre, hstr, hin, List.append_assoc]
    exact List.append_cancel_right hx
  rw [this]

end parser

end json5

namespace json5

namespace parser

/-- An iteration of the object loop that expects a comma and meets a key. -/
theorem parse_object_loop_key (e : env) (p : parser) (ws : List Nat) (c : Nat)
    (rest : List Nat) (hin : p.input = ws ++ c :: rest)
    (hws : ∀ w ∈ ws, is_space w = true)
    (hkey : isalpha c = true ∨ c = 95 ∨ c = 34 ∨ c = 39) :
    parse_object_loop e 1 true p =
      some (⟨error_kind.comma_expected, p.loc.advance ws⟩, p.with_scan ws (c :: rest) []) := by
  obtain ⟨hst, hcl⟩ := key_start_token token_type.unknown c hkey
  have hne : ¬ (p.eof = true) := by
    cases ws with
    | nil => rw [eof_cons p c rest hin]; exact Bool.noConfusion
    | cons w ws => rw [eof_cons p w (ws ++ c :: rest) hin]; exact Bool.noConfusion
  rw [parse_object_loop, if_neg hne, peek_next_token_spaces p _ ws c rest hin hws hst]
  dsimp only
  rw [if_neg (by decide), if_pos hcl]
  rfl

end parser

/-- C4: when the run of `from_string` has parsed the value of an object entry (it is at an
iteration of the object loop that expects a comma) and what follows is whitespace only and
then the first byte `c` of a key (a letter, an underscore or a quote), `from_string` returns
`comma_expected`, and the location of the error is that of `c`: the line, column and offset
reached by reading the text `pre` that stands before `c`. -/
theorem from_string_missing_comma_in_object (e : env) (str : List Nat) (doc : document)
    (p : parser) (pre ws : List Nat) (c : Nat) (rest : List Nat)
    (hs : parser.on_spine e (parser.start str doc) (parser.call.object_loop true p))
    (hin : p.input = ws ++ c :: rest)
    (hws : ∀ w ∈ ws, is_space w = true)
    (hkey : isalpha c = true ∨ c = 95 ∨ c = 34 ∨ c = 39)
    (hpre : str = pre ++ c :: rest) :
    ∃ doc1, from_string e str doc =
      some (⟨error_kind.comma_expected, location.advance ⟨1, 1, 0⟩ pre⟩, doc1) := by
  have hl := parser.on_spine_loc e str doc _ hs ws (c :: rest) pre hin (by simp) hpre
  have hf : (parser.call.object_loop true p).fails e
      ⟨error_kind.comma_expected, location.advance ⟨1, 1, 0⟩ pre⟩ := by
    refine ⟨rfl, 1, p.with_scan ws (c :: rest) [], ?_⟩
    rw [parser.parse_object_loop_key e p ws c rest hin hws hkey]
    rw [show p.loc.advance ws = location.advance ⟨1, 1, 0⟩ pre from hl]
  exact parser.on_spine_error e str doc _ _ hs hf

theorem from_string_missing_comma_in_object_witness :
    ∃ doc1, from_string example_env (bytes "\x7ba:1 b:2\x7d") example_doc =
      some (⟨error_kind.comma_expected, ⟨1, 6, 5⟩⟩, doc1) :=
  from_string_missing_comma_in_object example_env (bytes "\x7ba:1 b:2\x7d") example_doc _
    (bytes "\x7ba:1 ") (bytes " ") 98 (bytes ":2\x7d")
    (parser.on_spine.object_next _ 1 _
      (parser.on_spine.object_begin _ _ parser.on_spine.root rfl rfl)
      rfl (Or.inl rfl) rfl rfl rfl rfl rfl)
    rfl (by decide) (by decide) rfl

end json5

namespace json5

theorem token_class_comma (c : Nat) (h : token_class token_type.unknown c = token_type.comma) :
    c = 44 := by
  unfold token_class at h
  by_contra hne
  revert h
  simp only [isalpha, isdigit, decide_eq_true_eq]
  split_ifs <;> simp

namespace parser

/-- The tokenizer stops in front of the comma it reports, and reports it again from there. -/
theorem peek_next_token_comma (p : parser)
    (hok : (p.peek_next_token token_type.unknown).1.failed = false)
    (htt : (p.peek_next_token token_type.unknown).2.1 = token_type.comma) :
    (p.peek_next_token token_type.unknown).2.2.peek_next_token token_type.unknown =
      (error.ok, token_type.comma, (p.peek_next_token token_type.unknown).2.2) := by
  obtain ⟨_, hcls⟩ := peek_next_token_token p token_type.unknown hok
  rcases hcls with ⟨h1, _⟩ | ⟨c, rest, h1, h2⟩
  · rw [htt] at h1; cases h1
  · rw [htt] at h2
    have hc : c = 44 := token_class_comma c h2.symm
    subst hc
    have h3 := peek_next_token_spaces (p.peek_next_token token_type.unknown).2.2
      token_type.unknown [] 44 rest h1 (by simp) (by decide)
    rw [h3, ← h1, with_scan_nil]
    rfl

/-- An iteration of the object loop that expects no comma and meets one. -/
theorem parse_object_loop_comma (e : env) (p : parser)
    (hok : (p.peek_next_token token_type.unknown).1.failed = false)
    (htt : (p.peek_next_token token_type.unknown).2.1 = token_type.comma) :
    parse_object_loop e 1 false p =
      some (⟨error_kind.syntax_error, (p.peek_next_token token_type.unknown).2.2.loc⟩,
        (p.peek_next_token token_type.unknown).2.2) := by
  rw [parse_object_loop, if_neg (not_eof_of_token p _ hok)]
  dsimp only
  rw [if_neg (not_failed _ hok), htt]
  rfl

/-- An iteration of the array loop that expects no comma and meets one: the comma is handed
to `parse_value`, which rejects it. -/
theorem parse_array_loop_comma (e : env) (p : parser)
    (hok : (p.peek_next_token token_type.unknown).1.failed = false)
    (htt : (p.peek_next_token token_type.unknown).2.1 = token_type.comma) :
    parse_array_loop e 2 false p =
      some (⟨error_kind.syntax_error, (p.peek_next_token token_type.unknown).2.2.loc⟩,
        (p.peek_next_token token_type.unknown).2.2) := by
  rw [parse_array_loop, if_neg (not_eof_of_token p _ hok)]
  dsimp only
  rw [if_neg (not_failed _ hok), htt]
  simp only [reduceCtorEq, if_false, Bool.false_eq_true]
  rw [parse_value, peek_next_token_comma p hok htt]
  rfl

/-- An iteration of the array loop that expects a comma and meets the start of something
else than the closing bracket. -/
theorem parse_array_loop_no_comma (e : env) (p : parser)
    (hok : (p.peek_next_token token_type.unknown).1.failed = false)
    (hend : (p.peek_next_token token_type.unknown).2.1 ≠ token_type.array_end)
    (htt : (p.peek_next_token token_type.unknown).2.1 ≠ token_type.comma) :
    parse_array_loop e 1 true p =
      some (⟨error_kind.comma_expected, (p.peek_next_token token_type.unknown).2.2.loc⟩,
        (p.peek_next_token token_type.unknown).2.2) := by
  rw [parse_array_loop, if_neg (not_eof_of_token p _ hok)]
  dsimp only
  rw [if_neg (not_failed _ hok), if_neg hend]
  simp only [if_true]
  rw [if_pos htt]
  rfl

end parser

/-- Commas at token level: let the run of `from_string` be at an iteration of the loop of
an object or of an
array. When no comma is expected there (the iteration right after the opening bracket or
right after a comma) and the next token, after what the tokenizer skips as whitespace and
comments, is a comma, `from_string` returns `syntax_error` at that comma. When the array
loop expects a comma (an element has just been parsed) and the next token is neither the
closing bracket nor a comma, `from_string` returns `comma_expected` at that token. -/
theorem from_string_comma_errors (e : env) (str : List Nat) (doc : document) (p : parser) :
    ((parser.on_spine e (parser.start str doc) (parser.call.object_loop false p) ∨
        parser.on_spine e (parser.start str doc) (parser.call.array_loop false p)) →
      (p.peek_next_token token_type.unknown).1.failed = false →
      (p.peek_next_token token_type.unknown).2.1 = token_type.comma →
      ∃ doc1, from_string e str doc =
        some (⟨error_kind.syntax_error, (p.peek_next_token token_type.unknown).2.2.loc⟩,
          doc1)) ∧
    (parser.on_spine e (parser.start str doc) (parser.call.array_loop true p) →
      (p.peek_next_token token_type.unknown).1.failed = false →
      (p.peek_next_token token_type.unknown).2.1 ≠ token_type.array_end →
      (p.peek_next_token token_type.unknown).2.1 ≠ token_type.comma →
      ∃ doc1, from_string e str doc =
        some (⟨error_kind.comma_expected, (p.peek_next_token token_type.unknown).2.2.loc⟩,
          doc1)) := by
  constructor
  · intro hs hok htt
    rcases hs with hs | hs
    · exact parser.on_spine_error e str doc _ _ hs
        ⟨rfl, 1, _, parser.parse_object_loop_comma e p hok htt⟩
    · exact parser.on_spine_error e str doc _ _ hs
        ⟨rfl, 2, _, parser.parse_array_loop_comma e p hok htt⟩
  · intro hs hok hend htt
    exact parser.on_spine_error e str doc _ _ hs
      ⟨rfl, 1, _, parser.parse_array_loop_no_comma e p hok hend htt⟩

theorem from_string_comma_errors_witness :
    (∃ doc1, from_string example_env (bytes "[1, ,2]") example_doc =
      some (⟨error_kind.syntax_error, ⟨1, 5, 4⟩⟩, doc1)) ∧
    (∃ doc1, from_string example_env (bytes "\x7ba:1,/* */,\x7d") example_doc =
      some (⟨error_kind.syntax_error, ⟨1, 11, 10⟩⟩, doc1)) ∧
    (∃ doc1, from_string example_env (bytes "\x7b ,\x7d") example_doc =
      some (⟨error_kind.syntax_error, ⟨1, 3, 2⟩⟩, doc1)) ∧
    (∃ doc1, from_string example_env (bytes "[,1]") example_doc =
      some (⟨error_kind.syntax_error, ⟨1, 2, 1⟩⟩, doc1)) ∧
    (∃ doc1, from_string example_env (bytes "[1 2]") example_doc =
      some (⟨error_kind.comma_expected, ⟨1, 4, 3⟩⟩, doc1)) :=
  ⟨(from_string_comma_errors example_env (bytes "[1, ,2]") example_doc _).1
      (Or.inr (parser.on_spine.array_comma _
        (parser.on_spine.array_next _ 1 _
          (parser.on_spine.array_begin _ _ parser.on_spine.root rfl rfl)
          rfl (by decide) rfl rfl)
        rfl rfl)) rfl rfl,
    (from_string_comma_errors example_env (bytes "\x7ba:1,/* */,\x7d") example_doc _).1
      (Or.inl (parser.on_spine.object_comma _
        (parser.on_spine.object_next _ 1 _
          (parser.on_spine.object_begin _ _ parser.on_spine.root rfl rfl)
          rfl (Or.inl rfl) rfl rfl rfl rfl rfl)
        rfl rfl)) rfl rfl,
    (from_string_comma_errors example_env (bytes "\x7b ,\x7d") example_doc _).1
      (Or.inl (parser.on_spine.object_begin _ _ parser.on_spine.root rfl rfl)) rfl rfl,
    (from_string_comma_errors example_env (bytes "[,1]") example_doc _).1
      (Or.inr (parser.on_spine.array_begin _ _ parser.on_spine.root rfl rfl)) rfl rfl,
    (from_string_comma_errors example_env (bytes "[1 2]") example_doc _).2
      (parser.on_spine.array_next _ 1 _
        (parser.on_spine.array_begin _ _ parser.on_spine.root rfl rfl)
        rfl (by decide) rfl rfl)
      rfl (by decide) (by decide)⟩

end json5

namespace json5

/-- C6: a quoted string that is the whole top-level value (unescaped bytes, simple escapes
and line continuations between two quotes, after whitespace only) and that ends the input
makes `from_string` return `unexpected_end`, not `invalid_root`: after the closing quote
`parse_string` finds the input exhausted and reports the string as unterminated. The
location is the end of the text. -/
theorem from_string_root_string_unexpected_end (e : env) (doc : document) (sq : Bool)
    (ws : List Nat) (items : List str_item)
    (hws : ∀ w ∈ ws, is_space w = true)
    (hok : ∀ it ∈ items, it.ok (if sq then 39 else 34)) :
    ∃ doc1, from_string e
        (ws ++ (if sq then 39 else 34) :: (items_source items ++ [if sq then 39 else 34])) doc =
      some (⟨error_kind.unexpected_end, location.advance ⟨1, 1, 0⟩
        (ws ++ (if sq then 39 else 34) :: (items_source items ++ [if sq then 39 else 34]))⟩,
        doc1) := by
  apply parser.from_string_of_root_fails
  refine ⟨rfl, 1, ?_⟩
  · have hin : (parser.start (ws ++ (if sq then 39 else 34) ::
        (items_source items ++ [if sq then 39 else 34])) doc).input =
        ws ++ (if sq then 39 else 34) :: (items_source items ++ [if sq then 39 else 34]) := rfl
    have hst : token_start (if sq then 39 else 34) = true := by cases sq <;> decide
    have hcl : token_class token_type.unknown (if sq then 39 else 34) = token_type.string := by
      cases sq <;> decide
    rw [parser.parse_value, parser.peek_next_token_spaces _ _ ws _ _ hin hws hst]
    dsimp only
    rw [if_neg (by decide), hcl]
    dsimp only
    rw [parser.parse_string_items sq items hok _ [] rfl, if_pos rfl]
    dsimp only
    have hfail : ∀ l, (error.mk error_kind.unexpected_end l).failed = true := fun _ => rfl
    have hl : (parser.start (ws ++ (if sq then 39 else 34) ::
        (items_source items ++ [if sq then 39 else 34])) doc).loc = ⟨1, 1, 0⟩ :=
      parser.start_loc _ _ (by simp)
    simp only [parser.make_error, hfail, if_true, parser.with_scan_loc, hl,
      location.advance_append]
    exact ⟨_, _, rfl⟩

theorem from_string_root_string_unexpected_end_witness :
    ∃ doc1, from_string example_env (bytes "\"abc\"") example_doc =
      some (⟨error_kind.unexpected_end, ⟨1, 6, 5⟩⟩, doc1) :=
  from_string_root_string_unexpected_end example_env example_doc false []
    [str_item.plain 97, str_item.plain 98, str_item.plain 99]
    (by decide) (by simp [str_item.ok])

end json5

namespace json5

/-- C8: the text `["\u00e9"]` parses, and the string element reads back as the single byte
C3, not as the two bytes C3 A9 of the UTF-8 encoding: `string_buffer_add_utf8` stores every
byte of the encoding through `document::operator+( char )`, which appends a terminating
zero after it, so the buffer holds C3 00 A9 00 and `get_c_str` stops at the first zero. The
escape `\x41` in `['\x41B']` reads back as `A` alone for the same reason: the rest of the
literal is cut off. -/
theorem from_string_unicode_escape_cut :
    (∃ doc1 a v, from_string example_env (bytes "[\"\\u00e9\"]") example_doc =
        some (error.ok, doc1) ∧
      doc1.strings = [0, 195, 0, 169, 0, 0] ∧
      array_view.of_value example_env doc1 doc1.to_value = some a ∧ a.size = 1 ∧
      a.get example_env doc1 0 = some v ∧ v.is_string = true ∧
      v.get_c_str doc1 [] = some [195]) ∧
    (∃ doc1 a v, from_string example_env (bytes "['\\x41B']") example_doc =
        some (error.ok, doc1) ∧
      doc1.strings = [0, 65, 0, 66, 0] ∧
      array_view.of_value example_env doc1 doc1.to_value = some a ∧ a.size = 1 ∧
      a.get example_env doc1 0 = some v ∧ v.is_string = true ∧
      v.get_c_str doc1 [] = some [65]) :=
  ⟨⟨_, _, _, rfl, by decide, rfl, by decide, rfl, by decide, by decide⟩,
    ⟨_, _, _, rfl, by decide, rfl, by decide, rfl, by decide, by decide⟩⟩

end json5

namespace json5

/-- C9: let the input at `parse_string` be an opening quote, a body made of unescaped bytes
(any byte but the backslash and the closing quote), simple escapes and backslash-newline
pairs, and the closing quote. Then `parse_string` appends to the string buffer exactly the
bytes the body stands for, in order: each unescaped byte unchanged, one byte for each simple
escape (t: 09, n: 0A, r: 0D, b: 08, backslash, apostrophe, quote and slash: themselves,
0: 00) and nothing for a backslash-newline; when input remains after the closing quote it
also appends the terminating zero, returns no error, reports the old length of the buffer as
the offset of the string and has read exactly the quoted string. -/
theorem parse_string_appends (sq : Bool) (items : List str_item) (p : parser)
    (rest : List Nat)
    (hok : ∀ it ∈ items, it.ok (if sq then 39 else 34))
    (h : p.input = (if sq then 39 else 34) :: (items_source items ++
      (if sq then 39 else 34) :: rest)) :
    p.parse_string.2.2.doc.strings =
        p.doc.strings ++ items_decoded items ++ (if rest = [] then [] else [0]) ∧
      (rest ≠ [] →
        p.parse_string.1 = error.ok ∧ p.parse_string.2.1 = p.doc.strings.length ∧
        p.parse_string.2.2.input = rest) ∧
      simple_escape 116 = some 9 ∧ simple_escape 110 = some 10 ∧ simple_escape 114 = some 13 ∧
      simple_escape 98 = some 8 ∧ simple_escape 92 = some 92 ∧ simple_escape 39 = some 39 ∧
      simple_escape 34 = some 34 ∧ simple_escape 47 = some 47 ∧ simple_escape 48 = some 0 := by
  rw [parser.parse_string_items sq items hok p rest h]
  refine ⟨?_, ?_, rfl, rfl, rfl, rfl, rfl, rfl, rfl, rfl, rfl⟩
  · by_cases hr : rest = []
    · rw [if_pos hr, if_pos hr]
      simp
    · rw [if_neg hr, if_neg hr]
      simp
  · intro hr
    rw [if_neg hr]
    exact ⟨rfl, rfl, rfl⟩

theorem parse_string_appends_witness :
    (parser.start (bytes "\"a\\t\\n\\r\\b\\\\\\'\\\"\\/\\0\\\nz\"]") example_doc).parse_string.2.2.doc.strings
      = [0, 97, 9, 10, 13, 8, 92, 39, 34, 47, 0, 122, 0] :=
  (parse_string_appends false
    [str_item.plain 97, str_item.escape 116, str_item.escape 110, str_item.escape 114,
      str_item.escape 98, str_item.escape 92, str_item.escape 39, str_item.escape 34,
      str_item.escape 47, str_item.escape 48, str_item.continuation, str_item.plain 122]
    (parser.start (bytes "\"a\\t\\n\\r\\b\\\\\\'\\\"\\/\\0\\\nz\"]") example_doc)
    (bytes "]") (by simp [str_item.ok, simple_escape]) rfl).1

end json5

namespace json5

namespace parser

/-- The loop of `parse_string` over well-formed pieces, whatever follows them. -/
theorem parse_string_loop_prefix (sq : Bool) (items : List str_item)
    (hok : ∀ it ∈ items, it.ok (if sq then 39 else 34)) (p : parser) (n : Nat)
    (tail : List Nat) (h : p.input = items_source items ++ tail)
    (hn : p.input.length ≤ n) :
    ∃ m, tail.length ≤ m ∧ parse_string_loop n sq p =
      parse_string_loop m sq (p.with_scan (items_source items) tail (items_decoded items)) := by
  induction items generalizing p n with
  | nil =>
    have h' : p.input = tail := by simpa [items_source] using h
    refine ⟨n, by rw [← h']; exact hn, ?_⟩
    have : p.with_scan (items_source []) tail (items_decoded []) = p := by
      rw [← h']
      simpa [items_source, items_decoded] using with_scan_nil p
    rw [this]
  | cons it its ih =>
    have hok' : ∀ it ∈ its, it.ok (if sq then 39 else 34) :=
      fun x hx => hok x (List.mem_cons_of_mem _ hx)
    have hit := hok it (List.mem_cons_self _ _)
    rw [items_source_cons] at h
    obtain ⟨m, rfl⟩ : ∃ m, n = m + 1 := by
      refine ⟨n - 1, ?_⟩
      have : 0 < p.input.length := by
        rw [h]; cases it <;> simp [str_item.source]
      omega
    rw [items_source_cons, items_decoded_cons]
    cases it with
    | plain c =>
      have h' : p.input = c :: (items_source its ++ tail) := by
        simpa [str_item.source] using h
      rw [parse_string_loop_plain m sq p c _ h' hit.1 hit.2]
      obtain ⟨k, hk, hr⟩ := ih hok' (p.with_scan [c] (items_source its ++ tail) [c]) m
        (by simp) (by rw [h'] at hn; simp at hn ⊢; omega)
      refine ⟨k, hk, ?_⟩
      rw [hr]
      simp [with_scan_with_scan, str_item.source, str_item.decoded]
    | escape c =>
      have h' : p.input = 92 :: c :: (items_source its ++ tail) := by
        simpa [str_item.source] using h
      obtain ⟨b, hb⟩ := Option.isSome_iff_exists.mp hit
      rw [parse_string_loop_escape m sq p c b _ h' hb]
      obtain ⟨k, hk, hr⟩ := ih hok' (p.with_scan [92, c] (items_source its ++ tail) [b]) m
        (by simp) (by rw [h'] at hn; simp at hn ⊢; omega)
      refine ⟨k, hk, ?_⟩
      rw [hr]
      simp [with_scan_with_scan, str_item.source, str_item.decoded, hb]
    | continuation =>
      have h' : p.input = 92 :: 10 :: (items_source its ++ tail) := by
        simpa [str_item.source] using h
      rw [parse_string_loop_continuation m sq p _ h']
      obtain ⟨k, hk, hr⟩ := ih hok' (p.with_scan [92, 10] (items_source its ++ tail) []) m
        (by simp) (by rw [h'] at hn; simp at hn ⊢; omega)
      refine ⟨k, hk, ?_⟩
      rw [hr]
      simp [with_scan_with_scan, str_item.source, str_item.decoded]

theorem strchr_hex_eof : strchr hexChars (-1) = false := by decide

/-- A run of fewer hexadecimal digits than asked for, followed by the end of the input or by a
byte that is no digit, makes `read_hex` give up. -/
theorem read_hex_short (hs : List Nat) (tail2 : List Nat) (hbad : hex_stop tail2) (S : Nat)
    (code : List Nat) (p : parser) (h : p.input = hs ++ tail2) (hlen : hs.length < S)
    (hhex : ∀ x ∈ hs, x ∈ hexChars) : (read_hex S code p).1 = Option.none := by
  induction hs generalizing S code p with
  | nil =>
    obtain ⟨S, rfl⟩ : ∃ k, S = k + 1 := ⟨S - 1, by simp at hlen; omega⟩
    rw [read_hex]
    rcases hbad with ht | ⟨c, t, ht, hc0, hch⟩
    · rw [next_nil p (by rw [h, ht]; rfl)]
      dsimp only
      rw [strchr_hex_eof]
      rfl
    · rw [next_cons p c t (by rw [h, ht]; rfl)]
      dsimp only
      have : strchr hexChars (c : Int) = false := by
        simp only [strchr, to_byte_cast, decide_eq_false_iff_not, not_or]
        exact ⟨hc0, hch⟩
      rw [this]
      rfl
  | cons x hs ih =>
    obtain ⟨S, rfl⟩ : ∃ k, S = k + 1 := ⟨S - 1, by simp at hlen; omega⟩
    rw [read_hex]
    rw [next_cons p x (hs ++ tail2) (by rw [h]; rfl)]
    dsimp only
    have : strchr hexChars (x : Int) = true := by
      simp only [strchr, to_byte_cast, decide_eq_true_eq]
      exact Or.inr (hhex x (List.mem_cons_self _ _))
    rw [this, if_pos rfl]
    exact ih S _ _ rfl (by simp at hlen; omega) (fun y hy => hhex y (List.mem_cons_of_mem _ hy))

end parser

end json5

namespace json5

namespace parser

/-- One step of the loop of `parse_string` on a backslash that starts no escape. -/
theorem parse_string_loop_rejected (n : Nat) (sq : Bool) (p : parser) (tail : List Nat)
    (h : p.input = 92 :: tail) (hr : rejected_escape tail) :
    ∃ q, parse_string_loop (n + 1) sq p =
      (some (q.make_error error_kind.invalid_escape_seq), q) := by
  rw [parse_string_loop, eof_cons p _ _ h, peek_cons p _ _ h]
  have h1 : ¬ ((sq = true ∧ ((92 : Nat) : Int) = 39) ∨ (sq = false ∧ ((92 : Nat) : Int) = 34)) := by
    cases sq <;> simp
  simp only [Bool.false_eq_true, if_false, if_neg h1]
  rw [next_with_scan p _ _ h]
  simp only [Nat.cast_ofNat, if_true]
  rcases hr with ht | ⟨c, t, ht, hc⟩ | ⟨x, hs, tail2, ht, hx, hhex, hstop⟩
  · subst ht
    have hi : (p.with_scan [92] [] []).input = [] := rfl
    rw [peek_nil _ hi]
    refine ⟨p.with_scan [92] [] [], ?_⟩
    simp
  · subst ht
    have hi : (p.with_scan [92] (c :: t) []).input = c :: t := rfl
    rw [peek_cons _ _ _ hi]
    simp only [escape_starts, List.mem_cons, List.mem_singleton, List.not_mem_nil, or_false,
      not_or] at hc
    obtain ⟨c1, c2, c3, c4, c5, c6, c7, c8, c9, c10, c11, c12, c13, c14⟩ := hc
    have i1 : ¬ ((c : Int) = 10) := by exact_mod_cast c1
    have i2 : ¬ ((c : Int) = 118) := by exact_mod_cast c2
    have i3 : ¬ ((c : Int) = 102) := by exact_mod_cast c3
    have i4 : ¬ ((c : Int) = 116) := by exact_mod_cast c4
    have i5 : ¬ ((c : Int) = 110) := by exact_mod_cast c5
    have i6 : ¬ ((c : Int) = 114) := by exact_mod_cast c6
    have i7 : ¬ ((c : Int) = 98) := by exact_mod_cast c7
    have i8 : ¬ ((c : Int) = 92) := by exact_mod_cast c8
    have i9 : ¬ ((c : Int) = 39) := by exact_mod_cast c9
    have i10 : ¬ ((c : Int) = 34) := by exact_mod_cast c10
    have i11 : ¬ ((c : Int) = 47) := by exact_mod_cast c11
    have i12 : ¬ ((c : Int) = 48) := by exact_mod_cast c12
    have i13 : ¬ ((c : Int) = 120) := by exact_mod_cast c13
    have i14 : ¬ ((c : Int) = 117) := by exact_mod_cast c14
    simp only [i1, i2, i3, i4, i5, i6, i7, i8, i9, i10, i11, i12, i13, i14, or_self, if_false]
    exact ⟨_, rfl⟩
  · subst ht
    have hi : (p.with_scan [92] (x :: (hs ++ tail2)) []).input = x :: (hs ++ tail2) := rfl
    rw [peek_cons _ _ _ hi, next_with_scan _ _ _ hi]
    rcases hx with ⟨hx, hl⟩ | ⟨hx, hl⟩
    · subst hx
      have hrd := read_hex_short hs tail2 hstop 2 []
        ((p.with_scan [92] (120 :: (hs ++ tail2)) []).with_scan [120] (hs ++ tail2) [])
        rfl hl hhex
      simp only [Nat.cast_ofNat, Nat.reduceEqDiff, Int.reduceEq, or_self, if_false, if_true,
        true_or]
      generalize read_hex 2 []
        ((p.with_scan [92] (120 :: (hs ++ tail2)) []).with_scan [120] (hs ++ tail2) []) = r
        at hrd ⊢
      obtain ⟨r1, r2⟩ := r
      dsimp only at hrd
      subst hrd
      exact ⟨_, rfl⟩
    · subst hx
      have hrd := read_hex_short hs tail2 hstop 4 []
        ((p.with_scan [92] (117 :: (hs ++ tail2)) []).with_scan [117] (hs ++ tail2) [])
        rfl hl hhex
      simp only [Nat.cast_ofNat, Nat.reduceEqDiff, Int.reduceEq, or_self, if_false, if_true,
        or_true]
      generalize read_hex 4 []
        ((p.with_scan [92] (117 :: (hs ++ tail2)) []).with_scan [117] (hs ++ tail2) []) = r
        at hrd ⊢
      obtain ⟨r1, r2⟩ := r
      dsimp only at hrd
      subst hrd
      exact ⟨_, rfl⟩

end parser

end json5

namespace json5

namespace parser

/-- The method `parse_string` on a quoted string whose body runs into a backslash that starts
no escape. -/
theorem parse_string_rejected (sq : Bool) (items : List str_item)
    (hok : ∀ it ∈ items, it.ok (if sq then 39 else 34)) (p : parser) (tail : List Nat)
    (h : p.input = (if sq then 39 else 34) :: (items_source items ++ 92 :: tail))
    (hr : rejected_escape tail) :
    ∃ q, p.parse_string =
      (q.make_error error_kind.invalid_escape_seq, p.doc.strings.length, q) := by
  unfold parse_string
  dsimp only
  have hsq : decide (p.peek = 39) = sq := by
    rw [peek_cons p _ _ h]
    cases sq <;> simp
  rw [hsq, next_with_scan p _ _ h]
  dsimp only
  obtain ⟨m, hm, hpre⟩ := parse_string_loop_prefix sq items hok
    (p.with_scan [if sq then 39 else 34] (items_source items ++ 92 :: tail) [])
    (p.with_scan [if sq then 39 else 34] (items_source items ++ 92 :: tail) []).input.length
    (92 :: tail) rfl (le_refl _)
  obtain ⟨k, rfl⟩ : ∃ k, m = k + 1 := ⟨m - 1, by simp at hm; omega⟩
  obtain ⟨q, hq⟩ := parse_string_loop_rejected k sq
    ((p.with_scan [if sq then 39 else 34] (items_source items ++ 92 :: tail) []).with_scan
      (items_source items) (92 :: tail) (items_decoded items)) tail rfl hr
  rw [hpre, hq]
  refine ⟨q, ?_⟩
  simp [builder.string_buffer_offset, with_scan]

/-- The method `parse_value` in front of such a string. -/
theorem parse_value_rejected (e : env) (result : value) (sq : Bool) (ws : List Nat)
    (items : List str_item) (p : parser) (tail : List Nat)
    (hws : ∀ w ∈ ws, is_space w = true)
    (hok : ∀ it ∈ items, it.ok (if sq then 39 else 34))
    (h : p.input = ws ++ (if sq then 39 else 34) :: (items_source items ++ 92 :: tail))
    (hr : rejected_escape tail) :
    ∃ q, parse_value e 1 result p =
      some (q.make_error error_kind.invalid_escape_seq, result, q) := by
  have hst : token_start (if sq then 39 else 34) = true := by cases sq <;> decide
  have hcl : token_class token_type.unknown (if sq then 39 else 34) = token_type.string := by
    cases sq <;> decide
  rw [parse_value, peek_next_token_spaces p _ ws _ _ h hws hst]
  dsimp only
  rw [if_neg (by decide), hcl]
  dsimp only
  obtain ⟨q, hq⟩ := parse_string_rejected sq items hok
    (p.with_scan ws ((if sq then 39 else 34) :: (items_source items ++ 92 :: tail)) [])
    tail rfl hr
  rw [hq]
  refine ⟨q, ?_⟩
  rfl

end parser

/-- C10, as it holds: `\v` is no error. The text `["\v"]` parses, and the string is empty:
a backslash followed by v (or f) is skipped like a backslash followed by a newline. -/
theorem from_string_escape_v_accepted :
    ∃ doc1 a v, from_string example_env (bytes "[\"\\v\"]") example_doc =
        some (error.ok, doc1) ∧
      array_view.of_value example_env doc1 doc1.to_value = some a ∧ a.size = 1 ∧
      a.get example_env doc1 0 = some v ∧ v.is_string = true ∧
      v.get_c_str doc1 [] = some [] :=
  ⟨_, _, _, rfl, rfl, by decide, rfl, by decide, by decide⟩

/-- Rejected escapes after simple pieces: let the run of `from_string` be about to parse a
value, and let what follows be whitespace, an opening quote, pieces that are unescaped
bytes, simple escapes or line continuations, and then a backslash followed by
`tail`, where `tail` is empty, or starts with a byte other than newline, v, f, t, n, r, b,
backslash, apostrophe, quote, slash, 0, x and u, or is x with fewer than 2 (u with fewer
than 4) hexadecimal digits followed by the end of the input or by a byte that is neither a
hexadecimal digit nor zero. Then `from_string` returns `invalid_escape_seq`. -/
theorem from_string_rejected_escape (e : env) (str : List Nat) (doc : document)
    (result : value) (p : parser) (sq : Bool) (ws : List Nat) (items : List str_item)
    (tail : List Nat)
    (hs : parser.on_spine e (parser.start str doc) (parser.call.value result p))
    (hin : p.input = ws ++ (if sq then 39 else 34) :: (items_source items ++ 92 :: tail))
    (hws : ∀ w ∈ ws, is_space w = true)
    (hok : ∀ it ∈ items, it.ok (if sq then 39 else 34))
    (hr : rejected_escape tail) :
    ∃ loc doc1, from_string e str doc =
      some (⟨error_kind.invalid_escape_seq, loc⟩, doc1) := by
  obtain ⟨q, hq⟩ := parser.parse_value_rejected e result sq ws items p tail hws hok hin hr
  obtain ⟨doc1, h1⟩ := parser.on_spine_error e str doc _
    (q.make_error error_kind.invalid_escape_seq) hs ⟨rfl, 1, result, q, hq⟩
  exact ⟨q.loc, doc1, h1⟩

theorem from_string_rejected_escape_witness :
    (∃ loc doc1, from_string example_env (bytes "[\"a\\q\"]") example_doc =
      some (⟨error_kind.invalid_escape_seq, loc⟩, doc1)) ∧
    (∃ loc doc1, from_string example_env (bytes "\x7bk: 'a\\x4g'\x7d") example_doc =
      some (⟨error_kind.invalid_escape_seq, loc⟩, doc1)) ∧
    (∃ loc doc1, from_string example_env (bytes "[\"\\u00e") example_doc =
      some (⟨error_kind.invalid_escape_seq, loc⟩, doc1)) :=
  ⟨from_string_rejected_escape example_env (bytes "[\"a\\q\"]") example_doc _ _ false []
      [str_item.plain 97] (bytes "q\"]")
      (parser.on_spine.array_element _
        (parser.on_spine.array_begin _ _ parser.on_spine.root rfl rfl) rfl (by decide))
      rfl (by decide) (by simp [str_item.ok])
      (Or.inr (Or.inl ⟨113, bytes "\"]", rfl, by decide⟩)),
    from_string_rejected_escape example_env (bytes "\x7bk: 'a\\x4g'\x7d") example_doc _ _ true
      (bytes " ") [str_item.plain 97] (bytes "x4g'\x7d")
      (parser.on_spine.object_value _
        (parser.on_spine.object_begin _ _ parser.on_spine.root rfl rfl)
        rfl (Or.inl rfl) rfl rfl rfl)
      rfl (by decide) (by simp [str_item.ok])
      (Or.inr (Or.inr ⟨120, [52], bytes "g'\x7d", rfl, Or.inl ⟨rfl, by decide⟩, by decide,
        Or.inr ⟨103, bytes "'\x7d", rfl, by decide, by decide⟩⟩)),
    from_string_rejected_escape example_env (bytes "[\"\\u00e") example_doc _ _ false []
      [] (bytes "u00e")
      (parser.on_spine.array_element _
        (parser.on_spine.array_begin _ _ parser.on_spine.root rfl rfl) rfl (by decide))
      rfl (by decide) (by simp)
      (Or.inr (Or.inr ⟨117, bytes "00e", [], rfl, Or.inr ⟨rfl, by decide⟩, by decide,
        Or.inl rfl⟩))⟩

end json5

namespace json5

namespace parser

theorem expect_chars_ok (xs : List Nat) (p : parser) (tail : List Nat)
    (h : p.input = xs ++ tail) : expect_chars xs p = (true, p.with_scan xs tail []) := by
  induction xs generalizing p with
  | nil =>
    have h' : tail = p.input := by simpa using h.symm
    rw [expect_chars, h', with_scan_nil]
  | cons x xs ih =>
    rw [expect_chars]
    rw [next_with_scan p x (xs ++ tail) (by simpa using h)]
    dsimp only
    rw [if_pos rfl, ih _ rfl, with_scan_with_scan]
    rfl

theorem parse_literal_true (p : parser) (tail : List Nat)
    (h : p.input = [116, 114, 117, 101] ++ tail) (result : token_type) :
    p.parse_literal result =
      (error.ok, token_type.literal_true, p.with_scan [116, 114, 117, 101] tail []) := by
  have h' : p.input = 116 :: ([114, 117, 101] ++ tail) := h
  rw [parse_literal, peek_cons p _ _ h', next_with_scan p _ _ h']
  simp only [Nat.cast_ofNat, if_true]
  rw [expect_chars_ok [114, 117, 101] _ tail rfl, with_scan_with_scan]
  rfl

theorem parse_literal_false (p : parser) (tail : List Nat)
    (h : p.input = [102, 97, 108, 115, 101] ++ tail) (result : token_type) :
    p.parse_literal result =
      (error.ok, token_type.literal_false, p.with_scan [102, 97, 108, 115, 101] tail []) := by
  have h' : p.input = 102 :: ([97, 108, 115, 101] ++ tail) := h
  rw [parse_literal, peek_cons p _ _ h', next_with_scan p _ _ h']
  simp only [Nat.cast_ofNat, Int.reduceEq, if_false, if_true]
  rw [expect_chars_ok [97, 108, 115, 101] _ tail rfl, with_scan_with_scan]
  rfl

theorem parse_literal_null (p : parser) (tail : List Nat)
    (h : p.input = [110, 117, 108, 108] ++ tail) (result : token_type) :
    p.parse_literal result =
      (error.ok, token_type.literal_null, p.with_scan [110, 117, 108, 108] tail []) := by
  have h' : p.input = 110 :: ([117, 108, 108] ++ tail) := h
  rw [parse_literal, peek_cons p _ _ h', next_with_scan p _ _ h']
  simp only [Nat.cast_ofNat, Int.reduceEq, if_false, if_true]
  rw [expect_chars_ok [117, 108, 108] _ tail rfl, with_scan_with_scan]
  rfl

end parser

end json5

namespace json5

namespace parser

theorem scalar_source_cons (v : scalar) :
    ∃ c r, v.source = c :: r ∧ token_start c = true ∧
      (token_class token_type.unknown c = token_type.identifier ∨
        token_class token_type.unknown c = token_type.string) := by
  cases v with
  | lit_true => exact ⟨_, _, rfl, by decide, Or.inl (by decide)⟩
  | lit_false => exact ⟨_, _, rfl, by decide, Or.inl (by decide)⟩
  | lit_null => exact ⟨_, _, rfl, by decide, Or.inl (by decide)⟩
  | str sq items =>
    refine ⟨_, _, rfl, ?_, Or.inr ?_⟩
    · cases sq <;> decide
    · cases sq <;> decide

/-- The method `parse_value` on a scalar, after whitespace and before more input. -/
theorem parse_value_scalar (e : env) (n : Nat) (result : value) (p : parser)
    (pre : List Nat) (v : scalar) (tail : List Nat)
    (hin : p.input = pre ++ v.source ++ tail)
    (hpre : ∀ w ∈ pre, is_space w = true) (hv : v.ok) (ht : tail ≠ []) :
    parse_value e (n + 1) result p =
      some (error.ok, ⟨v.cell_data p.doc.strings.length, p.loc.advance pre⟩,
        p.with_scan (pre ++ v.source) tail v.added) := by
  rw [parse_value]
  cases v with
  | lit_true =>
    have hin' : p.input = pre ++ 116 :: ([114, 117, 101] ++ tail) := by
      simpa [scalar.source] using hin
    rw [peek_next_token_spaces p _ pre _ _ hin' hpre (by decide)]
    have ht : token_class token_type.unknown 116 = token_type.identifier := by decide
    rw [ht]
    dsimp only
    rw [if_neg (by decide)]
    rw [parse_literal_true _ tail rfl]
    simp only [with_scan_with_scan, scalar.source, scalar.added, scalar.cell_data,
      List.append_nil]
    rfl
  | lit_false =>
    have hin' : p.input = pre ++ 102 :: ([97, 108, 115, 101] ++ tail) := by
      simpa [scalar.source] using hin
    rw [peek_next_token_spaces p _ pre _ _ hin' hpre (by decide)]
    have ht : token_class token_type.unknown 102 = token_type.identifier := by decide
    rw [ht]
    dsimp only
    rw [if_neg (by decide)]
    rw [parse_literal_false _ tail rfl]
    simp only [with_scan_with_scan, scalar.source, scalar.added, scalar.cell_data,
      List.append_nil]
    rfl
  | lit_null =>
    have hin' : p.input = pre ++ 110 :: ([117, 108, 108] ++ tail) := by
      simpa [scalar.source] using hin
    rw [peek_next_token_spaces p _ pre _ _ hin' hpre (by decide)]
    have ht : token_class token_type.unknown 110 = token_type.identifier := by decide
    rw [ht]
    dsimp only
    rw [if_neg (by decide)]
    rw [parse_literal_null _ tail rfl]
    simp only [with_scan_with_scan, scalar.source, scalar.added, scalar.cell_data,
      List.append_nil]
    rfl
  | str sq items =>
    have hin' : p.input = pre ++ (if sq then 39 else 34) ::
        (items_source items ++ (if sq then 39 else 34) :: tail) := by
      simpa [scalar.source] using hin
    have hst : token_start (if sq then 39 else 34) = true := by cases sq <;> decide
    have hcl : token_class token_type.unknown (if sq then 39 else 34) = token_type.string := by
      cases sq <;> decide
    rw [peek_next_token_spaces p _ pre _ _ hin' hpre hst, hcl]
    dsimp only
    rw [if_neg (by decide)]
    rw [parse_string_items sq items hv _ tail rfl, if_neg ht]
    dsimp only
    rw [if_neg (by decide)]
    simp only [with_scan_with_scan, scalar.source, scalar.added, scalar.cell_data,
      List.append_nil, List.nil_append, with_scan_strings, with_scan_loc]
    simp [builder.new_string, value.of_type]

end parser

end json5

namespace json5

theorem add_to_back_zero (cs : List Nat) : add_to_back 0 cs = cs := by
  induction cs with
  | nil => rfl
  | cons c cs ih =>
    cases cs with
    | nil => rfl
    | cons d cs => rw [add_to_back, ih]

theorem add_to_back_add (j k : Nat) (cs : List Nat) :
    add_to_back k (add_to_back j cs) = add_to_back (j + k) cs := by
  induction cs with
  | nil => rfl
  | cons c cs ih =>
    cases cs with
    | nil => simp [add_to_back, Nat.add_assoc]
    | cons d cs =>
      cases cs with
      | nil => simp [add_to_back, Nat.add_assoc]
      | cons d2 cs =>
        simp only [add_to_back] at ih ⊢
        rw [ih]

theorem add_to_back_append (k c : Nat) (cs : List Nat) :
    add_to_back k (cs ++ [c]) = cs ++ [c + k] := by
  induction cs with
  | nil => rfl
  | cons d cs ih =>
    cases cs with
    | nil => rfl
    | cons d2 cs =>
      simp only [List.cons_append] at ih ⊢
      rw [add_to_back, ih]

namespace parser

theorem with_scan_eq_with_items (p : parser) (c r a : List Nat) :
    p.with_scan c r a = p.with_items c r a [] 0 := by
  simp [with_scan, with_items, add_to_back_zero]

theorem with_items_with_items (p : parser) (c1 r1 a1 c2 r2 a2 : List Nat)
    (v1 v2 : List value) (k1 k2 : Nat) :
    (p.with_items c1 r1 a1 v1 k1).with_items c2 r2 a2 v2 k2 =
      p.with_items (c1 ++ c2) r2 (a1 ++ a2) (v1 ++ v2) (k1 + k2) := by
  simp [with_items, location.advance_append, add_to_back_add]

theorem add_item_with_items (p : parser) (c r a : List Nat) (vs : List value) (k : Nat)
    (v : value) :
    { p.with_items c r a vs k with
        tobuilder := (p.with_items c r a vs k).tobuilder.add_item v } =
      p.with_items c r a (vs ++ [v]) (k + 1) := by
  simp [with_items, builder.add_item, add_to_back_add]

@[simp] theorem with_items_input (p : parser) (c r a : List Nat) (vs : List value) (k : Nat) :
    (p.with_items c r a vs k).input = r := rfl

@[simp] theorem with_items_strings (p : parser) (c r a : List Nat) (vs : List value)
    (k : Nat) : (p.with_items c r a vs k).doc.strings = p.doc.strings ++ a := rfl

end parser

end json5

namespace json5

namespace parser

theorem not_eof_of_input (p : parser) (a : List Nat) (c : Nat) (b : List Nat)
    (h : p.input = a ++ c :: b) : ¬ (p.eof = true) := by
  cases a with
  | nil => rw [eof_cons p c b h]; exact Bool.noConfusion
  | cons w a => rw [eof_cons p w (a ++ c :: b) h]; exact Bool.noConfusion

/-- An iteration of the array loop that meets the closing bracket. -/
theorem parse_array_loop_end (e : env) (n : Nat) (flag : Bool) (p : parser)
    (ws tail : List Nat) (h : p.input = ws ++ 93 :: tail)
    (hws : ∀ w ∈ ws, is_space w = true) :
    parse_array_loop e (n + 1) flag p =
      some (error.ok, p.with_items (ws ++ [93]) tail [] [] 0) := by
  rw [parse_array_loop, if_neg (not_eof_of_input p ws 93 tail h),
    peek_next_token_spaces p _ ws 93 tail h hws (by decide)]
  have ht : token_class token_type.unknown 93 = token_type.array_end := by decide
  rw [ht]
  dsimp only
  rw [if_neg (by decide), if_pos rfl, next_with_scan _ 93 tail rfl, with_scan_with_scan,
    with_scan_eq_with_items]
  rfl

/-- An iteration of the array loop that expects a comma and meets it. -/
theorem parse_array_loop_sep (e : env) (n : Nat) (p : parser)
    (ws tail : List Nat) (h : p.input = ws ++ 44 :: tail)
    (hws : ∀ w ∈ ws, is_space w = true) :
    parse_array_loop e (n + 1) true p =
      parse_array_loop e n false (p.with_items (ws ++ [44]) tail [] [] 0) := by
  rw [parse_array_loop, if_neg (not_eof_of_input p ws 44 tail h),
    peek_next_token_spaces p _ ws 44 tail h hws (by decide)]
  have ht : token_class token_type.unknown 44 = token_type.comma := by decide
  rw [ht]
  dsimp only
  rw [if_neg (by decide), if_neg (by decide), if_pos rfl, if_neg (by simp),
    next_with_scan _ 44 tail rfl, with_scan_with_scan, with_scan_eq_with_items]
  rfl

/-- An iteration of the array loop that expects no comma and meets a scalar. -/
theorem parse_array_loop_scalar (e : env) (n : Nat) (p : parser) (el : element)
    (tail : List Nat) (h : p.input = el.pre ++ el.v.source ++ tail)
    (hpre : ∀ w ∈ el.pre, is_space w = true) (hv : el.v.ok) (ht : tail ≠ []) :
    parse_array_loop e (n + 1 + 1) false p =
      parse_array_loop e (n + 1) true
        (p.with_items (el.pre ++ el.v.source) tail el.v.added
          [⟨el.v.cell_data p.doc.strings.length, p.loc.advance el.pre⟩] 1) := by
  obtain ⟨c, r, hc, hst, hcl⟩ := scalar_source_cons el.v
  have h' : p.input = el.pre ++ c :: (r ++ tail) := by rw [h, hc]; simp
  rw [parse_array_loop, if_neg (not_eof_of_input p el.pre c _ h'),
    peek_next_token_spaces p _ el.pre c _ h' hpre hst]
  dsimp only
  have hne : ¬ (token_class token_type.unknown c = token_type.array_end) := by
    rcases hcl with hcl | hcl <;> rw [hcl] <;> decide
  rw [if_neg (by decide), if_neg hne]
  simp only [Bool.false_eq_true, if_false]
  rw [parse_value_scalar e n value.null _ [] el.v tail (by simp [hc]) (by simp) hv ht]
  dsimp only
  rw [if_neg (by decide)]
  congr 1
  simp [with_scan, with_items, builder.add_item, location.advance, location.advance_append,
    add_to_back_zero]

end parser

end json5

namespace json5

theorem comma_join_cons_cons (x y : List Nat) (r : List (List Nat)) :
    comma_join (x :: y :: r) = x ++ 44 :: comma_join (y :: r) := rfl

theorem cells_data_cons (off : Nat) (v : scalar) (vs : List scalar) :
    cells_data off (v :: vs) = v.cell_data off :: cells_data (off + v.added.length) vs := rfl

theorem all_added_cons (v : scalar) (vs : List scalar) :
    all_added (v :: vs) = v.added ++ all_added vs := by
  simp [all_added]

namespace parser

theorem with_items_congr (p : parser) {c c' r a a' : List Nat} {v v' : List value}
    {k k' : Nat} (hc : c = c') (ha : a = a') (hv : v = v') (hk : k = k') :
    p.with_items c r a v k = p.with_items c' r a' v' k' := by
  subst hc ha hv hk
  rfl

/-- The array loop over the elements of a flat array: it returns without error in front of
`rest`, having appended one cell for each element, in order. -/
theorem parse_array_loop_flat (e : env) (rest : List Nat) (els : List element)
    (hok : ∀ el ∈ els, el.ok) (p : parser)
    (hin : p.input = comma_join (els.map element.text) ++ 93 :: rest) :
    ∃ cells, cells.map value.data = cells_data p.doc.strings.length (els.map element.v) ∧
      parse_array_loop e (2 * els.length + 2) false p =
        some (error.ok, p.with_items (comma_join (els.map element.text) ++ [93]) rest
          (all_added (els.map element.v)) cells els.length) := by
  induction els generalizing p with
  | nil =>
    refine ⟨[], rfl, ?_⟩
    have h' : p.input = [] ++ 93 :: rest := by simpa [comma_join] using hin
    show parse_array_loop e (1 + 1) false p = _
    rw [parse_array_loop_end e 1 false p [] rest h' (by simp)]
    rfl
  | cons el els ih =>
    obtain ⟨hpre, hv, hpost⟩ := hok el (List.mem_cons_self _ _)
    have hok' : ∀ x ∈ els, x.ok := fun x hx => hok x (List.mem_cons_of_mem _ hx)
    cases els with
    | nil =>
      have h' : p.input = el.pre ++ el.v.source ++ (el.post ++ 93 :: rest) := by
        simpa [comma_join, element.text] using hin
      refine ⟨[⟨el.v.cell_data p.doc.strings.length, p.loc.advance el.pre⟩], rfl, ?_⟩
      show parse_array_loop e (2 + 1 + 1) false p = _
      rw [parse_array_loop_scalar e 2 p el _ h' hpre hv (by simp)]
      rw [parse_array_loop_end e 2 true _ el.post rest rfl hpost, with_items_with_items]
      simp [comma_join, element.text, all_added]
    | cons el2 els =>
      have h' : p.input = el.pre ++ el.v.source ++
          (el.post ++ 44 :: (comma_join ((el2 :: els).map element.text) ++ 93 :: rest)) := by
        simpa [comma_join, element.text] using hin
      have e1 : 2 * (el :: el2 :: els).length + 2 =
          (2 * (el2 :: els).length + 2) + 1 + 1 := by simp; omega
      rw [e1, parse_array_loop_scalar e _ p el _ h' hpre hv (by simp)]
      rw [parse_array_loop_sep e _ _ el.post _ rfl hpost, with_items_with_items]
      obtain ⟨cells, hcells, hrun⟩ := ih hok'
        (p.with_items (el.pre ++ el.v.source ++ (el.post ++ [44]))
          (comma_join ((el2 :: els).map element.text) ++ 93 :: rest) (el.v.added ++ [])
          ([⟨el.v.cell_data p.doc.strings.length, p.loc.advance el.pre⟩] ++ []) (1 + 0)) rfl
      refine ⟨⟨el.v.cell_data p.doc.strings.length, p.loc.advance el.pre⟩ :: cells, ?_, ?_⟩
      · rw [List.map_cons, List.map_cons, cells_data_cons, hcells]
        simp
      · rw [hrun, with_items_with_items]
        refine congrArg (fun q => some (error.ok, q)) (with_items_congr p ?_ ?_ ?_ ?_)
        · simp [comma_join_cons_cons, element.text]
        · simp [all_added_cons]
        · simp
        · simp; omega

end parser

end json5

namespace json5

/-! ## Tags and payloads -/

theorem small_and_high (M x : Nat) (hM : ∀ i, i < 48 → M.testBit i = false)
    (h : x < 2 ^ 48) : x &&& M = 0 := by
  apply Nat.eq_of_testBit_eq
  intro i
  rw [Nat.testBit_and, Nat.zero_testBit]
  by_cases hi : i < 48
  · simp [hM i hi]
  · have : x.testBit i = false :=
      Nat.testBit_lt_two_pow (lt_of_lt_of_le h (Nat.pow_le_pow_right (by decide) (by omega)))
    simp [this]

theorem small_and_low (M x : Nat) (hM : ∀ i, i < 48 → M.testBit i = true)
    (h : x < 2 ^ 48) : x &&& M = x := by
  apply Nat.eq_of_testBit_eq
  intro i
  rw [Nat.testBit_and]
  by_cases hi : i < 48
  · simp [hM i hi]
  · have : x.testBit i = false :=
      Nat.testBit_lt_two_pow (lt_of_lt_of_le h (Nat.pow_le_pow_right (by decide) (by omega)))
    simp [this]

theorem small_and_not_mask_payload (x : Nat) (h : x < 2 ^ 48) : x &&& not_mask_payload = 0 :=
  small_and_high _ x (by intro i hi; interval_cases i <;> decide) h

theorem small_and_mask_payload (x : Nat) (h : x < 2 ^ 48) : x &&& mask_payload = x :=
  small_and_low _ x (by intro i hi; interval_cases i <;> decide) h

theorem small_and_not_mask_type (x : Nat) (h : x < 2 ^ 48) : x &&& not_mask_type = x :=
  small_and_low _ x (by intro i hi; interval_cases i <;> decide) h

/-- A tag with a payload below 2^48 under a mask. -/
theorem tag_or_and (T x M : Nat) : (T ||| x) &&& M = (T &&& M) ||| (x &&& M) := by
  rw [Nat.and_comm, Nat.and_or_distrib_left, Nat.and_comm M T, Nat.and_comm M x]

theorem tagged_mask_type (T x : Nat) (h : x < 2 ^ 48) :
    (T ||| x) &&& mask_type = T &&& mask_type := by
  rw [tag_or_and, small_and_mask_type x h, Nat.or_zero]

theorem tagged_not_mask_payload (T x : Nat) (h : x < 2 ^ 48) :
    (T ||| x) &&& not_mask_payload = T &&& not_mask_payload := by
  rw [tag_or_and, small_and_not_mask_payload x h, Nat.or_zero]

theorem tagged_mask_payload (T x : Nat) (hT : T &&& mask_payload = 0) (h : x < 2 ^ 48) :
    (T ||| x) &&& mask_payload = x := by
  rw [tag_or_and, small_and_mask_payload x h, hT, Nat.zero_or]

theorem tagged_not_mask_type (T x : Nat) (hT : T &&& not_mask_type = 0) (h : x < 2 ^ 48) :
    (T ||| x) &&& not_mask_type = x := by
  rw [tag_or_and, small_and_not_mask_type x h, hT, Nat.zero_or]

end json5

namespace json5

theorem value.relink_leaf (e : env) (doc : document) (v : value) (h : v.is_leaf) :
    v.relink e Option.none doc = (v, doc) := by
  obtain ⟨h1, h2, h3⟩ := h
  unfold value.relink
  rw [if_neg h1]
  have : ¬ (v.is_object = true ∨ v.is_array = true) := by
    simp only [value.is_object, value.is_array, decide_eq_true_eq]
    exact fun h => h.elim h2 h3
  rw [if_neg this]

theorem relink_all_leaf (e : env) (vs : List value) (doc : document)
    (h : ∀ v ∈ vs, v.is_leaf) : relink_all e Option.none vs doc = (vs, doc) := by
  induction vs with
  | nil => rfl
  | cons v vs ih =>
    rw [relink_all]
    rw [value.relink_leaf e doc v (h v (List.mem_cons_self _ _)),
      ih (fun x hx => h x (List.mem_cons_of_mem _ hx))]

/-- The method `assign_root` on a container root that points at cell 0 of a buffer of
leaves: the root receives the document flag and the address of the cell buffer, and the
pending strings are converted. -/
theorem assign_root_leaves (e : env) (doc : document) (root : value)
    (hroot : root.data = type_array ∨ root.data = type_object)
    (hleaf : ∀ v ∈ doc.values, v.is_leaf) :
    doc.assign_root e root =
      { doc with data := (root.data ||| mask_is_document) ||| doc.values_data,
                 values := doc.values.map doc.convert_string_offset } := by
  unfold document.assign_root
  dsimp only
  rw [relink_all_leaf e doc.values _ hleaf]
  dsimp only
  have hns : ¬ ((root.data ||| mask_is_document) &&& mask_type = type_string) := by
    rcases hroot with h | h <;> rw [h] <;> decide
  have hco : value.is_object ⟨root.data ||| mask_is_document, doc.loc⟩ = true ∨
      value.is_array ⟨root.data ||| mask_is_document, doc.loc⟩ = true := by
    rcases hroot with h | h
    · right; simp only [value.is_array, h]; decide
    · left; simp only [value.is_object, h]; decide
  have hpay : (root.data ||| mask_is_document) &&& mask_payload = 0 := by
    rcases hroot with h | h <;> rw [h] <;> decide
  have hnp : (root.data ||| mask_is_document) &&& not_mask_payload =
      root.data ||| mask_is_document := by
    rcases hroot with h | h <;> rw [h] <;> decide
  unfold value.relink document.to_value
  dsimp only
  rw [if_neg hns, if_pos hco]
  simp only [value.set_payload, value.payload, hpay, Nat.zero_mul, Nat.add_zero, hnp,
    document.convert_string_offsets]
  rfl

end json5

namespace json5

namespace parser

/-- What `from_string` returns when the root call of `parse_value` returns without error. -/
theorem from_string_of_root_ok (e : env) (str : List Nat) (doc : document) (n : Nat)
    (v : value) (q : parser)
    (h : parse_value e n (start str doc).doc.to_value (start str doc) = some (error.ok, v, q))
    (hv : v.is_array = true ∨ v.is_object = true) :
    from_string e str doc = some (error.ok, { q.doc with data := v.data, loc := v.loc }) := by
  have htot := (total_all e (3 * str.length + 1)).1 (start str doc).doc.to_value (start str doc)
    (by show 3 * str.length ≤ 3 * str.length + 1; omega) (by omega)
  obtain ⟨r, hr⟩ := Option.isSome_iff_exists.mp htot
  have h1 := parse_value_mono e n (max n (3 * str.length + 1)) (le_max_left _ _) _ _ _ h
  have h2 := parse_value_mono e _ (max n (3 * str.length + 1)) (le_max_right _ _) _ _ _ hr
  rw [h1] at h2
  have h3 : r = (error.ok, v, q) := (Option.some.inj h2).symm
  subst h3
  unfold from_string parse
  dsimp only
  have hr' : parse_value e (3 * str.length + 1)
      (builder.reset { doc := doc, stack := [], values := [], counts := [] }).doc.to_value
      { tobuilder := builder.reset { doc := doc, stack := [], values := [], counts := [] },
        input := str, loc := if str ≠ [] then ⟨1, 1, 0⟩ else ⟨0, 0, 0⟩ } =
      some (error.ok, v, q) := hr
  rw [hr']
  dsimp only
  rw [if_neg (by decide)]
  have hroot : (!(document.to_value { q.doc with data := v.data, loc := v.loc }).is_array &&
      !(document.to_value { q.doc with data := v.data, loc := v.loc }).is_object) = false := by
    have e1 : document.to_value { q.doc with data := v.data, loc := v.loc } = v := rfl
    rw [e1]
    rcases hv with hv | hv <;> simp [hv]
  rw [hroot]
  rfl

end parser

/-- The method `pop` on the outermost frame of a container whose items are leaves and whose
document holds no cell yet. -/
theorem builder.pop_flat (e : env) (b : builder) (T : value) (cells : List value)
    (hT : T = value.of_type value_type.array 0 ∨ T = value.of_type value_type.object 0)
    (hstack : b.stack = [T]) (hcounts : b.counts = [cells.length])
    (hvalues : b.values = cells) (hdv : b.doc.values = [])
    (hleaf : ∀ c ∈ cells, c.is_leaf) (hk : cells.length < 2 ^ 53) :
    b.pop e =
      (⟨(T.data ||| mask_is_document) ||| b.doc.values_data, b.doc.loc⟩,
        { doc := { b.doc with
            data := (T.data ||| mask_is_document) ||| b.doc.values_data,
            values := (value.of_double (double_of_size cells.length) :: cells).map
              b.doc.convert_string_offset },
          stack := [], values := [], counts := [] }) := by
  unfold builder.pop
  have g1 : [cells.length].getLastD 0 = cells.length := rfl
  have g2 : [T].getLastD value.null = T := rfl
  simp only [hstack, hcounts, hvalues, hdv, g1, g2, List.dropLast_single,
    List.isEmpty_nil, if_true, List.length_nil, Nat.sub_self, List.drop_zero, List.take_zero,
    List.nil_append, List.singleton_append]
  have hroot : (T.set_payload 0).data = type_array ∨ (T.set_payload 0).data = type_object := by
    rcases hT with h | h <;> subst h
    · left; decide
    · right; decide
  have hTd : (T.set_payload 0).data = T.data := by
    rcases hT with h | h <;> subst h <;> decide
  have hnum : (value.of_double (double_of_size cells.length)).is_leaf := by
    have hlt := double_of_size_lt cells.length hk
    have hle : double_of_size cells.length &&& mask_type ≤ double_of_size cells.length :=
      Nat.and_le_left
    refine ⟨?_, ?_, ?_⟩ <;>
    · show double_of_size cells.length &&& mask_type ≠ _
      intro hc
      rw [hc] at hle
      have : (2:Nat) ^ 63 ≤ double_of_size cells.length := le_trans (by decide) hle
      omega
  rw [assign_root_leaves e _ (T.set_payload 0) hroot
    (by
      intro v hv
      rcases List.mem_cons.mp hv with h | h
      · rw [h]; exact hnum
      · exact hleaf v h)]
  simp only [hTd]
  rfl

end json5

namespace json5

theorem scalar.cell_data_leaf (v : scalar) (off : Nat) (l : location) (h : off < 2 ^ 48) :
    value.is_leaf ⟨v.cell_data off, l⟩ := by
  cases v with
  | lit_true =>
    refine ⟨?_, ?_, ?_⟩ <;>
    · show type_true &&& mask_type ≠ _
      decide
  | lit_false =>
    refine ⟨?_, ?_, ?_⟩ <;>
    · show type_false &&& mask_type ≠ _
      decide
  | lit_null =>
    refine ⟨?_, ?_, ?_⟩ <;>
    · show type_null &&& mask_type ≠ _
      decide
  | str sq items =>
    have ht : (type_string_off ||| off) &&& mask_type = type_string_off := by
      rw [tagged_mask_type _ _ h]; decide
    refine ⟨?_, ?_, ?_⟩ <;>
    · show (type_string_off ||| off) &&& mask_type ≠ _
      rw [ht]; decide

theorem cells_leaf (vs : List scalar) (cells : List value) (off : Nat)
    (h : cells.map value.data = cells_data off vs)
    (hb : off + (all_added vs).length < 2 ^ 48) : ∀ c ∈ cells, c.is_leaf := by
  induction vs generalizing cells off with
  | nil =>
    have : cells = [] := by simpa [cells_data] using h
    subst this
    intro c hc
    cases hc
  | cons v vs ih =>
    cases cells with
    | nil => simp [cells_data] at h
    | cons c cells =>
      rw [cells_data_cons, List.map_cons, List.cons.injEq] at h
      rw [all_added_cons, List.length_append] at hb
      intro x hx
      rcases List.mem_cons.mp hx with hx | hx
      · subst hx
        have := scalar.cell_data_leaf v off x.loc (by omega)
        rw [← h.1] at this
        exact this
      · exact ih cells (off + v.added.length) h.2 (by omega) x hx

theorem convert_string_offset_congr (d1 d2 : document) (h : d1.strings_data = d2.strings_data) :
    d1.convert_string_offset = d2.convert_string_offset := by
  funext v
  unfold document.convert_string_offset
  rw [h]

theorem cells_data_length (off : Nat) (vs : List scalar) :
    (cells_data off vs).length = vs.length := by
  induction vs generalizing off with
  | nil => rfl
  | cons v vs ih => rw [cells_data_cons, List.length_cons, ih, List.length_cons]

end json5

namespace json5

theorem root_is_array (vd : Nat) (l : location) (h : vd < 2 ^ 48) :
    value.is_array ⟨(type_array ||| mask_is_document) ||| vd, l⟩ = true := by
  show decide (((type_array ||| mask_is_document) ||| vd) &&& mask_type = type_array) = true
  rw [tagged_mask_type _ _ h]
  decide

theorem root_is_object (vd : Nat) (l : location) (h : vd < 2 ^ 48) :
    value.is_object ⟨(type_object ||| mask_is_document) ||| vd, l⟩ = true := by
  show decide (((type_object ||| mask_is_document) ||| vd) &&& mask_type = type_object) = true
  rw [tagged_mask_type _ _ h]
  decide

/-- The function `from_string` on a flat array: it returns no error, and the document is
the flat document of the scalars. -/
theorem from_string_array_flat (e : env) (doc : document) (lead : List Nat)
    (els : List element) (rest : List Nat)
    (hlead : ∀ w ∈ lead, is_space w = true) (hok : ∀ el ∈ els, el.ok)
    (hk : els.length < 2 ^ 53)
    (hb : 1 + (all_added (els.map element.v)).length < 2 ^ 48)
    (hvd : doc.values_data < 2 ^ 48) :
    ∃ F, from_string e (lead ++ array_text els rest) doc = some (error.ok, F) ∧
      F.is_flat type_array (els.map element.v) ∧
      F.strings_data = doc.strings_data ∧ F.values_data = doc.values_data := by
  let p0 := parser.start (lead ++ array_text els rest) doc
  have hin : p0.input = lead ++ 91 ::
      (comma_join (els.map element.text) ++ 93 :: rest) := rfl
  let P : parser := ({ (p0.with_scan lead (91 ::
      (comma_join (els.map element.text) ++ 93 :: rest)) []) with
      tobuilder := (p0.with_scan lead (91 ::
        (comma_join (els.map element.text) ++ 93 :: rest)) []).tobuilder.push_array }).with_scan
      [91] (comma_join (els.map element.text) ++ 93 :: rest) []
  obtain ⟨cells, hcells, hloop⟩ := parser.parse_array_loop_flat e rest els hok P rfl
  have hlen : cells.length = els.length := by
    have := congrArg List.length hcells
    rw [List.length_map, cells_data_length, List.length_map] at this
    exact this
  have hoff : P.doc.strings.length = 1 := by
    show (([0] ++ []) ++ ([] : List Nat)).length = 1
    rfl
  rw [hoff] at hcells
  have hleaf := cells_leaf _ cells 1 hcells hb
  let Q := P.with_items (comma_join (els.map element.text) ++ [93]) rest
    (all_added (els.map element.v)) cells els.length
  have hpop := builder.pop_flat e Q.tobuilder (value.of_type value_type.array 0) cells
    (Or.inl rfl) rfl
    (by show add_to_back els.length [0] = [cells.length]
        rw [hlen]; simp [add_to_back])
    (by show [] ++ cells = cells
        rfl)
    rfl hleaf (by rw [hlen]; exact hk)
  have hval : parser.parse_value e (2 * els.length + 2 + 1 + 1) p0.doc.to_value p0 =
      some (error.ok,
        { (Q.tobuilder.pop e).1 with loc := p0.loc.advance lead },
        { Q with tobuilder := (Q.tobuilder.pop e).2 }) := by
    rw [parser.parse_value, parser.peek_next_token_spaces p0 _ lead 91 _ hin hlead (by decide)]
    have ht : token_class token_type.unknown 91 = token_type.array_begin := by decide
    rw [ht]
    dsimp only
    rw [if_neg (by decide), parser.parse_array, parser.next_with_scan _ 91 _ rfl]
    dsimp only
    have hl : parser.parse_array_loop e (2 * els.length + 2) false P = some (error.ok, Q) :=
      hloop
    rw [hl]
    dsimp only
    rw [if_neg (by decide)]
    rfl
  rw [hpop] at hval
  have hfs := parser.from_string_of_root_ok e _ doc _ _ _ hval
    (Or.inl (root_is_array _ _ hvd))
  refine ⟨_, hfs, ⟨?_, ?_, ?_⟩, rfl, rfl⟩
  · rfl
  · show ([0] ++ []) ++ [] ++ all_added (els.map element.v) = _
    rfl
  · refine ⟨cells, hcells, ?_⟩
    rfl

end json5

namespace json5

theorem c_str_append_zero (d t : List Nat) : c_str (d ++ 0 :: t) = c_str d := by
  induction d with
  | nil => simp [c_str]
  | cons x d ih =>
    unfold c_str at ih ⊢
    by_cases hx : x = 0
    · simp [hx]
    · rw [List.cons_append, List.takeWhile_cons, List.takeWhile_cons, ih]

theorem all_added_append (vs ws : List scalar) :
    all_added (vs ++ ws) = all_added vs ++ all_added ws := by
  simp [all_added]

theorem cells_split (vs1 : List scalar) (v : scalar) (vs2 : List scalar) (cells : List value)
    (off : Nat) (h : cells.map value.data = cells_data off (vs1 ++ v :: vs2)) :
    ∃ c, cells.get? vs1.length = some c ∧
      c.data = v.cell_data (off + (all_added vs1).length) := by
  induction vs1 generalizing cells off with
  | nil =>
    cases cells with
    | nil => simp [cells_data] at h
    | cons c cells =>
      rw [List.nil_append, cells_data_cons, List.map_cons, List.cons.injEq] at h
      exact ⟨c, rfl, by simpa [all_added] using h.1⟩
  | cons v1 vs1 ih =>
    cases cells with
    | nil => simp [cells_data] at h
    | cons c cells =>
      rw [List.cons_append, cells_data_cons, List.map_cons, List.cons.injEq] at h
      obtain ⟨c', hc', hd⟩ := ih cells (off + v1.added.length) h.2
      refine ⟨c', by simpa using hc', ?_⟩
      rw [hd, all_added_cons, List.length_append, Nat.add_assoc]

/-- The conversion of pending strings leaves a cell without the pending tag as it is. -/
theorem convert_other (doc : document) (v : value)
    (h : v.data &&& mask_type ≠ type_string_off) : doc.convert_string_offset v = v := by
  unfold document.convert_string_offset
  rw [if_neg h]

/-- The conversion of a pending string at offset `off`. -/
theorem convert_pending (doc : document) (l : location) (off : Nat)
    (h : doc.strings_data + off < 2 ^ 48) :
    doc.convert_string_offset ⟨type_string_off ||| off, l⟩ =
      ⟨type_string ||| (doc.strings_data + off), l⟩ := by
  have ho : off < 2 ^ 48 := by omega
  unfold document.convert_string_offset
  have h1 : (type_string_off ||| off) &&& mask_type = type_string_off := by
    rw [tagged_mask_type _ _ ho]; decide
  rw [if_pos h1]
  simp only [value.set_payload, value.payload]
  rw [tagged_mask_payload _ _ (by decide) ho, tagged_not_mask_payload _ _ ho]
  have h2 : type_string_off &&& not_mask_payload = type_string_off := by decide
  rw [h2, tagged_not_mask_type _ _ (by decide) h, Nat.or_comm]

end json5

namespace json5

theorem cell_at_index (e : env) (doc : document) (j : Nat) (hs : 0 < e.sizeof_value) :
    doc.cell_at e (doc.values_data + j * e.sizeof_value) = doc.values.get? j := by
  unfold document.cell_at
  have h1 : doc.values_data + j * e.sizeof_value - doc.values_data = j * e.sizeof_value := by
    omega
  rw [h1, Nat.mul_mod_left, Nat.mul_div_cancel _ hs, if_pos ⟨by omega, rfl⟩]

/-- The count cell of a flat document. -/
theorem flat_count (e : env) (F : document) (tag : Nat) (vs : List scalar)
    (hF : F.is_flat tag vs) (hs : 0 < e.sizeof_value) (hk : vs.length < 2 ^ 53) :
    ∃ c, F.cell_at e F.values_data = some c ∧ c.get_number_size = vs.length := by
  obtain ⟨cells, hcells, hvals⟩ := hF.values
  have hlen : cells.length = vs.length := by
    have := congrArg List.length hcells
    rw [List.length_map, cells_data_length] at this
    exact this
  have h0 := cell_at_index e F 0 hs
  rw [Nat.zero_mul, Nat.add_zero] at h0
  rw [h0, hvals]
  have hlt := double_of_size_lt vs.length hk
  have hnum := lt_two_pow_63_is_number _ hlt
  have hconv : F.convert_string_offset (value.of_double (double_of_size cells.length)) =
      value.of_double (double_of_size cells.length) := by
    apply convert_other
    rw [hlen]
    intro hc
    have hle : double_of_size vs.length &&& mask_type ≤ double_of_size vs.length :=
      Nat.and_le_left
    have hc' : double_of_size vs.length &&& mask_type = type_string_off := hc
    rw [hc'] at hle
    have : (2:Nat) ^ 63 ≤ double_of_size vs.length := le_trans (by decide) hle
    omega
  refine ⟨value.of_double (double_of_size cells.length),
    by simp only [List.map_cons, List.get?_cons_zero, hconv], ?_⟩
  rw [hlen]
  unfold value.get_number_size
  rw [hnum, if_pos rfl]
  exact size_of_double_of_size _ hk

/-- The cell of a scalar of a flat document: it is read at its place and holds the scalar. -/
theorem flat_cell (e : env) (F : document) (tag : Nat) (vs1 : List scalar) (v : scalar)
    (vs2 : List scalar) (hF : F.is_flat tag (vs1 ++ v :: vs2)) (hs : 0 < e.sizeof_value)
    (hb : F.strings_data + 1 + (all_added (vs1 ++ v :: vs2)).length < 2 ^ 48) :
    ∃ c, F.cell_at e (F.values_data + (vs1.length + 1) * e.sizeof_value) = some c ∧
      v.held_by F c := by
  obtain ⟨cells, hcells, hvals⟩ := hF.values
  obtain ⟨c, hc, hd⟩ := cells_split vs1 v vs2 cells 1 hcells
  rw [cell_at_index e F _ hs, hvals]
  refine ⟨F.convert_string_offset c,
    by simp [List.get?_eq_getElem?] at hc ⊢; exact ⟨c, hc, rfl⟩, ?_⟩
  rw [all_added_append, all_added_cons, List.length_append, List.length_append] at hb
  cases v with
  | lit_true =>
    have hd' : c.data = type_true := hd
    have : F.convert_string_offset c = c := by
      apply convert_other; rw [hd']; decide
    rw [this]
    simp only [scalar.held_by, value.is_boolean, value.get_bool, hd']
    decide
  | lit_false =>
    have hd' : c.data = type_false := hd
    have : F.convert_string_offset c = c := by
      apply convert_other; rw [hd']; decide
    rw [this]
    simp only [scalar.held_by, value.is_boolean, value.get_bool, hd']
    decide
  | lit_null =>
    have hd' : c.data = type_null := hd
    have : F.convert_string_offset c = c := by
      apply convert_other; rw [hd']; decide
    rw [this]
    simp only [scalar.held_by, value.is_null, hd']
    decide
  | str sq items =>
    have hd' : c.data = type_string_off ||| (1 + (all_added vs1).length) := hd
    have hc' : c = ⟨type_string_off ||| (1 + (all_added vs1).length), c.loc⟩ := by
      cases c; simp only at hd'; rw [hd']
    have hlt : F.strings_data + (1 + (all_added vs1).length) < 2 ^ 48 := by omega
    rw [hc', convert_pending F _ _ hlt]
    have hstr : value.is_string
        ⟨type_string ||| (F.strings_data + (1 + (all_added vs1).length)), c.loc⟩ = true := by
      show decide ((type_string ||| _) &&& mask_type = type_string) = true
      rw [tagged_mask_type _ _ hlt]; decide
    refine ⟨hstr, ?_⟩
    unfold value.get_c_str
    rw [hstr, if_pos rfl]
    show F.c_str_at ((type_string ||| (F.strings_data + (1 + (all_added vs1).length))) &&&
      mask_payload) = _
    rw [tagged_mask_payload _ _ (by decide) hlt]
    unfold document.c_str_at
    have hsl : F.strings.length = 1 + ((all_added vs1).length +
        ((scalar.str sq items).added.length + (all_added vs2).length)) := by
      rw [hF.strings, all_added_append, all_added_cons]
      simp
      omega
    have hal : 0 < (scalar.str sq items).added.length := by
      simp [scalar.added]
    rw [if_pos ⟨by omega, by rw [hsl]; omega⟩]
    have hdrop : F.strings.drop (F.strings_data + (1 + (all_added vs1).length) -
        F.strings_data) = (items_decoded items ++ 0 :: all_added vs2) := by
      have e1 : F.strings_data + (1 + (all_added vs1).length) - F.strings_data =
          ([0] ++ all_added vs1).length := by simp; omega
      rw [e1, hF.strings, all_added_append, all_added_cons, ← List.append_assoc,
        List.drop_left]
      simp [scalar.added]
    rw [hdrop, c_str_append_zero]

end json5

namespace json5

theorem items_decoded_plain (k : List Nat) : items_decoded (k.map str_item.plain) = k := by
  induction k with
  | nil => rfl
  | cons c k ih => rw [List.map_cons, parser.items_decoded_cons, ih]; rfl

theorem ident_byte_cast (x : Nat) (h : ident_byte x = true) :
    ¬ (¬ isalpha (x : Int) = true ∧ ¬ isdigit (x : Int) = true ∧ (x : Int) ≠ 95) := by
  unfold ident_byte at h
  simp only [Bool.or_eq_true, decide_eq_true_eq] at h
  intro ⟨h1, h2, h3⟩
  rcases h with (h | h) | h
  · exact h1 h
  · exact h2 h
  · exact h3 (by exact_mod_cast h)

theorem is_identifier_cases (k : List Nat) (h : is_identifier k = true) :
    ∃ c r, k = c :: r ∧ (isalpha c = true ∨ c = 95) ∧ ∀ x ∈ r, ident_byte x = true := by
  cases k with
  | nil => exact absurd h (by simp [is_identifier])
  | cons c r =>
    simp only [is_identifier, Bool.and_eq_true, Bool.or_eq_true, decide_eq_true_eq,
      List.all_eq_true] at h
    exact ⟨c, r, rfl, h.1, h.2⟩

namespace parser

/-- The loop of `parse_identifier` over the bytes of a key, up to a byte that cannot go on
it. -/
theorem parse_identifier_loop_key (r : List Nat) (t : Nat) (tl : List Nat)
    (ht : ident_byte t = false) (c : Nat) (p : parser) (n : Nat)
    (h : p.input = c :: (r ++ t :: tl)) (hr : ∀ x ∈ r, ident_byte x = true)
    (hn : r.length < n) :
    parse_identifier_loop n p = p.with_scan (c :: r) (t :: tl) (c :: r) := by
  induction r generalizing c p n with
  | nil =>
    obtain ⟨n, rfl⟩ : ∃ m, n = m + 1 := ⟨n - 1, by simp at hn; omega⟩
    rw [parse_identifier_loop, eof_cons p _ _ h, next_with_scan p _ _ h]
    simp only [Bool.false_eq_true, if_false, to_byte_cast]
    rw [add_with_scan, with_scan_with_scan]
    have hi : (p.with_scan ([c] ++ []) (p.with_scan [c] ([] ++ t :: tl) []).input
        ([] ++ [c])).input = t :: tl := rfl
    rw [peek_cons _ _ _ hi]
    have hstop : ¬ isalpha (t : Int) = true ∧ ¬ isdigit (t : Int) = true ∧ (t : Int) ≠ 95 := by
      unfold ident_byte at ht
      simp only [Bool.or_eq_false_iff, decide_eq_false_iff_not] at ht
      refine ⟨by simp [ht.1.1], by simp [ht.1.2], ?_⟩
      intro hc
      exact ht.2 (by exact_mod_cast hc)
    rw [if_pos hstop]
    rfl
  | cons x r ih =>
    obtain ⟨n, rfl⟩ : ∃ m, n = m + 1 := ⟨n - 1, by simp at hn; omega⟩
    rw [parse_identifier_loop, eof_cons p _ _ h, next_with_scan p _ _ h]
    simp only [Bool.false_eq_true, if_false, to_byte_cast]
    rw [add_with_scan, with_scan_with_scan]
    have hi : (p.with_scan ([c] ++ []) (p.with_scan [c] (x :: r ++ t :: tl) []).input
        ([] ++ [c])).input = x :: (r ++ t :: tl) := rfl
    rw [peek_cons _ _ _ hi]
    rw [if_neg (ident_byte_cast x (hr x (List.mem_cons_self _ _)))]
    rw [ih x _ n hi (fun y hy => hr y (List.mem_cons_of_mem _ hy))
      (by simp at hn; omega), with_scan_with_scan]
    rfl

/-- The method `parse_identifier` on an unquoted key. -/
theorem parse_identifier_key (p : parser) (c : Nat) (r : List Nat) (t : Nat) (tl : List Nat)
    (h : p.input = c :: (r ++ t :: tl)) (hc : isalpha c = true ∨ c = 95)
    (hr : ∀ x ∈ r, ident_byte x = true) (ht : ident_byte t = false) :
    p.parse_identifier =
      (error.ok, p.doc.strings.length, p.with_scan (c :: r) (t :: tl) (c :: r ++ [0])) := by
  unfold parse_identifier
  dsimp only
  rw [peek_cons p _ _ h]
  have hq : ¬ ((c : Int) = 39 ∨ (c : Int) = 34) := by
    simp only [isalpha, decide_eq_true_eq] at hc
    omega
  simp only [hq, decide_False, Bool.false_eq_true, if_false, false_and]
  rw [parse_identifier_loop_key r t tl ht c p _ h hr (by rw [h]; simp; omega),
    add_with_scan, with_scan_with_scan]
  simp [builder.string_buffer_offset]

end parser

end json5

namespace json5

theorem after_key (mid X : List Nat) (hmid : ∀ w ∈ mid, is_space w = true) :
    ∃ t tl, mid ++ 58 :: X = t :: tl ∧ ident_byte t = false := by
  cases mid with
  | nil => exact ⟨58, X, rfl, by decide⟩
  | cons w mid =>
    refine ⟨w, mid ++ 58 :: X, rfl, ?_⟩
    have hw := hmid w (List.mem_cons_self _ _)
    simp only [is_space, decide_eq_true_eq] at hw
    unfold ident_byte isalpha isdigit
    simp only [Bool.or_eq_false_iff, decide_eq_false_iff_not]
    omega

theorem token_class_colon (result : token_type) : token_class result 58 = token_type.colon := by
  unfold token_class
  simp

namespace parser

/-- An iteration of the object loop that meets the closing brace. -/
theorem parse_object_loop_end (e : env) (n : Nat) (flag : Bool) (p : parser)
    (ws tail : List Nat) (h : p.input = ws ++ 125 :: tail)
    (hws : ∀ w ∈ ws, is_space w = true) :
    parse_object_loop e (n + 1) flag p =
      some (error.ok, p.with_items (ws ++ [125]) tail [] [] 0) := by
  rw [parse_object_loop, if_neg (not_eof_of_input p ws 125 tail h),
    peek_next_token_spaces p _ ws 125 tail h hws (by decide)]
  have ht : token_class token_type.unknown 125 = token_type.object_end := by decide
  rw [ht]
  dsimp only
  rw [if_neg (by decide), if_neg (by decide), if_pos rfl, next_with_scan _ 125 tail rfl,
    with_scan_with_scan, with_scan_eq_with_items]
  rfl

/-- An iteration of the object loop that expects a comma and meets it. -/
theorem parse_object_loop_sep (e : env) (n : Nat) (p : parser)
    (ws tail : List Nat) (h : p.input = ws ++ 44 :: tail)
    (hws : ∀ w ∈ ws, is_space w = true) :
    parse_object_loop e (n + 1) true p =
      parse_object_loop e n false (p.with_items (ws ++ [44]) tail [] [] 0) := by
  rw [parse_object_loop, if_neg (not_eof_of_input p ws 44 tail h),
    peek_next_token_spaces p _ ws 44 tail h hws (by decide)]
  have ht : token_class token_type.unknown 44 = token_type.comma := by decide
  rw [ht]
  dsimp only
  rw [if_neg (by decide), if_neg (by decide), if_neg (by decide), if_pos rfl,
    if_neg (by simp), next_with_scan _ 44 tail rfl, with_scan_with_scan,
    with_scan_eq_with_items]
  rfl

/-- An iteration of the object loop that expects no comma and meets an entry. -/
theorem parse_object_loop_entry (e : env) (n : Nat) (p : parser) (en : entry)
    (tail : List Nat) (h : p.input = en.pre ++ en.key ++ en.mid ++
      58 :: (en.val.pre ++ en.val.v.source ++ tail))
    (hok : en.ok) (ht : tail ≠ []) :
    parse_object_loop e (n + 1 + 1) false p =
      parse_object_loop e (n + 1) true
        (p.with_items (en.pre ++ en.key ++ en.mid ++ 58 :: (en.val.pre ++ en.val.v.source))
          tail (en.key ++ [0] ++ en.val.v.added)
          [⟨type_string_off ||| p.doc.strings.length, p.loc.advance en.pre⟩,
            ⟨en.val.v.cell_data (p.doc.strings.length + (en.key.length + 1)),
              p.loc.advance (en.pre ++ en.key ++ en.mid ++ 58 :: en.val.pre)⟩] 2) := by
  obtain ⟨hpre, hid, hmid, hvpre, hv, _⟩ := hok
  obtain ⟨c, r, hkey, hc, hr⟩ := is_identifier_cases _ hid
  obtain ⟨t, tl, htl, hti⟩ := after_key en.mid (en.val.pre ++ en.val.v.source ++ tail) hmid
  obtain ⟨hst, hcl⟩ := key_start_token token_type.unknown c (by tauto)
  have h' : p.input = en.pre ++ c :: (r ++ t :: tl) := by
    rw [h, hkey, ← htl]; simp
  rw [parse_object_loop, if_neg (not_eof_of_input p en.pre c _ h'),
    peek_next_token_spaces p _ en.pre c _ h' hpre hst]
  dsimp only
  rw [if_neg (by decide), if_pos hcl]
  simp only [Bool.false_eq_true, if_false]
  rw [parse_identifier_key _ c r t tl rfl hc hr hti]
  dsimp only
  rw [if_neg (by decide)]
  have hin2 : ((p.with_scan en.pre (c :: (r ++ t :: tl)) []).with_scan (c :: r) (t :: tl)
      (c :: r ++ [0])).input = en.mid ++ 58 :: (en.val.pre ++ en.val.v.source ++ tail) := by
    rw [with_scan_input, htl]
  rw [peek_next_token_spaces _ _ en.mid 58 _ hin2 hmid (by decide), token_class_colon]
  dsimp only
  rw [if_neg (by decide), if_neg (by simp), next_with_scan _ 58 _ rfl]
  dsimp only
  rw [parse_value_scalar e n value.null _ en.val.pre en.val.v tail rfl hvpre hv ht]
  dsimp only
  rw [if_neg (by decide)]
  congr 1
  simp [with_scan, with_items, builder.add_item, builder.new_string, value.of_type,
    location.advance, location.advance_append, add_to_back_zero, add_to_back_add, hkey]

end parser

end json5

namespace json5

theorem key_scalar_added (en : entry) : en.key_scalar.added = en.key ++ [0] := by
  simp [entry.key_scalar, scalar.added, items_decoded_plain]

theorem entry_scalars_length (ens : List entry) : (entry_scalars ens).length = 2 * ens.length := by
  induction ens with
  | nil => rfl
  | cons en ens ih => simp [entry_scalars, ih]; omega

theorem entry_text_eq (en : entry) (X : List Nat) :
    en.text ++ X = en.pre ++ en.key ++ en.mid ++
      58 :: (en.val.pre ++ en.val.v.source ++ (en.val.post ++ X)) := by
  simp [entry.text, element.text]

namespace parser

/-- The object loop over the entries of a flat object: it returns without error in front of
`rest`, having appended a key cell and a value cell for each entry, in order. -/
theorem parse_object_loop_flat (e : env) (rest : List Nat) (ens : List entry)
    (hok : ∀ en ∈ ens, en.ok) (p : parser)
    (hin : p.input = comma_join (ens.map entry.text) ++ 125 :: rest) :
    ∃ cells, cells.map value.data = cells_data p.doc.strings.length (entry_scalars ens) ∧
      parse_object_loop e (2 * ens.length + 2) false p =
        some (error.ok, p.with_items (comma_join (ens.map entry.text) ++ [125]) rest
          (all_added (entry_scalars ens)) cells (2 * ens.length)) := by
  induction ens generalizing p with
  | nil =>
    refine ⟨[], rfl, ?_⟩
    have h' : p.input = [] ++ 125 :: rest := by simpa [comma_join] using hin
    show parse_object_loop e (1 + 1) false p = _
    rw [parse_object_loop_end e 1 false p [] rest h' (by simp)]
    rfl
  | cons en ens ih =>
    have hen := hok en (List.mem_cons_self _ _)
    have hpost : ∀ w ∈ en.val.post, is_space w = true := hen.2.2.2.2.2
    have hok' : ∀ x ∈ ens, x.ok := fun x hx => hok x (List.mem_cons_of_mem _ hx)
    have hcd : cells_data p.doc.strings.length [en.key_scalar, en.val.v] =
        [type_string_off ||| p.doc.strings.length,
          en.val.v.cell_data (p.doc.strings.length + (en.key.length + 1))] := by
      rw [cells_data_cons, cells_data_cons, key_scalar_added, List.length_append]
      rfl
    cases ens with
    | nil =>
      have h' : p.input = en.pre ++ en.key ++ en.mid ++
          58 :: (en.val.pre ++ en.val.v.source ++ (en.val.post ++ 125 :: rest)) := by
        rw [hin, List.map_cons, List.map_nil, comma_join, entry_text_eq]
      refine ⟨[⟨type_string_off ||| p.doc.strings.length, p.loc.advance en.pre⟩,
            ⟨en.val.v.cell_data (p.doc.strings.length + (en.key.length + 1)),
              p.loc.advance (en.pre ++ en.key ++ en.mid ++ 58 :: en.val.pre)⟩], ?_, ?_⟩
      · exact hcd.symm
      · show parse_object_loop e (2 + 1 + 1) false p = _
        rw [parse_object_loop_entry e 2 p en _ h' hen (by simp)]
        rw [parse_object_loop_end e 2 true _ en.val.post rest rfl hpost, with_items_with_items]
        refine congrArg (fun q => some (error.ok, q)) (with_items_congr p ?_ ?_ ?_ ?_)
        · simp [comma_join, entry.text, element.text]
        · simp [entry_scalars, all_added, key_scalar_added]
        · simp
        · rfl
    | cons en2 ens =>
      have h' : p.input = en.pre ++ en.key ++ en.mid ++
          58 :: (en.val.pre ++ en.val.v.source ++ (en.val.post ++
            44 :: (comma_join ((en2 :: ens).map entry.text) ++ 125 :: rest))) := by
        rw [hin, List.map_cons, List.map_cons, comma_join_cons_cons, List.append_assoc,
          entry_text_eq]
        simp
      have e1 : 2 * (en :: en2 :: ens).length + 2 =
          (2 * (en2 :: ens).length + 2) + 1 + 1 := by simp; omega
      rw [e1, parse_object_loop_entry e _ p en _ h' hen (by simp)]
      rw [parse_object_loop_sep e _ _ en.val.post _ rfl hpost, with_items_with_items]
      obtain ⟨cells, hcells, hrun⟩ := ih hok'
        (p.with_items ((en.pre ++ en.key ++ en.mid ++ 58 :: (en.val.pre ++ en.val.v.source)) ++
          (en.val.post ++ [44]))
          (comma_join ((en2 :: ens).map entry.text) ++ 125 :: rest)
          (en.key ++ [0] ++ en.val.v.added ++ [])
          ([⟨type_string_off ||| p.doc.strings.length, p.loc.advance en.pre⟩,
            ⟨en.val.v.cell_data (p.doc.strings.length + (en.key.length + 1)),
              p.loc.advance (en.pre ++ en.key ++ en.mid ++ 58 :: en.val.pre)⟩] ++ [])
          (2 + 0)) rfl
      refine ⟨⟨type_string_off ||| p.doc.strings.length, p.loc.advance en.pre⟩ ::
        ⟨en.val.v.cell_data (p.doc.strings.length + (en.key.length + 1)),
          p.loc.advance (en.pre ++ en.key ++ en.mid ++ 58 :: en.val.pre)⟩ :: cells, ?_, ?_⟩
      · have hl : (p.doc.strings ++ (en.key ++ [0] ++ en.val.v.added ++ [])).length =
            p.doc.strings.length + en.key_scalar.added.length + en.val.v.added.length := by
          simp [key_scalar_added]; omega
        rw [with_items_strings, hl] at hcells
        show _ = cells_data _ (en.key_scalar :: en.val.v :: entry_scalars (en2 :: ens))
        rw [List.map_cons, List.map_cons, cells_data_cons, cells_data_cons, hcells,
          key_scalar_added]
        simp [entry.key_scalar, scalar.cell_data]
      · rw [hrun, with_items_with_items]
        refine congrArg (fun q => some (error.ok, q)) (with_items_congr p ?_ ?_ ?_ ?_)
        · simp [comma_join_cons_cons, entry.text, element.text]
        · simp [entry_scalars, all_added_cons, key_scalar_added]
        · simp
        · simp; omega

end parser

end json5

namespace json5

/-- The function `from_string` on a flat object: it returns no error, and the document is
the flat document of the keys and values. -/
theorem from_string_object_flat (e : env) (doc : document) (lead : List Nat)
    (ens : List entry) (rest : List Nat)
    (hlead : ∀ w ∈ lead, is_space w = true) (hok : ∀ en ∈ ens, en.ok)
    (hk : 2 * ens.length < 2 ^ 53)
    (hb : 1 + (all_added (entry_scalars ens)).length < 2 ^ 48)
    (hvd : doc.values_data < 2 ^ 48) :
    ∃ F, from_string e (lead ++ object_text ens rest) doc = some (error.ok, F) ∧
      F.is_flat type_object (entry_scalars ens) ∧
      F.strings_data = doc.strings_data ∧ F.values_data = doc.values_data := by
  let p0 := parser.start (lead ++ object_text ens rest) doc
  have hin : p0.input = lead ++ 123 ::
      (comma_join (ens.map entry.text) ++ 125 :: rest) := rfl
  let P : parser := ({ (p0.with_scan lead (123 ::
      (comma_join (ens.map entry.text) ++ 125 :: rest)) []) with
      tobuilder := (p0.with_scan lead (123 ::
        (comma_join (ens.map entry.text) ++ 125 :: rest)) []).tobuilder.push_object }).with_scan
      [123] (comma_join (ens.map entry.text) ++ 125 :: rest) []
  obtain ⟨cells, hcells, hloop⟩ := parser.parse_object_loop_flat e rest ens hok P rfl
  have hlen : cells.length = 2 * ens.length := by
    have := congrArg List.length hcells
    rw [List.length_map, cells_data_length, entry_scalars_length] at this
    exact this
  have hoff : P.doc.strings.length = 1 := by
    show (([0] ++ []) ++ ([] : List Nat)).length = 1
    rfl
  rw [hoff] at hcells
  have hleaf := cells_leaf _ cells 1 hcells hb
  let Q := P.with_items (comma_join (ens.map entry.text) ++ [125]) rest
    (all_added (entry_scalars ens)) cells (2 * ens.length)
  have hpop := builder.pop_flat e Q.tobuilder (value.of_type value_type.object 0) cells
    (Or.inr rfl) rfl
    (by show add_to_back (2 * ens.length) [0] = [cells.length]
        rw [hlen]; simp [add_to_back])
    (by show [] ++ cells = cells
        rfl)
    rfl hleaf (by rw [hlen]; exact hk)
  have hval : parser.parse_value e (2 * ens.length + 2 + 1 + 1) p0.doc.to_value p0 =
      some (error.ok,
        { (Q.tobuilder.pop e).1 with loc := p0.loc.advance lead },
        { Q with tobuilder := (Q.tobuilder.pop e).2 }) := by
    rw [parser.parse_value, parser.peek_next_token_spaces p0 _ lead 123 _ hin hlead (by decide)]
    have ht : token_class token_type.unknown 123 = token_type.object_begin := by decide
    rw [ht]
    dsimp only
    rw [if_neg (by decide), parser.parse_object, parser.next_with_scan _ 123 _ rfl]
    dsimp only
    have hl : parser.parse_object_loop e (2 * ens.length + 2) false P = some (error.ok, Q) :=
      hloop
    rw [hl]
    dsimp only
    rw [if_neg (by decide)]
    rfl
  rw [hpop] at hval
  have hfs := parser.from_string_of_root_ok e _ doc _ _ _ hval
    (Or.inr (root_is_object _ _ hvd))
  refine ⟨_, hfs, ⟨?_, ?_, ?_⟩, rfl, rfl⟩
  · rfl
  · show ([0] ++ []) ++ [] ++ all_added (entry_scalars ens) = _
    rfl
  · refine ⟨cells, hcells, ?_⟩
    rfl

end json5

namespace json5

theorem c_str_of_nonzero (k : List Nat) (h : ∀ x ∈ k, x ≠ 0) : c_str k = k := by
  unfold c_str
  rw [List.takeWhile_eq_self_iff]
  intro x hx
  simpa using h x hx

theorem entry.key_nonzero (en : entry) (h : en.ok) : ∀ x ∈ en.key, x ≠ 0 := by
  obtain ⟨c, r, hkey, hc, hr⟩ := is_identifier_cases _ h.2.1
  intro x hx
  rw [hkey] at hx
  rcases List.mem_cons.mp hx with hx | hx
  · subst hx
    simp only [isalpha, decide_eq_true_eq] at hc
    omega
  · have := hr x hx
    simp only [ident_byte, isalpha, isdigit, Bool.or_eq_true, decide_eq_true_eq] at this
    omega

theorem entry_scalars_append (a b : List entry) :
    entry_scalars (a ++ b) = entry_scalars a ++ entry_scalars b := by
  induction a with
  | nil => rfl
  | cons en a ih => simp [entry_scalars, ih]

theorem flat_payload (F : document) (tag : Nat) (vs : List scalar) (hF : F.is_flat tag vs)
    (htag : (tag ||| mask_is_document) &&& mask_payload = 0) (hvd : F.values_data < 2 ^ 48) :
    F.to_value.payload = F.values_data := by
  show F.data &&& mask_payload = F.values_data
  rw [hF.data, tagged_mask_payload _ _ htag hvd]

/-- The array view of a flat array document: its size and its elements, in order. -/
theorem flat_array_view (e : env) (F : document) (vs : List scalar)
    (hF : F.is_flat type_array vs) (hs : 0 < e.sizeof_value) (hk : vs.length < 2 ^ 53)
    (hvd : F.values_data < 2 ^ 48)
    (hb : F.strings_data + 1 + (all_added vs).length < 2 ^ 48) :
    ∃ a, array_view.of_value e F F.to_value = some a ∧ a.size = vs.length ∧
      ∀ i v, vs.get? i = some v → ∃ c, a.get e F i = some c ∧ v.held_by F c := by
  obtain ⟨c0, hc0, hn0⟩ := flat_count e F _ vs hF hs hk
  have hpay := flat_payload F _ vs hF (by decide) hvd
  have harr : F.to_value.is_array = true := by
    have := root_is_array F.values_data F.loc hvd
    rw [← hF.data] at this
    exact this
  refine ⟨⟨F.values_data + e.sizeof_value, vs.length⟩, ?_, rfl, ?_⟩
  · unfold array_view.of_value
    simp only [harr, if_true, hpay]
    rw [if_pos (by omega), Nat.add_sub_cancel, hc0]
    dsimp only
    rw [hn0]
  · intro i v hv
    have hi : i < vs.length := by
      rcases Nat.lt_or_ge i vs.length with h | h
      · exact h
      · rw [List.get?_eq_none.mpr h] at hv; cases hv
    have hsplit : vs = vs.take i ++ v :: vs.drop (i + 1) := by
      have h1 : vs[i] = v := by
        have := List.get?_eq_get hi
        rw [hv] at this
        exact (Option.some.inj this).symm
      rw [← h1, ← List.drop_eq_getElem_cons hi, List.take_append_drop]
    have hF' : F.is_flat type_array (vs.take i ++ v :: vs.drop (i + 1)) := by
      rw [← hsplit]; exact hF
    obtain ⟨c, hc, hh⟩ := flat_cell e F _ _ v _ hF' hs (by rw [← hsplit]; exact hb)
    refine ⟨c, ?_, hh⟩
    unfold array_view.get
    rw [if_pos hi]
    have e1 : F.values_data + e.sizeof_value + i * e.sizeof_value =
        F.values_data + ((vs.take i).length + 1) * e.sizeof_value := by
      rw [List.length_take, Nat.min_eq_left (le_of_lt hi), Nat.add_mul, Nat.one_mul]
      omega
    show F.cell_at e (F.values_data + e.sizeof_value + i * e.sizeof_value) = some c
    rw [e1]
    exact hc

end json5

namespace json5

/-- The pairs of a flat object document from a given entry on: the keys and the values, in
order. -/
theorem flat_pairs (e : env) (F : document) (hs : 0 < e.sizeof_value) (ens2 : List entry) :
    ∀ ens1 : List entry, F.is_flat type_object (entry_scalars (ens1 ++ ens2)) →
      (∀ en ∈ ens2, en.ok) →
      F.strings_data + 1 + (all_added (entry_scalars (ens1 ++ ens2))).length < 2 ^ 48 →
      ∃ prs, object_view.pairs_from e F ens2.length
          (F.values_data + (2 * ens1.length + 1) * e.sizeof_value) = some prs ∧
        prs.map Prod.fst = ens2.map entry.key ∧
        List.Forall₂ (fun en pr => en.val.v.held_by F pr.2) ens2 prs := by
  induction ens2 with
  | nil =>
    intro ens1 _ _ _
    exact ⟨[], rfl, rfl, List.Forall₂.nil⟩
  | cons en ens2 ih =>
    intro ens1 hF hok hb
    have hen := hok en (List.mem_cons_self _ _)
    have hsc : entry_scalars (ens1 ++ en :: ens2) =
        entry_scalars ens1 ++ en.key_scalar :: (en.val.v :: entry_scalars ens2) := by
      rw [entry_scalars_append]; rfl
    have hsc2 : entry_scalars (ens1 ++ en :: ens2) =
        (entry_scalars ens1 ++ [en.key_scalar]) ++ en.val.v :: entry_scalars ens2 := by
      rw [hsc]; simp
    obtain ⟨ck, hck, hkh⟩ := flat_cell e F type_object (entry_scalars ens1) en.key_scalar
      (en.val.v :: entry_scalars ens2) (by rw [← hsc]; exact hF) hs (by rw [← hsc]; exact hb)
    obtain ⟨cv, hcv, hvh⟩ := flat_cell e F type_object (entry_scalars ens1 ++ [en.key_scalar])
      en.val.v (entry_scalars ens2) (by rw [← hsc2]; exact hF) hs (by rw [← hsc2]; exact hb)
    have hassoc : (ens1 ++ [en]) ++ ens2 = ens1 ++ en :: ens2 := by simp
    obtain ⟨prs, hprs, hkeys, hvals⟩ := ih (ens1 ++ [en]) (by rw [hassoc]; exact hF)
      (fun x hx => hok x (List.mem_cons_of_mem _ hx)) (by rw [hassoc]; exact hb)
    rw [entry_scalars_length] at hck
    have hcv' : F.cell_at e (F.values_data + (2 * ens1.length + 1) * e.sizeof_value +
        e.sizeof_value) = some cv := by
      rw [← hcv, List.length_append, entry_scalars_length]
      congr 1
      simp only [List.length_singleton, Nat.add_mul, Nat.one_mul]
      omega
    have hnext : F.values_data + (2 * ens1.length + 1) * e.sizeof_value + 2 * e.sizeof_value =
        F.values_data + (2 * (ens1 ++ [en]).length + 1) * e.sizeof_value := by
      simp only [List.length_append, List.length_singleton, Nat.add_mul, Nat.mul_add,
        Nat.one_mul, Nat.mul_one]
      omega
    have hkey : ck.get_c_str F [] = some en.key := by
      have := hkh.2
      rw [this]
      show some (c_str (items_decoded (en.key.map str_item.plain))) = _
      rw [items_decoded_plain, c_str_of_nonzero _ (en.key_nonzero hen)]
    refine ⟨(en.key, cv) :: prs, ?_, ?_, ?_⟩
    · show object_view.pairs_from e F (ens2.length + 1) _ = _
      rw [object_view.pairs_from, hnext, hprs]
      unfold object_view.deref
      rw [hck, hcv']
      dsimp only
      rw [hkey]
    · rw [List.map_cons, List.map_cons, hkeys]
    · exact List.Forall₂.cons hvh hvals

/-- The object view of a flat object document: its size and its pairs, in order. -/
theorem flat_object_view (e : env) (F : document) (ens : List entry)
    (hF : F.is_flat type_object (entry_scalars ens)) (hok : ∀ en ∈ ens, en.ok)
    (hs : 0 < e.sizeof_value) (hk : 2 * ens.length < 2 ^ 53)
    (hvd : F.values_data < 2 ^ 48)
    (hb : F.strings_data + 1 + (all_added (entry_scalars ens)).length < 2 ^ 48) :
    ∃ o prs, object_view.of_value e F F.to_value = some o ∧ o.size = ens.length ∧
      o.pairs e F = some prs ∧ prs.map Prod.fst = ens.map entry.key ∧
      List.Forall₂ (fun en pr => en.val.v.held_by F pr.2) ens prs := by
  obtain ⟨c0, hc0, hn0⟩ := flat_count e F _ _ hF hs (by rw [entry_scalars_length]; exact hk)
  rw [entry_scalars_length] at hn0
  have hpay := flat_payload F _ _ hF (by decide) hvd
  have hobj : F.to_value.is_object = true := by
    have := root_is_object F.values_data F.loc hvd
    rw [← hF.data] at this
    exact this
  obtain ⟨prs, hprs, hkeys, hvals⟩ := flat_pairs e F hs ens [] hF hok hb
  refine ⟨⟨F.values_data + e.sizeof_value, ens.length⟩, prs, ?_, rfl, ?_, hkeys, hvals⟩
  · unfold object_view.of_value
    simp only [hobj, if_true, hpay]
    rw [if_pos (by omega), Nat.add_sub_cancel, hc0]
    dsimp only
    rw [hn0, Nat.mul_div_cancel_left _ (by decide : 0 < 2)]
  · show object_view.pairs_from e F ens.length (F.values_data + e.sizeof_value) = some prs
    have : F.values_data + e.sizeof_value =
        F.values_data + (2 * ([] : List entry).length + 1) * e.sizeof_value := by simp
    rw [this]
    exact hprs

end json5

namespace json5

/-- Order and count on flat texts whose strings have no hex escapes. Take a flat array
text: an opening bracket, k
scalars (the literals true, false, null, and quoted strings made of unescaped bytes, simple
escapes and line continuations) separated by commas, with optional whitespace around them,
and the closing bracket; it may stand after whitespace and before further input. Then
`from_string` succeeds, the array view of the root has size k, and its element i holds the
i-th scalar (a string reads back as the bytes it stands for, up to a zero byte). Take a flat
object text with k entries whose keys are unquoted identifiers: `from_string` succeeds, the
object view of the root has size k, and iterating it yields exactly the k keys in source
order, each paired with a cell that holds its own value. The document's buffers are assumed
to lie below 2^48, as payloads have 48 bits, and cells to have a positive size. -/
theorem from_string_preserves_order (e : env) (doc : document) (lead rest : List Nat)
    (hs : 0 < e.sizeof_value) (hvd : doc.values_data < 2 ^ 48)
    (hlead : ∀ w ∈ lead, is_space w = true) :
    (∀ els : List element, (∀ el ∈ els, el.ok) → els.length < 2 ^ 53 →
      doc.strings_data + 1 + (all_added (els.map element.v)).length < 2 ^ 48 →
      ∃ F a, from_string e (lead ++ array_text els rest) doc = some (error.ok, F) ∧
        array_view.of_value e F F.to_value = some a ∧ a.size = els.length ∧
        ∀ i el, els.get? i = some el → ∃ c, a.get e F i = some c ∧ el.v.held_by F c) ∧
    (∀ ens : List entry, (∀ en ∈ ens, en.ok) → 2 * ens.length < 2 ^ 53 →
      doc.strings_data + 1 + (all_added (entry_scalars ens)).length < 2 ^ 48 →
      ∃ F o prs, from_string e (lead ++ object_text ens rest) doc = some (error.ok, F) ∧
        object_view.of_value e F F.to_value = some o ∧ o.size = ens.length ∧
        o.pairs e F = some prs ∧ prs.map Prod.fst = ens.map entry.key ∧
        List.Forall₂ (fun en pr => en.val.v.held_by F pr.2) ens prs) := by
  constructor
  · intro els hok hk hb
    obtain ⟨F, hfs, hF, hsd, hvd'⟩ := from_string_array_flat e doc lead els rest hlead hok hk
      (by omega) hvd
    obtain ⟨a, ha, hsize, hget⟩ := flat_array_view e F _ hF hs
      (by rw [List.length_map]; exact hk) (by rw [hvd']; exact hvd) (by rw [hsd]; exact hb)
    refine ⟨F, a, hfs, ha, by rw [hsize, List.length_map], ?_⟩
    intro i el hel
    exact hget i el.v (by simp [List.get?_eq_getElem?] at hel ⊢; exact ⟨el, hel, rfl⟩)
  · intro ens hok hk hb
    obtain ⟨F, hfs, hF, hsd, hvd'⟩ := from_string_object_flat e doc lead ens rest hlead hok hk
      (by omega) hvd
    obtain ⟨o, prs, ho, hsize, hprs, hkeys, hvals⟩ := flat_object_view e F ens hF hok hs hk
      (by rw [hvd']; exact hvd) (by rw [hsd]; exact hb)
    exact ⟨F, o, prs, hfs, ho, hsize, hprs, hkeys, hvals⟩

theorem from_string_preserves_order_witness :
    (∃ F a, from_string example_env (bytes " [true, \"a\\n\" ,null,'b']") example_doc =
        some (error.ok, F) ∧
      array_view.of_value example_env F F.to_value = some a ∧ a.size = 4 ∧
      ∀ i el, [element.mk [] scalar.lit_true [],
          element.mk [32] (scalar.str false [str_item.plain 97, str_item.escape 110]) [32],
          element.mk [] scalar.lit_null [],
          element.mk [] (scalar.str true [str_item.plain 98]) []].get? i = some el →
        ∃ c, a.get example_env F i = some c ∧ el.v.held_by F c) ∧
    (∃ F o prs, from_string example_env (bytes "\x7bb: false, a_1 :\"x\"\x7d") example_doc =
        some (error.ok, F) ∧
      object_view.of_value example_env F F.to_value = some o ∧ o.size = 2 ∧
      o.pairs example_env F = some prs ∧ prs.map Prod.fst = [[98], [97, 95, 49]] ∧
      List.Forall₂ (fun en pr => en.val.v.held_by F pr.2)
        [entry.mk [] [98] [] (element.mk [32] scalar.lit_false []),
          entry.mk [32] [97, 95, 49] [32]
            (element.mk [] (scalar.str false [str_item.plain 120]) [])] prs) :=
  ⟨(from_string_preserves_order example_env example_doc [32] [] (by decide) (by decide)
      (by decide)).1
      [element.mk [] scalar.lit_true [],
        element.mk [32] (scalar.str false [str_item.plain 97, str_item.escape 110]) [32],
        element.mk [] scalar.lit_null [],
        element.mk [] (scalar.str true [str_item.plain 98]) []]
      (by simp [element.ok, scalar.ok, str_item.ok, simple_escape, is_space])
      (by simp) (by decide),
    (from_string_preserves_order example_env example_doc [] [] (by decide) (by decide)
      (by decide)).2
      [entry.mk [] [98] [] (element.mk [32] scalar.lit_false []),
        entry.mk [32] [97, 95, 49] [32]
          (element.mk [] (scalar.str false [str_item.plain 120]) [])]
      (by simp [entry.ok, element.ok, scalar.ok, str_item.ok, is_space, is_identifier,
        ident_byte, isalpha, isdigit])
      (by simp) (by decide)⟩

end json5

namespace json5

theorem resuffix_cons (n : Nat) (s : List Nat) (c : Nat) (l : List Nat) (h : n < (c :: l).length) :
    resuffix n s (c :: l) = c :: resuffix n s l := by
  unfold resuffix
  have e1 : (c :: l).length - n = (l.length - n) + 1 := by
    simp only [List.length_cons] at h ⊢
    omega
  rw [e1, List.take_succ_cons, List.cons_append]

theorem resuffix_zero (s l : List Nat) : resuffix 0 s l = l ++ s := by
  simp [resuffix]

theorem resuffix_length (n : Nat) (s l : List Nat) :
    (resuffix n s l).length = l.length - n + s.length := by
  simp [resuffix]

theorem ite_both {α β : Type} (G : β → α → Prop) (Q : α → Prop) (c : Prop) [Decidable c]
    (a' b' : β) (a b : α) (H : Q (if c then a else b))
    (ht : c → Q a → G a' a) (hf : ¬ c → Q b → G b' b) :
    G (if c then a' else b') (if c then a else b) := by
  by_cases h : c
  · rw [if_pos h] at H ⊢; rw [if_pos h]; exact ht h H
  · rw [if_neg h] at H ⊢; rw [if_neg h]; exact hf h H

namespace parser

@[simp] theorem resuffix_input (p : parser) (n : Nat) (s : List Nat) :
    (p.resuffix n s).input = json5.resuffix n s p.input := rfl

theorem resuffix_eof (p : parser) (n : Nat) (s : List Nat) (h : n < p.input.length) :
    (p.resuffix n s).eof = p.eof := by
  cases hi : p.input with
  | nil => rw [hi] at h; simp at h
  | cons c l =>
    have h' : n < (c :: l).length := by rw [← hi]; exact h
    rw [eof_cons p c l hi, eof_cons (p.resuffix n s) c (json5.resuffix n s l)
      (by rw [resuffix_input, hi, resuffix_cons n s c l h'])]

theorem resuffix_peek (p : parser) (n : Nat) (s : List Nat) (h : n < p.input.length) :
    (p.resuffix n s).peek = p.peek := by
  cases hi : p.input with
  | nil => rw [hi] at h; simp at h
  | cons c l =>
    have h' : n < (c :: l).length := by rw [← hi]; exact h
    rw [peek_cons p c l hi, peek_cons (p.resuffix n s) c (json5.resuffix n s l)
      (by rw [resuffix_input, hi, resuffix_cons n s c l h'])]

theorem resuffix_next (p : parser) (n : Nat) (s : List Nat) (h : n < p.input.length) :
    (p.resuffix n s).next = (p.next.1, p.next.2.resuffix n s) := by
  cases hi : p.input with
  | nil => rw [hi] at h; simp at h
  | cons c l =>
    have h' : n < (c :: l).length := by rw [← hi]; exact h
    rw [next_cons p c l hi, next_cons (p.resuffix n s) c (json5.resuffix n s l)
      (by rw [resuffix_input, hi, resuffix_cons n s c l h'])]
    rfl

theorem resuffix_add (p : parser) (n : Nat) (s : List Nat) (c : Nat) :
    (p.resuffix n s).add c = (p.add c).resuffix n s := rfl

theorem resuffix_make_error (p : parser) (n : Nat) (s : List Nat) (k : error_kind) :
    (p.resuffix n s).make_error k = p.make_error k := rfl

theorem lt_of_reads {p q : parser} {n : Nat} (h : p.reads q) (hq : n < q.input.length) :
    n < p.input.length := lt_of_lt_of_le hq (reads_length h)

end parser

end json5

namespace json5

namespace parser

theorem next_length (p : parser) (h : 0 < p.input.length) :
    p.next.2.input.length + 1 = p.input.length := by
  cases hi : p.input with
  | nil => rw [hi] at h; simp at h
  | cons c l => rw [next_cons p c l hi]; simp

theorem resuffix_length_le (p q : parser) (n : Nat) (s : List Nat) (h : p.reads q) :
    (q.resuffix n s).input.length ≤ (p.resuffix n s).input.length := by
  have := reads_length h
  rw [resuffix_input, resuffix_input, resuffix_length, resuffix_length]
  omega

theorem resuffix_next_length (p : parser) (n : Nat) (s : List Nat) (m : Nat)
    (hp : n < p.input.length) (hm : (p.resuffix n s).input.length ≤ m + 1) :
    (p.next.2.resuffix n s).input.length ≤ m := by
  have := next_length p (by omega)
  rw [resuffix_input, resuffix_length] at hm ⊢
  omega

/-- The tokenizer does not look past the byte it stops at: when it stops with more than `n`
bytes left, the last `n` bytes of the input may be replaced. -/
theorem peek_next_token_loop_resuffix (n : Nat) (s : List Nat) (k : Nat) :
    ∀ (m : Nat) (pc : comment_type) (result : token_type) (p : parser),
      p.input.length ≤ k → (p.resuffix n s).input.length ≤ m →
      n < (peek_next_token_loop k pc result p).2.2.input.length →
      peek_next_token_loop m pc result (p.resuffix n s) =
        ((peek_next_token_loop k pc result p).1, (peek_next_token_loop k pc result p).2.1,
          (peek_next_token_loop k pc result p).2.2.resuffix n s) := by
  induction k with
  | zero =>
    intro m pc result p hk hm H
    have hp : n < p.input.length := H
    omega
  | succ k ih =>
    intro m pc result p hk hm H
    have hp : n < p.input.length :=
      lt_of_reads (peek_next_token_loop_scans _ _ _ _).1 H
    cases m with
    | zero =>
      rw [resuffix_input, resuffix_length] at hm
      omega
    | succ m =>
      have hm1 := resuffix_next_length p n s m hp hm
      have hk1 : p.next.2.input.length ≤ k := by
        have := next_length p (by omega)
        omega
      have hk2 : p.next.2.next.2.input.length ≤ k :=
        le_trans (reads_length (reads_next _)) hk1
      have hm2 : (p.next.2.next.2.resuffix n s).input.length ≤ m :=
        le_trans (resuffix_length_le _ _ n s (reads_next _)) hm1
      rw [peek_next_token_loop] at H
      rw [peek_next_token_loop, peek_next_token_loop, resuffix_eof p n s hp,
        resuffix_peek p n s hp, resuffix_next p n s hp]
      dsimp only at H ⊢
      refine ite_both (fun (x y : error × token_type × parser) =>
          x = (y.1, y.2.1, y.2.2.resuffix n s))
        (fun y : error × token_type × parser => n < y.2.2.input.length) _ _ _ _ _ H
        (fun _ _ => rfl) (fun _ H => ?_)
      refine ite_both (fun (x y : error × token_type × parser) =>
          x = (y.1, y.2.1, y.2.2.resuffix n s))
        (fun y : error × token_type × parser => n < y.2.2.input.length) _ _ _ _ _ H
        (fun _ H => ih m _ _ _ hk1 hm1 H) (fun _ H => ?_)
      refine ite_both (fun (x y : error × token_type × parser) =>
          x = (y.1, y.2.1, y.2.2.resuffix n s))
        (fun y : error × token_type × parser => n < y.2.2.input.length) _ _ _ _ _ H
        (fun _ H => ?_) (fun _ H => ?_)
      · refine ite_both (fun (x y : error × token_type × parser) =>
            x = (y.1, y.2.1, y.2.2.resuffix n s))
          (fun y : error × token_type × parser => n < y.2.2.input.length) _ _ _ _ _ H
          (fun _ H => ?_) (fun _ H => ih m _ _ _ hk1 hm1 H)
        have h1 : n < p.next.2.input.length :=
          lt_of_reads (reads_trans (reads_next _) (peek_next_token_loop_scans _ _ _ _).1) H
        rw [resuffix_peek _ n s h1, resuffix_next _ n s h1]
        exact ih m _ _ _ hk2 hm2 H
      refine ite_both (fun (x y : error × token_type × parser) =>
          x = (y.1, y.2.1, y.2.2.resuffix n s))
        (fun y : error × token_type × parser => n < y.2.2.input.length) _ _ _ _ _ H
        (fun _ H => ?_) (fun _ H => ?_)
      · have h1 : n < p.next.2.input.length := by
          refine lt_of_reads ?_ H
          refine ite_ind (fun r : error × token_type × parser => p.next.2.reads r.2.2) _ _ _
            (fun _ => ?_) (fun _ => ?_)
          · exact reads_trans (reads_next _) (peek_next_token_loop_scans _ _ _ _).1
          refine ite_ind (fun r : error × token_type × parser => p.next.2.reads r.2.2) _ _ _
            (fun _ => ?_) (fun _ => ?_)
          · exact reads_trans (reads_next _) (peek_next_token_loop_scans _ _ _ _).1
          · exact reads_refl _
        rw [resuffix_peek _ n s h1, resuffix_next _ n s h1]
        dsimp only
        refine ite_both (fun (x y : error × token_type × parser) =>
            x = (y.1, y.2.1, y.2.2.resuffix n s))
          (fun y : error × token_type × parser => n < y.2.2.input.length) _ _ _ _ _ H
          (fun _ H => ih m _ _ _ hk2 hm2 H) (fun _ H => ?_)
        refine ite_both (fun (x y : error × token_type × parser) =>
            x = (y.1, y.2.1, y.2.2.resuffix n s))
          (fun y : error × token_type × parser => n < y.2.2.input.length) _ _ _ _ _ H
          (fun _ H => ih m _ _ _ hk2 hm2 H) (fun _ _ => rfl)
      refine ite_both (fun (x y : error × token_type × parser) =>
          x = (y.1, y.2.1, y.2.2.resuffix n s))
        (fun y : error × token_type × parser => n < y.2.2.input.length) _ _ _ _ _ H
        (fun _ _ => rfl) (fun _ H => ?_)
      refine ite_both (fun (x y : error × token_type × parser) =>
          x = (y.1, y.2.1, y.2.2.resuffix n s))
        (fun y : error × token_type × parser => n < y.2.2.input.length) _ _ _ _ _ H
        (fun _ _ => rfl) (fun _ H => ?_)
      refine ite_both (fun (x y : error × token_type × parser) =>
          x = (y.1, y.2.1, y.2.2.resuffix n s))
        (fun y : error × token_type × parser => n < y.2.2.input.length) _ _ _ _ _ H
        (fun _ _ => ?_) (fun _ H => ?_)
      · by_cases h43 : p.peek = 43
        · rw [if_pos h43, if_pos h43]
        · rw [if_neg h43, if_neg h43]
      refine ite_both (fun (x y : error × token_type × parser) =>
          x = (y.1, y.2.1, y.2.2.resuffix n s))
        (fun y : error × token_type × parser => n < y.2.2.input.length) _ _ _ _ _ H
        (fun _ _ => rfl) (fun _ _ => rfl)

theorem peek_next_token_resuffix (n : Nat) (s : List Nat) (p : parser) (result : token_type)
    (H : n < (p.peek_next_token result).2.2.input.length) :
    (p.resuffix n s).peek_next_token result =
      ((p.peek_next_token result).1, (p.peek_next_token result).2.1,
        (p.peek_next_token result).2.2.resuffix n s) :=
  peek_next_token_loop_resuffix n s _ _ _ _ _ (le_refl _) (le_refl _) H

end parser

end json5

namespace json5

namespace parser

theorem resuffix_le_of_reads (p q : parser) (n : Nat) (s : List Nat) (m : Nat)
    (h : p.reads q) (hm : (p.resuffix n s).input.length ≤ m) :
    (q.resuffix n s).input.length ≤ m :=
  le_trans (resuffix_length_le p q n s h) hm

/-- The loop of `parse_identifier` does not look past the byte it stops at. -/
theorem parse_identifier_loop_resuffix (n : Nat) (s : List Nat) (k : Nat) :
    ∀ (m : Nat) (p : parser),
      p.input.length ≤ k → (p.resuffix n s).input.length ≤ m →
      n < (parse_identifier_loop k p).input.length →
      parse_identifier_loop m (p.resuffix n s) = (parse_identifier_loop k p).resuffix n s := by
  induction k with
  | zero =>
    intro m p hk hm H
    have hp : n < p.input.length := H
    omega
  | succ k ih =>
    intro m p hk hm H
    have hp : n < p.input.length := lt_of_reads (parse_identifier_loop_scans _ _).1 H
    cases m with
    | zero =>
      rw [resuffix_input, resuffix_length] at hm
      omega
    | succ m =>
      have hm1 := resuffix_next_length p n s m hp hm
      have hk1 : p.next.2.input.length ≤ k := by
        have := next_length p (by omega)
        omega
      rw [parse_identifier_loop] at H
      rw [parse_identifier_loop, parse_identifier_loop, resuffix_eof p n s hp,
        resuffix_next p n s hp]
      dsimp only at H ⊢
      refine ite_both (fun (x y : parser) => x = y.resuffix n s)
        (fun y : parser => n < y.input.length) _ _ _ _ _ H
        (fun _ _ => rfl) (fun _ H => ?_)
      have h1 : n < (p.next.2.add (to_byte p.next.1)).input.length := by
        refine lt_of_reads ?_ H
        refine ite_ind (fun r : parser => (p.next.2.add (to_byte p.next.1)).reads r) _ _ _
          (fun _ => ?_) (fun _ => ?_)
        · exact reads_refl _
        · exact (parse_identifier_loop_scans _ _).1
      rw [resuffix_add, resuffix_peek _ n s h1]
      refine ite_both (fun (x y : parser) => x = y.resuffix n s)
        (fun y : parser => n < y.input.length) _ _ _ _ _ H
        (fun _ _ => rfl) (fun _ H => ih m _ hk1 hm1 H)

/-- The method `parse_identifier` does not look past the byte it stops at. -/
theorem parse_identifier_resuffix (n : Nat) (s : List Nat) (p : parser)
    (H : n < p.parse_identifier.2.2.input.length) :
    (p.resuffix n s).parse_identifier =
      (p.parse_identifier.1, p.parse_identifier.2.1, p.parse_identifier.2.2.resuffix n s) := by
  have hp : n < p.input.length := lt_of_reads (parse_identifier_scans p).1 H
  unfold parse_identifier at H ⊢
  dsimp only at H ⊢
  rw [resuffix_peek p n s hp, resuffix_next p n s hp]
  have hsw : (if decide (p.peek = 39 ∨ p.peek = 34) = true then p.next.2.resuffix n s
      else p.resuffix n s) =
      (if decide (p.peek = 39 ∨ p.peek = 34) = true then p.next.2 else p).resuffix n s := by
    split <;> rfl
  dsimp only
  rw [hsw]
  generalize (if decide (p.peek = 39 ∨ p.peek = 34) = true then p.next.2 else p) = p1 at H ⊢
  have hoff : (p.resuffix n s).string_buffer_offset = p.string_buffer_offset := rfl
  rw [hoff]
  have hsc := (parse_identifier_loop_scans p1.input.length p1).1
  have h1 : n < p1.input.length := by
    refine lt_of_reads ?_ H
    repeat (first
      | (refine ite_ind (fun r : error × Nat × parser => p1.reads r.2.2) _ _ _
          (fun _ => ?_) (fun _ => ?_))
      | exact reads_refl _
      | exact hsc
      | exact reads_trans hsc (reads_next _))
  rw [resuffix_peek p1 n s h1]
  refine ite_both (fun (x y : error × Nat × parser) => x = (y.1, y.2.1, y.2.2.resuffix n s))
    (fun y : error × Nat × parser => n < y.2.2.input.length) _ _ _ _ _ H
    (fun _ _ => rfl) (fun _ H => ?_)
  have h2 : n < (parse_identifier_loop p1.input.length p1).input.length := by
    refine lt_of_reads ?_ H
    repeat (first
      | (refine ite_ind (fun r : error × Nat × parser =>
          (parse_identifier_loop p1.input.length p1).reads r.2.2) _ _ _
          (fun _ => ?_) (fun _ => ?_))
      | exact reads_refl _
      | exact reads_next _)
  rw [parse_identifier_loop_resuffix n s _ _ p1 (le_refl _) (le_refl _) h2,
    resuffix_next _ n s h2]
  refine ite_both (fun (x y : error × Nat × parser) => x = (y.1, y.2.1, y.2.2.resuffix n s))
    (fun y : error × Nat × parser => n < y.2.2.input.length) _ _ _ _ _ H
    (fun _ H => ?_) (fun _ _ => rfl)
  refine ite_both (fun (x y : error × Nat × parser) => x = (y.1, y.2.1, y.2.2.resuffix n s))
    (fun y : error × Nat × parser => n < y.2.2.input.length) _ _ _ _ _ H
    (fun _ _ => rfl) (fun _ _ => rfl)

end parser

end json5

namespace json5

namespace parser

theorem next_eof_ne (p : parser) (x : Nat) (h : p.input = []) : ¬ (p.next.1 = (x : Int)) := by
  rw [next_nil p h]
  show ¬ ((-1 : Int) = (x : Int))
  omega

/-- A chain of expected bytes that is met does not look past its last byte. -/
theorem expect_chars_resuffix (n : Nat) (s : List Nat) (xs : List Nat) :
    ∀ p : parser, (expect_chars xs p).1 = true → n ≤ (expect_chars xs p).2.input.length →
      expect_chars xs (p.resuffix n s) = (true, (expect_chars xs p).2.resuffix n s) := by
  induction xs with
  | nil =>
    intro p _ _
    rfl
  | cons x xs ih =>
    intro p h1 h2
    rw [expect_chars] at h1 h2
    by_cases hx : p.next.1 = (x : Int)
    · rw [if_pos hx] at h1 h2
      have hne : p.input ≠ [] := fun hi => next_eof_ne p x hi hx
      have hp : n < p.input.length := by
        have h3 := reads_length (expect_chars_scans xs p.next.2).1
        have h4 := next_shorter p hne
        omega
      rw [expect_chars, expect_chars, resuffix_next p n s hp]
      dsimp only
      rw [if_pos hx, if_pos hx]
      exact ih _ h1 h2
    · rw [if_neg hx] at h1
      exact absurd h1 (by simp)

/-- The method `parse_literal`, when it succeeds, does not look past the literal. -/
theorem parse_literal_resuffix (n : Nat) (s : List Nat) (p : parser) (result : token_type)
    (hp : n < p.input.length)
    (H : (p.parse_literal result).1.failed = false ∧
      n ≤ (p.parse_literal result).2.2.input.length) :
    (p.resuffix n s).parse_literal result =
      ((p.parse_literal result).1, (p.parse_literal result).2.1,
        (p.parse_literal result).2.2.resuffix n s) := by
  have leaf : ∀ (xs : List Nat) (t : token_type),
      ((if (expect_chars xs p.next.2).1 = true then (error.ok, t, (expect_chars xs p.next.2).2)
        else ((expect_chars xs p.next.2).2.make_error error_kind.invalid_literal, result,
          (expect_chars xs p.next.2).2)).1.failed = false ∧
        n ≤ (if (expect_chars xs p.next.2).1 = true then
            (error.ok, t, (expect_chars xs p.next.2).2)
          else ((expect_chars xs p.next.2).2.make_error error_kind.invalid_literal, result,
            (expect_chars xs p.next.2).2)).2.2.input.length) →
      (if (expect_chars xs (p.next.2.resuffix n s)).1 = true then
          (error.ok, t, (expect_chars xs (p.next.2.resuffix n s)).2)
        else ((expect_chars xs (p.next.2.resuffix n s)).2.make_error error_kind.invalid_literal,
          result, (expect_chars xs (p.next.2.resuffix n s)).2)) =
      ((if (expect_chars xs p.next.2).1 = true then (error.ok, t, (expect_chars xs p.next.2).2)
        else ((expect_chars xs p.next.2).2.make_error error_kind.invalid_literal, result,
          (expect_chars xs p.next.2).2)).1,
       (if (expect_chars xs p.next.2).1 = true then (error.ok, t, (expect_chars xs p.next.2).2)
        else ((expect_chars xs p.next.2).2.make_error error_kind.invalid_literal, result,
          (expect_chars xs p.next.2).2)).2.1,
       (if (expect_chars xs p.next.2).1 = true then (error.ok, t, (expect_chars xs p.next.2).2)
        else ((expect_chars xs p.next.2).2.make_error error_kind.invalid_literal, result,
          (expect_chars xs p.next.2).2)).2.2.resuffix n s) := by
    intro xs t H
    by_cases hc : (expect_chars xs p.next.2).1 = true
    · rw [if_pos hc] at H ⊢
      rw [expect_chars_resuffix n s xs _ hc H.2]
      rfl
    · rw [if_neg hc] at H
      exact absurd H.1 (by simp [make_error, error.failed])
  unfold parse_literal at H ⊢
  rw [resuffix_peek p n s hp, resuffix_next p n s hp]
  dsimp only at H ⊢
  refine ite_both (fun (x y : error × token_type × parser) =>
      x = (y.1, y.2.1, y.2.2.resuffix n s))
    (fun y : error × token_type × parser => y.1.failed = false ∧ n ≤ y.2.2.input.length)
    _ _ _ _ _ H (fun _ H => leaf _ _ H) (fun _ H => ?_)
  refine ite_both (fun (x y : error × token_type × parser) =>
      x = (y.1, y.2.1, y.2.2.resuffix n s))
    (fun y : error × token_type × parser => y.1.failed = false ∧ n ≤ y.2.2.input.length)
    _ _ _ _ _ H (fun _ H => leaf _ _ H) (fun _ H => ?_)
  refine ite_both (fun (x y : error × token_type × parser) =>
      x = (y.1, y.2.1, y.2.2.resuffix n s))
    (fun y : error × token_type × parser => y.1.failed = false ∧ n ≤ y.2.2.input.length)
    _ _ _ _ _ H (fun _ H => leaf _ _ H) (fun _ H => ?_)
  refine ite_both (fun (x y : error × token_type × parser) =>
      x = (y.1, y.2.1, y.2.2.resuffix n s))
    (fun y : error × token_type × parser => y.1.failed = false ∧ n ≤ y.2.2.input.length)
    _ _ _ _ _ H (fun _ H => leaf _ _ H) (fun _ _ => rfl)

end parser

end json5

namespace json5

theorem resuffix_all (n : Nat) (s l : List Nat) (h : l.length ≤ n) : resuffix n s l = s := by
  unfold resuffix
  rw [Nat.sub_eq_zero_of_le h]
  rfl

namespace parser

/-- The loop of `parse_number` returns what it was given when it reads nothing. -/
theorem parse_number_loop_stay (k : Nat) (buff : List Nat) (p : parser)
    (h : p.input.length ≤ (parse_number_loop k buff p).2.input.length) :
    parse_number_loop k buff p = (buff, p) := by
  cases k with
  | zero => rfl
  | succ k =>
    rw [parse_number_loop] at h ⊢
    by_cases hc : p.eof = true ∨ ¬ buff.length < 256
    · rw [if_pos hc]
    · rw [if_neg hc] at h
      exfalso
      have hne : p.input ≠ [] := by
        intro hi
        exact hc (Or.inl ((eof_iff p).mpr hi))
      have h1 := next_shorter p hne
      have h2 : (if (p.next.2.peek > 0 ∧ p.next.2.peek ≤ 32) ∨ p.next.2.peek = 44 ∨
          p.next.2.peek = 125 ∨ p.next.2.peek = 93 then (buff ++ [to_byte p.next.1], p.next.2)
          else parse_number_loop k (buff ++ [to_byte p.next.1]) p.next.2).2.input.length ≤
          p.next.2.input.length := by
        refine ite_ind (fun r : List Nat × parser => r.2.input.length ≤ p.next.2.input.length)
          _ _ _ (fun _ => le_refl _) (fun _ => ?_)
        exact reads_length (parse_number_loop_scans _ _ _).1
      dsimp only at h
      omega

theorem stops_number_peek (s : List Nat) (hs : stops_number s) (p : parser) (h : p.input = s) :
    (p.peek > 0 ∧ p.peek ≤ 32) ∨ p.peek = 44 ∨ p.peek = 125 ∨ p.peek = 93 := by
  obtain ⟨c, t, hc, hst⟩ := hs
  rw [peek_cons p c t (by rw [h, hc])]
  simp only [number_stop, decide_eq_true_eq] at hst
  omega

/-- The loop of `parse_number` looks one byte past the number: the last `n` bytes of the
input may be replaced when the loop stops with more than `n` bytes left, or with `n` bytes
left when the replacement starts with a byte that ends a number. -/
theorem parse_number_loop_resuffix (n : Nat) (s : List Nat) (k : Nat) :
    ∀ (m : Nat) (buff : List Nat) (p : parser),
      p.input.length ≤ k → (p.resuffix n s).input.length ≤ m → n < p.input.length →
      n ≤ (parse_number_loop k buff p).2.input.length →
      (n < (parse_number_loop k buff p).2.input.length ∨ stops_number s) →
      parse_number_loop m buff (p.resuffix n s) =
        ((parse_number_loop k buff p).1, (parse_number_loop k buff p).2.resuffix n s) := by
  induction k with
  | zero =>
    intro m buff p hk hm hp _ _
    omega
  | succ k ih =>
    intro m buff p hk hm hp H SC
    cases m with
    | zero =>
      rw [resuffix_input, resuffix_length] at hm
      omega
    | succ m =>
      have hm1 := resuffix_next_length p n s m hp hm
      have hk1 : p.next.2.input.length ≤ k := by
        have := next_length p (by omega)
        omega
      rw [parse_number_loop] at H SC
      rw [parse_number_loop, parse_number_loop, resuffix_eof p n s hp, resuffix_next p n s hp]
      dsimp only at H SC ⊢
      by_cases hc : p.eof = true ∨ ¬ buff.length < 256
      · rw [if_pos hc, if_pos hc]
      · rw [if_neg hc] at H SC ⊢
        rw [if_neg hc]
        by_cases hb : n < p.next.2.input.length
        · rw [resuffix_peek _ n s hb]
          by_cases hd : (p.next.2.peek > 0 ∧ p.next.2.peek ≤ 32) ∨ p.next.2.peek = 44 ∨
              p.next.2.peek = 125 ∨ p.next.2.peek = 93
          · rw [if_pos hd, if_pos hd]
          · rw [if_neg hd] at H SC ⊢
            rw [if_neg hd]
            exact ih m _ _ hk1 hm1 hb H SC
        · have hq : (if (p.next.2.peek > 0 ∧ p.next.2.peek ≤ 32) ∨ p.next.2.peek = 44 ∨
              p.next.2.peek = 125 ∨ p.next.2.peek = 93 then
                (buff ++ [to_byte p.next.1], p.next.2)
              else parse_number_loop k (buff ++ [to_byte p.next.1]) p.next.2) =
              (buff ++ [to_byte p.next.1], p.next.2) := by
            by_cases hd : (p.next.2.peek > 0 ∧ p.next.2.peek ≤ 32) ∨ p.next.2.peek = 44 ∨
                p.next.2.peek = 125 ∨ p.next.2.peek = 93
            · rw [if_pos hd]
            · rw [if_neg hd] at H ⊢
              exact parse_number_loop_stay _ _ _ (by omega)
          rw [hq] at H SC ⊢
          have hs : stops_number s := by
            rcases SC with h | h
            · exact absurd h hb
            · exact h
          have hin : (p.next.2.resuffix n s).input = s :=
            resuffix_all n s _ (by omega)
          rw [if_pos (stops_number_peek s hs _ hin)]

/-- The method `parse_number` under the same conditions. -/
theorem parse_number_resuffix (e : env) (n : Nat) (s : List Nat) (p : parser) (result : Nat)
    (hp : n < p.input.length) (H : n ≤ (p.parse_number e result).2.2.input.length)
    (SC : n < (p.parse_number e result).2.2.input.length ∨ stops_number s) :
    (p.resuffix n s).parse_number e result =
      ((p.parse_number e result).1, (p.parse_number e result).2.1,
        (p.parse_number e result).2.2.resuffix n s) := by
  have hq : (p.parse_number e result).2.2 = (parse_number_loop p.input.length [] p).2 := by
    unfold parse_number
    dsimp only
    split <;> rfl
  rw [hq] at H SC
  have hl := parse_number_loop_resuffix n s p.input.length (p.resuffix n s).input.length [] p
    (le_refl _) (le_refl _) hp H SC
  unfold parse_number
  dsimp only
  rw [hl]
  dsimp only
  cases e.from_chars (parse_number_loop p.input.length [] p).1 <;> rfl

end parser

end json5

namespace json5

theorem ite_hyp {α : Type} (Q : α → Prop) (R : Prop) (c : Prop) [Decidable c] (a b : α)
    (H : Q (if c then a else b)) (ht : c → Q a → R) (hf : ¬ c → Q b → R) : R := by
  by_cases h : c
  · rw [if_pos h] at H; exact ht h H
  · rw [if_neg h] at H; exact hf h H

namespace parser

theorem lt_of_next_reads {n : Nat} (p q : parser) (hr : p.next.2.reads q) (hq : q.input ≠ [])
    (hn : n ≤ q.input.length) : n < p.input.length := by
  have h1 := reads_length hr
  have hne : p.input ≠ [] := by
    intro hi
    rw [next_nil p hi] at h1
    rw [hi] at h1
    exact hq (List.length_eq_zero.mp (Nat.le_zero.mp h1))
  have h2 := next_shorter p hne
  omega

/-- A sequence of hexadecimal digits that is read to its end does not look further. -/
theorem read_hex_resuffix (n : Nat) (s : List Nat) (S : Nat) :
    ∀ (code : List Nat) (p : parser), (read_hex S code p).1 ≠ Option.none →
      n ≤ (read_hex S code p).2.input.length →
      read_hex S code (p.resuffix n s) =
        ((read_hex S code p).1, (read_hex S code p).2.resuffix n s) := by
  induction S with
  | zero =>
    intro code p _ _
    rfl
  | succ S ih =>
    intro code p h1 h2
    rw [read_hex] at h1 h2
    by_cases hx : strchr hexChars p.next.1 = true
    · rw [if_pos hx] at h1 h2
      have hne : p.input ≠ [] := by
        intro hi
        rw [next_nil p hi, strchr_hex_eof] at hx
        exact Bool.noConfusion hx
      have hp : n < p.input.length := by
        have h3 := reads_length (read_hex_scans S (code ++ [to_byte p.next.1]) p.next.2).1
        have h4 := next_shorter p hne
        omega
      rw [read_hex, read_hex, resuffix_next p n s hp]
      dsimp only
      rw [if_pos hx, if_pos hx]
      exact ih _ _ h1 h2
    · rw [if_neg hx] at h1
      exact absurd rfl h1

/-- When the loop of `parse_string` ends without an error on input that is not exhausted, it
has read on from the byte after the one it started at. -/
theorem parse_string_loop_none_reads (k : Nat) (sq : Bool) (p : parser)
    (hne : p.input ≠ []) (h : (parse_string_loop (k + 1) sq p).1 = Option.none) :
    p.next.2.reads (parse_string_loop (k + 1) sq p).2 := by
  have heof : ¬ (p.eof = true) := fun hc => hne ((eof_iff p).mp hc)
  rw [parse_string_loop, if_neg heof] at h ⊢
  dsimp only at h ⊢
  revert h
  repeat (first
    | (refine ite_ind (fun r : Option error × parser =>
          r.1 = Option.none → p.next.2.reads r.2) _ _ _ (fun _ => ?_) (fun _ => ?_))
    | exact fun _ => reads_refl _
    | exact fun _ => (parse_string_loop_scans _ _ _).1
    | exact fun _ => reads_trans (reads_next _) (parse_string_loop_scans _ _ _).1
    | exact fun _ => reads_trans (scans_next_add _ _).1 (parse_string_loop_scans _ _ _).1
    | exact fun _ => reads_trans (scans_add _ _).1 (parse_string_loop_scans _ _ _).1
    | exact fun h => Option.noConfusion h
    | (intro h
       have hr := read_hex_scans (if p.next.2.peek = 120 then 2 else 4) [] p.next.2.next.2
       revert h
       cases hc : (read_hex (if p.next.2.peek = 120 then 2 else 4) [] p.next.2.next.2).1 with
       | none => exact fun h => absurd h (by simp)
       | some code =>
         exact fun _ => reads_trans (reads_trans (reads_trans (reads_next _) hr.1)
           (scans_add_utf8 _ _).1) (parse_string_loop_scans _ _ _).1))

end parser

end json5

namespace json5

namespace parser

/-- The loop of `parse_string`, when it ends at the closing quote with input left, does not
look past the quote. -/
theorem parse_string_loop_resuffix (n : Nat) (s : List Nat) (k : Nat) :
    ∀ (m : Nat) (sq : Bool) (p : parser),
      p.input.length ≤ k → (p.resuffix n s).input.length ≤ m →
      ((parse_string_loop k sq p).1 = Option.none ∧ (parse_string_loop k sq p).2.input ≠ [] ∧
        n ≤ (parse_string_loop k sq p).2.input.length) →
      parse_string_loop m sq (p.resuffix n s) =
        (Option.none, (parse_string_loop k sq p).2.resuffix n s) := by
  induction k with
  | zero =>
    intro m sq p hk _ H
    have h1 : p.input ≠ [] := H.2.1
    have h2 : p.input.length = 0 := Nat.le_zero.mp hk
    exact absurd (List.length_eq_zero.mp h2) h1
  | succ k ih =>
    intro m sq p hk hm H
    have hne : p.input ≠ [] := by
      intro hi
      have := reads_length (parse_string_loop_scans (k + 1) sq p).1
      rw [hi] at this
      exact H.2.1 (List.length_eq_zero.mp (Nat.le_zero.mp this))
    have hp : n < p.input.length :=
      lt_of_next_reads p _ (parse_string_loop_none_reads k sq p hne H.1) H.2.1 H.2.2
    cases m with
    | zero =>
      rw [resuffix_input, resuffix_length] at hm
      omega
    | succ m =>
      have hm1 := resuffix_next_length p n s m hp hm
      have hk1 : p.next.2.input.length ≤ k := by
        have := next_length p (by omega)
        omega
      have hk2 : p.next.2.next.2.input.length ≤ k :=
        le_trans (reads_length (reads_next _)) hk1
      have hm2 : (p.next.2.next.2.resuffix n s).input.length ≤ m :=
        resuffix_le_of_reads _ _ n s m (reads_next _) hm1
      rw [parse_string_loop] at H
      rw [parse_string_loop, parse_string_loop, resuffix_eof p n s hp,
        resuffix_peek p n s hp, resuffix_next p n s hp]
      dsimp only at H ⊢
      refine ite_both (fun (x y : Option error × parser) => x = (Option.none, y.2.resuffix n s))
        (fun y : Option error × parser =>
          y.1 = Option.none ∧ y.2.input ≠ [] ∧ n ≤ y.2.input.length) _ _ _ _ _ H
        (fun hc _ => absurd ((eof_iff p).mp hc) hne) (fun _ H => ?_)
      refine ite_both (fun (x y : Option error × parser) => x = (Option.none, y.2.resuffix n s))
        (fun y : Option error × parser =>
          y.1 = Option.none ∧ y.2.input ≠ [] ∧ n ≤ y.2.input.length) _ _ _ _ _ H
        (fun _ _ => rfl) (fun _ H => ?_)
      refine ite_both (fun (x y : Option error × parser) => x = (Option.none, y.2.resuffix n s))
        (fun y : Option error × parser =>
          y.1 = Option.none ∧ y.2.input ≠ [] ∧ n ≤ y.2.input.length) _ _ _ _ _ H
        (fun _ H => ?_) (fun _ H => ih m sq (p.next.2.add (to_byte p.next.1)) hk1 hm1 H)
      have h1 : n < p.next.2.input.length := by
        repeat (first
          | (refine ite_hyp (fun y : Option error × parser =>
                y.1 = Option.none ∧ y.2.input ≠ [] ∧ n ≤ y.2.input.length) _ _ _ _ H
              (fun _ H => ?_) (fun _ H => ?_))
          | exact lt_of_next_reads _ _ (parse_string_loop_scans _ _ _).1 H.2.1 H.2.2
          | exact lt_of_next_reads _ _
              (reads_trans (scans_add _ _).1 (parse_string_loop_scans _ _ _).1) H.2.1 H.2.2
          | exact Option.noConfusion H.1
          | (have hr := read_hex_scans (if p.next.2.peek = 120 then 2 else 4) [] p.next.2.next.2
             revert H
             cases hc : (read_hex (if p.next.2.peek = 120 then 2 else 4) []
                 p.next.2.next.2).1 with
             | none => exact fun H => Option.noConfusion H.1
             | some code =>
               exact fun H => lt_of_next_reads _ _ (reads_trans (reads_trans hr.1
                 (scans_add_utf8 _ _).1) (parse_string_loop_scans _ _ _).1) H.2.1 H.2.2))
      rw [resuffix_peek _ n s h1, resuffix_next _ n s h1]
      dsimp only
      repeat (first
        | (refine ite_both
            (fun (x y : Option error × parser) => x = (Option.none, y.2.resuffix n s))
            (fun y : Option error × parser =>
              y.1 = Option.none ∧ y.2.input ≠ [] ∧ n ≤ y.2.input.length) _ _ _ _ _ H
            (fun _ H => ?_) (fun _ H => ?_))
        | (refine ih m sq _ ?_ ?_ H <;> first | exact hk2 | exact hm2))
      · have hr := read_hex_scans (if p.next.2.peek = 120 then 2 else 4) [] p.next.2.next.2
        revert H
        cases hc : (read_hex (if p.next.2.peek = 120 then 2 else 4) []
            p.next.2.next.2).1 with
        | none => exact fun H => Option.noConfusion H.1
        | some code =>
          intro H
          have hn : n ≤ (read_hex (if p.next.2.peek = 120 then 2 else 4) []
              p.next.2.next.2).2.input.length :=
            le_trans H.2.2 (reads_length (reads_trans (scans_add_utf8 _ _).1
              (parse_string_loop_scans _ _ _).1))
          have hsome : (read_hex (if p.next.2.peek = 120 then 2 else 4) []
              p.next.2.next.2).1 ≠ Option.none := by rw [hc]; simp
          rw [read_hex_resuffix n s _ [] p.next.2.next.2 hsome hn, hc]
          refine ih m sq _ ?_ ?_ H
          · exact le_trans (reads_length hr.1) hk2
          · exact resuffix_le_of_reads _ _ n s m hr.1 hm2
      · exact Option.noConfusion H.1

end parser

end json5

namespace json5

namespace parser

/-- An error that the loop of `parse_string` returns is an error. -/
theorem parse_string_loop_error (k : Nat) (sq : Bool) (p : parser) (err : error)
    (h : (parse_string_loop k sq p).1 = some err) : err.failed = true := by
  induction k generalizing p with
  | zero => exact Option.noConfusion h
  | succ k ih =>
    rw [parse_string_loop] at h
    dsimp only at h
    revert h
    repeat (first
      | (refine ite_ind (fun r : Option error × parser => r.1 = some err → err.failed = true)
          _ _ _ (fun _ => ?_) (fun _ => ?_))
      | exact fun h => ih _ h
      | exact fun h => Option.noConfusion h
      | exact fun h => (Option.some.inj h) ▸ rfl
      | (cases hc : (read_hex (if p.next.2.peek = 120 then 2 else 4) [] p.next.2.next.2).1 with
         | none => exact fun h => (Option.some.inj h) ▸ rfl
         | some code => exact fun h => ih _ h))

theorem resuffix_eof_false (p : parser) (n : Nat) (s : List Nat) (he : p.eof = false)
    (hn : n ≤ p.input.length) (SC : n < p.input.length ∨ s ≠ []) :
    (p.resuffix n s).eof = false := by
  by_cases h : n < p.input.length
  · rw [resuffix_eof p n s h, he]
  · have hs : s ≠ [] := SC.resolve_left h
    have hin : (p.resuffix n s).input = s := resuffix_all n s _ (by omega)
    obtain ⟨c, t, hc⟩ := List.exists_cons_of_ne_nil hs
    exact eof_cons _ c t (by rw [hin, hc])

/-- The method `parse_string`, when it succeeds, does not look past the closing quote, except
to see that the input goes on. -/
theorem parse_string_resuffix (n : Nat) (s : List Nat) (p : parser) (hp : n < p.input.length)
    (H1 : p.parse_string.1.failed = false) (H2 : n ≤ p.parse_string.2.2.input.length)
    (SC : n < p.parse_string.2.2.input.length ∨ s ≠ []) :
    (p.resuffix n s).parse_string =
      (p.parse_string.1, p.parse_string.2.1, p.parse_string.2.2.resuffix n s) := by
  unfold parse_string at H1 H2 SC ⊢
  dsimp only at H1 H2 SC ⊢
  rw [resuffix_peek p n s hp, resuffix_next p n s hp]
  dsimp only
  have hoff : (p.next.2.resuffix n s).string_buffer_offset = p.next.2.string_buffer_offset := rfl
  rw [hoff]
  revert H1 H2 SC
  cases hr : (parse_string_loop p.next.2.input.length (decide (p.peek = 39)) p.next.2).1 with
  | some err =>
    intro H1 _ _
    have := parse_string_loop_error _ _ _ err hr
    rw [this] at H1
    exact Bool.noConfusion H1
  | none =>
    dsimp only
    intro H1 H2 SC
    have he : (parse_string_loop p.next.2.input.length (decide (p.peek = 39)) p.next.2).2.eof
        = false := by
      cases hc : (parse_string_loop p.next.2.input.length (decide (p.peek = 39)) p.next.2).2.eof
      · rfl
      · rw [hc, if_pos rfl] at H1
        exact Bool.noConfusion H1
    rw [he] at H1 H2 SC ⊢
    simp only [Bool.false_eq_true, if_false] at H1 H2 SC ⊢
    have hq : (parse_string_loop p.next.2.input.length (decide (p.peek = 39)) p.next.2).2.input
        ≠ [] := by
      intro hi
      rw [(eof_iff _).mpr hi] at he
      exact Bool.noConfusion he
    rw [parse_string_loop_resuffix n s _ _ _ p.next.2 (le_refl _) (le_refl _) ⟨hr, hq, H2⟩]
    dsimp only
    rw [resuffix_eof_false _ n s he H2 SC]
    rfl

end parser

end json5

namespace json5

/-- C11: a block comment whose body ends with a star is not skipped. The text `[true]`
parses to an array of one element, and so does the text with the comment `/* c */` or the
line comment `//c` and a newline put before the element; with the comment `/***/` (the body
is one star and holds no `*/`) put there, `from_string` returns `unexpected_end` at the end
of the text: after the star of the body the scanner reads the next byte without looking at
it, so the star that closes the comment is passed over and the rest of the text is taken for
the comment. -/
theorem from_string_block_comment_star :
    (∃ doc1 a, from_string example_env (bytes "[true]") example_doc = some (error.ok, doc1) ∧
      array_view.of_value example_env doc1 doc1.to_value = some a ∧ a.size = 1) ∧
    (∃ doc1 a, from_string example_env (bytes "[/* c */true]") example_doc =
        some (error.ok, doc1) ∧
      array_view.of_value example_env doc1 doc1.to_value = some a ∧ a.size = 1) ∧
    (∃ doc1 a, from_string example_env (bytes "[//c\ntrue]") example_doc =
        some (error.ok, doc1) ∧
      array_view.of_value example_env doc1 doc1.to_value = some a ∧ a.size = 1) ∧
    (∃ doc1, from_string example_env (bytes "[/***/true]") example_doc =
      some (⟨error_kind.unexpected_end, ⟨1, 12, 11⟩⟩, doc1)) :=
  ⟨⟨_, _, rfl, rfl, by decide⟩, ⟨_, _, rfl, rfl, by decide⟩, ⟨_, _, rfl, rfl, by decide⟩,
    ⟨_, rfl⟩⟩

namespace parser

theorem parse_literal_NaN (p : parser) (tail : List Nat)
    (h : p.input = [78, 97, 78] ++ tail) (result : token_type) :
    p.parse_literal result =
      (error.ok, token_type.literal_NaN, p.with_scan [78, 97, 78] tail []) := by
  have h' : p.input = 78 :: ([97, 78] ++ tail) := h
  rw [parse_literal, peek_cons p _ _ h', next_with_scan p _ _ h']
  simp only [Nat.cast_ofNat, Int.reduceEq, if_false, if_true]
  rw [expect_chars_ok [97, 78] _ tail rfl, with_scan_with_scan]
  rfl

/-- The method `parse_value` on the literal NaN, after whitespace. -/
theorem parse_value_NaN (e : env) (n : Nat) (result : value) (p : parser)
    (pre tail : List Nat) (hin : p.input = pre ++ [78, 97, 78] ++ tail)
    (hpre : ∀ w ∈ pre, is_space w = true) :
    parse_value e (n + 1) result p =
      some (error.ok, ⟨NAN, p.loc.advance pre⟩,
        p.with_scan (pre ++ [78, 97, 78]) tail []) := by
  rw [parse_value]
  have hin' : p.input = pre ++ 78 :: ([97, 78] ++ tail) := by simpa using hin
  rw [peek_next_token_spaces p _ pre _ _ hin' hpre (by decide)]
  have ht : token_class token_type.unknown 78 = token_type.identifier := by decide
  rw [ht]
  dsimp only
  rw [if_neg (by decide)]
  rw [parse_literal_NaN _ tail rfl]
  simp only [with_scan_with_scan, List.append_nil]
  rfl

/-- The loop of `parse_array` on the text `NaN]`. -/
theorem parse_array_loop_NaN (e : env) (n : Nat) (p : parser) (tail : List Nat)
    (h : p.input = [78, 97, 78] ++ 93 :: tail) :
    parse_array_loop e (n + 1 + 1) false p =
      some (error.ok, p.with_items ([78, 97, 78] ++ [93]) tail [] [⟨NAN, p.loc⟩] 1) := by
  have h' : p.input = [] ++ 78 :: ([97, 78] ++ 93 :: tail) := h
  rw [parse_array_loop, if_neg (not_eof_of_input p [] 78 _ h'),
    peek_next_token_spaces p _ [] 78 _ h' (by simp) (by decide)]
  dsimp only
  have ht : token_class token_type.unknown 78 = token_type.identifier := by decide
  rw [ht, if_neg (by decide), if_neg (by decide)]
  simp only [Bool.false_eq_true, if_false]
  rw [parse_value_NaN e n value.null _ [] (93 :: tail) rfl (by simp)]
  dsimp only
  rw [if_neg (by decide), with_scan_with_scan, with_scan_eq_with_items, add_item_with_items,
    parse_array_loop_end e n true _ [] tail rfl (by simp), with_items_with_items]
  rfl

end parser

/-- C12: the text `[NaN]` parses, whatever the document held before and wherever its buffers
live (below 2^48); the array has one element, and this element is a number (`is_number()`
is true, its bits are outside the tag space whose upper twelve bits are all ones) whose
double is not a number. -/
theorem from_string_NaN (e : env) (doc : document) (hs : 0 < e.sizeof_value)
    (hvd : doc.values_data < 2 ^ 48) :
    ∃ F a v, from_string e (bytes "[NaN]") doc = some (error.ok, F) ∧
      array_view.of_value e F F.to_value = some a ∧ a.size = 1 ∧
      a.get e F 0 = some v ∧ v.is_number = true ∧
      v.data &&& mask_nanbits ≠ mask_nanbits ∧ double_is_nan v.data = true := by
  let p0 := parser.start (bytes "[NaN]") doc
  let cell : value := ⟨NAN, ⟨1, 2, 1⟩⟩
  let P : parser := ({ (p0.with_scan [] (91 :: bytes "NaN]") []) with
      tobuilder := (p0.with_scan [] (91 :: bytes "NaN]") []).tobuilder.push_array }).with_scan
      [91] (bytes "NaN]") []
  let Q := P.with_items ([78, 97, 78] ++ [93]) [] [] [cell] 1
  have hleaf : ∀ c ∈ [cell], c.is_leaf := by
    intro c hc
    rw [List.mem_singleton.mp hc]
    exact ⟨by decide, by decide, by decide⟩
  have hpop := builder.pop_flat e Q.tobuilder (value.of_type value_type.array 0) [cell]
    (Or.inl rfl) rfl rfl rfl rfl hleaf (by decide)
  have hl : parser.parse_array_loop e 2 false P = some (error.ok, Q) :=
    parser.parse_array_loop_NaN e 0 P [] rfl
  have hval : parser.parse_value e 4 p0.doc.to_value p0 =
      some (error.ok, { (Q.tobuilder.pop e).1 with loc := p0.loc },
        { Q with tobuilder := (Q.tobuilder.pop e).2 }) := by
    rw [parser.parse_value,
      parser.peek_next_token_spaces p0 _ [] 91 (bytes "NaN]") rfl (by simp) (by decide)]
    have ht : token_class token_type.unknown 91 = token_type.array_begin := by decide
    rw [ht]
    dsimp only
    rw [if_neg (by decide), parser.parse_array, parser.next_with_scan _ 91 _ rfl]
    dsimp only
    rw [hl]
    dsimp only
    rw [if_neg (by decide)]
    rfl
  rw [hpop] at hval
  have hfs := parser.from_string_of_root_ok e _ doc _ _ _ hval
    (Or.inl (root_is_array _ _ hvd))
  have harr := root_is_array doc.values_data p0.loc hvd
  have hpay : value.payload ⟨(type_array ||| mask_is_document) ||| doc.values_data, p0.loc⟩ =
      doc.values_data := tagged_mask_payload _ _ (by decide) hvd
  have hF : ∃ F, from_string e (bytes "[NaN]") doc = some (error.ok, F) ∧
      F.to_value = ⟨(type_array ||| mask_is_document) ||| doc.values_data, p0.loc⟩ ∧
      F.values = [value.of_double (double_of_size 1), cell] ∧
      F.values_data = doc.values_data := by
    refine ⟨_, hfs, rfl, ?_, rfl⟩
    show List.map Q.doc.convert_string_offset [value.of_double (double_of_size 1), cell] = _
    rw [List.map_cons, List.map_cons, List.map_nil, convert_other _ _ (by decide),
      convert_other _ cell (by decide)]
  obtain ⟨F, hfs, hroot, hvals, hFvd⟩ := hF
  have h0 := cell_at_index e F 0 hs
  have h1 := cell_at_index e F 1 hs
  rw [hvals, hFvd] at h0 h1
  rw [Nat.zero_mul, Nat.add_zero] at h0
  rw [Nat.one_mul] at h1
  refine ⟨F, ⟨doc.values_data + e.sizeof_value, 1⟩, cell, hfs, ?_, rfl, ?_, by decide,
    by decide, by decide⟩
  · unfold array_view.of_value
    rw [hroot]
    simp only [harr, if_true, hpay]
    rw [if_pos (by omega), Nat.add_sub_cancel, h0]
    rfl
  · unfold array_view.get
    rw [if_pos Nat.one_pos]
    show F.cell_at e (doc.values_data + e.sizeof_value + 0 * e.sizeof_value) = some cell
    rw [Nat.zero_mul, Nat.add_zero, h1]
    rfl

theorem from_string_NaN_witness :
    ∃ F a v, from_string example_env (bytes "[NaN]") example_doc = some (error.ok, F) ∧
      array_view.of_value example_env F F.to_value = some a ∧ a.size = 1 ∧
      a.get example_env F 0 = some v ∧ v.is_number = true ∧
      v.data &&& mask_nanbits ≠ mask_nanbits ∧ double_is_nan v.data = true :=
  from_string_NaN example_env example_doc (by decide) (by decide)

end json5

namespace json5

/-- C13: for every value that is not a number and every default, `get_number` returns the
default, whatever the target type and its conversion, and `try_get_number` returns false and
leaves `out` as it was; for every value that is not a boolean, `get_bool` returns the
default. -/
theorem get_number_default {T : Type} (cast : Nat → T) (v : value) (d out : T) (b : Bool) :
    (v.is_number = false →
      v.get_number cast d = d ∧ v.try_get_number cast out = (false, out)) ∧
    (v.is_boolean = false → v.get_bool b = b) := by
  constructor
  · intro h
    unfold value.get_number value.try_get_number
    rw [h]
    exact ⟨rfl, rfl⟩
  · intro h
    unfold value.get_bool
    simp only [value.is_boolean, decide_eq_false_iff_not, not_or] at h
    rw [if_neg h.1, if_neg h.2]

theorem get_number_default_witness :
    (value.null.is_number = false ∧ value.null.get_number size_of_double 7 = 7 ∧
      value.null.try_get_number size_of_double 5 = (false, 5)) ∧
    (value.null.is_boolean = false ∧ value.null.get_bool true = true) :=
  ⟨⟨by decide, (get_number_default size_of_double value.null 7 5 true).1 (by decide)⟩,
    ⟨by decide, (get_number_default size_of_double value.null 7 5 true).2 (by decide)⟩⟩

end json5

namespace json5

namespace object_view

/-- The loop of `find` over readable pairs: it stops at the first pair whose key is `key`,
and at `end()` when there is none. -/
theorem find_loop_pairs (e : env) (doc : document) (key : List Nat) (hs : 0 < e.sizeof_value) :
    ∀ (n fuel pair : Nat) (prs : List (List Nat × value)),
      pairs_from e doc n pair = some prs → n < fuel →
      find_loop e doc key (pair + n * 2 * e.sizeof_value) fuel pair =
        some (pair + prs.findIdx (fun pr => decide (key = pr.1)) * (2 * e.sizeof_value)) := by
  intro n
  induction n with
  | zero =>
    intro fuel pair prs hp hf
    obtain ⟨f, rfl⟩ : ∃ f, fuel = f + 1 := ⟨fuel - 1, by omega⟩
    rw [pairs_from] at hp
    cases hp
    rw [find_loop, if_neg (by simp)]
    simp
  | succ n ih =>
    intro fuel pair prs hp hf
    obtain ⟨f, rfl⟩ : ∃ f, fuel = f + 1 := ⟨fuel - 1, by omega⟩
    rw [pairs_from] at hp
    cases hd : deref e doc pair with
    | none => rw [hd] at hp; cases hp
    | some kv =>
      cases hr : pairs_from e doc n (pair + 2 * e.sizeof_value) with
      | none => rw [hd, hr] at hp; cases hp
      | some rest =>
        rw [hd, hr] at hp
        cases hp
        have hne : pair ≠ pair + (n + 1) * 2 * e.sizeof_value := by
          have : 0 < (n + 1) * 2 * e.sizeof_value := by positivity
          omega
        rw [find_loop, if_pos hne, hd]
        dsimp only
        by_cases hk : key = kv.1
        · rw [if_pos hk, List.findIdx_cons, hk]
          simp
        · rw [if_neg hk, List.findIdx_cons]
          have e1 : pair + (n + 1) * 2 * e.sizeof_value =
              pair + 2 * e.sizeof_value + n * 2 * e.sizeof_value := by ring
          rw [e1, ih f _ rest hr (by omega)]
          simp only [hk, decide_False, cond_false]
          congr 1
          ring

theorem pairs_from_length (e : env) (doc : document) :
    ∀ (n pair : Nat) (prs : List (List Nat × value)),
      pairs_from e doc n pair = some prs → prs.length = n := by
  intro n
  induction n with
  | zero =>
    intro pair prs hp
    rw [pairs_from] at hp
    cases hp
    rfl
  | succ n ih =>
    intro pair prs hp
    rw [pairs_from] at hp
    cases hd : deref e doc pair with
    | none => rw [hd] at hp; cases hp
    | some kv =>
      cases hr : pairs_from e doc n (pair + 2 * e.sizeof_value) with
      | none => rw [hd, hr] at hp; cases hp
      | some rest =>
        rw [hd, hr] at hp
        cases hp
        rw [List.length_cons, ih _ rest hr]

/-- The pair at position `i` of the iteration is the one the iterator at `i` points to. -/
theorem pairs_from_deref (e : env) (doc : document) :
    ∀ (n pair : Nat) (prs : List (List Nat × value)),
      pairs_from e doc n pair = some prs →
      ∀ i pr, prs.get? i = some pr → deref e doc (pair + i * 2 * e.sizeof_value) = some pr := by
  intro n
  induction n with
  | zero =>
    intro pair prs hp i pr hi
    rw [pairs_from] at hp
    cases hp
    cases hi
  | succ n ih =>
    intro pair prs hp i pr hi
    rw [pairs_from] at hp
    cases hd : deref e doc pair with
    | none => rw [hd] at hp; cases hp
    | some kv =>
      cases hr : pairs_from e doc n (pair + 2 * e.sizeof_value) with
      | none => rw [hd, hr] at hp; cases hp
      | some rest =>
        rw [hd, hr] at hp
        cases hp
        cases i with
        | zero =>
          simp only [List.get?_cons_zero, Option.some.injEq] at hi
          rw [← hi]
          simpa using hd
        | succ i =>
          have := ih _ rest hr i pr (by simpa using hi)
          rw [← this]
          congr 1
          ring

/-- On readable pairs none of which has the key, `find` returns `end()`. -/
theorem find_miss (e : env) (doc : document) (o : object_view) (key : List Nat)
    (prs : List (List Nat × value)) (hs : 0 < e.sizeof_value)
    (hp : o.pairs e doc = some prs) (h : key = [] ∨ ∀ pr ∈ prs, pr.1 ≠ key) :
    o.find e doc key = some (o.end_ e) := by
  have hlen := pairs_from_length e doc _ _ prs hp
  have hloop := find_loop_pairs e doc key hs o._count (o._count + 1) o._pair prs hp
    (Nat.lt_succ_self _)
  unfold find
  by_cases hk : key = []
  · rw [if_neg (by simp [hk])]
  · have hall : ∀ pr ∈ prs, pr.1 ≠ key := h.resolve_left hk
    rw [if_pos hk]
    refine Eq.trans hloop ?_
    rw [List.findIdx_eq_length_of_false
      (fun pr hpr => by simpa using fun h => hall pr hpr h.symm), hlen]
    show some (o._pair + o._count * (2 * e.sizeof_value)) =
      some (o._pair + o._count * 2 * e.sizeof_value)
    rw [Nat.mul_assoc]

end object_view

end json5

namespace json5

/-- C15, as it holds: the empty key is never found. In the document built by
`push_object(); b[""] = true; pop();` the object view is valid and its only pair has the
empty key, yet `find` on the empty key returns `end()`, which is not the iterator `begin()`
at that pair. -/
theorem find_empty_key_misses :
    ∃ o pr, object_view.of_value example_env empty_key_doc empty_key_doc.to_value = some o ∧
      o.is_valid = true ∧ o.pairs example_env empty_key_doc = some [pr] ∧ pr.1 = [] ∧
      o.find example_env empty_key_doc [] = some (o.end_ example_env) ∧
      o.end_ example_env ≠ o.begin :=
  ⟨_, _, rfl, by decide, rfl, rfl, rfl, by decide⟩

/-- C15, amended: for an object view whose pairs are readable and every key that is not
empty, `find` returns the iterator at the first pair, in storage order, whose key equals
the key (and this iterator points to that pair), and `end()` when no pair has the key; for
the empty key `find` returns `end()`. -/
theorem find_first_match (e : env) (doc : document) (o : object_view) (key : List Nat)
    (prs : List (List Nat × value)) (hs : 0 < e.sizeof_value)
    (hp : o.pairs e doc = some prs) :
    (key ≠ [] → ∀ i pr, prs.get? i = some pr → pr.1 = key →
      (∀ j pr1, j < i → prs.get? j = some pr1 → pr1.1 ≠ key) →
      o.find e doc key = some (o.begin + i * 2 * e.sizeof_value) ∧
        object_view.deref e doc (o.begin + i * 2 * e.sizeof_value) = some pr) ∧
    ((key = [] ∨ ∀ pr ∈ prs, pr.1 ≠ key) → o.find e doc key = some (o.end_ e)) := by
  have hlen := object_view.pairs_from_length e doc _ _ prs hp
  have hloop := object_view.find_loop_pairs e doc key hs o._count (o._count + 1) o._pair prs hp
    (Nat.lt_succ_self _)
  constructor
  · intro hk i pr hi hpr hfirst
    refine ⟨?_, object_view.pairs_from_deref e doc _ _ prs hp i pr hi⟩
    have hil : i < prs.length := by
      rcases Nat.lt_or_ge i prs.length with h | h
      · exact h
      · rw [List.get?_eq_none.mpr h] at hi; cases hi
    have hget : prs[i] = pr := by
      have := List.get?_eq_get hil
      rw [hi] at this
      exact (Option.some.inj this).symm
    have hidx : prs.findIdx (fun pr => decide (key = pr.1)) = i := by
      rw [List.findIdx_eq hil]
      refine ⟨by rw [hget]; simp [hpr], ?_⟩
      intro j hji
      have hjl : j < prs.length := lt_trans hji hil
      have := hfirst j prs[j] hji (by rw [List.get?_eq_get hjl]; rfl)
      simp only [decide_eq_false_iff_not]
      exact fun h => this h.symm
    unfold object_view.find
    rw [if_pos hk]
    refine Eq.trans hloop ?_
    rw [hidx]
    show some (o._pair + i * (2 * e.sizeof_value)) = some (o._pair + i * 2 * e.sizeof_value)
    rw [Nat.mul_assoc]
  · exact object_view.find_miss e doc o key prs hs hp

theorem find_first_match_witness :
    (object_view.pairs example_env two_key_doc ⟨8216, 2⟩ =
      some [([97], value.of_bool true), ([98], value.of_bool false)]) ∧
    (object_view.find example_env two_key_doc ⟨8216, 2⟩ [98] = some (8216 + 1 * 2 * 24) ∧
      object_view.deref example_env two_key_doc (8216 + 1 * 2 * 24) =
        some ([98], value.of_bool false)) ∧
    object_view.find example_env two_key_doc ⟨8216, 2⟩ [99] = some (8216 + 2 * 2 * 24) :=
  ⟨rfl,
    (find_first_match example_env two_key_doc ⟨8216, 2⟩ [98]
      [([97], value.of_bool true), ([98], value.of_bool false)] (by decide) rfl).1
      (by decide) 1 ([98], value.of_bool false) rfl rfl
      (by intro j pr1 hj hg
          interval_cases j
          cases hg
          decide),
    (find_first_match example_env two_key_doc ⟨8216, 2⟩ [99]
      [([97], value.of_bool true), ([98], value.of_bool false)] (by decide) rfl).2
      (Or.inr (by decide))⟩

end json5

namespace json5

/-- C14: indexing a value degrades to null. For every value and key: when the value is not
an object, or when it is an object whose pairs are readable and none of them has the key,
`v[key]` is the null value; for every index: when the value is not an array, or when it is
an array and the index is not below its size, `v[index]` is the null value. The null value
is the one for which `is_null()` is true. -/
theorem index_degrades_to_null (e : env) (doc : document) (v : value)
    (hs : 0 < e.sizeof_value) :
    (∀ key, v.is_object = false → v.index_key e doc key = some value.null) ∧
    (∀ key o prs, object_view.of_value e doc v = some o → o.pairs e doc = some prs →
      (∀ pr ∈ prs, pr.1 ≠ key) → v.index_key e doc key = some value.null) ∧
    (∀ i, v.is_array = false → v.index e doc i = some value.null) ∧
    (∀ i a, array_view.of_value e doc v = some a → a.size ≤ i →
      v.index e doc i = some value.null) ∧
    value.null.is_null = true := by
  refine ⟨?_, ?_, ?_, ?_, by decide⟩
  · intro key h
    unfold value.index_key
    rw [h]
    rfl
  · intro key o prs ho hp hall
    unfold value.index_key
    cases hv : v.is_object with
    | false => rfl
    | true =>
      simp only [Bool.not_true, Bool.false_eq_true, if_false]
      rw [ho]
      dsimp only
      unfold object_view.get_key
      rw [object_view.find_miss e doc o key prs hs hp (Or.inr hall)]
      dsimp only
      rw [if_neg (by simp)]
  · intro i h
    unfold value.index
    rw [h]
    rfl
  · intro i a ha hi
    unfold value.index
    cases hv : v.is_array with
    | false => rfl
    | true =>
      simp only [Bool.not_true, Bool.false_eq_true, if_false]
      rw [ha]
      dsimp only
      unfold array_view.get
      rw [if_neg (by unfold array_view.size at hi; omega)]

theorem index_degrades_to_null_witness :
    value.null.index_key example_env two_key_doc [97] = some value.null ∧
    two_key_doc.to_value.index_key example_env two_key_doc [99] = some value.null ∧
    value.null.index example_env one_item_doc 0 = some value.null ∧
    one_item_doc.to_value.index example_env one_item_doc 1 = some value.null :=
  ⟨(index_degrades_to_null example_env two_key_doc value.null (by decide)).1 [97] (by decide),
    (index_degrades_to_null example_env two_key_doc two_key_doc.to_value (by decide)).2.1 [99]
      ⟨8216, 2⟩ [([97], value.of_bool true), ([98], value.of_bool false)] rfl rfl (by decide),
    (index_degrades_to_null example_env one_item_doc value.null (by decide)).2.2.1 0
      (by decide),
    (index_degrades_to_null example_env one_item_doc one_item_doc.to_value
      (by decide)).2.2.2.1 1 ⟨8216, 1⟩ rfl (by decide)⟩

end json5

namespace json5

/-- C16: view indexing is bounds-checked. For an array view, `a[i]` is the cell `i` cells
after the first element when `i` is below the size (for a view built from an array value
that points at cell `k` of the cell buffer, this is cell `k + 1 + i`), and the null value
otherwise. For an object view, `o[i]` is the pair read at `2 * i` cells after the first key
when `i` is below the size (the `i`-th pair of the iteration), and the empty pair (empty
key, null value) otherwise. A view built from a value that is not an array (an object) is
not valid, has size 0, and its `begin()` equals its `end()`. -/
theorem view_index_bounds (e : env) (doc : document) :
    (∀ (a : array_view) (i : Nat),
      (i < a.size → a.get e doc i = doc.cell_at e (a._value + i * e.sizeof_value)) ∧
      (a.size ≤ i → a.get e doc i = some value.null)) ∧
    (∀ (v : value) (a : array_view) (k i : Nat), 0 < e.sizeof_value → v.is_array = true →
      v.payload = doc.values_data + k * e.sizeof_value →
      array_view.of_value e doc v = some a → i < a.size →
      a.get e doc i = doc.values.get? (k + 1 + i)) ∧
    (∀ (o : object_view) (i : Nat),
      (i < o.size → o.get_index e doc i =
          object_view.deref e doc (o._pair + i * 2 * e.sizeof_value) ∧
        ∀ prs, o.pairs e doc = some prs → o.get_index e doc i = prs.get? i) ∧
      (o.size ≤ i → o.get_index e doc i = some ([], value.null))) ∧
    (∀ v : value, v.is_array = false →
      ∃ a, array_view.of_value e doc v = some a ∧ a.is_valid = false ∧ a.size = 0 ∧
        a.begin = a.end_ e) ∧
    (∀ v : value, v.is_object = false →
      ∃ o, object_view.of_value e doc v = some o ∧ o.is_valid = false ∧ o.size = 0 ∧
        o.begin = o.end_ e) := by
  refine ⟨?_, ?_, ?_, ?_, ?_⟩
  · intro a i
    unfold array_view.get array_view.size
    exact ⟨fun h => by rw [if_pos h], fun h => by rw [if_neg (by omega)]⟩
  · intro v a k i hs hv hpay ha hi
    unfold array_view.of_value at ha
    rw [hv, hpay] at ha
    simp only [if_true] at ha
    rw [if_pos (by omega)] at ha
    cases hc : doc.cell_at e (doc.values_data + k * e.sizeof_value + e.sizeof_value -
        e.sizeof_value) with
    | none => rw [hc] at ha; cases ha
    | some c =>
      rw [hc] at ha
      cases ha
      unfold array_view.get
      have hi2 : i < c.get_number_size := hi
      dsimp only
      rw [if_pos hi2]
      show doc.cell_at e (doc.values_data + k * e.sizeof_value + e.sizeof_value +
        i * e.sizeof_value) = _
      have e1 : doc.values_data + k * e.sizeof_value + e.sizeof_value + i * e.sizeof_value =
          doc.values_data + (k + 1 + i) * e.sizeof_value := by ring
      rw [e1, cell_at_index e doc _ hs]
  · intro o i
    unfold object_view.get_index object_view.size
    refine ⟨fun h => ⟨by rw [if_neg (by omega)], fun prs hp => ?_⟩,
      fun h => by rw [if_pos (by omega)]⟩
    rw [if_neg (by omega)]
    have hlen := object_view.pairs_from_length e doc _ _ prs hp
    have hil : i < prs.length := by omega
    rw [List.get?_eq_get hil]
    exact object_view.pairs_from_deref e doc _ _ prs hp i _ (List.get?_eq_get hil)
  · intro v hv
    refine ⟨⟨0, 0⟩, ?_, rfl, rfl, ?_⟩
    · unfold array_view.of_value
      rw [hv]
      rfl
    · show 0 = 0 + 0 * e.sizeof_value
      omega
  · intro v hv
    refine ⟨⟨0, 0⟩, ?_, rfl, rfl, ?_⟩
    · unfold object_view.of_value
      rw [hv]
      rfl
    · show 0 = 0 + 0 * 2 * e.sizeof_value
      omega

theorem view_index_bounds_witness :
    (array_view.get example_env one_item_doc ⟨8216, 1⟩ 0 =
      one_item_doc.cell_at example_env (8216 + 0 * 24)) ∧
    array_view.get example_env one_item_doc ⟨8216, 1⟩ 5 = some value.null ∧
    array_view.get example_env one_item_doc ⟨8216, 1⟩ 0 = one_item_doc.values.get? (0 + 1 + 0) ∧
    (object_view.get_index example_env two_key_doc ⟨8216, 2⟩ 1 =
      [([97], value.of_bool true), ([98], value.of_bool false)].get? 1) ∧
    object_view.get_index example_env two_key_doc ⟨8216, 2⟩ 2 = some ([], value.null) ∧
    (∃ a, array_view.of_value example_env one_item_doc value.null = some a ∧
      a.is_valid = false ∧ a.size = 0 ∧ a.begin = a.end_ example_env) ∧
    (∃ o, object_view.of_value example_env one_item_doc value.null = some o ∧
      o.is_valid = false ∧ o.size = 0 ∧ o.begin = o.end_ example_env) :=
  ⟨((view_index_bounds example_env one_item_doc).1 ⟨8216, 1⟩ 0).1 (by decide),
    ((view_index_bounds example_env one_item_doc).1 ⟨8216, 1⟩ 5).2 (by decide),
    (view_index_bounds example_env one_item_doc).2.1 one_item_doc.to_value ⟨8216, 1⟩ 0 0
      (by decide) (by decide) (by decide) rfl (by decide),
    (((view_index_bounds example_env two_key_doc).2.2.1 ⟨8216, 2⟩ 1).1 (by decide)).2 _ rfl,
    ((view_index_bounds example_env two_key_doc).2.2.1 ⟨8216, 2⟩ 2).2 (by decide),
    (view_index_bounds example_env one_item_doc).2.2.2.1 value.null (by decide),
    (view_index_bounds example_env one_item_doc).2.2.2.2 value.null (by decide)⟩

end json5

namespace json5

theorem nanbits_of_mask_type (x : Nat) : x &&& mask_nanbits = (x &&& mask_type) &&& mask_nanbits := by
  rw [Nat.and_assoc]
  have : mask_type &&& mask_nanbits = mask_nanbits := by decide
  rw [this]

theorem value.type_of_is_array (v : value) (h : v.is_array = true) :
    v.type = value_type.array := by
  simp only [value.is_array, decide_eq_true_eq] at h
  unfold value.type
  have h1 : v.data &&& mask_nanbits = mask_nanbits := by
    rw [nanbits_of_mask_type, h]; decide
  rw [if_neg (by simp [h1]), h, if_neg (by decide), if_pos rfl]

theorem value.type_of_is_object (v : value) (h : v.is_object = true) :
    v.type = value_type.object := by
  simp only [value.is_object, decide_eq_true_eq] at h
  unfold value.type
  have h1 : v.data &&& mask_nanbits = mask_nanbits := by
    rw [nanbits_of_mask_type, h]; decide
  rw [if_neg (by simp [h1]), h, if_pos rfl]

theorem array_view.array_start (e : env) (doc : document) (v : value) (a : array_view)
    (hv : v.is_array = true) (h : array_view.of_value e doc v = some a) :
    a._value = v.payload + e.sizeof_value := by
  unfold array_view.of_value at h
  rw [hv] at h
  simp only [if_true] at h
  by_cases hp : v.payload + e.sizeof_value ≠ 0
  · rw [if_pos hp] at h
    cases hc : doc.cell_at e (v.payload + e.sizeof_value - e.sizeof_value) with
    | none => rw [hc] at h; cases h
    | some c => rw [hc] at h; cases h; rfl
  · rw [if_neg hp] at h
    cases h
    rfl

theorem object_view.object_start (e : env) (doc : document) (v : value) (o : object_view)
    (hv : v.is_object = true) (h : object_view.of_value e doc v = some o) :
    o._pair = v.payload + e.sizeof_value := by
  unfold object_view.of_value at h
  rw [hv] at h
  simp only [if_true] at h
  by_cases hp : v.payload + e.sizeof_value ≠ 0
  · rw [if_pos hp] at h
    cases hc : doc.cell_at e (v.payload + e.sizeof_value - e.sizeof_value) with
    | none => rw [hc] at h; cases h
    | some c => rw [hc] at h; cases h; rfl
  · rw [if_neg hp] at h
    cases h
    rfl

/-- C17: equality on containers is identity. For two values that are both arrays, or both
objects, whose count cells are readable, `a == b` is true exactly when the two payloads are
the same address; the elements are never read. In the document parsed from
`[[true],[true]]` the two inner arrays hold equal elements at different places and compare
unequal, while each equals itself. For all values, `a != b` is the negation of `a == b`. -/
theorem container_eq_is_identity (e : env) (doc odoc : document) (a b : value) :
    (a.is_array = true → b.is_array = true →
      ∀ x y, array_view.of_value e doc a = some x → array_view.of_value e odoc b = some y →
        a.eq e doc odoc b = some (decide (a.payload = b.payload))) ∧
    (a.is_object = true → b.is_object = true →
      ∀ x y, object_view.of_value e doc a = some x → object_view.of_value e odoc b = some y →
        a.eq e doc odoc b = some (decide (a.payload = b.payload))) ∧
    a.ne e doc odoc b = (a.eq e doc odoc b).map (fun r => !r) ∧
    (∃ F x y c, from_string example_env (bytes "[[true],[true]]") example_doc =
        some (error.ok, F) ∧
      F.to_value.index example_env F 0 = some x ∧ F.to_value.index example_env F 1 = some y ∧
      x.is_array = true ∧ y.is_array = true ∧
      (array_view.of_value example_env F x).map array_view.size = some 1 ∧
      (array_view.of_value example_env F y).map array_view.size = some 1 ∧
      (x.index example_env F 0).map value.data = some c ∧
      (y.index example_env F 0).map value.data = some c ∧
      x.eq example_env F F y = some false ∧ x.eq example_env F F x = some true ∧
      y.eq example_env F F y = some true) := by
  refine ⟨?_, ?_, rfl, ⟨_, _, _, _, rfl, rfl, rfl, by decide, by decide, rfl, rfl, rfl, rfl,
    rfl, rfl, rfl⟩⟩
  · intro ha hb x y hx hy
    have hxs := array_view.array_start e doc a x ha hx
    have hys := array_view.array_start e odoc b y hb hy
    unfold value.eq
    rw [value.type_of_is_array a ha, value.type_of_is_array b hb]
    simp only [if_true, reduceCtorEq, if_false]
    rw [hx, hy]
    show some (decide (x._value = y._value)) = _
    rw [hxs, hys]
    congr 1
    exact decide_eq_decide.mpr ⟨fun h => by omega, fun h => by omega⟩
  · intro ha hb x y hx hy
    have hxs := object_view.object_start e doc a x ha hx
    have hys := object_view.object_start e odoc b y hb hy
    unfold value.eq
    rw [value.type_of_is_object a ha, value.type_of_is_object b hb]
    simp only [if_true, reduceCtorEq, if_false]
    rw [hx, hy]
    show some (decide (x._pair = y._pair)) = _
    rw [hxs, hys]
    congr 1
    exact decide_eq_decide.mpr ⟨fun h => by omega, fun h => by omega⟩

theorem container_eq_is_identity_witness :
    one_item_doc.to_value.eq example_env one_item_doc one_item_doc one_item_doc.to_value =
      some (decide (one_item_doc.to_value.payload = one_item_doc.to_value.payload)) ∧
    two_key_doc.to_value.eq example_env two_key_doc two_key_doc two_key_doc.to_value =
      some (decide (two_key_doc.to_value.payload = two_key_doc.to_value.payload)) :=
  ⟨(container_eq_is_identity example_env one_item_doc one_item_doc one_item_doc.to_value
      one_item_doc.to_value).1 (by decide) (by decide) ⟨8216, 1⟩ ⟨8216, 1⟩ rfl rfl,
    (container_eq_is_identity example_env two_key_doc two_key_doc two_key_doc.to_value
      two_key_doc.to_value).2.1 (by decide) (by decide) ⟨8216, 2⟩ ⟨8216, 2⟩ rfl rfl⟩

end json5

namespace json5

theorem relink_all_length (e : env) (prev : Option document) (vs : List value) (doc : document) :
    (relink_all e prev vs doc).1.length = vs.length := by
  induction vs generalizing doc with
  | nil => rfl
  | cons v vs ih => simp only [relink_all, List.length_cons, ih]

theorem assign_root_length (e : env) (doc : document) (root : value) :
    (doc.assign_root e root).values.length = doc.values.length := by
  unfold document.assign_root
  dsimp only
  have h1 := relink_all_length e Option.none doc.values
    { doc with data := root.data ||| mask_is_document }
  have h2 := value.relink_frame e Option.none
    { (relink_all e Option.none doc.values { doc with data := root.data ||| mask_is_document }).2
      with values := (relink_all e Option.none doc.values
        { doc with data := root.data ||| mask_is_document }).1 }
    (document.to_value { (relink_all e Option.none doc.values
        { doc with data := root.data ||| mask_is_document }).2
      with values := (relink_all e Option.none doc.values
        { doc with data := root.data ||| mask_is_document }).1 })
  simp only [document.convert_string_offsets, List.length_map]
  rw [h2.2.2.2.1]
  exact h1

theorem value.set_payload_payload (v : value) (x : Nat) (h : x < 2 ^ 48) :
    (v.set_payload x).payload = x := by
  show ((v.data &&& not_mask_payload) ||| x) &&& mask_payload = x
  rw [tag_or_and, small_and_mask_payload x h, Nat.and_assoc]
  have : not_mask_payload &&& mask_payload = 0 := by decide
  rw [this, Nat.and_zero, Nat.zero_or]

theorem value.set_payload_tag (v : value) (x : Nat) (h : x < 2 ^ 48) :
    (v.set_payload x).data &&& not_mask_payload = v.data &&& not_mask_payload := by
  show ((v.data &&& not_mask_payload) ||| x) &&& not_mask_payload = _
  rw [tag_or_and, small_and_not_mask_payload x h, Nat.or_zero, Nat.and_assoc, Nat.and_self]

/-- C18, as it holds: the outermost `pop` does not leave the appended cells as they were in
the scratch buffer. After `push_object(); b["a"] = true;` there is one open frame with two
pending cells, the first a pending string at offset 1; after `pop()` the cell buffer is not
the old one followed by the count and these two cells: the first of them is now a string
whose payload is the address 4097. -/
theorem pop_outermost_relinks :
    one_key_builder.stack.length = 1 ∧ one_key_builder.counts = [2] ∧
    one_key_builder.values.map value.data = [type_string_off ||| 1, type_true] ∧
    (one_key_builder.pop example_env).2.doc.values ≠
      one_key_builder.doc.values ++ value.of_double (double_of_size 2) ::
        one_key_builder.values.drop (one_key_builder.values.length - 2) ∧
    ((one_key_builder.pop example_env).2.doc.values.map value.data =
      [double_of_size 2, type_string ||| 4097, type_true]) := by
  refine ⟨by decide, by decide, by decide, by decide, by decide⟩

/-- C18, amended: let the builder have at least one open frame, the top one with pending
count `c`, at most the length of the scratch buffer. Then `pop` removes the top frame and
its count, removes exactly the last `c` values from the scratch buffer and makes the cell
buffer `c + 1` cells longer; the count cell is the double of `c`, a number that reads back
as `c` (for `c` below 2^53). When another frame remains open the cell buffer is the old one
followed by the count cell and the last `c` scratch values in their order, the string buffer
is untouched, and the value returned is the frame with its payload set to the old length of
the cell buffer (below 2^48). When no frame remains, the document is what `assign_root`
makes of that same buffer and of that same value, and the root of the document is what is
returned. -/
theorem pop_appends_frame (e : env) (b : builder) (st : List value) (fr : value)
    (cs : List Nat) (c : Nat)
    (hstack : b.stack = st ++ [fr]) (hcounts : b.counts = cs ++ [c])
    (hc : c ≤ b.values.length) :
    (b.pop e).2.stack = st ∧ (b.pop e).2.counts = cs ∧
    (b.pop e).2.values = b.values.take (b.values.length - c) ∧
    b.values = (b.pop e).2.values ++ b.values.drop (b.values.length - c) ∧
    (b.values.drop (b.values.length - c)).length = c ∧
    (b.pop e).2.doc.values.length = b.doc.values.length + (c + 1) ∧
    (c < 2 ^ 53 → (value.of_double (double_of_size c)).is_number = true ∧
      (value.of_double (double_of_size c)).get_number_size = c) ∧
    (st ≠ [] →
      (b.pop e).2.doc.values = b.doc.values ++ value.of_double (double_of_size c) ::
        b.values.drop (b.values.length - c) ∧
      (b.pop e).2.doc.strings = b.doc.strings ∧
      (b.pop e).1 = fr.set_payload b.doc.values.length ∧
      (b.doc.values.length < 2 ^ 48 →
        (b.pop e).1.payload = b.doc.values.length ∧
        (b.pop e).1.data &&& not_mask_payload = fr.data &&& not_mask_payload)) ∧
    (st = [] →
      (b.pop e).2.doc =
        document.assign_root e
          { b.doc with values := b.doc.values ++ value.of_double (double_of_size c) ::
              b.values.drop (b.values.length - c) }
          (fr.set_payload b.doc.values.length) ∧
      (b.pop e).1 = (b.pop e).2.doc.to_value) := by
  have hlast : b.stack.getLastD value.null = fr := by rw [hstack]; simp
  have hcount : b.counts.getLastD 0 = c := by rw [hcounts]; simp
  have hdrop : b.stack.dropLast = st := by rw [hstack]; simp
  have hcdrop : b.counts.dropLast = cs := by rw [hcounts]; simp
  have hlen : (b.values.drop (b.values.length - c)).length = c := by
    rw [List.length_drop]; omega
  have hpf := builder.pop_frame e b
  have happ : b.doc.values ++ [value.of_double (double_of_size c)] ++
      b.values.drop (b.values.length - c) =
      b.doc.values ++ value.of_double (double_of_size c) ::
        b.values.drop (b.values.length - c) := by simp
  have hval : (b.pop e).2.values = b.values.take (b.values.length - c) := by
    unfold builder.pop
    dsimp only
    rw [hcount]
    split <;> rfl
  refine ⟨hpf.1.trans hdrop, hpf.2.1.trans hcdrop, hval, ?_, hlen, ?_, ?_, ?_, ?_⟩
  · rw [hval, List.take_append_drop]
  · unfold builder.pop
    dsimp only
    rw [hcount]
    split
    · show (document.assign_root e _ _).values.length = _
      rw [assign_root_length]
      simp only [List.length_append, List.length_singleton, hlen]
      omega
    · dsimp only
      simp only [List.length_append, List.length_singleton, hlen]
      omega
  · intro h53
    refine ⟨lt_two_pow_63_is_number _ (double_of_size_lt c h53), ?_⟩
    unfold value.get_number_size
    rw [lt_two_pow_63_is_number _ (double_of_size_lt c h53), if_pos rfl]
    exact size_of_double_of_size c h53
  · intro hst
    have hne : ¬ (b.stack.dropLast.isEmpty = true) := by
      rw [hdrop]
      cases st with
      | nil => exact absurd rfl hst
      | cons x xs => simp
    have hpop : b.pop e = (fr.set_payload b.doc.values.length,
        { doc := { b.doc with values := b.doc.values ++
              [value.of_double (double_of_size c)] ++ b.values.drop (b.values.length - c) },
          stack := b.stack.dropLast, values := b.values.take (b.values.length - c),
          counts := b.counts.dropLast }) := by
      unfold builder.pop
      dsimp only
      rw [if_neg hne, hlast, hcount]
    rw [hpop]
    refine ⟨happ, rfl, rfl, fun h48 => ⟨value.set_payload_payload _ _ h48,
      value.set_payload_tag _ _ h48⟩⟩
  · intro hst
    have he : b.stack.dropLast.isEmpty = true := by rw [hdrop, hst]; rfl
    have hpop : b.pop e =
        ((document.assign_root e { b.doc with values := b.doc.values ++
              [value.of_double (double_of_size c)] ++ b.values.drop (b.values.length - c) }
            (fr.set_payload b.doc.values.length)).to_value,
        { doc := document.assign_root e { b.doc with values := b.doc.values ++
              [value.of_double (double_of_size c)] ++ b.values.drop (b.values.length - c) }
            (fr.set_payload b.doc.values.length),
          stack := b.stack.dropLast, values := b.values.take (b.values.length - c),
          counts := b.counts.dropLast }) := by
      unfold builder.pop
      dsimp only
      rw [if_pos he, hlast, hcount]
    rw [hpop, happ]
    exact ⟨rfl, rfl⟩

theorem pop_appends_frame_witness :
    ((inner_builder.pop example_env).2.doc.values =
      inner_builder.doc.values ++ value.of_double (double_of_size 1) ::
        inner_builder.values.drop (inner_builder.values.length - 1)) ∧
    (inner_builder.pop example_env).1.payload = inner_builder.doc.values.length ∧
    (one_key_builder.pop example_env).1 = (one_key_builder.pop example_env).2.doc.to_value :=
  ⟨((pop_appends_frame example_env inner_builder [value.of_type value_type.array 0]
      (value.of_type value_type.array 0) [0] 1 rfl rfl (by decide)).2.2.2.2.2.2.2.1
      (by decide)).1,
    (((pop_appends_frame example_env inner_builder [value.of_type value_type.array 0]
      (value.of_type value_type.array 0) [0] 1 rfl rfl (by decide)).2.2.2.2.2.2.2.1
      (by decide)).2.2.2 (by decide)).1,
    ((pop_appends_frame example_env one_key_builder [] (value.of_type value_type.object 0)
      [] 2 rfl rfl (by decide)).2.2.2.2.2.2.2.2 rfl).2⟩

end json5

namespace json5

/-! ### Relinking cell by cell -/

theorem alloc_string_length (doc : document) (str : List Nat) :
    doc.strings.length ≤ (doc.alloc_string str).2.strings.length := by
  unfold document.alloc_string
  dsimp only
  split
  · exact le_refl _
  · simp only [List.length_append]
    omega

theorem value.relink_strings_length (e : env) (prev : Option document) (doc : document)
    (v : value) : doc.strings.length ≤ (v.relink e prev doc).2.strings.length := by
  unfold value.relink
  have ha := alloc_string_length doc (e.c_str_at v.payload)
  split
  · dsimp only
    cases prev with
    | none =>
      dsimp only
      split
      · exact ha
      · exact le_refl _
    | some prev => exact le_refl _
  · split
    · cases prev <;> exact le_refl _
    · exact le_refl _

theorem relink_all_strings_length (e : env) (prev : Option document) (vs : List value)
    (doc : document) : doc.strings.length ≤ (relink_all e prev vs doc).2.strings.length := by
  induction vs generalizing doc with
  | nil => exact le_refl _
  | cons v vs ih =>
    simp only [relink_all]
    exact le_trans (value.relink_strings_length e prev doc v) (ih _)

/-- Cell `i` of the relinked cells is cell `i` relinked against a document at the same
addresses whose string buffer is at least as long. -/
theorem relink_all_get (e : env) (prev : Option document) (vs : List value) :
    ∀ (doc : document) (i : Nat) (v : value), vs.get? i = some v →
      ∃ d : document, d.strings_data = doc.strings_data ∧ d.values_data = doc.values_data ∧
        doc.strings.length ≤ d.strings.length ∧
        (relink_all e prev vs doc).1.get? i = some (v.relink e prev d).1 := by
  induction vs with
  | nil => intro doc i v h; cases h
  | cons v0 vs ih =>
    intro doc i v h
    cases i with
    | zero =>
      simp only [List.get?_cons_zero, Option.some.injEq] at h
      subst h
      exact ⟨doc, rfl, rfl, le_refl _, rfl⟩
    | succ i =>
      have hf := value.relink_frame e prev doc v0
      obtain ⟨d, h1, h2, h3, h4⟩ := ih (v0.relink e prev doc).2 i v (by simpa using h)
      refine ⟨d, h1.trans hf.2.2.2.2.1, h2.trans hf.2.2.2.2.2,
        le_trans (value.relink_strings_length e prev doc v0) h3, ?_⟩
      simpa [relink_all] using h4

/-- A pending string is left alone by `relink`. -/
theorem value.relink_pending (e : env) (prev : Option document) (d : document) (v : value)
    (h : v.data &&& mask_type = type_string_off) : v.relink e prev d = (v, d) := by
  unfold value.relink
  rw [if_neg (by rw [h]; decide)]
  have : ¬ (v.is_object = true ∨ v.is_array = true) := by
    simp only [value.is_object, value.is_array, decide_eq_true_eq, h]
    decide
  rw [if_neg this]

/-- A container that holds a cell index gets the address of that cell. -/
theorem value.relink_container (e : env) (d : document) (v : value)
    (h : v.is_object = true ∨ v.is_array = true) :
    v.relink e Option.none d =
      (v.set_payload (d.values_data + v.payload * e.sizeof_value), d) := by
  unfold value.relink
  have hns : ¬ (v.data &&& mask_type = type_string) := by
    simp only [value.is_object, value.is_array, decide_eq_true_eq] at h
    rcases h with h | h <;> rw [h] <;> decide
  rw [if_neg hns, if_pos h]

theorem value.set_payload_mask_type (v : value) (x : Nat) (h : x < 2 ^ 48) :
    (v.set_payload x).data &&& mask_type = v.data &&& mask_type := by
  show ((v.data &&& not_mask_payload) ||| x) &&& mask_type = _
  rw [tagged_mask_type _ _ h, Nat.and_assoc]
  have : not_mask_payload &&& mask_type = mask_type := by decide
  rw [this]

/-- The conversion of a pending string: a string at the address of its offset. -/
theorem convert_pending_cell (doc : document) (v : value)
    (h : v.data &&& mask_type = type_string_off)
    (hb : doc.strings_data + v.payload < 2 ^ 48) :
    (doc.convert_string_offset v).is_string = true ∧
    (doc.convert_string_offset v).payload = doc.strings_data + v.payload ∧
    (doc.convert_string_offset v).loc = v.loc := by
  unfold document.convert_string_offset
  rw [if_pos h]
  refine ⟨?_, ?_, rfl⟩
  · show decide ((((v.set_payload _).data &&& not_mask_type) ||| type_string) &&& mask_type =
      type_string) = true
    rw [decide_eq_true_eq, tag_or_and, Nat.and_assoc]
    have h1 : not_mask_type &&& mask_type = 0 := by decide
    have h2 : type_string &&& mask_type = type_string := by decide
    rw [h1, h2, Nat.and_zero, Nat.zero_or]
  · show (((v.set_payload _).data &&& not_mask_type) ||| type_string) &&& mask_payload = _
    rw [tag_or_and, Nat.and_assoc]
    have h1 : not_mask_type &&& mask_payload = mask_payload := by decide
    have h2 : type_string &&& mask_payload = 0 := by decide
    rw [h1, h2, Nat.or_zero]
    exact value.set_payload_payload v _ hb

end json5

namespace json5

theorem assign_root_cell (e : env) (doc : document) (root : value) (i : Nat) (v : value)
    (h : doc.values.get? i = some v) :
    ∃ d : document, d.strings_data = doc.strings_data ∧ d.values_data = doc.values_data ∧
      doc.strings.length ≤ d.strings.length ∧
      (doc.assign_root e root).values.get? i =
        some (doc.convert_string_offset (v.relink e Option.none d).1) := by
  obtain ⟨d, h1, h2, h3, h4⟩ := relink_all_get e Option.none doc.values
    { doc with data := root.data ||| mask_is_document } i v h
  refine ⟨d, h1, h2, h3, ?_⟩
  unfold document.assign_root
  dsimp only
  have hf := relink_all_frame e Option.none doc.values
    { doc with data := root.data ||| mask_is_document }
  have h2f := value.relink_frame e Option.none
    { (relink_all e Option.none doc.values { doc with data := root.data ||| mask_is_document }).2
      with values := (relink_all e Option.none doc.values
        { doc with data := root.data ||| mask_is_document }).1 }
    (document.to_value { (relink_all e Option.none doc.values
        { doc with data := root.data ||| mask_is_document }).2
      with values := (relink_all e Option.none doc.values
        { doc with data := root.data ||| mask_is_document }).1 })
  simp only [document.convert_string_offsets]
  rw [h2f.2.2.2.1]
  dsimp only
  rw [List.get?_eq_getElem?, List.getElem?_map, ← List.get?_eq_getElem?, h4]
  dsimp only [Option.map]
  congr 1
  apply congrFun
  apply convert_string_offset_congr
  show (value.relink e Option.none _ _).2.strings_data = doc.strings_data
  rw [h2f.2.2.2.2.1]
  exact hf.2.2.2.1

theorem assign_root_strings_length (e : env) (doc : document) (root : value) :
    doc.strings.length ≤ (doc.assign_root e root).strings.length := by
  unfold document.assign_root
  dsimp only
  simp only [document.convert_string_offsets]
  refine le_trans ?_ (value.relink_strings_length e Option.none _ _)
  exact relink_all_strings_length e Option.none doc.values
    { doc with data := root.data ||| mask_is_document }

/-- The root after `assign_root` on a container: its tag bits and the document flag are
kept and its payload is the address of the cell whose index it held. -/
theorem assign_root_data (e : env) (doc : document) (root : value)
    (h : root.is_object = true ∨ root.is_array = true) :
    (doc.assign_root e root).data =
      ((root.data ||| mask_is_document) &&& not_mask_payload) |||
        (doc.values_data + root.payload * e.sizeof_value) := by
  unfold document.assign_root
  dsimp only
  have hf := relink_all_frame e Option.none doc.values
    { doc with data := root.data ||| mask_is_document }
  generalize relink_all e Option.none doc.values
    { doc with data := root.data ||| mask_is_document } = r at hf
  simp only [document.convert_string_offsets]
  have hd : (document.to_value { r.2 with values := r.1 }).data =
      root.data ||| mask_is_document := hf.1
  have hm : (root.data ||| mask_is_document) &&& mask_type = root.data &&& mask_type := by
    rw [tag_or_and]
    have : mask_is_document &&& mask_type = 0 := by decide
    rw [this, Nat.or_zero]
  have hc : (document.to_value { r.2 with values := r.1 }).is_object = true ∨
      (document.to_value { r.2 with values := r.1 }).is_array = true := by
    simp only [value.is_object, value.is_array, decide_eq_true_eq, hd, hm]
    simpa [value.is_object, value.is_array] using h
  rw [value.relink_container e _ _ hc]
  show ((document.to_value { r.2 with values := r.1 }).data &&& not_mask_payload) |||
    (r.2.values_data + (document.to_value { r.2 with values := r.1 }).payload *
      e.sizeof_value) = _
  have hp : (document.to_value { r.2 with values := r.1 }).payload = root.payload := by
    show (document.to_value { r.2 with values := r.1 }).data &&& mask_payload = _
    rw [hd, tag_or_and]
    have : mask_is_document &&& mask_payload = 0 := by decide
    rw [this, Nat.or_zero]
    rfl
  rw [hd, hp, hf.2.2.2.2]

end json5

namespace json5

/-- The outermost `pop`: the document is what `assign_root` makes of the cell buffer with
the frame appended. -/
theorem builder.pop_last (e : env) (b : builder) (fr : value) (c : Nat)
    (hstack : b.stack = [fr]) (hcounts : b.counts = [c]) :
    (b.pop e).2.doc =
      document.assign_root e
        { b.doc with values := b.doc.values ++ value.of_double (double_of_size c) ::
            b.values.drop (b.values.length - c) }
        (fr.set_payload b.doc.values.length) := by
  have happ : b.doc.values ++ [value.of_double (double_of_size c)] ++
      b.values.drop (b.values.length - c) =
      b.doc.values ++ value.of_double (double_of_size c) ::
        b.values.drop (b.values.length - c) := by simp
  unfold builder.pop
  dsimp only
  have he : b.stack.dropLast.isEmpty = true := by rw [hstack]; rfl
  have hlast : b.stack.getLastD value.null = fr := by rw [hstack]; rfl
  have hcount : b.counts.getLastD 0 = c := by rw [hcounts]; rfl
  rw [if_pos he, hlast, hcount, happ]

theorem or_and_self (a m : Nat) : (a ||| m) &&& m = m := by
  apply Nat.eq_of_testBit_eq
  intro i
  rw [Nat.testBit_and, Nat.testBit_or]
  cases a.testBit i <;> cases m.testBit i <;> rfl

/-- The root of a finalized container: tag, flag and payload. -/
theorem root_after_assign (root : value) (p : Nat) (hp : p < 2 ^ 48) :
    (((root.data ||| mask_is_document) &&& not_mask_payload) ||| p) &&& mask_type =
      root.data &&& mask_type ∧
    (((root.data ||| mask_is_document) &&& not_mask_payload) ||| p) &&& mask_payload = p ∧
    (((root.data ||| mask_is_document) &&& not_mask_payload) ||| p) &&& mask_is_document =
      mask_is_document := by
  refine ⟨?_, ?_, ?_⟩
  · rw [tagged_mask_type _ _ hp, Nat.and_assoc]
    have h1 : not_mask_payload &&& mask_type = mask_type := by decide
    have h2 : mask_is_document &&& mask_type = 0 := by decide
    rw [h1, tag_or_and, h2, Nat.or_zero]
  · rw [tag_or_and, small_and_mask_payload p hp, Nat.and_assoc]
    have h1 : not_mask_payload &&& mask_payload = 0 := by decide
    rw [h1, Nat.and_zero, Nat.zero_or]
  · rw [tag_or_and, Nat.and_assoc]
    have h1 : not_mask_payload &&& mask_is_document = mask_is_document := by decide
    have h2 : p &&& mask_is_document = 0 :=
      small_and_high _ p (by intro i hi; interval_cases i <;> decide) hp
    rw [h1, h2, Nat.or_zero, or_and_self]

end json5

namespace json5

theorem convert_not_pending (D : document) (y : value) :
    (D.convert_string_offset y).data &&& mask_type ≠ type_string_off := by
  unfold document.convert_string_offset
  split
  · show (((y.set_payload _).data &&& not_mask_type) ||| type_string) &&& mask_type ≠ _
    rw [tag_or_and, Nat.and_assoc]
    have h1 : not_mask_type &&& mask_type = 0 := by decide
    have h2 : type_string &&& mask_type = type_string := by decide
    rw [h1, h2, Nat.and_zero, Nat.zero_or]
    decide
  · assumption

theorem assign_root_not_pending (e : env) (doc : document) (root : value) :
    ∀ x ∈ (doc.assign_root e root).values, x.data &&& mask_type ≠ type_string_off := by
  have h : ∃ (D : document) (R : List value),
      (doc.assign_root e root).values = R.map D.convert_string_offset := ⟨_, _, rfl⟩
  obtain ⟨D, R, hR⟩ := h
  intro x hx
  rw [hR] at hx
  obtain ⟨y, _, rfl⟩ := List.mem_map.mp hx
  exact convert_not_pending D y

/-- A pending string after `assign_root`. -/
theorem assign_root_pending (e : env) (doc : document) (root : value) (i : Nat) (v : value)
    (h : doc.values.get? i = some v) (ht : v.data &&& mask_type = type_string_off)
    (hb : doc.strings_data + v.payload < 2 ^ 48) :
    ∃ w, (doc.assign_root e root).values.get? i = some w ∧ w.is_string = true ∧
      w.payload = doc.strings_data + v.payload ∧ w.loc = v.loc := by
  obtain ⟨d, _, _, _, h4⟩ := assign_root_cell e doc root i v h
  rw [value.relink_pending e Option.none d v ht] at h4
  exact ⟨_, h4, convert_pending_cell doc v ht hb⟩

/-- A container cell after `assign_root`. -/
theorem assign_root_container (e : env) (doc : document) (root : value) (i : Nat) (v : value)
    (h : doc.values.get? i = some v) (hc : v.is_object = true ∨ v.is_array = true)
    (hb : doc.values_data + v.payload * e.sizeof_value < 2 ^ 48) :
    ∃ w, (doc.assign_root e root).values.get? i = some w ∧ w.is_object = v.is_object ∧
      w.is_array = v.is_array ∧ w.is_string = false ∧
      w.payload = doc.values_data + v.payload * e.sizeof_value ∧ w.loc = v.loc := by
  obtain ⟨d, _, h2, _, h4⟩ := assign_root_cell e doc root i v h
  rw [value.relink_container e d v hc, h2] at h4
  have htag := value.set_payload_mask_type v _ hb
  have hnp : (v.set_payload (doc.values_data + v.payload * e.sizeof_value)).data &&& mask_type ≠
      type_string_off := by
    rw [htag]
    simp only [value.is_object, value.is_array, decide_eq_true_eq] at hc
    rcases hc with hc | hc <;> rw [hc] <;> decide
  rw [convert_other _ _ hnp] at h4
  refine ⟨_, h4, ?_, ?_, ?_, value.set_payload_payload v _ hb, rfl⟩
  · simp only [value.is_object, htag]
  · simp only [value.is_array, htag]
  · simp only [value.is_string, htag, decide_eq_false_iff_not]
    simp only [value.is_object, value.is_array, decide_eq_true_eq] at hc
    rcases hc with hc | hc <;> rw [hc] <;> decide

/-- A cell that is neither a string, nor pending, nor a container, after `assign_root`. -/
theorem assign_root_scalar (e : env) (doc : document) (root : value) (i : Nat) (v : value)
    (h : doc.values.get? i = some v) (hl : v.is_leaf)
    (hn : v.data &&& mask_type ≠ type_string_off) :
    (doc.assign_root e root).values.get? i = some v := by
  obtain ⟨d, _, _, _, h4⟩ := assign_root_cell e doc root i v h
  rw [value.relink_leaf e d v hl, convert_other _ _ hn] at h4
  exact h4

/-- The root after `assign_root` on a container that holds a cell index. -/
theorem assign_root_root (e : env) (doc : document) (root : value)
    (h : root.is_object = true ∨ root.is_array = true)
    (hb : doc.values_data + root.payload * e.sizeof_value < 2 ^ 48) :
    (doc.assign_root e root).to_value.is_object = root.is_object ∧
    (doc.assign_root e root).to_value.is_array = root.is_array ∧
    (doc.assign_root e root).to_value.is_string = false ∧
    (doc.assign_root e root).to_value.is_document = true ∧
    (doc.assign_root e root).to_value.payload =
      doc.values_data + root.payload * e.sizeof_value ∧
    (doc.assign_root e root).data &&& mask_type ≠ type_string_off := by
  have hd := assign_root_data e doc root h
  obtain ⟨h1, h2, h3⟩ := root_after_assign root _ hb
  rw [← hd] at h1 h2 h3
  have htag : root.data &&& mask_type = type_object ∨ root.data &&& mask_type = type_array := by
    simpa [value.is_object, value.is_array] using h
  refine ⟨?_, ?_, ?_, ?_, h2, ?_⟩
  · simp only [value.is_object, document.to_value, h1]
  · simp only [value.is_array, document.to_value, h1]
  · simp only [value.is_string, document.to_value, h1, decide_eq_false_iff_not]
    rcases htag with hc | hc <;> rw [hc] <;> decide
  · simp only [value.is_document, document.to_value, h3, decide_True]
  · rw [h1]
    rcases htag with hc | hc <;> rw [hc] <;> decide

end json5

namespace json5

theorem get?_of_length_eq {α β : Type} (l : List α) (m : List β) (h : l.length = m.length)
    (i : Nat) (x : α) (hx : l.get? i = some x) : ∃ y, m.get? i = some y := by
  have hi : i < l.length := by
    rcases Nat.lt_or_ge i l.length with h1 | h1
    · exact h1
    · rw [List.get?_eq_none.mpr h1] at hx; cases hx
  exact ⟨m.get ⟨i, h ▸ hi⟩, List.get?_eq_get (h ▸ hi)⟩

/-- C19: after the outermost `pop` the document is well formed. Let the builder have one
open frame, a container, with pending count `c`, and let the two buffers lie below 2^48.
Write `pre` for the cell buffer as `pop` fills it (the old cells, the count, the last `c`
scratch cells) and `F` for the document after `pop`. Then no cell of `F` carries the
pending-string tag; `F` has as many cells as `pre` and its buffers are where they were;
every cell of `pre` that is a pending string with an offset inside the string buffer is in
`F` a string whose payload is the address of the string buffer plus that offset, inside the
buffer; every cell of `pre` that is a container holding the index of a cell is in `F` the
same kind of container whose payload is the address of that cell; the root of `F` is the
frame's kind of container, carries the document flag, and its payload is the address of
the count cell. When every cell of `pre` is of one of these kinds or a scalar, `F` is well
formed. -/
theorem pop_finalizes (e : env) (b : builder) (fr : value) (c : Nat) (pre : List value)
    (F : document) (hstack : b.stack = [fr]) (hcounts : b.counts = [c])
    (hfr : fr.is_object = true ∨ fr.is_array = true)
    (hpre : pre = b.doc.values ++ value.of_double (double_of_size c) ::
      b.values.drop (b.values.length - c))
    (hF : F = (b.pop e).2.doc) (hs : 0 < e.sizeof_value)
    (hvd : b.doc.values_data + pre.length * e.sizeof_value ≤ 2 ^ 48)
    (hsd : b.doc.strings_data + b.doc.strings.length ≤ 2 ^ 48) :
    (∀ x ∈ F.values, x.data &&& mask_type ≠ type_string_off) ∧
    (F.values.length = pre.length ∧ F.strings_data = b.doc.strings_data ∧
      F.values_data = b.doc.values_data ∧ b.doc.strings.length ≤ F.strings.length) ∧
    (∀ i v, pre.get? i = some v → v.data &&& mask_type = type_string_off →
      v.payload < b.doc.strings.length →
      ∃ w, F.values.get? i = some w ∧ w.is_string = true ∧
        w.payload = F.strings_data + v.payload ∧ v.payload < F.strings.length) ∧
    (∀ i v, pre.get? i = some v → v.is_object = true ∨ v.is_array = true →
      v.payload < pre.length →
      ∃ w, F.values.get? i = some w ∧ w.is_object = v.is_object ∧ w.is_array = v.is_array ∧
        w.payload = F.values_data + v.payload * e.sizeof_value ∧
        F.cell_at e w.payload = F.values.get? v.payload) ∧
    (F.to_value.is_object = fr.is_object ∧ F.to_value.is_array = fr.is_array ∧
      F.to_value.is_document = true ∧
      F.to_value.payload = F.values_data + b.doc.values.length * e.sizeof_value ∧
      F.cell_at e F.to_value.payload = F.values.get? b.doc.values.length) ∧
    ((∀ v ∈ pre, v.data &&& mask_type ≠ type_string ∧
        (v.data &&& mask_type = type_string_off → v.payload < b.doc.strings.length) ∧
        (v.is_object = true ∨ v.is_array = true → v.payload < pre.length)) →
      F.well_formed e) := by
  have hpop := builder.pop_last e b fr c hstack hcounts
  rw [← hpre] at hpop
  rw [← hF] at hpop
  have hframe := assign_root_frame e { b.doc with values := pre }
    (fr.set_payload b.doc.values.length)
  rw [← hpop] at hframe
  have hFlen : F.values.length = pre.length := by
    rw [hpop]; exact assign_root_length e _ _
  have hFsd : F.strings_data = b.doc.strings_data := hframe.2.1
  have hFvd : F.values_data = b.doc.values_data := hframe.2.2
  have hFstr : b.doc.strings.length ≤ F.strings.length := by
    rw [hpop]; exact assign_root_strings_length e { b.doc with values := pre } _
  have hA : ∀ x ∈ F.values, x.data &&& mask_type ≠ type_string_off := by
    rw [hpop]; exact assign_root_not_pending e _ _
  have hlen0 : b.doc.values.length < pre.length := by
    rw [hpre]; simp only [List.length_append, List.length_cons]; omega
  have hidx : ∀ j, j < pre.length →
      b.doc.values_data + j * e.sizeof_value < 2 ^ 48 := by
    intro j hj
    have : (j + 1) * e.sizeof_value ≤ pre.length * e.sizeof_value :=
      Nat.mul_le_mul_right _ hj
    have h2 : j * e.sizeof_value < (j + 1) * e.sizeof_value := by
      rw [Nat.add_mul, Nat.one_mul]; omega
    omega
  have h48 : b.doc.values.length < 2 ^ 48 := by
    have := hidx _ hlen0
    have h2 : b.doc.values.length ≤ b.doc.values.length * e.sizeof_value :=
      Nat.le_mul_of_pos_right _ hs
    omega
  have hC : ∀ i v, pre.get? i = some v → v.data &&& mask_type = type_string_off →
      v.payload < b.doc.strings.length →
      ∃ w, F.values.get? i = some w ∧ w.is_string = true ∧
        w.payload = F.strings_data + v.payload ∧ v.payload < F.strings.length := by
    intro i v hi ht ho
    obtain ⟨w, h1, h2, h3, _⟩ := assign_root_pending e { b.doc with values := pre }
      (fr.set_payload b.doc.values.length) i v hi ht
      (by show b.doc.strings_data + v.payload < 2 ^ 48; omega)
    rw [← hpop] at h1
    exact ⟨w, h1, h2, by rw [h3, hFsd], lt_of_lt_of_le ho hFstr⟩
  have hD : ∀ i v, pre.get? i = some v → v.is_object = true ∨ v.is_array = true →
      v.payload < pre.length →
      ∃ w, F.values.get? i = some w ∧ w.is_object = v.is_object ∧ w.is_array = v.is_array ∧
        w.payload = F.values_data + v.payload * e.sizeof_value ∧
        F.cell_at e w.payload = F.values.get? v.payload ∧ w.is_string = false := by
    intro i v hi hc hj
    obtain ⟨w, h1, h2, h3, h4, h5, _⟩ := assign_root_container e { b.doc with values := pre }
      (fr.set_payload b.doc.values.length) i v hi hc (hidx _ hj)
    rw [← hpop] at h1
    have h5' : w.payload = F.values_data + v.payload * e.sizeof_value := by rw [h5, hFvd]
    exact ⟨w, h1, h2, h3, h5', by rw [h5', cell_at_index e F _ hs], h4⟩
  have hroot_c : (fr.set_payload b.doc.values.length).is_object = fr.is_object ∧
      (fr.set_payload b.doc.values.length).is_array = fr.is_array := by
    have := value.set_payload_mask_type fr _ h48
    exact ⟨by simp only [value.is_object, this], by simp only [value.is_array, this]⟩
  have hroot_p : (fr.set_payload b.doc.values.length).payload = b.doc.values.length :=
    value.set_payload_payload fr _ h48
  have hR := assign_root_root e { b.doc with values := pre }
    (fr.set_payload b.doc.values.length) (by rw [hroot_c.1, hroot_c.2]; exact hfr)
    (by rw [hroot_p]; exact hidx _ hlen0)
  rw [← hpop, hroot_c.1, hroot_c.2, hroot_p] at hR
  have hRp : F.to_value.payload = F.values_data + b.doc.values.length * e.sizeof_value := by
    rw [hR.2.2.2.2.1, hFvd]
  refine ⟨hA, ⟨hFlen, hFsd, hFvd, hFstr⟩, hC, ?_, ?_, ?_⟩
  · intro i v hi hc hj
    obtain ⟨w, h1, h2, h3, h4, h5, _⟩ := hD i v hi hc hj
    exact ⟨w, h1, h2, h3, h4, h5⟩
  · exact ⟨hR.1, hR.2.1, hR.2.2.2.1, hRp, by rw [hRp, cell_at_index e F _ hs]⟩
  · intro hall
    constructor
    · intro x hx
      obtain ⟨i, hi⟩ := List.get?_of_mem hx
      obtain ⟨v, hv⟩ := get?_of_length_eq F.values pre hFlen i x hi
      obtain ⟨hv1, hv2, hv3⟩ := hall v (List.get?_mem hv)
      refine ⟨hA x hx, ?_, ?_⟩
      · intro hxs
        by_cases ht : v.data &&& mask_type = type_string_off
        · obtain ⟨w, h1, _, h3, h4⟩ := hC i v hv ht (hv2 ht)
          rw [hi] at h1
          cases h1
          exact ⟨v.payload, h4, h3⟩
        · by_cases hc : v.is_object = true ∨ v.is_array = true
          · obtain ⟨w, h1, _, _, _, _, h6⟩ := hD i v hv hc (hv3 hc)
            rw [hi] at h1
            cases h1
            rw [h6] at hxs
            cases hxs
          · have hl : v.is_leaf := by
              simp only [value.is_object, value.is_array, decide_eq_true_eq, not_or] at hc
              exact ⟨hv1, hc.1, hc.2⟩
            have h1 := assign_root_scalar e { b.doc with values := pre }
              (fr.set_payload b.doc.values.length) i v hv hl ht
            rw [← hpop, hi] at h1
            cases h1
            simp only [value.is_string, decide_eq_true_eq] at hxs
            exact absurd hxs hv1
      · intro hxc
        by_cases ht : v.data &&& mask_type = type_string_off
        · obtain ⟨w, h1, h2, _, _⟩ := hC i v hv ht (hv2 ht)
          rw [hi] at h1
          cases h1
          simp only [value.is_string, value.is_object, value.is_array,
            decide_eq_true_eq] at h2 hxc
          rw [h2] at hxc
          rcases hxc with h | h <;> exact absurd h (by decide)
        · by_cases hc : v.is_object = true ∨ v.is_array = true
          · obtain ⟨w, h1, _, _, h4, _, _⟩ := hD i v hv hc (hv3 hc)
            rw [hi] at h1
            cases h1
            exact ⟨v.payload, by rw [hFlen]; exact hv3 hc, h4⟩
          · have hl : v.is_leaf := by
              simp only [value.is_object, value.is_array, decide_eq_true_eq, not_or] at hc
              exact ⟨hv1, hc.1, hc.2⟩
            have h1 := assign_root_scalar e { b.doc with values := pre }
              (fr.set_payload b.doc.values.length) i v hv hl ht
            rw [← hpop, hi] at h1
            cases h1
            exact absurd hxc hc
    · refine ⟨hR.2.2.2.2.2, ?_, ?_⟩
      · intro hxs
        rw [hR.2.2.1] at hxs
        cases hxs
      · intro _
        exact ⟨b.doc.values.length, by rw [hFlen]; exact hlen0, hRp⟩

theorem pop_finalizes_witness :
    ((one_key_builder.pop example_env).2.doc).well_formed example_env ∧
    (∃ w, (one_key_builder.pop example_env).2.doc.values.get? 1 = some w ∧
      w.is_string = true ∧
      w.payload = (one_key_builder.pop example_env).2.doc.strings_data +
        (builder.new_string 1).payload ∧
      (builder.new_string 1).payload <
        (one_key_builder.pop example_env).2.doc.strings.length) :=
  ⟨(pop_finalizes example_env one_key_builder (value.of_type value_type.object 0) 2
      [value.of_double (double_of_size 2), builder.new_string 1, value.of_bool true]
      (one_key_builder.pop example_env).2.doc rfl rfl (by decide) rfl rfl (by decide)
      (by decide) (by decide)).2.2.2.2.2 (by decide),
    (pop_finalizes example_env one_key_builder (value.of_type value_type.object 0) 2
      [value.of_double (double_of_size 2), builder.new_string 1, value.of_bool true]
      (one_key_builder.pop example_env).2.doc rfl rfl (by decide) rfl rfl (by decide)
      (by decide) (by decide)).2.2.1 1 (builder.new_string 1) rfl (by decide) (by decide)⟩

end json5

namespace json5

/-! ### Relinking against a previous document -/

theorem value.relink_some_doc (e : env) (prev doc : document) (v : value) :
    (v.relink e (some prev) doc).2 = doc := by
  unfold value.relink
  split
  · rfl
  · split <;> rfl

theorem relink_all_some (e : env) (prev : document) (vs : List value) (doc : document) :
    relink_all e (some prev) vs doc =
      (vs.map (fun v => (v.relink e (some prev) doc).1), doc) := by
  induction vs with
  | nil => rfl
  | cons v vs ih =>
    simp only [relink_all, List.map_cons]
    rw [value.relink_some_doc, ih]

/-- A string relinked against the document it pointed into: a pending string at the offset
it had there. -/
theorem value.relink_some_string (e : env) (prev doc : document) (v : value)
    (h : v.is_string = true) (o : Nat) (hp : v.payload = prev.strings_data + o)
    (ho : o < 2 ^ 48) :
    (v.relink e (some prev) doc).1.data &&& mask_type = type_string_off ∧
    (v.relink e (some prev) doc).1.payload = o ∧
    (v.relink e (some prev) doc).1.loc = v.loc := by
  have ht : v.data &&& mask_type = type_string := by
    simpa [value.is_string] using h
  unfold value.relink
  rw [if_pos ht]
  dsimp only
  have hsub : v.payload - prev.strings_data = o := by omega
  rw [hsub]
  refine ⟨?_, ?_, rfl⟩
  · show (((v.set_payload o).data &&& not_mask_type) ||| type_string_off) &&& mask_type = _
    rw [tag_or_and, Nat.and_assoc]
    have h1 : not_mask_type &&& mask_type = 0 := by decide
    have h2 : type_string_off &&& mask_type = type_string_off := by decide
    rw [h1, h2, Nat.and_zero, Nat.zero_or]
  · show (((v.set_payload o).data &&& not_mask_type) ||| type_string_off) &&& mask_payload = _
    rw [tag_or_and, Nat.and_assoc]
    have h1 : not_mask_type &&& mask_payload = mask_payload := by decide
    have h2 : type_string_off &&& mask_payload = 0 := by decide
    rw [h1, h2, Nat.or_zero]
    exact value.set_payload_payload v o ho

/-- A container relinked against the document it pointed into: the same kind of container
at the address of the cell with the same index. -/
theorem value.relink_some_container (e : env) (prev doc : document) (v : value)
    (h : v.is_object = true ∨ v.is_array = true) (j : Nat) (hs : 0 < e.sizeof_value)
    (hp : v.payload = prev.values_data + j * e.sizeof_value) (hj : j < 2 ^ 48)
    (hb : doc.values_data + j * e.sizeof_value < 2 ^ 48) :
    (v.relink e (some prev) doc).1.data &&& mask_type = v.data &&& mask_type ∧
    (v.relink e (some prev) doc).1.data &&& mask_is_document = v.data &&& mask_is_document ∧
    (v.relink e (some prev) doc).1.payload = doc.values_data + j * e.sizeof_value ∧
    (v.relink e (some prev) doc).1.loc = v.loc := by
  have hns : ¬ (v.data &&& mask_type = type_string) := by
    simp only [value.is_object, value.is_array, decide_eq_true_eq] at h
    rcases h with h | h <;> rw [h] <;> decide
  unfold value.relink
  rw [if_neg hns, if_pos h]
  dsimp only
  have hidx : (v.payload - prev.values_data) / e.sizeof_value = j := by
    rw [hp, Nat.add_sub_cancel_left, Nat.mul_div_cancel _ hs]
  rw [hidx, value.set_payload_payload v j hj]
  refine ⟨?_, ?_, value.set_payload_payload _ _ hb, rfl⟩
  · rw [value.set_payload_mask_type _ _ hb, value.set_payload_mask_type _ _ hj]
  · show (((v.set_payload j).data &&& not_mask_payload) |||
        (doc.values_data + j * e.sizeof_value)) &&& mask_is_document = _
    have hm : ∀ x, x < 2 ^ 48 → x &&& mask_is_document = 0 := fun x hx =>
      small_and_high _ x (by intro i hi; interval_cases i <;> decide) hx
    have h1 : not_mask_payload &&& mask_is_document = mask_is_document := by decide
    rw [tag_or_and, hm _ hb, Nat.or_zero, Nat.and_assoc, h1]
    show ((v.data &&& not_mask_payload) ||| j) &&& mask_is_document = _
    rw [tag_or_and, hm _ hj, Nat.or_zero, Nat.and_assoc, h1]

/-- A cell that is neither a string nor a container is left alone. -/
theorem value.relink_some_scalar (e : env) (prev doc : document) (v : value)
    (h1 : v.is_string = false) (h2 : v.is_object = false) (h3 : v.is_array = false) :
    (v.relink e (some prev) doc).1 = v := by
  unfold value.relink
  rw [if_neg (by simpa [value.is_string] using h1), if_neg (by simp [h2, h3])]

end json5

namespace json5

/-- The method `assign_copy` unfolded: the string buffer is that of the original, every cell
is relinked against the original and converted, and so is the root (without conversion). -/
theorem assign_copy_fields (e : env) (self D : document) :
    (self.assign_copy e D).strings = D.strings ∧
    (self.assign_copy e D).strings_data = self.strings_data ∧
    (self.assign_copy e D).values_data = self.values_data ∧
    (self.assign_copy e D).values =
      D.values.map (fun v => self.convert_string_offset
        (v.relink e (some D)
          { self with data := D.data, strings := D.strings, values := D.values }).1) ∧
    (self.assign_copy e D).to_value =
      ((⟨D.data, self.loc⟩ : value).relink e (some D)
        { self with
            data := D.data, strings := D.strings,
            values := D.values.map (fun v => (v.relink e (some D)
              { self with data := D.data, strings := D.strings, values := D.values }).1) }).1 := by
  unfold document.assign_copy
  dsimp only
  rw [relink_all_some]
  dsimp only
  simp only [document.convert_string_offsets]
  have hdoc := value.relink_some_doc e D
    { self with
        data := D.data, strings := D.strings,
        values := D.values.map (fun v => (v.relink e (some D)
          { self with data := D.data, strings := D.strings, values := D.values }).1) }
    (document.to_value { self with
        data := D.data, strings := D.strings,
        values := D.values.map (fun v => (v.relink e (some D)
          { self with data := D.data, strings := D.strings, values := D.values }).1) })
  refine ⟨?_, ?_, ?_, ?_, ?_⟩
  · rw [hdoc]
  · rw [hdoc]
  · rw [hdoc]
  · rw [hdoc]
    dsimp only
    rw [List.map_map]
    apply List.map_congr_left
    intro v _
    show document.convert_string_offset _ _ = self.convert_string_offset _
    exact congrFun (convert_string_offset_congr _ self rfl) _
  · rfl

end json5

namespace json5

theorem value.string_not_container (v : value) (h : v.is_string = true) :
    v.is_object = false ∧ v.is_array = false := by
  simp only [value.is_string, value.is_object, value.is_array, decide_eq_true_eq,
    decide_eq_false_iff_not] at h ⊢
  rw [h]
  exact ⟨by decide, by decide⟩

theorem value.container_not_string (v : value) (h : v.is_object = true ∨ v.is_array = true) :
    v.is_string = false := by
  cases hs : v.is_string with
  | false => rfl
  | true =>
    obtain ⟨h1, h2⟩ := value.string_not_container v hs
    rw [h1, h2] at h
    rcases h with h | h <;> cases h

theorem value.kinds_of_mask_type (v w : value) (h : w.data &&& mask_type = v.data &&& mask_type) :
    w.is_string = v.is_string ∧ w.is_object = v.is_object ∧ w.is_array = v.is_array := by
  simp only [value.is_string, value.is_object, value.is_array, h, and_self]

/-- One cell of a copy: what `relink` against the original and the conversion make of a cell
that is linked into the original. -/
theorem copy_cell (e : env) (self D doc1 : document) (v : value) (hs : 0 < e.sizeof_value)
    (hl : v.linked e D)
    (h1v : doc1.values_data = self.values_data)
    (hDs : D.strings.length ≤ 2 ^ 48)
    (hDv : D.values.length * e.sizeof_value ≤ 2 ^ 48)
    (hss : self.strings_data + D.strings.length ≤ 2 ^ 48)
    (hsv : self.values_data + D.values.length * e.sizeof_value ≤ 2 ^ 48)
    (w : value) (hw : w = self.convert_string_offset (v.relink e (some D) doc1).1) :
    w.loc = v.loc ∧ w.data &&& mask_type ≠ type_string_off ∧
    (w.is_string = v.is_string ∧ w.is_object = v.is_object ∧ w.is_array = v.is_array) ∧
    (v.is_string = false → v.is_object = false → v.is_array = false → w = v) ∧
    (v.is_string = true → ∃ o, o < D.strings.length ∧ v.payload = D.strings_data + o ∧
      w.payload = self.strings_data + o) ∧
    (v.is_object = true ∨ v.is_array = true → ∃ j, j < D.values.length ∧
      v.payload = D.values_data + j * e.sizeof_value ∧
      w.payload = self.values_data + j * e.sizeof_value) := by
  have hnp : w.data &&& mask_type ≠ type_string_off := by
    rw [hw]; exact convert_not_pending _ _
  by_cases hst : v.is_string = true
  · obtain ⟨o, ho, hp⟩ := hl.string hst
    obtain ⟨r1, r2, r3⟩ := value.relink_some_string e D doc1 v hst o hp (by omega)
    obtain ⟨c1, c2, c3⟩ := convert_pending_cell self _ r1 (by rw [r2]; omega)
    rw [← hw] at c1 c2 c3
    obtain ⟨n1, n2⟩ := value.string_not_container v hst
    have n1' : w.is_object = false ∧ w.is_array = false := value.string_not_container w c1
    refine ⟨by rw [c3, r3], hnp, ⟨by rw [c1, hst], by rw [n1'.1, n1], by rw [n1'.2, n2]⟩,
      ?_, ?_, ?_⟩
    · intro h; rw [hst] at h; cases h
    · intro _; exact ⟨o, ho, hp, by rw [c2, r2]⟩
    · intro h; rw [n1, n2] at h; rcases h with h | h <;> cases h
  · have hst' : v.is_string = false := by
      cases hx : v.is_string with
      | false => rfl
      | true => exact absurd hx hst
    by_cases hc : v.is_object = true ∨ v.is_array = true
    · obtain ⟨j, hj, hp⟩ := hl.container hc
      have hj48 : j < 2 ^ 48 := by
        have : j * 1 ≤ j * e.sizeof_value := Nat.mul_le_mul_left _ hs
        have h2 : (j + 1) * e.sizeof_value ≤ D.values.length * e.sizeof_value :=
          Nat.mul_le_mul_right _ hj
        rw [Nat.add_mul, Nat.one_mul] at h2
        omega
      have hb : doc1.values_data + j * e.sizeof_value < 2 ^ 48 := by
        have h2 : (j + 1) * e.sizeof_value ≤ D.values.length * e.sizeof_value :=
          Nat.mul_le_mul_right _ hj
        rw [Nat.add_mul, Nat.one_mul] at h2
        rw [h1v]
        omega
      obtain ⟨r1, _, r3, r4⟩ := value.relink_some_container e D doc1 v hc j hs hp hj48 hb
      have hnp2 : (v.relink e (some D) doc1).1.data &&& mask_type ≠ type_string_off := by
        rw [r1]
        exact hl.not_pending
      rw [convert_other _ _ hnp2] at hw
      rw [← hw] at r1 r3 r4
      refine ⟨r4, hnp, value.kinds_of_mask_type v w r1, ?_, ?_, ?_⟩
      · intro _ h2 h3; rw [h2, h3] at hc; rcases hc with h | h <;> cases h
      · intro h; rw [hst'] at h; cases h
      · intro _; exact ⟨j, hj, hp, by rw [r3, h1v]⟩
    · have h2 : v.is_object = false := by
        cases hx : v.is_object with
        | false => rfl
        | true => exact absurd (Or.inl hx) hc
      have h3 : v.is_array = false := by
        cases hx : v.is_array with
        | false => rfl
        | true => exact absurd (Or.inr hx) hc
      rw [value.relink_some_scalar e D doc1 v hst' h2 h3, convert_other _ _ hl.not_pending] at hw
      subst hw
      refine ⟨rfl, hnp, ⟨rfl, rfl, rfl⟩, fun _ _ _ => rfl, ?_, ?_⟩
      · intro h; rw [hst'] at h; cases h
      · intro h; exact absurd h hc

end json5

namespace json5

theorem two_key_doc_well_formed : two_key_doc.well_formed example_env := by
  constructor
  · intro c hc
    have hv : two_key_doc.values =
        [value.of_double (double_of_size 4), ⟨type_string ||| 4097, ⟨0, 0, 0⟩⟩,
          value.of_bool true, ⟨type_string ||| 4100, ⟨0, 0, 0⟩⟩, value.of_bool false] := by
      decide
    rw [hv] at hc
    simp only [List.mem_cons, List.mem_singleton, List.not_mem_nil, or_false] at hc
    rcases hc with rfl | rfl | rfl | rfl | rfl
    · exact ⟨by decide, fun h => absurd h (by decide), fun h => absurd h (by decide)⟩
    · exact ⟨by decide, fun _ => ⟨1, by decide, by decide⟩, fun h => absurd h (by decide)⟩
    · exact ⟨by decide, fun h => absurd h (by decide), fun h => absurd h (by decide)⟩
    · exact ⟨by decide, fun _ => ⟨4, by decide, by decide⟩, fun h => absurd h (by decide)⟩
    · exact ⟨by decide, fun h => absurd h (by decide), fun h => absurd h (by decide)⟩
  · exact ⟨by decide, fun h => absurd h (by decide), fun _ => ⟨0, by decide, by decide⟩⟩

/-- C20: copy relocation. Let `D` be a well-formed document whose root is not a string (a
finalized document has a container or the null value as its root), and let the buffers of
`D` and those of the copy lie below 2^48, wherever the copy's buffers are. Then the copy has
the same bytes in its string buffer and as many cells; every cell that is neither a string
nor a container is unchanged; every string cell is a string at the same offset of the
copy's string buffer, every container cell the same kind of container at the same index of
the copy's cell buffer, and so is the root, which keeps its document flag; and the copy is
well formed: all its addresses point into its own buffers. -/
theorem assign_copy_relocates (e : env) (self D : document) (hs : 0 < e.sizeof_value)
    (hwf : D.well_formed e) (hroot : D.to_value.is_string = false)
    (hDs : D.strings_data + D.strings.length ≤ 2 ^ 48)
    (hDv : D.values_data + D.values.length * e.sizeof_value ≤ 2 ^ 48)
    (hss : self.strings_data + D.strings.length ≤ 2 ^ 48)
    (hsv : self.values_data + D.values.length * e.sizeof_value ≤ 2 ^ 48) :
    (self.assign_copy e D).strings = D.strings ∧
    (self.assign_copy e D).values.length = D.values.length ∧
    (self.assign_copy e D).strings_data = self.strings_data ∧
    (self.assign_copy e D).values_data = self.values_data ∧
    (∀ i v, D.values.get? i = some v →
      ∃ w, (self.assign_copy e D).values.get? i = some w ∧ w.loc = v.loc ∧
        (v.is_string = false → v.is_object = false → v.is_array = false → w = v) ∧
        (v.is_string = true → w.is_string = true ∧
          ∃ o, o < D.strings.length ∧ v.payload = D.strings_data + o ∧
            w.payload = (self.assign_copy e D).strings_data + o) ∧
        (v.is_object = true ∨ v.is_array = true →
          w.is_object = v.is_object ∧ w.is_array = v.is_array ∧
          ∃ j, j < D.values.length ∧ v.payload = D.values_data + j * e.sizeof_value ∧
            w.payload = (self.assign_copy e D).values_data + j * e.sizeof_value)) ∧
    ((self.assign_copy e D).to_value.is_object = D.to_value.is_object ∧
      (self.assign_copy e D).to_value.is_array = D.to_value.is_array ∧
      (self.assign_copy e D).to_value.is_document = D.to_value.is_document ∧
      (D.to_value.is_object = false → D.to_value.is_array = false →
        (self.assign_copy e D).data = D.data) ∧
      (D.to_value.is_object = true ∨ D.to_value.is_array = true →
        ∃ j, j < D.values.length ∧ D.to_value.payload = D.values_data + j * e.sizeof_value ∧
          (self.assign_copy e D).to_value.payload =
            (self.assign_copy e D).values_data + j * e.sizeof_value)) ∧
    (self.assign_copy e D).well_formed e := by
  obtain ⟨f1, f2, f3, f4, f5⟩ := assign_copy_fields e self D
  have hlen : (self.assign_copy e D).values.length = D.values.length := by
    rw [f4, List.length_map]
  have hDs' : D.strings.length ≤ 2 ^ 48 := by omega
  have hDv' : D.values.length * e.sizeof_value ≤ 2 ^ 48 := by omega
  have hcell : ∀ v ∈ D.values, ∀ w,
      w = self.convert_string_offset (v.relink e (some D)
        { self with data := D.data, strings := D.strings, values := D.values }).1 → _ :=
    fun v hv w hw => copy_cell e self D
      { self with data := D.data, strings := D.strings, values := D.values } v hs
      (hwf.cells v hv) rfl hDs' hDv' hss hsv w hw
  -- the root
  have hR : (self.assign_copy e D).to_value.is_object = D.to_value.is_object ∧
      (self.assign_copy e D).to_value.is_array = D.to_value.is_array ∧
      (self.assign_copy e D).to_value.is_string = false ∧
      (self.assign_copy e D).to_value.data &&& mask_type ≠ type_string_off ∧
      (self.assign_copy e D).to_value.is_document = D.to_value.is_document ∧
      (D.to_value.is_object = false → D.to_value.is_array = false →
        (self.assign_copy e D).data = D.data) ∧
      (D.to_value.is_object = true ∨ D.to_value.is_array = true →
        ∃ j, j < D.values.length ∧ D.to_value.payload = D.values_data + j * e.sizeof_value ∧
          (self.assign_copy e D).to_value.payload =
            self.values_data + j * e.sizeof_value) := by
    have hdata := congrArg value.data f5
    rw [f5]
    by_cases hc : D.to_value.is_object = true ∨ D.to_value.is_array = true
    · obtain ⟨j, hj, hp⟩ := hwf.root.container hc
      have h2 : (j + 1) * e.sizeof_value ≤ D.values.length * e.sizeof_value :=
        Nat.mul_le_mul_right _ hj
      rw [Nat.add_mul, Nat.one_mul] at h2
      have hj48 : j < 2 ^ 48 := by
        have : j * 1 ≤ j * e.sizeof_value := Nat.mul_le_mul_left _ hs
        omega
      obtain ⟨r1, r2, r3, _⟩ := value.relink_some_container e D
        { self with
          data := D.data, strings := D.strings,
          values := D.values.map (fun v => (v.relink e (some D)
            { self with data := D.data, strings := D.strings, values := D.values }).1) }
        (⟨D.data, self.loc⟩ : value) hc j hs hp hj48
        (by show self.values_data + j * e.sizeof_value < 2 ^ 48; omega)
      obtain ⟨k1, k2, k3⟩ := value.kinds_of_mask_type (⟨D.data, self.loc⟩ : value) _ r1
      refine ⟨k2, k3, ?_, ?_, ?_, ?_, ?_⟩
      · rw [k1]; exact hroot
      · rw [r1]; exact hwf.root.not_pending
      · simp only [value.is_document, r2]
        rfl
      · intro h2 h3
        have : D.to_value.is_object = true ∨ D.to_value.is_array = true := hc
        rw [h2, h3] at this
        rcases this with h | h <;> cases h
      · intro _
        exact ⟨j, hj, hp, r3⟩
    · have h2 : D.to_value.is_object = false := by
        cases hx : D.to_value.is_object with
        | false => rfl
        | true => exact absurd (Or.inl hx) hc
      have h3 : D.to_value.is_array = false := by
        cases hx : D.to_value.is_array with
        | false => rfl
        | true => exact absurd (Or.inr hx) hc
      rw [value.relink_some_scalar e D _ (⟨D.data, self.loc⟩ : value) hroot h2 h3] at hdata ⊢
      refine ⟨rfl, rfl, hroot, hwf.root.not_pending, rfl, fun _ _ => hdata, ?_⟩
      intro h
      exact absurd h hc
  refine ⟨f1, hlen, f2, f3, ?_, ⟨hR.1, hR.2.1, hR.2.2.2.2.1, hR.2.2.2.2.2.1, ?_⟩, ?_⟩
  · intro i v hi
    have hv : v ∈ D.values := List.get?_mem hi
    obtain ⟨c1, _, c3, c4, c5, c6⟩ := hcell v hv _ rfl
    refine ⟨_, ?_, c1, c4, ?_, ?_⟩
    · rw [f4, List.get?_eq_getElem?, List.getElem?_map, ← List.get?_eq_getElem?, hi]
      rfl
    · intro h
      obtain ⟨o, ho, hp, hq⟩ := c5 h
      exact ⟨by rw [c3.1, h], o, ho, hp, by rw [hq, f2]⟩
    · intro h
      obtain ⟨j, hj, hp, hq⟩ := c6 h
      exact ⟨c3.2.1, c3.2.2, j, hj, hp, by rw [hq, f3]⟩
  · intro h
    obtain ⟨j, hj, hp, hq⟩ := hR.2.2.2.2.2.2 h
    exact ⟨j, hj, hp, by rw [hq, f3]⟩
  · constructor
    · intro x hx
      rw [f4] at hx
      obtain ⟨v, hv, rfl⟩ := List.mem_map.mp hx
      obtain ⟨_, c2, c3, _, c5, c6⟩ := hcell v hv _ rfl
      refine ⟨c2, ?_, ?_⟩
      · intro h
        rw [c3.1] at h
        obtain ⟨o, ho, _, hq⟩ := c5 h
        exact ⟨o, by rw [f1]; exact ho, by rw [hq, f2]⟩
      · intro h
        rw [c3.2.1, c3.2.2] at h
        obtain ⟨j, hj, _, hq⟩ := c6 h
        exact ⟨j, by rw [hlen]; exact hj, by rw [hq, f3]⟩
    · refine ⟨hR.2.2.2.1, ?_, ?_⟩
      · intro h
        rw [hR.2.2.1] at h
        cases h
      · intro h
        rw [hR.1, hR.2.1] at h
        obtain ⟨j, hj, _, hq⟩ := hR.2.2.2.2.2.2 h
        exact ⟨j, by rw [hlen]; exact hj, by rw [hq, f3]⟩

theorem assign_copy_relocates_witness :
    (copy_target.assign_copy example_env two_key_doc).strings = two_key_doc.strings ∧
    (copy_target.assign_copy example_env two_key_doc).values.length =
      two_key_doc.values.length ∧
    (copy_target.assign_copy example_env two_key_doc).well_formed example_env :=
  ⟨(assign_copy_relocates example_env copy_target two_key_doc (by decide)
      two_key_doc_well_formed (by decide) (by decide) (by decide) (by decide) (by decide)).1,
    (assign_copy_relocates example_env copy_target two_key_doc (by decide)
      two_key_doc_well_formed (by decide) (by decide) (by decide) (by decide)
      (by decide)).2.1,
    (assign_copy_relocates example_env copy_target two_key_doc (by decide)
      two_key_doc_well_formed (by decide) (by decide) (by decide) (by decide)
      (by decide)).2.2.2.2.2.2⟩

end json5

namespace json5

namespace parser

/-! ### A successful call reads past the token it starts with -/

theorem ok_of_not_failed (r : error) (h : r.failed = false) : ¬ (r.failed = true) := by
  rw [h]; exact Bool.noConfusion

theorem make_error_failed (p : parser) (k : error_kind) (h : k ≠ error_kind.none) :
    (p.make_error k).failed = true := by
  simp [make_error, error.failed, h]

theorem token_state_nonempty (p : parser) (result : token_type)
    (h : (p.peek_next_token result).1.failed = false)
    (hn : (p.peek_next_token result).2.1 ≠ token_type.number) :
    (p.peek_next_token result).2.2.input ≠ [] := by
  obtain ⟨_, h2⟩ := peek_next_token_token p result h
  rcases h2 with ⟨h3, _⟩ | ⟨c, rest, h3, _⟩
  · exact absurd h3 hn
  · rw [h3]; exact List.cons_ne_nil _ _

/-- The loop of `parse_array`, when it succeeds, ends after the state at which its first
token stands. -/
theorem array_loop_reads (e : env) (k : Nat) (c : Bool) (p : parser) (r : error × parser)
    (h : parse_array_loop e k c p = some r) (hok : r.1.failed = false) (hst : p.stack ≠ []) :
    r.2.input.length < (p.peek_next_token token_type.unknown).2.2.input.length := by
  cases k with
  | zero => simp [parse_array_loop] at h
  | succ k =>
    rw [parse_array_loop] at h
    have hb := peek_next_token_tobuilder p token_type.unknown
    have hne := token_state_nonempty p token_type.unknown
    generalize p.peek_next_token token_type.unknown = t at h hb hne ⊢
    obtain ⟨terr, tt, p1⟩ := t
    dsimp only at h hb hne ⊢
    have hst1 : p1.stack ≠ [] := by
      have : p1.stack = p.stack := congrArg builder.stack hb
      rw [this]; exact hst
    by_cases he : p.eof = true
    · rw [if_pos he] at h
      cases h
      exact absurd (make_error_failed p _ (by decide)) (ok_of_not_failed _ hok)
    rw [if_neg he] at h
    by_cases hf : terr.failed = true
    · rw [if_pos hf] at h
      cases h
      exact absurd hf (ok_of_not_failed _ hok)
    rw [if_neg hf] at h
    have hf' : terr.failed = false := by
      cases hx : terr.failed with
      | false => rfl
      | true => exact absurd hx hf
    by_cases hend : tt = token_type.array_end
    · rw [if_pos hend] at h
      cases h
      exact next_shorter p1 (hne hf' (by rw [hend]; decide))
    rw [if_neg hend] at h
    by_cases hc : c = true
    · rw [if_pos hc] at h
      by_cases hcm : tt ≠ token_type.comma
      · rw [if_pos hcm] at h
        cases h
        exact absurd (make_error_failed p1 _ (by decide)) (ok_of_not_failed _ hok)
      · rw [if_neg hcm] at h
        have hcm' : tt = token_type.comma := not_not.mp hcm
        have hn := (nests_all e k).2.2.2.2 _ _ _ h
          (by rw [show p1.next.2.stack = p1.stack from
                congrArg builder.stack (next_tobuilder p1)]; exact hst1)
        have h1 := reads_length hn.reads
        have h2 := next_shorter p1 (hne hf' (by rw [hcm']; decide))
        omega
    · rw [if_neg hc] at h
      cases hv : parse_value e k value.null p1 with
      | none => rw [hv] at h; cases h
      | some rv =>
        rw [hv] at h
        dsimp only at h
        by_cases hf2 : rv.1.failed = true
        · rw [if_pos hf2] at h
          cases h
          exact absurd hf2 (ok_of_not_failed _ hok)
        rw [if_neg hf2] at h
        have hvn := parse_value_nests e k _ _ _ hv
        have hok2 : (!rv.1.failed) = true := by simpa using hf2
        have hst2 : rv.2.2.stack ≠ [] := by
          rw [(hvn.frames hok2).1]; exact hst1
        have hn := (nests_all e k).2.2.2.2 _ _ _ h hst2
        have h1 := hn.shorter (by simp [hok])
        have h2 := reads_length hvn.reads
        have h3 : ({ rv.2.2 with tobuilder := rv.2.2.tobuilder.add_item rv.2.1 } : parser).input
            = rv.2.2.input := rfl
        rw [h3] at h1
        omega

end parser

end json5

namespace json5

namespace parser

theorem stack_of_tobuilder {p q : parser} (h : q.tobuilder = p.tobuilder) : q.stack = p.stack :=
  congrArg builder.stack h

theorem parse_identifier_stack (p : parser) : p.parse_identifier.2.2.stack = p.stack :=
  (parse_identifier_scans p).2.stack

/-- The loop of `parse_object`, when it succeeds, ends after the state at which its first
token stands. -/
theorem object_loop_reads (e : env) (k : Nat) (c : Bool) (p : parser) (r : error × parser)
    (h : parse_object_loop e k c p = some r) (hok : r.1.failed = false) (hst : p.stack ≠ []) :
    r.2.input.length < (p.peek_next_token token_type.unknown).2.2.input.length := by
  cases k with
  | zero => simp [parse_object_loop] at h
  | succ k =>
    rw [parse_object_loop] at h
    have hb := peek_next_token_tobuilder p token_type.unknown
    have hne := token_state_nonempty p token_type.unknown
    generalize p.peek_next_token token_type.unknown = t at h hb hne ⊢
    obtain ⟨terr, tt, p1⟩ := t
    dsimp only at h hb hne ⊢
    have hst1 : p1.stack ≠ [] := by
      rw [stack_of_tobuilder hb]; exact hst
    by_cases he : p.eof = true
    · rw [if_pos he] at h
      cases h
      exact absurd (make_error_failed p _ (by decide)) (ok_of_not_failed _ hok)
    rw [if_neg he] at h
    by_cases hf : terr.failed = true
    · rw [if_pos hf] at h
      cases h
      exact absurd hf (ok_of_not_failed _ hok)
    rw [if_neg hf] at h
    have hf' : terr.failed = false := by
      cases hx : terr.failed with
      | false => rfl
      | true => exact absurd hx hf
    by_cases hkey : tt = token_type.identifier ∨ tt = token_type.string
    · rw [if_pos hkey] at h
      by_cases hc : c = true
      · rw [if_pos hc] at h
        cases h
        exact absurd (make_error_failed p1 _ (by decide)) (ok_of_not_failed _ hok)
      rw [if_neg hc] at h
      by_cases hk : p1.parse_identifier.1.failed = true
      · rw [if_pos hk] at h
        cases h
        exact absurd hk (ok_of_not_failed _ hok)
      rw [if_neg hk] at h
      by_cases ht2 : (p1.parse_identifier.2.2.peek_next_token tt).1.failed = true
      · rw [if_pos ht2] at h
        cases h
        exact absurd ht2 (ok_of_not_failed _ hok)
      rw [if_neg ht2] at h
      by_cases hcol : (p1.parse_identifier.2.2.peek_next_token tt).2.1 ≠ token_type.colon
      · rw [if_pos hcol] at h
        cases h
        exact absurd (make_error_failed _ _ (by decide)) (ok_of_not_failed _ hok)
      rw [if_neg hcol] at h
      have hcol' : (p1.parse_identifier.2.2.peek_next_token tt).2.1 = token_type.colon :=
        not_not.mp hcol
      have ht2' : (p1.parse_identifier.2.2.peek_next_token tt).1.failed = false := by
        cases hx : (p1.parse_identifier.2.2.peek_next_token tt).1.failed with
        | false => rfl
        | true => exact absurd hx ht2
      have hne2 := token_state_nonempty p1.parse_identifier.2.2 tt ht2'
        (by rw [hcol']; decide)
      have hr1 := reads_length (parse_identifier_scans p1).1
      have hr2 := reads_length (peek_next_token_scans p1.parse_identifier.2.2 tt).1
      have hr3 := next_shorter _ hne2
      have hst3 : (p1.parse_identifier.2.2.peek_next_token tt).2.2.next.2.stack ≠ [] := by
        rw [stack_of_tobuilder (next_tobuilder _),
          stack_of_tobuilder (peek_next_token_tobuilder _ _), parse_identifier_stack]
        exact hst1
      cases hv : parse_value e k value.null
          (p1.parse_identifier.2.2.peek_next_token tt).2.2.next.2 with
      | none => rw [hv] at h; cases h
      | some rv =>
        rw [hv] at h
        dsimp only at h
        by_cases hf2 : rv.1.failed = true
        · rw [if_pos hf2] at h
          cases h
          exact absurd hf2 (ok_of_not_failed _ hok)
        rw [if_neg hf2] at h
        have hvn := parse_value_nests e k _ _ _ hv
        have hok2 : (!rv.1.failed) = true := by simpa using hf2
        have hst2 : rv.2.2.stack ≠ [] := by
          rw [(hvn.frames hok2).1]; exact hst3
        have hn := (nests_all e k).2.2.1 _ _ _ h hst2
        have h1 : r.2.input.length ≤ rv.2.2.input.length := reads_length hn.reads
        have h2 := reads_length hvn.reads
        omega
    rw [if_neg hkey] at h
    by_cases hend : tt = token_type.object_end
    · rw [if_pos hend] at h
      cases h
      exact next_shorter p1 (hne hf' (by rw [hend]; decide))
    rw [if_neg hend] at h
    by_cases hcm : tt = token_type.comma
    · rw [if_pos hcm] at h
      by_cases hc : (!c) = true
      · rw [if_pos hc] at h
        cases h
        exact absurd (make_error_failed p1 _ (by decide)) (ok_of_not_failed _ hok)
      · rw [if_neg hc] at h
        have hn := (nests_all e k).2.2.1 _ _ _ h
          (by rw [stack_of_tobuilder (next_tobuilder p1)]; exact hst1)
        have h1 := reads_length hn.reads
        have h2 := next_shorter p1 (hne hf' (by rw [hcm]; decide))
        omega
    · rw [if_neg hcm] at h
      cases h
      have : (if c = true then p1.make_error error_kind.comma_expected
          else p1.make_error error_kind.syntax_error).failed = true := by
        split <;> exact make_error_failed p1 _ (by decide)
      exact absurd this (ok_of_not_failed _ hok)

end parser

end json5

namespace json5

namespace parser

/-- A successful `parse_value` ends at or after the state at which its token stands, and
after it when there is input left at that state. -/
theorem value_reads (e : env) (k : Nat) (result : value) (p : parser)
    (r : error × value × parser) (h : parse_value e k result p = some r)
    (hok : r.1.failed = false) :
    r.2.2.input.length ≤ (p.peek_next_token token_type.unknown).2.2.input.length ∧
    ((p.peek_next_token token_type.unknown).2.2.input ≠ [] →
      r.2.2.input.length < (p.peek_next_token token_type.unknown).2.2.input.length) := by
  cases k with
  | zero => simp [parse_value] at h
  | succ k =>
    rw [parse_value] at h
    generalize p.peek_next_token token_type.unknown = t at h ⊢
    obtain ⟨terr, tt, p1⟩ := t
    dsimp only at h ⊢
    by_cases hf : terr.failed = true
    · rw [if_pos hf] at h
      cases h
      exact absurd hf (ok_of_not_failed _ hok)
    rw [if_neg hf] at h
    cases tt with
    | number =>
      dsimp only at h
      by_cases hf2 : (p1.parse_number e 0).1.failed = true
      · rw [if_pos hf2] at h; cases h; exact absurd hf2 (ok_of_not_failed _ hok)
      · rw [if_neg hf2] at h
        cases h
        exact ⟨reads_length (parse_number_scans e p1 0).1, parse_number_shorter e p1 0⟩
    | string =>
      dsimp only at h
      by_cases hf2 : p1.parse_string.1.failed = true
      · rw [if_pos hf2] at h; cases h; exact absurd hf2 (ok_of_not_failed _ hok)
      · rw [if_neg hf2] at h
        cases h
        exact ⟨reads_length (parse_string_scans p1).1, parse_string_shorter p1⟩
    | identifier =>
      dsimp only at h
      by_cases hf2 : (p1.parse_literal token_type.unknown).1.failed = true
      · rw [if_pos hf2] at h; cases h; exact absurd hf2 (ok_of_not_failed _ hok)
      · rw [if_neg hf2] at h
        have hf2' : (p1.parse_literal token_type.unknown).1.failed = false := by
          cases hx : (p1.parse_literal token_type.unknown).1.failed with
          | false => rfl
          | true => exact absurd hx hf2
        have hs := parse_literal_shorter p1 token_type.unknown hf2'
        have key : r.2.2 = (p1.parse_literal token_type.unknown).2.2 := by
          revert h
          repeat (first
            | (refine ite_ind (fun x : Option (error × value × parser) =>
                x = some r → r.2.2 = (p1.parse_literal token_type.unknown).2.2)
                _ _ _ (fun _ => ?_) (fun _ => ?_))
            | exact fun h => (Option.some.inj h) ▸ rfl)
        rw [key]
        exact ⟨le_of_lt hs, fun _ => hs⟩
    | object_begin =>
      dsimp only at h
      cases hc : parse_object e k { p1 with tobuilder := p1.tobuilder.push_object } with
      | none => rw [hc] at h; cases h
      | some r0 =>
        rw [hc] at h
        dsimp only at h
        by_cases hf2 : r0.1.failed = true
        · rw [if_pos hf2] at h; cases h; exact absurd hf2 (ok_of_not_failed _ hok)
        · rw [if_neg hf2] at h
          cases h
          have hn := (nests_all e k).2.1 _ _ hc (by simp [builder.push_object])
          have := hn.shorter (by simpa using hf2)
          exact ⟨le_of_lt this, fun _ => this⟩
    | array_begin =>
      dsimp only at h
      cases hc : parse_array e k { p1 with tobuilder := p1.tobuilder.push_array } with
      | none => rw [hc] at h; cases h
      | some r0 =>
        rw [hc] at h
        dsimp only at h
        by_cases hf2 : r0.1.failed = true
        · rw [if_pos hf2] at h; cases h; exact absurd hf2 (ok_of_not_failed _ hok)
        · rw [if_neg hf2] at h
          cases h
          have hn := (nests_all e k).2.2.2.1 _ _ hc (by simp [builder.push_array])
          have := hn.shorter (by simpa using hf2)
          exact ⟨le_of_lt this, fun _ => this⟩
    | _ =>
      dsimp only at h
      cases h
      exact absurd (make_error_failed p1 _ (by decide)) (ok_of_not_failed _ hok)

end parser

end json5

namespace json5

namespace parser

theorem stops_number_ne (s : List Nat) (h : stops_number s) : s ≠ [] := by
  obtain ⟨c, t, hs, _⟩ := h
  rw [hs]
  exact List.cons_ne_nil _ _

theorem failed_false_of_not {err : error} (h : ¬ (err.failed = true)) : err.failed = false := by
  cases hx : err.failed with
  | false => rfl
  | true => exact absurd hx h

/-- The method `parse_value`, when it succeeds, does not look past where it ends, given that
`parse_object` and `parse_array` do not at the depth below. -/
theorem value_local_succ (e : env) (n : Nat) (s : List Nat) (k : Nat)
    (hO : ∀ P r0, parse_object e k P = some r0 → r0.1.failed = false →
      n ≤ r0.2.input.length → P.stack ≠ [] → n < P.input.length →
      parse_object e k (P.resuffix n s) = some (r0.1, r0.2.resuffix n s))
    (hA : ∀ P r0, parse_array e k P = some r0 → r0.1.failed = false →
      n ≤ r0.2.input.length → P.stack ≠ [] → n < P.input.length →
      parse_array e k (P.resuffix n s) = some (r0.1, r0.2.resuffix n s)) :
    ∀ result p r, parse_value e (k + 1) result p = some r → r.1.failed = false →
      n ≤ r.2.2.input.length →
      n < (p.peek_next_token token_type.unknown).2.2.input.length →
      (n < r.2.2.input.length ∨ stops_number s ∨
        (p.peek_next_token token_type.unknown).2.1 = token_type.object_begin ∨
        (p.peek_next_token token_type.unknown).2.1 = token_type.array_begin) →
      parse_value e (k + 1) result (p.resuffix n s) = some (r.1, r.2.1, r.2.2.resuffix n s) := by
  intro result p r h hok hle hp1 SC
  rw [parse_value] at h ⊢
  rw [peek_next_token_resuffix n s p _ hp1]
  generalize p.peek_next_token token_type.unknown = t at h hp1 SC ⊢
  obtain ⟨terr, tt, p1⟩ := t
  dsimp only at h hp1 SC ⊢
  by_cases hf : terr.failed = true
  · rw [if_pos hf] at h
    cases h
    exact absurd hf (ok_of_not_failed _ hok)
  rw [if_neg hf] at h ⊢
  cases tt with
  | number =>
    dsimp only at h ⊢
    by_cases hf2 : (p1.parse_number e 0).1.failed = true
    · rw [if_pos hf2] at h; cases h; exact absurd hf2 (ok_of_not_failed _ hok)
    · rw [if_neg hf2] at h
      cases h
      have SC' : n < (p1.parse_number e 0).2.2.input.length ∨ stops_number s := by
        rcases SC with h1 | h2 | h3 | h4
        · exact Or.inl h1
        · exact Or.inr h2
        · cases h3
        · cases h4
      rw [parse_number_resuffix e n s p1 0 hp1 hle SC']
      dsimp only
      rw [if_neg hf2]
      rfl
  | string =>
    dsimp only at h ⊢
    by_cases hf2 : p1.parse_string.1.failed = true
    · rw [if_pos hf2] at h; cases h; exact absurd hf2 (ok_of_not_failed _ hok)
    · rw [if_neg hf2] at h
      cases h
      have SC' : n < p1.parse_string.2.2.input.length ∨ s ≠ [] := by
        rcases SC with h1 | h2 | h3 | h4
        · exact Or.inl h1
        · exact Or.inr (stops_number_ne s h2)
        · cases h3
        · cases h4
      rw [parse_string_resuffix n s p1 hp1 (failed_false_of_not hf2) hle SC']
      dsimp only
      rw [if_neg hf2]
      rfl
  | identifier =>
    dsimp only at h ⊢
    by_cases hf2 : (p1.parse_literal token_type.unknown).1.failed = true
    · rw [if_pos hf2] at h; cases h; exact absurd hf2 (ok_of_not_failed _ hok)
    · rw [if_neg hf2] at h
      have key : r.2.2 = (p1.parse_literal token_type.unknown).2.2 := by
        revert h
        repeat (first
          | (refine ite_ind (fun x : Option (error × value × parser) =>
              x = some r → r.2.2 = (p1.parse_literal token_type.unknown).2.2)
              _ _ _ (fun _ => ?_) (fun _ => ?_))
          | exact fun h => (Option.some.inj h) ▸ rfl)
      rw [key] at hle
      rw [parse_literal_resuffix n s p1 _ hp1 ⟨failed_false_of_not hf2, hle⟩]
      dsimp only
      rw [if_neg hf2]
      by_cases h1 : (p1.parse_literal token_type.unknown).2.1 = token_type.literal_true
      · rw [if_pos h1] at h ⊢; cases h; rfl
      rw [if_neg h1] at h ⊢
      by_cases h2 : (p1.parse_literal token_type.unknown).2.1 = token_type.literal_false
      · rw [if_pos h2] at h ⊢; cases h; rfl
      rw [if_neg h2] at h ⊢
      by_cases h3 : (p1.parse_literal token_type.unknown).2.1 = token_type.literal_null
      · rw [if_pos h3] at h ⊢; cases h; rfl
      rw [if_neg h3] at h ⊢
      by_cases h4 : (p1.parse_literal token_type.unknown).2.1 = token_type.literal_NaN
      · rw [if_pos h4] at h ⊢; cases h; rfl
      rw [if_neg h4] at h
      cases h
      exact absurd (make_error_failed _ _ (by decide)) (ok_of_not_failed _ hok)
  | object_begin =>
    dsimp only at h ⊢
    cases hc : parse_object e k { p1 with tobuilder := p1.tobuilder.push_object } with
    | none => rw [hc] at h; cases h
    | some r0 =>
      rw [hc] at h
      dsimp only at h
      by_cases hf2 : r0.1.failed = true
      · rw [if_pos hf2] at h; cases h; exact absurd hf2 (ok_of_not_failed _ hok)
      · rw [if_neg hf2] at h
        cases h
        have := hO _ r0 hc (failed_false_of_not hf2) hle (by simp [builder.push_object]) hp1
        have e1 : ({ p1.resuffix n s with
            tobuilder := (p1.resuffix n s).tobuilder.push_object } : parser) =
            ({ p1 with tobuilder := p1.tobuilder.push_object } : parser).resuffix n s := rfl
        rw [e1, this]
        dsimp only
        rw [if_neg hf2]
        rfl
  | array_begin =>
    dsimp only at h ⊢
    cases hc : parse_array e k { p1 with tobuilder := p1.tobuilder.push_array } with
    | none => rw [hc] at h; cases h
    | some r0 =>
      rw [hc] at h
      dsimp only at h
      by_cases hf2 : r0.1.failed = true
      · rw [if_pos hf2] at h; cases h; exact absurd hf2 (ok_of_not_failed _ hok)
      · rw [if_neg hf2] at h
        cases h
        have := hA _ r0 hc (failed_false_of_not hf2) hle (by simp [builder.push_array]) hp1
        have e1 : ({ p1.resuffix n s with
            tobuilder := (p1.resuffix n s).tobuilder.push_array } : parser) =
            ({ p1 with tobuilder := p1.tobuilder.push_array } : parser).resuffix n s := rfl
        rw [e1, this]
        dsimp only
        rw [if_neg hf2]
        rfl
  | _ =>
    dsimp only at h
    cases h
    exact absurd (make_error_failed p1 _ (by decide)) (ok_of_not_failed _ hok)

end parser

end json5

namespace json5

namespace parser

/-- The loop of `parse_array`, when it succeeds, does not look past where it ends, given that
`parse_value` and the loop do not at the depth below. -/
theorem array_loop_local_succ (e : env) (n : Nat) (s : List Nat) (k : Nat)
    (hV : ∀ result p r, parse_value e k result p = some r → r.1.failed = false →
      n ≤ r.2.2.input.length →
      n < (p.peek_next_token token_type.unknown).2.2.input.length →
      (n < r.2.2.input.length ∨ stops_number s ∨
        (p.peek_next_token token_type.unknown).2.1 = token_type.object_begin ∨
        (p.peek_next_token token_type.unknown).2.1 = token_type.array_begin) →
      parse_value e k result (p.resuffix n s) = some (r.1, r.2.1, r.2.2.resuffix n s))
    (hL : ∀ c p r, parse_array_loop e k c p = some r → r.1.failed = false →
      n ≤ r.2.input.length → p.stack ≠ [] →
      parse_array_loop e k c (p.resuffix n s) = some (r.1, r.2.resuffix n s)) :
    ∀ c p r, parse_array_loop e (k + 1) c p = some r → r.1.failed = false →
      n ≤ r.2.input.length → p.stack ≠ [] →
      parse_array_loop e (k + 1) c (p.resuffix n s) = some (r.1, r.2.resuffix n s) := by
  intro c p r h hok hle hst
  have hstrict := array_loop_reads e (k + 1) c p r h hok hst
  have hp1 : n < (p.peek_next_token token_type.unknown).2.2.input.length := by omega
  have hp : n < p.input.length :=
    lt_of_lt_of_le hp1 (reads_length (peek_next_token_scans p _).1)
  rw [parse_array_loop] at h ⊢
  rw [resuffix_eof p n s hp, peek_next_token_resuffix n s p _ hp1]
  have hb := peek_next_token_tobuilder p token_type.unknown
  generalize p.peek_next_token token_type.unknown = t at h hb hp1 ⊢
  obtain ⟨terr, tt, p1⟩ := t
  dsimp only at h hb hp1 ⊢
  have hst1 : p1.stack ≠ [] := by
    rw [stack_of_tobuilder hb]; exact hst
  by_cases he : p.eof = true
  · rw [if_pos he] at h
    cases h
    exact absurd (make_error_failed p _ (by decide)) (ok_of_not_failed _ hok)
  rw [if_neg he] at h ⊢
  by_cases hf : terr.failed = true
  · rw [if_pos hf] at h
    cases h
    exact absurd hf (ok_of_not_failed _ hok)
  rw [if_neg hf] at h ⊢
  by_cases hend : tt = token_type.array_end
  · rw [if_pos hend] at h ⊢
    cases h
    rw [resuffix_next p1 n s hp1]
  rw [if_neg hend] at h ⊢
  by_cases hc : c = true
  · rw [if_pos hc] at h ⊢
    by_cases hcm : tt ≠ token_type.comma
    · rw [if_pos hcm] at h
      cases h
      exact absurd (make_error_failed p1 _ (by decide)) (ok_of_not_failed _ hok)
    · rw [if_neg hcm] at h ⊢
      rw [resuffix_next p1 n s hp1]
      exact hL _ _ _ h hok hle
        (by rw [stack_of_tobuilder (next_tobuilder p1)]; exact hst1)
  · rw [if_neg hc] at h ⊢
    cases hv : parse_value e k value.null p1 with
    | none => rw [hv] at h; cases h
    | some rv =>
      rw [hv] at h
      dsimp only at h
      by_cases hf2 : rv.1.failed = true
      · rw [if_pos hf2] at h
        cases h
        exact absurd hf2 (ok_of_not_failed _ hok)
      rw [if_neg hf2] at h
      have hvn := parse_value_nests e k _ _ _ hv
      have hok2 : (!rv.1.failed) = true := by simpa using hf2
      have hst2 : rv.2.2.stack ≠ [] := by
        rw [(hvn.frames hok2).1]; exact hst1
      have hn := (nests_all e k).2.2.2.2 _ _ _ h hst2
      have h1 : r.2.input.length < rv.2.2.input.length := hn.shorter (by simp [hok])
      have hvr := value_reads e k _ _ _ hv (failed_false_of_not hf2)
      rw [hV _ _ _ hv (failed_false_of_not hf2) (by omega) (by omega) (Or.inl (by omega))]
      dsimp only
      rw [if_neg hf2]
      exact hL _ _ _ h hok hle hst2

end parser

end json5

namespace json5

namespace parser

/-- The loop of `parse_object`, when it succeeds, does not look past where it ends, given
that `parse_value` and the loop do not at the depth below. -/
theorem object_loop_local_succ (e : env) (n : Nat) (s : List Nat) (k : Nat)
    (hV : ∀ result p r, parse_value e k result p = some r → r.1.failed = false →
      n ≤ r.2.2.input.length →
      n < (p.peek_next_token token_type.unknown).2.2.input.length →
      (n < r.2.2.input.length ∨ stops_number s ∨
        (p.peek_next_token token_type.unknown).2.1 = token_type.object_begin ∨
        (p.peek_next_token token_type.unknown).2.1 = token_type.array_begin) →
      parse_value e k result (p.resuffix n s) = some (r.1, r.2.1, r.2.2.resuffix n s))
    (hL : ∀ c p r, parse_object_loop e k c p = some r → r.1.failed = false →
      n ≤ r.2.input.length → p.stack ≠ [] →
      parse_object_loop e k c (p.resuffix n s) = some (r.1, r.2.resuffix n s)) :
    ∀ c p r, parse_object_loop e (k + 1) c p = some r → r.1.failed = false →
      n ≤ r.2.input.length → p.stack ≠ [] →
      parse_object_loop e (k + 1) c (p.resuffix n s) = some (r.1, r.2.resuffix n s) := by
  intro c p r h hok hle hst
  have hstrict := object_loop_reads e (k + 1) c p r h hok hst
  have hp1 : n < (p.peek_next_token token_type.unknown).2.2.input.length := by omega
  have hp : n < p.input.length :=
    lt_of_lt_of_le hp1 (reads_length (peek_next_token_scans p _).1)
  rw [parse_object_loop] at h ⊢
  rw [resuffix_eof p n s hp, peek_next_token_resuffix n s p _ hp1]
  have hb := peek_next_token_tobuilder p token_type.unknown
  generalize p.peek_next_token token_type.unknown = t at h hb hp1 ⊢
  obtain ⟨terr, tt, p1⟩ := t
  dsimp only at h hb hp1 ⊢
  have hst1 : p1.stack ≠ [] := by
    rw [stack_of_tobuilder hb]; exact hst
  by_cases he : p.eof = true
  · rw [if_pos he] at h
    cases h
    exact absurd (make_error_failed p _ (by decide)) (ok_of_not_failed _ hok)
  rw [if_neg he] at h ⊢
  by_cases hf : terr.failed = true
  · rw [if_pos hf] at h
    cases h
    exact absurd hf (ok_of_not_failed _ hok)
  rw [if_neg hf] at h ⊢
  by_cases hkey : tt = token_type.identifier ∨ tt = token_type.string
  · rw [if_pos hkey] at h ⊢
    by_cases hc : c = true
    · rw [if_pos hc] at h
      cases h
      exact absurd (make_error_failed p1 _ (by decide)) (ok_of_not_failed _ hok)
    rw [if_neg hc] at h ⊢
    by_cases hk : p1.parse_identifier.1.failed = true
    · rw [if_pos hk] at h
      cases h
      exact absurd hk (ok_of_not_failed _ hok)
    by_cases ht2 : (p1.parse_identifier.2.2.peek_next_token tt).1.failed = true
    · rw [if_neg hk, if_pos ht2] at h
      cases h
      exact absurd ht2 (ok_of_not_failed _ hok)
    by_cases hcol : (p1.parse_identifier.2.2.peek_next_token tt).2.1 ≠ token_type.colon
    · rw [if_neg hk, if_neg ht2, if_pos hcol] at h
      cases h
      exact absurd (make_error_failed _ _ (by decide)) (ok_of_not_failed _ hok)
    rw [if_neg hk, if_neg ht2, if_neg hcol] at h
    have hcol' : (p1.parse_identifier.2.2.peek_next_token tt).2.1 = token_type.colon :=
      not_not.mp hcol
    have hne2 := token_state_nonempty p1.parse_identifier.2.2 tt (failed_false_of_not ht2)
      (by rw [hcol']; decide)
    have hr2 := reads_length (peek_next_token_scans p1.parse_identifier.2.2 tt).1
    have hr3 := next_shorter _ hne2
    have hst3 : (p1.parse_identifier.2.2.peek_next_token tt).2.2.next.2.stack ≠ [] := by
      rw [stack_of_tobuilder (next_tobuilder _),
        stack_of_tobuilder (peek_next_token_tobuilder _ _), parse_identifier_stack]
      exact hst1
    cases hv : parse_value e k value.null
        (p1.parse_identifier.2.2.peek_next_token tt).2.2.next.2 with
    | none => rw [hv] at h; cases h
    | some rv =>
      rw [hv] at h
      dsimp only at h
      by_cases hf2 : rv.1.failed = true
      · rw [if_pos hf2] at h
        cases h
        exact absurd hf2 (ok_of_not_failed _ hok)
      rw [if_neg hf2] at h
      have hvn := parse_value_nests e k _ _ _ hv
      have hok2 : (!rv.1.failed) = true := by simpa using hf2
      have hst2 : rv.2.2.stack ≠ [] := by
        rw [(hvn.frames hok2).1]; exact hst3
      have hn := (nests_all e k).2.2.1 _ _ _ h hst2
      have h1 : r.2.input.length < rv.2.2.input.length := hn.shorter (by simp [hok])
      have h2 := reads_length hvn.reads
      have hvr := value_reads e k _ _ _ hv (failed_false_of_not hf2)
      have hi : n < p1.parse_identifier.2.2.input.length := by omega
      have ht : n < (p1.parse_identifier.2.2.peek_next_token tt).2.2.input.length := by omega
      rw [parse_identifier_resuffix n s p1 hi]
      dsimp only
      rw [if_neg hk, peek_next_token_resuffix n s _ tt ht]
      dsimp only
      rw [if_neg ht2, if_neg hcol, resuffix_next _ n s ht]
      dsimp only
      rw [hV _ _ _ hv (failed_false_of_not hf2) (by omega) (by omega) (Or.inl (by omega))]
      dsimp only
      rw [if_neg hf2]
      exact hL _ _ _ h hok hle hst2
  rw [if_neg hkey] at h ⊢
  by_cases hend : tt = token_type.object_end
  · rw [if_pos hend] at h ⊢
    cases h
    rw [resuffix_next p1 n s hp1]
  rw [if_neg hend] at h ⊢
  by_cases hcm : tt = token_type.comma
  · rw [if_pos hcm] at h ⊢
    by_cases hc : (!c) = true
    · rw [if_pos hc] at h
      cases h
      exact absurd (make_error_failed p1 _ (by decide)) (ok_of_not_failed _ hok)
    · rw [if_neg hc] at h ⊢
      rw [resuffix_next p1 n s hp1]
      exact hL _ _ _ h hok hle
        (by rw [stack_of_tobuilder (next_tobuilder p1)]; exact hst1)
  · rw [if_neg hcm] at h
    cases h
    have : (if c = true then p1.make_error error_kind.comma_expected
        else p1.make_error error_kind.syntax_error).failed = true := by
      split <;> exact make_error_failed p1 _ (by decide)
    exact absurd this (ok_of_not_failed _ hok)

/-- No successful call looks past where it ends: the routines at every depth. -/
theorem local_all (e : env) (n : Nat) (s : List Nat) (k : Nat) :
    (∀ result p r, parse_value e k result p = some r → r.1.failed = false →
      n ≤ r.2.2.input.length →
      n < (p.peek_next_token token_type.unknown).2.2.input.length →
      (n < r.2.2.input.length ∨ stops_number s ∨
        (p.peek_next_token token_type.unknown).2.1 = token_type.object_begin ∨
        (p.peek_next_token token_type.unknown).2.1 = token_type.array_begin) →
      parse_value e k result (p.resuffix n s) = some (r.1, r.2.1, r.2.2.resuffix n s)) ∧
    (∀ P r0, parse_object e k P = some r0 → r0.1.failed = false →
      n ≤ r0.2.input.length → P.stack ≠ [] → n < P.input.length →
      parse_object e k (P.resuffix n s) = some (r0.1, r0.2.resuffix n s)) ∧
    (∀ c p r, parse_object_loop e k c p = some r → r.1.failed = false →
      n ≤ r.2.input.length → p.stack ≠ [] →
      parse_object_loop e k c (p.resuffix n s) = some (r.1, r.2.resuffix n s)) ∧
    (∀ P r0, parse_array e k P = some r0 → r0.1.failed = false →
      n ≤ r0.2.input.length → P.stack ≠ [] → n < P.input.length →
      parse_array e k (P.resuffix n s) = some (r0.1, r0.2.resuffix n s)) ∧
    (∀ c p r, parse_array_loop e k c p = some r → r.1.failed = false →
      n ≤ r.2.input.length → p.stack ≠ [] →
      parse_array_loop e k c (p.resuffix n s) = some (r.1, r.2.resuffix n s)) := by
  induction k with
  | zero =>
    refine ⟨?_, ?_, ?_, ?_, ?_⟩
    · intro result p r h; simp [parse_value] at h
    · intro p r h; simp [parse_object] at h
    · intro c p r h; simp [parse_object_loop] at h
    · intro p r h; simp [parse_array] at h
    · intro c p r h; simp [parse_array_loop] at h
  | succ k ih =>
    obtain ⟨hV, hO, hOL, hA, hAL⟩ := ih
    refine ⟨value_local_succ e n s k hO hA, ?_, object_loop_local_succ e n s k hV hOL, ?_,
      array_loop_local_succ e n s k hV hAL⟩
    · intro P r0 h hok hle hst hp
      rw [parse_object] at h ⊢
      rw [resuffix_next P n s hp]
      exact hOL _ _ _ h hok hle (by rw [stack_of_tobuilder (next_tobuilder P)]; exact hst)
    · intro P r0 h hok hle hst hp
      rw [parse_array] at h ⊢
      rw [resuffix_next P n s hp]
      exact hAL _ _ _ h hok hle (by rw [stack_of_tobuilder (next_tobuilder P)]; exact hst)

end parser

end json5

namespace json5

namespace parser

/-- A successful `parse_value` returns `{ error::none }`, and its token was found. -/
theorem value_ok (e : env) (k : Nat) (result : value) (p : parser)
    (r : error × value × parser) (h : parse_value e k result p = some r)
    (hok : r.1.failed = false) :
    r.1 = error.ok ∧ (p.peek_next_token token_type.unknown).1.failed = false := by
  cases k with
  | zero => simp [parse_value] at h
  | succ k =>
    rw [parse_value] at h
    generalize p.peek_next_token token_type.unknown = t at h ⊢
    obtain ⟨terr, tt, p1⟩ := t
    dsimp only at h ⊢
    by_cases hf : terr.failed = true
    · rw [if_pos hf] at h
      cases h
      exact absurd hf (ok_of_not_failed _ hok)
    rw [if_neg hf] at h
    refine ⟨?_, failed_false_of_not hf⟩
    cases tt with
    | number =>
      dsimp only at h
      by_cases hf2 : (p1.parse_number e 0).1.failed = true
      · rw [if_pos hf2] at h; cases h; exact absurd hf2 (ok_of_not_failed _ hok)
      · rw [if_neg hf2] at h; cases h; rfl
    | string =>
      dsimp only at h
      by_cases hf2 : p1.parse_string.1.failed = true
      · rw [if_pos hf2] at h; cases h; exact absurd hf2 (ok_of_not_failed _ hok)
      · rw [if_neg hf2] at h; cases h; rfl
    | identifier =>
      dsimp only at h
      by_cases hf2 : (p1.parse_literal token_type.unknown).1.failed = true
      · rw [if_pos hf2] at h; cases h; exact absurd hf2 (ok_of_not_failed _ hok)
      · rw [if_neg hf2] at h
        by_cases h1 : (p1.parse_literal token_type.unknown).2.1 = token_type.literal_true
        · rw [if_pos h1] at h; cases h; rfl
        rw [if_neg h1] at h
        by_cases h2 : (p1.parse_literal token_type.unknown).2.1 = token_type.literal_false
        · rw [if_pos h2] at h; cases h; rfl
        rw [if_neg h2] at h
        by_cases h3 : (p1.parse_literal token_type.unknown).2.1 = token_type.literal_null
        · rw [if_pos h3] at h; cases h; rfl
        rw [if_neg h3] at h
        by_cases h4 : (p1.parse_literal token_type.unknown).2.1 = token_type.literal_NaN
        · rw [if_pos h4] at h; cases h; rfl
        rw [if_neg h4] at h
        cases h
        exact absurd (make_error_failed _ _ (by decide)) (ok_of_not_failed _ hok)
    | object_begin =>
      dsimp only at h
      cases hc : parse_object e k { p1 with tobuilder := p1.tobuilder.push_object } with
      | none => rw [hc] at h; cases h
      | some r0 =>
        rw [hc] at h
        dsimp only at h
        by_cases hf2 : r0.1.failed = true
        · rw [if_pos hf2] at h; cases h; exact absurd hf2 (ok_of_not_failed _ hok)
        · rw [if_neg hf2] at h; cases h; rfl
    | array_begin =>
      dsimp only at h
      cases hc : parse_array e k { p1 with tobuilder := p1.tobuilder.push_array } with
      | none => rw [hc] at h; cases h
      | some r0 =>
        rw [hc] at h
        dsimp only at h
        by_cases hf2 : r0.1.failed = true
        · rw [if_pos hf2] at h; cases h; exact absurd hf2 (ok_of_not_failed _ hok)
        · rw [if_neg hf2] at h; cases h; rfl
    | _ =>
      dsimp only at h
      cases h
      exact absurd (make_error_failed p1 _ (by decide)) (ok_of_not_failed _ hok)

/-- When `from_string` returns no error, the root call of `parse_value` returned a
container without error, and the document is the one it left with the root written into
it. -/
theorem from_string_ok_root (e : env) (t : List Nat) (doc d : document)
    (h : from_string e t doc = some (error.ok, d)) :
    ∃ v q, parse_value e (3 * t.length + 1) (start t doc).doc.to_value (start t doc) =
        some (error.ok, v, q) ∧
      (v.is_array = true ∨ v.is_object = true) ∧
      d = { q.doc with data := v.data, loc := v.loc } := by
  unfold from_string parse at h
  dsimp only at h
  have hs : parse_value e (3 * t.length + 1)
      (builder.reset { doc := doc, stack := [], values := [], counts := [] }).doc.to_value
      { tobuilder := builder.reset { doc := doc, stack := [], values := [], counts := [] },
        input := t, loc := if t ≠ [] then ⟨1, 1, 0⟩ else ⟨0, 0, 0⟩ } =
      parse_value e (3 * t.length + 1) (start t doc).doc.to_value (start t doc) := rfl
  rw [hs] at h
  cases hpv : parse_value e (3 * t.length + 1) (start t doc).doc.to_value (start t doc) with
  | none => rw [hpv] at h; cases h
  | some r =>
    rw [hpv] at h
    dsimp only at h
    by_cases hf : r.1.failed = true
    · rw [if_pos hf] at h
      simp only [Option.map_some', Option.some.injEq, Prod.mk.injEq] at h
      rw [h.1] at hf
      exact absurd hf (by decide)
    rw [if_neg hf] at h
    obtain ⟨hok, _⟩ := value_ok e _ _ _ _ hpv (failed_false_of_not hf)
    split at h
    · simp only [Option.map_some', Option.some.injEq, Prod.mk.injEq] at h
      have := congrArg error.type h.1
      cases this
    · rename_i hroot
      change ¬ ((!r.2.1.is_array && !r.2.1.is_object) = true) at hroot
      simp only [Option.map_some', Option.some.injEq, Prod.mk.injEq] at h
      refine ⟨r.2.1, r.2.2, ?_, ?_, h.2.symm⟩
      · rw [← hok]
      · cases ha : r.2.1.is_array with
        | true => exact Or.inl rfl
        | false =>
          cases ho : r.2.1.is_object with
          | true => exact Or.inr rfl
          | false => rw [ha, ho] at hroot; exact absurd rfl hroot

theorem start_resuffix (t rest : List Nat) (doc : document) (ht : t ≠ []) :
    start (t ++ rest) doc = (start t doc).resuffix 0 rest := by
  unfold start parser.resuffix
  rw [resuffix_zero]
  simp [ht]

end parser

end json5

namespace json5

/-- C7, as it holds: what follows the root value is never looked at. The texts `[] []`
(a second value), `[]x` (a stray character) and an object followed by a stray bracket all
parse without error. -/
theorem from_string_trailing_accepted :
    (∃ d, from_string example_env (bytes "[] []") example_doc = some (error.ok, d)) ∧
    (∃ d, from_string example_env (bytes "[]x") example_doc = some (error.ok, d)) ∧
    (∃ d, from_string example_env (bytes "\x7ba:true\x7d ]") example_doc =
      some (error.ok, d)) :=
  ⟨⟨_, rfl⟩, ⟨_, rfl⟩, ⟨_, rfl⟩⟩

/-- C7, amended: the input is read up to the end of the root value and no further. For
every text that starts (after whitespace and comments) with an opening bracket and parses
without error, the text followed by any further input parses without error too, and to the
same document. -/
theorem from_string_ignores_rest (e : env) (doc : document) (t rest : List Nat)
    (d : document) (h : from_string e t doc = some (error.ok, d))
    (hroot : ((parser.start t doc).peek_next_token token_type.unknown).2.1 =
        token_type.object_begin ∨
      ((parser.start t doc).peek_next_token token_type.unknown).2.1 =
        token_type.array_begin) :
    from_string e (t ++ rest) doc = some (error.ok, d) := by
  obtain ⟨v, q, hpv, hv, hd⟩ := parser.from_string_ok_root e t doc d h
  obtain ⟨_, htok⟩ := parser.value_ok e _ _ _ _ hpv rfl
  have hne : ((parser.start t doc).peek_next_token token_type.unknown).2.2.input ≠ [] :=
    parser.token_state_nonempty _ _ htok (by rcases hroot with h | h <;> rw [h] <;> decide)
  have ht : t ≠ [] := by
    intro h0
    have := parser.not_eof_of_token (parser.start t doc) token_type.unknown htok
    apply this
    rw [parser.eof_iff]
    exact h0
  have hloc := (parser.local_all e 0 rest (3 * t.length + 1)).1 _ _ _ hpv rfl (Nat.zero_le _)
    (List.length_pos.mpr hne) (Or.inr (Or.inr hroot))
  rw [← parser.start_resuffix t rest doc ht] at hloc
  have hfs := parser.from_string_of_root_ok e (t ++ rest) doc _ v (q.resuffix 0 rest) hloc hv
  rw [hfs, hd]
  rfl

theorem from_string_ignores_rest_witness :
    ∃ d, from_string example_env (bytes "[true]") example_doc = some (error.ok, d) ∧
      from_string example_env (bytes "[true]" ++ bytes " x") example_doc =
        some (error.ok, d) :=
  ⟨_, rfl, from_string_ignores_rest example_env example_doc (bytes "[true]") (bytes " x") _
    rfl (Or.inr rfl)⟩

end json5

namespace json5

namespace parser

/-! ### The tokenizer at the place where the text is changed -/

/-- Inside a comment the tokenizer reads at least one byte. -/
theorem peek_next_token_loop_comment_reads (k : Nat) (pc : comment_type) (result : token_type)
    (p : parser) (hpc : pc ≠ comment_type.none) (hne : p.input ≠ []) :
    p.next.2.reads (peek_next_token_loop (k + 1) pc result p).2.2 := by
  rw [peek_next_token_loop]
  have he : ¬ (p.eof = true) := by rw [eof_iff]; exact hne
  rw [if_neg he]
  dsimp only
  refine ite_ind (fun r : error × token_type × parser => p.next.2.reads r.2.2) _ _ _
    (fun _ => ?_) (fun _ => ?_)
  · exact (peek_next_token_loop_scans _ _ _ _).1
  rw [if_pos (Or.inl hpc)]
  refine ite_ind (fun r : error × token_type × parser => p.next.2.reads r.2.2) _ _ _
    (fun _ => ?_) (fun _ => ?_)
  · exact reads_trans (reads_next _) (peek_next_token_loop_scans _ _ _ _).1
  · exact (peek_next_token_loop_scans _ _ _ _).1

theorem eq_of_scans_length {p q : parser} (h : p.scans q)
    (hl : q.input.length = p.input.length) (hb : q.tobuilder = p.tobuilder) : q = p := by
  obtain ⟨c, hc, hloc⟩ := h.1
  have hc0 : c = [] := by
    have := congrArg List.length hc
    rw [List.length_append] at this
    exact List.length_eq_zero.mp (by omega)
  subst hc0
  cases p
  cases q
  simp only [List.nil_append] at hc
  simp only [location.advance] at hloc
  simp_all

/-- At the byte where the suffix starts: when the tokenizer stops there on a closing bracket,
it stops there on a comma when the suffix is replaced by one that starts with a comma. -/
theorem peek_next_token_loop_boundary (n : Nat) (s1 : List Nat) (hn : 0 < n) (k : Nat) :
    ∀ (m : Nat) (pc : comment_type) (result : token_type) (p : parser),
      p.input.length ≤ k → (p.resuffix n (44 :: s1)).input.length ≤ m →
      ((peek_next_token_loop k pc result p).1.failed = false ∧
        (peek_next_token_loop k pc result p).2.2.input.length = n ∧
        ((peek_next_token_loop k pc result p).2.1 = token_type.array_end ∨
          (peek_next_token_loop k pc result p).2.1 = token_type.object_end)) →
      peek_next_token_loop m pc result (p.resuffix n (44 :: s1)) =
        (error.ok, token_type.comma,
          (peek_next_token_loop k pc result p).2.2.resuffix n (44 :: s1)) := by
  induction k with
  | zero =>
    intro m pc result p hk hm H
    have : (peek_next_token_loop 0 pc result p).2.2 = p := rfl
    rw [this] at H
    omega
  | succ k ih =>
    intro m pc result p hk hm H
    have hle : n ≤ p.input.length := by
      rw [← H.2.1]
      exact reads_length (peek_next_token_loop_scans _ _ _ _).1
    have hne : p.input ≠ [] := by
      intro h0
      rw [h0] at hle
      simp at hle
      omega
    cases m with
    | zero =>
      rw [resuffix_input, resuffix_length] at hm
      simp at hm
    | succ m =>
      by_cases hp : n < p.input.length
      · have hm1 := resuffix_next_length p n (44 :: s1) m hp hm
        have hk1 : p.next.2.input.length ≤ k := by
          have := next_length p (by omega)
          omega
        have hk2 : p.next.2.next.2.input.length ≤ k :=
          le_trans (reads_length (reads_next _)) hk1
        have hm2 : (p.next.2.next.2.resuffix n (44 :: s1)).input.length ≤ m :=
          le_trans (resuffix_length_le _ _ n (44 :: s1) (reads_next _)) hm1
        have hlook : ∀ q : parser, p.next.2.next.2.reads q → q.input.length = n →
            n < p.next.2.input.length := by
          intro q hq hqn
          have h1 := reads_length hq
          by_cases h0 : p.next.2.input = []
          · have : p.next.2.next.2.input.length ≤ p.next.2.input.length :=
              reads_length (reads_next _)
            have h0' : p.next.2.input.length = 0 := by rw [h0]; rfl
            omega
          · have := next_shorter p.next.2 h0
            omega
        rw [peek_next_token_loop] at H
        rw [peek_next_token_loop, peek_next_token_loop, resuffix_eof p n _ hp,
          resuffix_peek p n _ hp, resuffix_next p n _ hp]
        dsimp only at H ⊢
        refine ite_both (fun (x y : error × token_type × parser) =>
            x = (error.ok, token_type.comma, y.2.2.resuffix n (44 :: s1)))
          (fun y : error × token_type × parser => y.1.failed = false ∧
            y.2.2.input.length = n ∧
            (y.2.1 = token_type.array_end ∨ y.2.1 = token_type.object_end)) _ _ _ _ _ H
          (fun _ H => absurd (show p.input.length = n from H.2.1) (by omega)) (fun _ H => ?_)
        refine ite_both (fun (x y : error × token_type × parser) =>
            x = (error.ok, token_type.comma, y.2.2.resuffix n (44 :: s1)))
          (fun y : error × token_type × parser => y.1.failed = false ∧
            y.2.2.input.length = n ∧
            (y.2.1 = token_type.array_end ∨ y.2.1 = token_type.object_end)) _ _ _ _ _ H
          (fun _ H => ih m _ _ _ hk1 hm1 H) (fun _ H => ?_)
        refine ite_both (fun (x y : error × token_type × parser) =>
            x = (error.ok, token_type.comma, y.2.2.resuffix n (44 :: s1)))
          (fun y : error × token_type × parser => y.1.failed = false ∧
            y.2.2.input.length = n ∧
            (y.2.1 = token_type.array_end ∨ y.2.1 = token_type.object_end)) _ _ _ _ _ H
          (fun _ H => ?_) (fun _ H => ?_)
        · refine ite_both (fun (x y : error × token_type × parser) =>
              x = (error.ok, token_type.comma, y.2.2.resuffix n (44 :: s1)))
            (fun y : error × token_type × parser => y.1.failed = false ∧
              y.2.2.input.length = n ∧
              (y.2.1 = token_type.array_end ∨ y.2.1 = token_type.object_end)) _ _ _ _ _ H
            (fun _ H => ?_) (fun _ H => ih m _ _ _ hk1 hm1 H)
          have h1 : n < p.next.2.input.length :=
            hlook _ (peek_next_token_loop_scans _ _ _ _).1 H.2.1
          rw [resuffix_peek _ n _ h1, resuffix_next _ n _ h1]
          exact ih m _ _ _ hk2 hm2 H
        refine ite_both (fun (x y : error × token_type × parser) =>
            x = (error.ok, token_type.comma, y.2.2.resuffix n (44 :: s1)))
          (fun y : error × token_type × parser => y.1.failed = false ∧
            y.2.2.input.length = n ∧
            (y.2.1 = token_type.array_end ∨ y.2.1 = token_type.object_end)) _ _ _ _ _ H
          (fun _ H => ?_) (fun _ H => ?_)
        · have h1 : n < p.next.2.input.length := by
            revert H
            refine ite_ind (fun r : error × token_type × parser => (r.1.failed = false ∧
              r.2.2.input.length = n ∧
              (r.2.1 = token_type.array_end ∨ r.2.1 = token_type.object_end)) →
              n < p.next.2.input.length) _ _ _ (fun _ => ?_) (fun _ => ?_)
            · exact fun H => hlook _ (peek_next_token_loop_scans _ _ _ _).1 H.2.1
            refine ite_ind (fun r : error × token_type × parser => (r.1.failed = false ∧
              r.2.2.input.length = n ∧
              (r.2.1 = token_type.array_end ∨ r.2.1 = token_type.object_end)) →
              n < p.next.2.input.length) _ _ _ (fun _ => ?_) (fun _ => ?_)
            · exact fun H => hlook _ (peek_next_token_loop_scans _ _ _ _).1 H.2.1
            · exact fun H => absurd (make_error_failed p.next.2 _ (by decide))
                (ok_of_not_failed _ H.1)
          rw [resuffix_peek _ n _ h1, resuffix_next _ n _ h1]
          dsimp only
          refine ite_both (fun (x y : error × token_type × parser) =>
              x = (error.ok, token_type.comma, y.2.2.resuffix n (44 :: s1)))
            (fun y : error × token_type × parser => y.1.failed = false ∧
              y.2.2.input.length = n ∧
              (y.2.1 = token_type.array_end ∨ y.2.1 = token_type.object_end)) _ _ _ _ _ H
            (fun _ H => ih m _ _ _ hk2 hm2 H) (fun _ H => ?_)
          refine ite_both (fun (x y : error × token_type × parser) =>
              x = (error.ok, token_type.comma, y.2.2.resuffix n (44 :: s1)))
            (fun y : error × token_type × parser => y.1.failed = false ∧
              y.2.2.input.length = n ∧
              (y.2.1 = token_type.array_end ∨ y.2.1 = token_type.object_end)) _ _ _ _ _ H
            (fun _ H => ih m _ _ _ hk2 hm2 H)
            (fun _ H => absurd (make_error_failed p.next.2 _ (by decide))
              (ok_of_not_failed _ H.1))
        refine ite_both (fun (x y : error × token_type × parser) =>
            x = (error.ok, token_type.comma, y.2.2.resuffix n (44 :: s1)))
          (fun y : error × token_type × parser => y.1.failed = false ∧
            y.2.2.input.length = n ∧
            (y.2.1 = token_type.array_end ∨ y.2.1 = token_type.object_end)) _ _ _ _ _ H
          (fun _ H => absurd (show p.input.length = n from H.2.1) (by omega)) (fun _ H => ?_)
        refine ite_both (fun (x y : error × token_type × parser) =>
            x = (error.ok, token_type.comma, y.2.2.resuffix n (44 :: s1)))
          (fun y : error × token_type × parser => y.1.failed = false ∧
            y.2.2.input.length = n ∧
            (y.2.1 = token_type.array_end ∨ y.2.1 = token_type.object_end)) _ _ _ _ _ H
          (fun _ H => absurd (show p.input.length = n from H.2.1) (by omega)) (fun _ H => ?_)
        refine ite_both (fun (x y : error × token_type × parser) =>
            x = (error.ok, token_type.comma, y.2.2.resuffix n (44 :: s1)))
          (fun y : error × token_type × parser => y.1.failed = false ∧
            y.2.2.input.length = n ∧
            (y.2.1 = token_type.array_end ∨ y.2.1 = token_type.object_end)) _ _ _ _ _ H
          (fun _ H => ?_) (fun _ H => ?_)
        · rcases H.2.2 with h | h <;> cases h
        refine ite_both (fun (x y : error × token_type × parser) =>
            x = (error.ok, token_type.comma, y.2.2.resuffix n (44 :: s1)))
          (fun y : error × token_type × parser => y.1.failed = false ∧
            y.2.2.input.length = n ∧
            (y.2.1 = token_type.array_end ∨ y.2.1 = token_type.object_end)) _ _ _ _ _ H
          (fun _ H => absurd (show p.input.length = n from H.2.1) (by omega)) (fun _ H => absurd (show p.input.length = n from H.2.1) (by omega))
      · have hpn : p.input.length = n := by omega
        have hpc : pc = comment_type.none := by
          by_contra hpc
          have hr := reads_length (peek_next_token_loop_comment_reads k pc result p hpc hne)
          have := next_shorter p hne
          omega
        have hR : (peek_next_token_loop (k + 1) pc result p).2.2 = p :=
          eq_of_scans_length (peek_next_token_loop_scans _ _ _ _) (by rw [H.2.1, hpn])
            (peek_next_token_loop_tobuilder _ _ _ _)
        rw [hR, hpc]
        have hin : (p.resuffix n (44 :: s1)).input = 44 :: s1 :=
          resuffix_all n _ _ (by omega)
        exact peek_next_token_loop_head m result _ 44 s1 hin (by decide)

/-- The method `peek_next_token` at the byte where the suffix starts. -/
theorem peek_next_token_boundary (n : Nat) (s1 : List Nat) (hn : 0 < n) (p : parser)
    (result : token_type) (h1 : (p.peek_next_token result).1.failed = false)
    (h2 : (p.peek_next_token result).2.2.input.length = n)
    (h3 : (p.peek_next_token result).2.1 = token_type.array_end ∨
      (p.peek_next_token result).2.1 = token_type.object_end) :
    (p.resuffix n (44 :: s1)).peek_next_token result =
      (error.ok, token_type.comma, (p.peek_next_token result).2.2.resuffix n (44 :: s1)) :=
  peek_next_token_loop_boundary n s1 hn _ _ _ _ _ (le_refl _) (le_refl _) ⟨h1, h2, h3⟩

end parser

end json5

namespace json5

namespace parser

/-- The iterations of the array loop read on and leave the open frames alone. -/
theorem array_steps_frame (e : env) (c0 : Bool) (p0 : parser) (c : Bool) (p : parser)
    (h : array_steps e c0 p0 c p) : p0.reads p ∧ p.stack = p0.stack := by
  induction h with
  | start => exact ⟨reads_refl _, rfl⟩
  | comma p1 _ _ _ ih =>
    refine ⟨reads_trans ih.1 (reads_trans (peek_next_token_scans p1 _).1 (reads_next _)), ?_⟩
    rw [stack_of_tobuilder (next_tobuilder _),
      stack_of_tobuilder (peek_next_token_tobuilder _ _)]
    exact ih.2
  | element p1 n r _ _ _ hv hok ih =>
    have hvn := parse_value_nests e n _ _ _ hv
    refine ⟨reads_trans ih.1 (reads_trans (peek_next_token_scans p1 _).1 hvn.reads), ?_⟩
    show r.2.2.stack = p0.stack
    rw [(hvn.frames (by simp [hok])).1, stack_of_tobuilder (peek_next_token_tobuilder _ _)]
    exact ih.2

/-- What the loop returns from a later iteration it returns from the first. -/
theorem array_steps_link (e : env) (c0 : Bool) (p0 : parser) (c : Bool) (p : parser)
    (h : array_steps e c0 p0 c p) :
    ∀ k r, parse_array_loop e k c p = some r → ∃ k', parse_array_loop e k' c0 p0 = some r := by
  induction h with
  | start => exact fun k r hr => ⟨k, hr⟩
  | comma p1 _ ht1 ht2 ih =>
    intro k r hr
    apply ih (k + 1) r
    rw [parse_array_loop, if_neg (not_eof_of_token p1 _ ht1)]
    dsimp only
    rw [if_neg (ok_of_not_failed _ ht1), ht2, if_neg (by decide), if_pos rfl,
      if_neg (by simp)]
    exact hr
  | element p1 n rv _ ht1 ht2 hv hok ih =>
    intro k r hr
    apply ih (max k n + 1) r
    rw [parse_array_loop, if_neg (not_eof_of_token p1 _ ht1)]
    dsimp only
    rw [if_neg (ok_of_not_failed _ ht1), if_neg ht2, if_neg (by simp),
      parse_value_mono e n (max k n) (le_max_right _ _) _ _ _ hv]
    dsimp only
    rw [if_neg (ok_of_not_failed _ hok)]
    exact parse_array_loop_mono e k (max k n) (le_max_left _ _) _ _ _ hr

/-- The iterations of the array loop do not depend on the end of the text: the last `n`
bytes, none of them read yet, may be replaced by bytes at which a number stops. -/
theorem array_steps_resuffix (e : env) (n : Nat) (s : List Nat) (hn : 0 < n)
    (hs : stops_number s) (c0 : Bool) (p0 : parser) (c : Bool) (p : parser)
    (h : array_steps e c0 p0 c p) (hle : n ≤ p.input.length) :
    array_steps e c0 (p0.resuffix n s) c (p.resuffix n s) := by
  induction h with
  | start => exact array_steps.start
  | comma p1 hprev ht1 ht2 ih =>
    have hne := token_state_nonempty p1 _ ht1 (by rw [ht2]; decide)
    have h1 := next_shorter _ hne
    have hstrict : n < (p1.peek_next_token token_type.unknown).2.2.input.length := by omega
    have h2 := reads_length (peek_next_token_scans p1 token_type.unknown).1
    have hT := peek_next_token_resuffix n s p1 token_type.unknown hstrict
    have := array_steps.comma (p1.resuffix n s) (ih (by omega)) (by rw [hT]; exact ht1)
      (by rw [hT]; exact ht2)
    rw [hT] at this
    dsimp only at this
    rw [resuffix_next _ n s hstrict] at this
    exact this
  | element p1 m r hprev ht1 ht2 hv hok ih =>
    have hle' : n ≤ r.2.2.input.length := hle
    have hvr := value_reads e m _ _ _ hv hok
    have hne : ((p1.peek_next_token token_type.unknown).2.2.peek_next_token
        token_type.unknown).2.2.input ≠ [] := by
      intro h0
      have h0' : ((p1.peek_next_token token_type.unknown).2.2.peek_next_token
          token_type.unknown).2.2.input.length = 0 := by rw [h0]; rfl
      have := hvr.1
      omega
    have h3 := hvr.2 hne
    have h4 := reads_length (peek_next_token_scans
      (p1.peek_next_token token_type.unknown).2.2 token_type.unknown).1
    have hstrict : n < (p1.peek_next_token token_type.unknown).2.2.input.length := by omega
    have h2 := reads_length (peek_next_token_scans p1 token_type.unknown).1
    have hT := peek_next_token_resuffix n s p1 token_type.unknown hstrict
    have hV := (local_all e n s m).1 _ _ _ hv hok hle' (by omega) (Or.inr (Or.inl hs))
    have := array_steps.element (p1.resuffix n s) m (r.1, r.2.1, r.2.2.resuffix n s)
      (ih (by omega)) (by rw [hT]; exact ht1) (by rw [hT]; exact ht2)
      (by rw [hT]; exact hV) hok
    exact this

end parser

end json5

namespace json5

namespace parser

/-- The method `parse_identifier` on a key in double quotes whose bytes are an identifier. -/
theorem parse_identifier_quoted (p : parser) (c : Nat) (r tl : List Nat)
    (h : p.input = 34 :: c :: (r ++ 34 :: tl)) (hc : isalpha c = true ∨ c = 95)
    (hr : ∀ x ∈ r, ident_byte x = true) :
    p.parse_identifier =
      (error.ok, p.doc.strings.length,
        p.with_scan (34 :: c :: r ++ [34]) tl (c :: r ++ [0])) := by
  unfold parse_identifier
  dsimp only
  rw [peek_cons p _ _ h, next_with_scan p 34 _ h]
  have hq : decide (((34 : Nat) : Int) = 39 ∨ ((34 : Nat) : Int) = 34) = true := by decide
  rw [hq]
  simp only [if_true]
  have hi : (p.with_scan [34] (c :: (r ++ 34 :: tl)) []).input = c :: (r ++ 34 :: tl) := rfl
  rw [peek_cons _ _ _ hi]
  have hstart : ¬ (True ∧ ¬ isalpha (c : Int) = true ∧ (c : Int) ≠ 95) := by
    rcases hc with hc | hc
    · simp [hc]
    · subst hc
      simp
  rw [if_neg hstart]
  rw [parse_identifier_loop_key r 34 tl (by decide) c _ _ hi hr (by rw [hi]; simp; omega),
    with_scan_with_scan]
  rw [next_with_scan _ 34 tl rfl]
  dsimp only
  rw [if_neg (by simp), add_with_scan, with_scan_with_scan, with_scan_with_scan]
  simp [builder.string_buffer_offset]

end parser

end json5

namespace json5

namespace parser

/-- An iteration of the object loop that expects no comma and meets a key in double quotes
whose bytes are an identifier, the colon and a scalar. -/
theorem parse_object_loop_quoted (e : env) (n : Nat) (p : parser) (k vpre : List Nat)
    (v : scalar) (tail : List Nat)
    (h : p.input = 34 :: (k ++ 34 :: 58 :: (vpre ++ v.source ++ tail)))
    (hk : is_identifier k = true) (hvpre : ∀ w ∈ vpre, is_space w = true) (hv : v.ok)
    (ht : tail ≠ []) :
    parse_object_loop e (n + 1 + 1) false p =
      parse_object_loop e (n + 1) true
        (p.with_items (34 :: (k ++ 34 :: 58 :: (vpre ++ v.source))) tail (k ++ [0] ++ v.added)
          [⟨type_string_off ||| p.doc.strings.length, p.loc⟩,
            ⟨v.cell_data (p.doc.strings.length + (k.length + 1)),
              p.loc.advance (34 :: (k ++ 34 :: 58 :: vpre))⟩] 2) := by
  obtain ⟨c, r, hkey, hc, hr⟩ := is_identifier_cases _ hk
  obtain ⟨hst, hcl⟩ := key_start_token token_type.unknown 34 (by decide)
  have h' : p.input = [] ++ 34 :: (c :: (r ++ 34 :: 58 :: (vpre ++ v.source ++ tail))) := by
    rw [h, hkey]; simp
  rw [parse_object_loop, if_neg (not_eof_of_input p [] 34 _ h'),
    peek_next_token_spaces p _ [] 34 _ h' (by simp) hst]
  dsimp only
  rw [if_neg (by decide), if_pos hcl]
  simp only [Bool.false_eq_true, if_false]
  rw [parse_identifier_quoted _ c r _ rfl hc hr]
  dsimp only
  rw [if_neg (by decide)]
  have hin2 : ((p.with_scan [] (34 :: c :: (r ++ 34 :: 58 :: (vpre ++ v.source ++ tail)))
      []).with_scan (34 :: c :: r ++ [34]) (58 :: (vpre ++ v.source ++ tail))
      (c :: r ++ [0])).input = [] ++ 58 :: (vpre ++ v.source ++ tail) := rfl
  rw [peek_next_token_spaces _ _ [] 58 _ hin2 (by simp) (by decide), token_class_colon]
  dsimp only
  rw [if_neg (by decide), if_neg (by simp), next_with_scan _ 58 _ rfl]
  dsimp only
  rw [parse_value_scalar e n value.null _ vpre v tail rfl hvpre hv ht]
  dsimp only
  rw [if_neg (by decide)]
  congr 1
  simp [with_scan, with_items, builder.add_item, builder.new_string, value.of_type,
    location.advance, location.advance_append, add_to_back_zero, add_to_back_add, hkey]

end parser

/-- The function `from_string` on an object whose only key is an identifier in double
quotes: it returns no error, and the document is the flat document of the key and null. -/
theorem from_string_quoted_flat (e : env) (doc : document) (k : List Nat)
    (hk : is_identifier k = true) (hb : 1 + (k.length + 1) < 2 ^ 48)
    (hvd : doc.values_data < 2 ^ 48) :
    ∃ F, from_string e (quoted_key_text k) doc = some (error.ok, F) ∧
      F.is_flat type_object (entry_scalars [null_entry k]) ∧
      F.strings_data = doc.strings_data ∧ F.values_data = doc.values_data := by
  let p0 := parser.start (quoted_key_text k) doc
  have hin : p0.input = [] ++ 123 :: 34 :: (k ++ 34 :: 58 :: 32 :: [110, 117, 108, 108, 125]) :=
    rfl
  let P : parser := ({ (p0.with_scan [] (123 :: 34 ::
      (k ++ 34 :: 58 :: 32 :: [110, 117, 108, 108, 125])) []) with
      tobuilder := (p0.with_scan [] (123 :: 34 ::
        (k ++ 34 :: 58 :: 32 :: [110, 117, 108, 108, 125])) []).tobuilder.push_object }).with_scan
      [123] (34 :: (k ++ 34 :: 58 :: 32 :: [110, 117, 108, 108, 125])) []
  let cells : List value := [⟨type_string_off ||| 1, P.loc⟩,
    ⟨type_null, P.loc.advance (34 :: (k ++ 34 :: 58 :: [32]))⟩]
  have hcells : cells.map value.data = cells_data 1 (entry_scalars [null_entry k]) := by
    show [type_string_off ||| 1, type_null] = _
    simp [entry_scalars, cells_data, null_entry, entry.key_scalar, scalar.cell_data]
  have hadded : all_added (entry_scalars [null_entry k]) = k ++ [0] := by
    simp [entry_scalars, all_added, null_entry, entry.key_scalar, scalar.added,
      items_decoded_plain]
  let Q := P.with_items (34 :: (k ++ 34 :: 58 :: 32 :: [110, 117, 108, 108]) ++ [125]) []
    (k ++ [0]) cells 2
  have hloop : parser.parse_object_loop e (2 + 1 + 1) false P = some (error.ok, Q) := by
    have hP : P.input = 34 :: (k ++ 34 :: 58 ::
        ([32] ++ scalar.lit_null.source ++ [125])) := rfl
    rw [parser.parse_object_loop_quoted e 2 P k [32] scalar.lit_null [125] hP hk
      (by decide) trivial (by simp)]
    rw [parser.parse_object_loop_end e 2 true _ [] [] rfl (by simp),
      parser.with_items_with_items]
    refine congrArg (fun q => some (error.ok, q)) (parser.with_items_congr P ?_ ?_ ?_ ?_)
    · simp [scalar.source]
    · simp [scalar.added]
    · rfl
    · rfl
  have hleaf := cells_leaf _ cells 1 hcells (by rw [hadded]; simpa using hb)
  have hpop := builder.pop_flat e Q.tobuilder (value.of_type value_type.object 0) cells
    (Or.inr rfl) rfl rfl rfl rfl hleaf (by show 2 < 2 ^ 53; norm_num)
  have hval : parser.parse_value e (2 + 1 + 1 + 1 + 1) p0.doc.to_value p0 =
      some (error.ok,
        { (Q.tobuilder.pop e).1 with loc := p0.loc.advance [] },
        { Q with tobuilder := (Q.tobuilder.pop e).2 }) := by
    rw [parser.parse_value, parser.peek_next_token_spaces p0 _ [] 123 _ hin (by simp)
      (by decide)]
    have ht : token_class token_type.unknown 123 = token_type.object_begin := by decide
    rw [ht]
    dsimp only
    rw [if_neg (by decide), parser.parse_object, parser.next_with_scan _ 123 _ rfl]
    dsimp only
    have hl : parser.parse_object_loop e (2 + 1 + 1) false P = some (error.ok, Q) := hloop
    rw [hl]
    dsimp only
    rw [if_neg (by decide)]
    rfl
  rw [hpop] at hval
  have hfs := parser.from_string_of_root_ok e _ doc _ _ _ hval
    (Or.inr (root_is_object _ _ hvd))
  refine ⟨_, hfs, ⟨?_, ?_, ?_⟩, rfl, rfl⟩
  · rfl
  · show ([0] ++ []) ++ [] ++ (k ++ [0]) = _
    rw [hadded]
    rfl
  · refine ⟨cells, hcells, ?_⟩
    rfl

end json5

namespace json5

/-- C30, as it holds: a key in double quotes has to be an identifier. The JSON texts whose
only key is `a b`, `my-key` or `1a` (printable ASCII without a double quote or a backslash)
are rejected with a syntax error: at the byte after the first letters of the key, which is
not the closing quote, or at a first byte that is neither a letter nor an underscore. -/
theorem from_string_quoted_key_rejected :
    (from_string example_env (bytes "\x7b\"a b\": null\x7d") example_doc).map Prod.fst =
      some ⟨error_kind.syntax_error, ⟨1, 5, 4⟩⟩ ∧
    (from_string example_env (bytes "\x7b\"my-key\": null\x7d") example_doc).map Prod.fst =
      some ⟨error_kind.syntax_error, ⟨1, 6, 5⟩⟩ ∧
    (from_string example_env (bytes "\x7b\"1a\": null\x7d") example_doc).map Prod.fst =
      some ⟨error_kind.syntax_error, ⟨1, 3, 2⟩⟩ :=
  ⟨rfl, rfl, rfl⟩

/-- C30, amended: for every key `k` that is an identifier (a letter or an underscore, then
letters, digits and underscores) the JSON text made of an opening brace, `k` in double
quotes, a colon, a space, `null` and the closing brace parses without error to an object
with exactly one pair, whose key is `k` and whose value is null. The document's buffers are
assumed to lie below 2^48 and cells to have a positive size. -/
theorem from_string_quoted_identifier (e : env) (doc : document) (k : List Nat)
    (hk : is_identifier k = true) (hs : 0 < e.sizeof_value)
    (hvd : doc.values_data < 2 ^ 48)
    (hb : doc.strings_data + 1 + (k.length + 1) < 2 ^ 48) :
    ∃ F o c, from_string e (quoted_key_text k) doc = some (error.ok, F) ∧
      object_view.of_value e F F.to_value = some o ∧ o.size = 1 ∧
      o.pairs e F = some [(k, c)] ∧ c.is_null = true := by
  have hadded : all_added (entry_scalars [null_entry k]) = k ++ [0] := by
    simp [entry_scalars, all_added, null_entry, entry.key_scalar, scalar.added,
      items_decoded_plain]
  obtain ⟨F, hfs, hF, hsd, hvd'⟩ := from_string_quoted_flat e doc k hk (by omega) hvd
  have hok : ∀ en ∈ [null_entry k], en.ok := by
    intro en hen
    rw [List.mem_singleton] at hen
    subst hen
    exact ⟨by simp [null_entry], hk, by simp [null_entry],
      by simp [null_entry, is_space], trivial, by simp [null_entry]⟩
  obtain ⟨o, prs, ho, hsize, hprs, hkeys, hvals⟩ := flat_object_view e F [null_entry k] hF hok
    hs (by norm_num) (by rw [hvd']; exact hvd)
    (by rw [hsd, hadded, List.length_append]; exact hb)
  cases hvals with
  | cons hv hrest =>
    cases hrest
    rename_i pr
    refine ⟨F, o, pr.2, hfs, ho, hsize, ?_, hv⟩
    rw [hprs]
    have hk1 : pr.1 = k := by simpa [null_entry] using hkeys
    rw [← hk1]

theorem from_string_quoted_identifier_witness :
    quoted_key_text (bytes "a_1") = bytes "\x7b\"a_1\": null\x7d" ∧
    ∃ F o c, from_string example_env (quoted_key_text (bytes "a_1")) example_doc =
        some (error.ok, F) ∧
      object_view.of_value example_env F F.to_value = some o ∧ o.size = 1 ∧
      o.pairs example_env F = some [(bytes "a_1", c)] ∧ c.is_null = true :=
  ⟨by decide, from_string_quoted_identifier example_env example_doc (bytes "a_1") (by decide)
    (by decide) (by decide) (by decide)⟩

end json5

namespace json5

/-- The cells and the buffers of the example of a nested document. -/
theorem nested_doc_cells :
    nested_doc.values =
      [value.of_double (double_of_size 1), value.of_bool true,
        value.of_double (double_of_size 2), ⟨type_string ||| 4097, ⟨0, 0, 0⟩⟩,
        ⟨type_array ||| 24000, ⟨0, 0, 0⟩⟩] ∧
    nested_doc.strings = [0, 97, 0, 0] ∧ nested_doc.strings_data = 4096 ∧
    nested_doc.values_data = 24000 ∧
    nested_doc.data = (type_object ||| mask_is_document) ||| 24048 := by
  decide

theorem nested_doc_well_formed : nested_doc.well_formed example_env := by
  obtain ⟨hv, _, _, _, _⟩ := nested_doc_cells
  constructor
  · intro c hc
    rw [hv] at hc
    simp only [List.mem_cons, List.mem_singleton, List.not_mem_nil, or_false] at hc
    rcases hc with rfl | rfl | rfl | rfl | rfl
    · exact ⟨by decide, fun h => absurd h (by decide), fun h => absurd h (by decide)⟩
    · exact ⟨by decide, fun h => absurd h (by decide), fun h => absurd h (by decide)⟩
    · exact ⟨by decide, fun h => absurd h (by decide), fun h => absurd h (by decide)⟩
    · exact ⟨by decide, fun _ => ⟨1, by decide, by decide⟩, fun h => absurd h (by decide)⟩
    · exact ⟨by decide, fun h => absurd h (by decide), fun _ => ⟨0, by decide, by decide⟩⟩
  · exact ⟨by decide, fun h => absurd h (by decide), fun _ => ⟨2, by decide, by decide⟩⟩

/-- C21, as the code has it: the cells of the target are relinked against the source after
its buffers have been moved out of it, so that the addresses are not rebased but doubled.
The example is the well-formed document of an object with the key `a` and a nested array,
buffers at 4096 and 24000: its key cell is a string at 4097, which reads `a`, and its array
cell points at 24000, the first cell. After the move (by the constructor or by assignment,
both call `assign_rvalue`) the target owns the same buffers at the same addresses, the key
cell is a string at 8193 = 4096 + 4097 and the array cell points at 48000 = 24000 + 24000:
neither address is inside the target's buffers, the string and the array cannot be read,
and the target is not well formed. -/
theorem assign_rvalue_breaks_links :
    nested_doc.well_formed example_env ∧
    nested_doc.values.map value.data =
      [double_of_size 1, type_true, double_of_size 2, type_string ||| 4097,
        type_array ||| 24000] ∧
    nested_doc.c_str_at 4097 = some [97] ∧
    (nested_doc.cell_at example_env 24000).map value.data = some (double_of_size 1) ∧
    (document.assign_rvalue example_env copy_target nested_doc).strings_data = 4096 ∧
    (document.assign_rvalue example_env copy_target nested_doc).values_data = 24000 ∧
    (document.assign_rvalue example_env copy_target nested_doc).strings = nested_doc.strings ∧
    (document.assign_rvalue example_env copy_target nested_doc).values.map value.data =
      [double_of_size 1, type_true, double_of_size 2, type_string ||| 8193,
        type_array ||| 48000] ∧
    (document.assign_rvalue example_env copy_target nested_doc).c_str_at 8193 = Option.none ∧
    (document.assign_rvalue example_env copy_target nested_doc).cell_at example_env 48000 =
      Option.none ∧
    ¬ (document.assign_rvalue example_env copy_target nested_doc).well_formed example_env := by
  refine ⟨nested_doc_well_formed, by decide, by decide, by decide, by decide, by decide,
    by decide, by decide, by decide, by decide, ?_⟩
  intro h
  have hmem : (⟨type_string ||| 8193, ⟨0, 0, 0⟩⟩ : value) ∈
      (document.assign_rvalue example_env copy_target nested_doc).values := by decide
  obtain ⟨o, ho, hp⟩ := (h.cells _ hmem).string (by decide)
  have h1 : (document.assign_rvalue example_env copy_target nested_doc).strings.length = 4 := by
    decide
  have h2 : (document.assign_rvalue example_env copy_target nested_doc).strings_data = 4096 := by
    decide
  have h3 : (⟨type_string ||| 8193, ⟨0, 0, 0⟩⟩ : value).payload = 8193 := by decide
  rw [h1] at ho
  rw [h2, h3] at hp
  omega

end json5

namespace json5

/-- The generic overload of `write` calls itself: at no depth does it return. -/
theorem write_class_none (e : env) (names : List Nat) (fields : List native) (n : Nat) :
    ∀ w, write e n w (native.class_ names fields) = Option.none := by
  induction n with
  | zero => intro w; rfl
  | succ n ih =>
    intro w
    rw [write, ih]

/-- C22, as the code has it: the key that goes into the string buffer is not the name but
the name table from the name on. `operator[]( string_view key )` hands `key.data()` to
`document::operator+( const char* )`, which copies up to the terminating zero. Writing the
fields `true`, `false` under the name table `a, b` into an open object frame appends two
pairs, with the values in declaration order, but the key of the first pair reads `a, b`:
only the last name of a table is written as it is. -/
theorem write_fields_key_text :
    (get_name_slice (bytes "a, b") 0).text = bytes "a" ∧
    (get_name_slice (bytes "a, b") 1).text = bytes "b" ∧
    ∃ w d o, write_fields example_env 1 (bytes "a, b") example_writer 0
        [native.bool true, native.bool false] = some w ∧
      w.counts = [4] ∧ d = (w.pop example_env).2.doc ∧
      object_view.of_value example_env d d.to_value = some o ∧ o.size = 2 ∧
      (o.pairs example_env d).map (fun prs => prs.map (fun pr => (pr.1, pr.2.data))) =
        some [(bytes "a, b", type_true), (bytes "b", type_false)] :=
  ⟨by decide, by decide, _, _, _, rfl, by decide, rfl, rfl, by decide, by decide⟩

/-- C23, as the code has it: `to_document` does not return for a structure. The overload
of `write` that a structure goes to opens an object frame and then calls `write( w, in )`
with the structure itself, which is the same overload again; whatever the names and the
fields, no depth of calls is enough for a result. -/
theorem to_document_never_returns (e : env) (n : Nat) (doc : document) (names : List Nat)
    (fields : List native) :
    to_document e n doc (native.class_ names fields) = Option.none := by
  unfold to_document
  rw [write_class_none]
  rfl

/-- C26, as the code has it: `write_enum` yields a string for a value of the table and the
underlying integer for any other value, but the text of the string is the name table from
the name on: with the names `red, green` for the values 0 and 1, the value 0 is written as
the string `red, green`, the value 1 as `green`, and the value 5 as the number 5. -/
theorem write_enum_name_text :
    (get_name_slice color_table.names 0).text = bytes "red" ∧
    (get_name_slice color_table.names 1).text = bytes "green" ∧
    (∃ w, write_enum color_table example_writer 0 = some (builder.new_string 1, w) ∧
      c_str (w.doc.strings.drop 1) = bytes "red, green") ∧
    (∃ w, write_enum color_table example_writer 1 = some (builder.new_string 1, w) ∧
      c_str (w.doc.strings.drop 1) = bytes "green") ∧
    write_enum color_table example_writer 5 =
      some (value.of_double (double_of_int 5), example_writer) ∧
    int_of_double (double_of_int 5) = 5 :=
  ⟨by decide, by decide, ⟨_, rfl, by decide⟩, ⟨_, rfl, by decide⟩, by decide, by decide⟩

end json5

namespace json5

/-- C29: a type mismatch is reported with the discriminant of the expected type and the
location of the value, and the destination is left as it was. Reading a string from a value
that is not a string returns string_expected; reading a number of any type (int, unsigned,
float, double: whatever the conversion from the double) from a value that is not a number
returns number_expected; reading a bool from a value that is not a boolean returns
number_expected; reading a structure from a value that is not an object returns
object_expected. -/
theorem read_type_mismatch {T : Type} (cast : Nat → T) (e : env) (doc : document)
    (v : value) (s : List Nat) (x : T) (b : Bool) (names : List Nat)
    (fields : List native) :
    (v.is_string = false →
      read_string doc v s = some (⟨error_kind.string_expected, v.loc⟩, s) ∧
      read e doc v (native.string s) =
        some (⟨error_kind.string_expected, v.loc⟩, native.string s)) ∧
    (v.is_number = false →
      read_number cast v x = (⟨error_kind.number_expected, v.loc⟩, x) ∧
      (∀ i, read e doc v (native.int i) =
        some (⟨error_kind.number_expected, v.loc⟩, native.int i)) ∧
      (∀ d, read e doc v (native.double d) =
        some (⟨error_kind.number_expected, v.loc⟩, native.double d))) ∧
    (v.is_boolean = false →
      read_bool v b = (⟨error_kind.number_expected, v.loc⟩, b) ∧
      read e doc v (native.bool b) =
        some (⟨error_kind.number_expected, v.loc⟩, native.bool b)) ∧
    (v.is_object = false →
      read e doc v (native.class_ names fields) =
        some (⟨error_kind.object_expected, v.loc⟩, native.class_ names fields)) := by
  refine ⟨?_, ?_, ?_, ?_⟩
  · intro h
    have h1 : read_string doc v s = some (⟨error_kind.string_expected, v.loc⟩, s) := by
      unfold read_string
      rw [h]
      rfl
    refine ⟨h1, ?_⟩
    rw [read, h1]
    rfl
  · intro h
    have h1 : ∀ {U : Type} (c : Nat → U) (y : U),
        read_number c v y = (⟨error_kind.number_expected, v.loc⟩, y) := by
      intro U c y
      unfold read_number value.try_get_number
      rw [h]
      rfl
    refine ⟨h1 cast x, ?_, ?_⟩
    · intro i
      rw [read, h1]
    · intro d
      rw [read, h1]
  · intro h
    have h1 : read_bool v b = (⟨error_kind.number_expected, v.loc⟩, b) := by
      unfold read_bool
      rw [h]
      rfl
    refine ⟨h1, ?_⟩
    rw [read, h1]
  · intro h
    rw [read, h]
    rfl

theorem read_type_mismatch_witness :
    (value.null.is_string = false ∧
      read example_env example_doc value.null (native.string [97]) =
        some (⟨error_kind.string_expected, ⟨0, 0, 0⟩⟩, native.string [97])) ∧
    (value.null.is_number = false ∧
      read_number size_of_double value.null 7 = (⟨error_kind.number_expected, ⟨0, 0, 0⟩⟩, 7)) ∧
    ((value.of_double 0).is_boolean = false ∧
      read_bool (value.of_double 0) true = (⟨error_kind.number_expected, ⟨0, 0, 0⟩⟩, true)) ∧
    (value.null.is_object = false ∧
      read example_env example_doc value.null (native.class_ [97] [native.bool true]) =
        some (⟨error_kind.object_expected, ⟨0, 0, 0⟩⟩,
          native.class_ [97] [native.bool true])) :=
  ⟨⟨by decide, ((read_type_mismatch size_of_double example_env example_doc value.null [97] 7
      true [97] [native.bool true]).1 (by decide)).2⟩,
    ⟨by decide, ((read_type_mismatch size_of_double example_env example_doc value.null [97] 7
      true [97] [native.bool true]).2.1 (by decide)).1⟩,
    ⟨by decide, ((read_type_mismatch size_of_double example_env example_doc (value.of_double 0)
      [97] 7 true [97] [native.bool true]).2.2.1 (by decide)).1⟩,
    ⟨by decide, (read_type_mismatch size_of_double example_env example_doc value.null [97] 7
      true [97] [native.bool true]).2.2.2 (by decide)⟩⟩

end json5

namespace json5

/-- A walk that ends without an error ends with `{ error::none }`. -/
theorem read_chain_ok (step : Nat → native → Option (error × native)) :
    ∀ (xs : List native) (i : Nat) (r : error × List native),
      read_chain step i xs = some r → r.1.failed = false → r.1 = error.ok := by
  intro xs
  induction xs with
  | nil =>
    intro i r h _
    rw [read_chain] at h
    cases h
    rfl
  | cons x xs ih =>
    intro i r h hok
    rw [read_chain] at h
    cases hs : step i x with
    | none => rw [hs] at h; cases h
    | some rf =>
      rw [hs] at h
      dsimp only at h
      by_cases hf : rf.1.failed = true
      · rw [if_pos hf] at h
        cases h
        rw [hf] at hok
        cases hok
      · rw [if_neg hf] at h
        cases ht : read_chain step (i + 1) xs with
        | none => rw [ht] at h; cases h
        | some rs =>
          rw [ht] at h
          cases h
          exact ih (i + 1) rs ht hok

/-- The walk changes no length. -/
theorem read_chain_length (step : Nat → native → Option (error × native)) :
    ∀ (xs : List native) (i : Nat) (r : error × List native),
      read_chain step i xs = some r → r.2.length = xs.length := by
  intro xs
  induction xs with
  | nil =>
    intro i r h
    rw [read_chain] at h
    cases h
    rfl
  | cons x xs ih =>
    intro i r h
    rw [read_chain] at h
    cases hs : step i x with
    | none => rw [hs] at h; cases h
    | some rf =>
      rw [hs] at h
      dsimp only at h
      by_cases hf : rf.1.failed = true
      · rw [if_pos hf] at h
        cases h
        rfl
      · rw [if_neg hf] at h
        cases ht : read_chain step (i + 1) xs with
        | none => rw [ht] at h; cases h
        | some rs =>
          rw [ht] at h
          cases h
          simp [ih (i + 1) rs ht]

/-- A destination whose step returns it unchanged without an error is unchanged in the
result, whatever the other steps do. -/
theorem read_chain_keep (step : Nat → native → Option (error × native)) :
    ∀ (xs : List native) (i : Nat) (r : error × List native),
      read_chain step i xs = some r →
      ∀ k x, xs.get? k = some x → step (i + k) x = some (error.ok, x) →
        r.2.get? k = some x := by
  intro xs
  induction xs with
  | nil =>
    intro i r _ k x hk
    cases hk
  | cons y xs ih =>
    intro i r h k x hk hstep
    rw [read_chain] at h
    cases hs : step i y with
    | none => rw [hs] at h; cases h
    | some rf =>
      rw [hs] at h
      dsimp only at h
      by_cases hf : rf.1.failed = true
      · rw [if_pos hf] at h
        cases h
        cases k with
        | zero =>
          rw [List.get?_cons_zero] at hk
          cases hk
          rw [Nat.add_zero, hs] at hstep
          cases hstep
          exact absurd hf (show ¬ (error.ok.failed = true) by decide)
        | succ k => exact hk
      · rw [if_neg hf] at h
        cases ht : read_chain step (i + 1) xs with
        | none => rw [ht] at h; cases h
        | some rs =>
          rw [ht] at h
          cases h
          cases k with
          | zero =>
            rw [List.get?_cons_zero] at hk
            cases hk
            rw [Nat.add_zero, hs] at hstep
            cases hstep
            rfl
          | succ k =>
            rw [List.get?_cons_succ] at hk ⊢
            exact ih (i + 1) rs ht k x hk (by rw [Nat.add_assoc, Nat.add_comm 1 k]; exact hstep)

/-- When no step fails the walk returns no error, and every destination holds what its
step left. -/
theorem read_chain_all (step : Nat → native → Option (error × native)) :
    ∀ (xs : List native) (i : Nat),
      (∀ k x, xs.get? k = some x → ∃ rf, step (i + k) x = some rf ∧ rf.1.failed = false) →
      ∃ outs, read_chain step i xs = some (error.ok, outs) ∧ outs.length = xs.length ∧
        ∀ k x, xs.get? k = some x →
          ∃ rf, step (i + k) x = some rf ∧ outs.get? k = some rf.2 := by
  intro xs
  induction xs with
  | nil =>
    intro i _
    exact ⟨[], rfl, rfl, fun k x hk => by cases hk⟩
  | cons y xs ih =>
    intro i h
    obtain ⟨rf, hs, hf⟩ := h 0 y rfl
    obtain ⟨outs, hrun, hlen, hget⟩ := ih (i + 1) (fun k x hk => by
      have := h (k + 1) x (by rw [List.get?_cons_succ]; exact hk)
      rw [Nat.add_assoc, Nat.add_comm 1 k]
      exact this)
    refine ⟨rf.2 :: outs, ?_, by simp [hlen], ?_⟩
    · rw [read_chain]
      rw [Nat.add_zero] at hs
      rw [hs]
      dsimp only
      rw [if_neg (by rw [hf]; decide), hrun]
    · intro k x hk
      cases k with
      | zero =>
        rw [List.get?_cons_zero] at hk
        cases hk
        exact ⟨rf, hs, rfl⟩
      | succ k =>
        rw [List.get?_cons_succ] at hk
        obtain ⟨rf', hs', ho⟩ := hget k x hk
        refine ⟨rf', ?_, by rw [List.get?_cons_succ]; exact ho⟩
        rw [Nat.add_assoc, Nat.add_comm 1 k] at hs'
        exact hs'

/-- The first step that fails ends the walk with its error: the destinations before it
hold what their steps left, the one that failed holds what its step left of it, and those
after it are as they were. -/
theorem read_chain_first (step : Nat → native → Option (error × native)) :
    ∀ (xs : List native) (i j : Nat) (xj : native) (rj : error × native),
      (∀ k x, k < j → xs.get? k = some x →
        ∃ rf, step (i + k) x = some rf ∧ rf.1.failed = false) →
      xs.get? j = some xj → step (i + j) xj = some rj → rj.1.failed = true →
      ∃ outs, read_chain step i xs = some (rj.1, outs) ∧ outs.length = xs.length ∧
        outs.get? j = some rj.2 ∧ (∀ k, j < k → outs.get? k = xs.get? k) ∧
        ∀ k x, k < j → xs.get? k = some x →
          ∃ rf, step (i + k) x = some rf ∧ outs.get? k = some rf.2 := by
  intro xs
  induction xs with
  | nil =>
    intro i j xj rj _ hj
    cases hj
  | cons y xs ih =>
    intro i j xj rj h hj hs hf
    cases j with
    | zero =>
      rw [List.get?_cons_zero] at hj
      cases hj
      rw [Nat.add_zero] at hs
      refine ⟨rj.2 :: xs, ?_, rfl, rfl, ?_, ?_⟩
      · rw [read_chain, hs]
        dsimp only
        rw [if_pos hf]
      · intro k hk
        obtain ⟨k, rfl⟩ : ∃ m, k = m + 1 := ⟨k - 1, by omega⟩
        rfl
      · intro k x hk
        omega
    | succ j =>
      rw [List.get?_cons_succ] at hj
      obtain ⟨rf, hs0, hf0⟩ := h 0 y (Nat.succ_pos j) rfl
      rw [Nat.add_zero] at hs0
      obtain ⟨outs, hrun, hlen, hgj, hafter, hbefore⟩ := ih (i + 1) j xj rj
        (fun k x hk hx => by
          have := h (k + 1) x (by omega) (by rw [List.get?_cons_succ]; exact hx)
          rw [Nat.add_assoc, Nat.add_comm 1 k]
          exact this)
        hj (by rw [Nat.add_assoc, Nat.add_comm 1 j]; exact hs) hf
      refine ⟨rf.2 :: outs, ?_, by simp [hlen], ?_, ?_, ?_⟩
      · rw [read_chain, hs0]
        dsimp only
        rw [if_neg (by rw [hf0]; decide), hrun]
      · rw [List.get?_cons_succ]
        exact hgj
      · intro k hk
        obtain ⟨k, rfl⟩ : ∃ m, k = m + 1 := ⟨k - 1, by omega⟩
        rw [List.get?_cons_succ, List.get?_cons_succ]
        exact hafter k (by omega)
      · intro k x hk hx
        cases k with
        | zero =>
          rw [List.get?_cons_zero] at hx
          cases hx
          exact ⟨rf, by rw [Nat.add_zero]; exact hs0, rfl⟩
        | succ k =>
          rw [List.get?_cons_succ] at hx
          obtain ⟨rf', hs', ho⟩ := hbefore k x (by omega) hx
          refine ⟨rf', ?_, by rw [List.get?_cons_succ]; exact ho⟩
          rw [Nat.add_assoc, Nat.add_comm 1 k] at hs'
          exact hs'

end json5

namespace json5

/-- The loop of `read_array` is the walk whose step is `read( arr[i], out[i] )`. -/
theorem read_items_eq_chain (e : env) (doc : document) (arr : array_view) :
    ∀ (xs : List native) (i : Nat),
      read_items e doc arr i xs = read_chain (read_item e doc arr) i xs := by
  intro xs
  induction xs with
  | nil => intro i; rw [read_items, read_chain]
  | cons x xs ih =>
    intro i
    rw [read_items, read_chain, ih (i + 1)]
    unfold read_item
    cases arr.get e doc i with
    | none => rfl
    | some c => rfl

/-- The named-list reader is the walk whose step reads one field. -/
theorem read_fields_eq_chain (e : env) (doc : document) (obj : object_view)
    (names : List Nat) :
    ∀ (fs : List native) (index : Nat),
      read_fields e doc obj names index fs =
        read_chain (read_field e doc obj names) index fs := by
  intro fs
  induction fs with
  | nil => intro i; rw [read_fields, read_chain]
  | cons f fs ih =>
    intro index
    rw [read_fields, read_chain, ih (index + 1)]
    have hstep : read_field e doc obj names index f =
        (match obj.find e doc (get_name_slice names index).text with
          | Option.none => Option.none
          | some iter =>
            if iter ≠ obj.end_ e then
              match object_view.deref e doc iter with
              | Option.none => Option.none
              | some kv => read e doc kv.2 f
            else some (error.ok, f)) := rfl
    rw [hstep]
    dsimp only
    cases obj.find e doc (get_name_slice names index).text with
    | none => rfl
    | some iter =>
      dsimp only
      have key : ∀ r : Option (error × native),
          (match r with
            | Option.none => Option.none
            | some r =>
              if r.1.failed then some (r.1, r.2 :: fs)
              else
                match read_chain (read_field e doc obj names) (index + 1) fs with
                | Option.none => Option.none
                | some rs => some (if rs.1.failed then rs.1 else error.ok, r.2 :: rs.2)) =
          (match r with
            | Option.none => Option.none
            | some r =>
              if r.1.failed then some (r.1, r.2 :: fs)
              else
                match read_chain (read_field e doc obj names) (index + 1) fs with
                | Option.none => Option.none
                | some rs => some (rs.1, r.2 :: rs.2)) := by
        intro r
        cases r with
        | none => rfl
        | some r =>
          dsimp only
          by_cases hf : r.1.failed = true
          · rw [if_pos hf, if_pos hf]
          · rw [if_neg hf, if_neg hf]
            cases ht : read_chain (read_field e doc obj names) (index + 1) fs with
            | none => rfl
            | some rs =>
              dsimp only
              by_cases hf2 : rs.1.failed = true
              · rw [if_pos hf2]
              · rw [if_neg hf2, read_chain_ok _ fs (index + 1) rs ht (by simpa using hf2)]
      exact key _

end json5

namespace json5

/-- C24: reading a named field list tolerates missing fields. Let the pairs of the source
object be readable. A described field whose name is not a key of the object is left as it
was by its step, which reports no error; it holds its prior value in whatever the reader
returns, also when another field fails; and when no field whose name is a key fails to
read, the reader returns `{ error::none }`, each field holding what its step left of it. -/
theorem read_fields_missing (e : env) (doc : document) (obj : object_view)
    (names : List Nat) (fields : List native) (index : Nat)
    (prs : List (List Nat × value)) (hs : 0 < e.sizeof_value)
    (hp : obj.pairs e doc = some prs) :
    (∀ i f, (∀ pr ∈ prs, pr.1 ≠ (get_name_slice names (index + i)).text) →
      read_field e doc obj names (index + i) f = some (error.ok, f)) ∧
    (∀ r, read_fields e doc obj names index fields = some r →
      r.2.length = fields.length ∧
      ∀ i f, fields.get? i = some f →
        (∀ pr ∈ prs, pr.1 ≠ (get_name_slice names (index + i)).text) →
        r.2.get? i = some f) ∧
    ((∀ i f, fields.get? i = some f →
        (∃ pr ∈ prs, pr.1 = (get_name_slice names (index + i)).text) →
        ∃ rf, read_field e doc obj names (index + i) f = some rf ∧ rf.1.failed = false) →
      ∃ outs, read_fields e doc obj names index fields = some (error.ok, outs) ∧
        outs.length = fields.length ∧
        ∀ i f, fields.get? i = some f →
          ∃ rf, read_field e doc obj names (index + i) f = some rf ∧
            outs.get? i = some rf.2) := by
  have hmiss : ∀ i f, (∀ pr ∈ prs, pr.1 ≠ (get_name_slice names (index + i)).text) →
      read_field e doc obj names (index + i) f = some (error.ok, f) := by
    intro i f h
    unfold read_field
    rw [object_view.find_miss e doc obj _ prs hs hp (Or.inr h)]
    dsimp only
    rw [if_neg (by simp)]
  refine ⟨hmiss, ?_, ?_⟩
  · intro r hr
    rw [read_fields_eq_chain] at hr
    refine ⟨read_chain_length _ fields index r hr, ?_⟩
    intro i f hf h
    exact read_chain_keep _ fields index r hr i f hf (hmiss i f h)
  · intro h
    rw [read_fields_eq_chain]
    apply read_chain_all
    intro k x hk
    by_cases hpres : ∃ pr ∈ prs, pr.1 = (get_name_slice names (index + k)).text
    · exact h k x hk hpres
    · refine ⟨(error.ok, x), hmiss k x ?_, rfl⟩
      intro pr hpr heq
      exact hpres ⟨pr, hpr, heq⟩

theorem read_fields_missing_witness :
    object_view.of_value example_env two_key_doc two_key_doc.to_value = some ⟨8216, 2⟩ ∧
    (get_name_slice (bytes "c, b") 0).text = bytes "c" ∧
    ∃ x, read_fields example_env two_key_doc ⟨8216, 2⟩ (bytes "c, b") 0
        [native.int 7, native.bool true] = some (error.ok, [native.int 7, x]) ∧
      ([native.int 7, x] : List native).get? 0 = some (native.int 7) :=
  ⟨by decide, by decide, native.bool false, rfl,
    ((read_fields_missing example_env two_key_doc ⟨8216, 2⟩ (bytes "c, b")
      [native.int 7, native.bool true] 0
      [([97], value.of_bool true), ([98], value.of_bool false)] (by decide) (by decide)).2.1
      (error.ok, [native.int 7, native.bool false]) rfl).2 0 (native.int 7) rfl
      (by decide)⟩

end json5

namespace json5

end json5

namespace json5

end json5

namespace json5

/-- C25: reading an array of a fixed number N of elements. From a value that is not an array
`array_expected` is returned, with the location of the value; from an array whose size is
not N `wrong_array_size` is returned, with the location of the value, and no element is
written. From an array of size N the elements are read in order, the element `k` from
`arr[k]`: when no read fails `{ error::none }` is returned and every element holds what
was read into it; otherwise the error of the first read that fails is returned, the
elements before holding what was read into them and the elements after being as they
were. -/
theorem read_array_checks (e : env) (doc : document) (v : value) (items : List native) :
    (v.is_array = false →
      read e doc v (native.array items) =
        some (⟨error_kind.array_expected, v.loc⟩, native.array items)) ∧
    (∀ arr, v.is_array = true → array_view.of_value e doc v = some arr →
      (arr.size ≠ items.length →
        read e doc v (native.array items) =
          some (⟨error_kind.wrong_array_size, v.loc⟩, native.array items)) ∧
      (arr.size = items.length →
        ((∀ k x, items.get? k = some x →
            ∃ rf, read_item e doc arr k x = some rf ∧ rf.1.failed = false) →
          ∃ outs, read e doc v (native.array items) = some (error.ok, native.array outs) ∧
            outs.length = items.length ∧
            ∀ k x, items.get? k = some x →
              ∃ rf, read_item e doc arr k x = some rf ∧ outs.get? k = some rf.2) ∧
        (∀ j xj rj,
          (∀ k x, k < j → items.get? k = some x →
            ∃ rf, read_item e doc arr k x = some rf ∧ rf.1.failed = false) →
          items.get? j = some xj → read_item e doc arr j xj = some rj →
          rj.1.failed = true →
          ∃ outs, read e doc v (native.array items) = some (rj.1, native.array outs) ∧
            outs.length = items.length ∧ outs.get? j = some rj.2 ∧
            (∀ k, j < k → outs.get? k = items.get? k) ∧
            ∀ k x, k < j → items.get? k = some x →
              ∃ rf, read_item e doc arr k x = some rf ∧ outs.get? k = some rf.2))) := by
  constructor
  · intro h
    rw [read, h]
    rfl
  · intro arr hv harr
    have hunfold : read e doc v (native.array items) =
        if arr.size ≠ items.length then
          some (⟨error_kind.wrong_array_size, v.loc⟩, native.array items)
        else (read_chain (read_item e doc arr) 0 items).map
          (fun r => (r.1, native.array r.2)) := by
      rw [read, hv, harr, ← read_items_eq_chain]
      rfl
    refine ⟨fun hne => by rw [hunfold, if_pos hne], fun heq => ⟨?_, ?_⟩⟩
    · intro hall
      obtain ⟨outs, hrun, hlen, hget⟩ := read_chain_all (read_item e doc arr) items 0
        (fun k x hk => by rw [Nat.zero_add]; exact hall k x hk)
      refine ⟨outs, ?_, hlen, ?_⟩
      · rw [hunfold, if_neg (by simp [heq]), hrun]
        rfl
      · intro k x hk
        have := hget k x hk
        rw [Nat.zero_add] at this
        exact this
    · intro j xj rj hbefore hj hs hf
      obtain ⟨outs, hrun, hlen, hgj, hafter, hget⟩ :=
        read_chain_first (read_item e doc arr) items 0 j xj rj
          (fun k x hk hx => by rw [Nat.zero_add]; exact hbefore k x hk hx) hj
          (by rw [Nat.zero_add]; exact hs) hf
      refine ⟨outs, ?_, hlen, hgj, hafter, ?_⟩
      · rw [hunfold, if_neg (by simp [heq]), hrun]
        rfl
      · intro k x hk hx
        have := hget k x hk hx
        rw [Nat.zero_add] at this
        exact this

theorem read_array_checks_witness :
    (value.null.is_array = false ∧
      read example_env one_item_doc value.null (native.array [native.bool false]) =
        some (⟨error_kind.array_expected, ⟨0, 0, 0⟩⟩, native.array [native.bool false])) ∧
    (one_item_doc.to_value.is_array = true ∧
      array_view.of_value example_env one_item_doc one_item_doc.to_value = some ⟨8216, 1⟩ ∧
      read example_env one_item_doc one_item_doc.to_value
          (native.array [native.bool false, native.bool false]) =
        some (⟨error_kind.wrong_array_size, one_item_doc.to_value.loc⟩,
          native.array [native.bool false, native.bool false])) :=
  ⟨⟨by decide, (read_array_checks example_env one_item_doc value.null
      [native.bool false]).1 (by decide)⟩,
    ⟨by decide, by decide,
      ((read_array_checks example_env one_item_doc one_item_doc.to_value
        [native.bool false, native.bool false]).2 ⟨8216, 1⟩ (by decide) (by decide)).1
        (by decide)⟩⟩

end json5

namespace json5

end json5

namespace json5

end json5

namespace json5

namespace parser

/-- The iterations of the object loop read on and leave the open frames alone. -/
theorem object_steps_frame (e : env) (c0 : Bool) (p0 : parser) (c : Bool) (p : parser)
    (h : object_steps e c0 p0 c p) : p0.reads p ∧ p.stack = p0.stack := by
  induction h with
  | start => exact ⟨reads_refl _, rfl⟩
  | comma p1 _ _ _ ih =>
    refine ⟨reads_trans ih.1 (reads_trans (peek_next_token_scans p1 _).1 (reads_next _)), ?_⟩
    rw [stack_of_tobuilder (next_tobuilder _),
      stack_of_tobuilder (peek_next_token_tobuilder _ _)]
    exact ih.2
  | entry p1 n r _ _ _ _ _ _ hv hok ih =>
    have hvn := parse_value_nests e n _ _ _ hv
    refine ⟨reads_trans ih.1 (reads_trans (peek_next_token_scans p1 _).1
      (reads_trans (parse_identifier_scans _).1
        (reads_trans (peek_next_token_scans _ _).1 (reads_trans (reads_next _) hvn.reads)))), ?_⟩
    show r.2.2.stack = p0.stack
    rw [(hvn.frames (by simp [hok])).1, stack_of_tobuilder (next_tobuilder _),
      stack_of_tobuilder (peek_next_token_tobuilder _ _), parse_identifier_stack,
      stack_of_tobuilder (peek_next_token_tobuilder _ _)]
    exact ih.2

/-- What the object loop returns from a later iteration it returns from the first. -/
theorem object_steps_link (e : env) (c0 : Bool) (p0 : parser) (c : Bool) (p : parser)
    (h : object_steps e c0 p0 c p) :
    ∀ k r, parse_object_loop e k c p = some r → ∃ k', parse_object_loop e k' c0 p0 = some r := by
  induction h with
  | start => exact fun k r hr => ⟨k, hr⟩
  | comma p1 _ ht1 ht2 ih =>
    intro k r hr
    apply ih (k + 1) r
    rw [parse_object_loop, if_neg (not_eof_of_token p1 _ ht1)]
    dsimp only
    rw [if_neg (ok_of_not_failed _ ht1), ht2, if_neg (by decide), if_neg (by decide),
      if_pos rfl, if_neg (by simp)]
    exact hr
  | entry p1 n rv _ ht1 hkey hid ht2 hcol hv hok ih =>
    intro k r hr
    apply ih (max k n + 1) r
    rw [parse_object_loop, if_neg (not_eof_of_token p1 _ ht1)]
    dsimp only
    rw [if_neg (ok_of_not_failed _ ht1), if_pos hkey, if_neg (by simp),
      if_neg (ok_of_not_failed _ hid), if_neg (ok_of_not_failed _ ht2),
      if_neg (by rw [hcol]; simp),
      parse_value_mono e n (max k n) (le_max_right _ _) _ _ _ hv]
    dsimp only
    rw [if_neg (ok_of_not_failed _ hok)]
    exact parse_object_loop_mono e k (max k n) (le_max_left _ _) _ _ _ hr

end parser

end json5

namespace json5

namespace parser

/-- The iterations of the object loop do not depend on the end of the text: the last `n`
bytes, none of them read yet, may be replaced by bytes at which a number stops. -/
theorem object_steps_resuffix (e : env) (n : Nat) (s : List Nat) (hn : 0 < n)
    (hs : stops_number s) (c0 : Bool) (p0 : parser) (c : Bool) (p : parser)
    (h : object_steps e c0 p0 c p) (hle : n ≤ p.input.length) :
    object_steps e c0 (p0.resuffix n s) c (p.resuffix n s) := by
  induction h with
  | start => exact object_steps.start
  | comma p1 hprev ht1 ht2 ih =>
    have hne := token_state_nonempty p1 _ ht1 (by rw [ht2]; decide)
    have h1 := next_shorter _ hne
    have hstrict : n < (p1.peek_next_token token_type.unknown).2.2.input.length := by omega
    have h2 := reads_length (peek_next_token_scans p1 token_type.unknown).1
    have hT := peek_next_token_resuffix n s p1 token_type.unknown hstrict
    have := object_steps.comma (p1.resuffix n s) (ih (by omega)) (by rw [hT]; exact ht1)
      (by rw [hT]; exact ht2)
    rw [hT] at this
    dsimp only at this
    rw [resuffix_next _ n s hstrict] at this
    exact this
  | entry p1 m r hprev ht1 hkey hid ht2 hcol hv hok ih =>
    have hle' : n ≤ r.2.2.input.length := hle
    have hvr := value_reads e m _ _ _ hv hok
    have hne : (((p1.peek_next_token token_type.unknown).2.2.parse_identifier.2.2.peek_next_token
        (p1.peek_next_token token_type.unknown).2.1).2.2.next.2.peek_next_token
        token_type.unknown).2.2.input ≠ [] := by
      intro h0
      have h0' : (((p1.peek_next_token token_type.unknown).2.2.parse_identifier.2.2.peek_next_token
          (p1.peek_next_token token_type.unknown).2.1).2.2.next.2.peek_next_token
          token_type.unknown).2.2.input.length = 0 := by rw [h0]; rfl
      have := hvr.1
      omega
    have h3 := hvr.2 hne
    have h4 := reads_length (peek_next_token_scans
      ((p1.peek_next_token token_type.unknown).2.2.parse_identifier.2.2.peek_next_token
        (p1.peek_next_token token_type.unknown).2.1).2.2.next.2 token_type.unknown).1
    have hne2 := token_state_nonempty (p1.peek_next_token token_type.unknown).2.2.parse_identifier.2.2
      (p1.peek_next_token token_type.unknown).2.1 ht2 (by rw [hcol]; decide)
    have h5 := next_shorter _ hne2
    have h6 := reads_length (peek_next_token_scans
      (p1.peek_next_token token_type.unknown).2.2.parse_identifier.2.2
      (p1.peek_next_token token_type.unknown).2.1).1
    have h7 := reads_length (parse_identifier_scans (p1.peek_next_token token_type.unknown).2.2).1
    have h8 := reads_length (peek_next_token_scans p1 token_type.unknown).1
    have hX : n < ((p1.peek_next_token token_type.unknown).2.2.parse_identifier.2.2.peek_next_token
        (p1.peek_next_token token_type.unknown).2.1).2.2.input.length := by omega
    have hK : n < (p1.peek_next_token token_type.unknown).2.2.parse_identifier.2.2.input.length := by
      omega
    have hT1 : n < (p1.peek_next_token token_type.unknown).2.2.input.length := by omega
    have eT := peek_next_token_resuffix n s p1 token_type.unknown hT1
    have eK := parse_identifier_resuffix n s (p1.peek_next_token token_type.unknown).2.2 hK
    have eX := peek_next_token_resuffix n s
      (p1.peek_next_token token_type.unknown).2.2.parse_identifier.2.2
      (p1.peek_next_token token_type.unknown).2.1 hX
    have eN := resuffix_next
      ((p1.peek_next_token token_type.unknown).2.2.parse_identifier.2.2.peek_next_token
        (p1.peek_next_token token_type.unknown).2.1).2.2 n s hX
    have hV := (local_all e n s m).1 _ _ _ hv hok hle' (by omega) (Or.inr (Or.inl hs))
    have e1 : ((p1.resuffix n s).peek_next_token token_type.unknown).2.2.parse_identifier =
        ((p1.peek_next_token token_type.unknown).2.2.parse_identifier.1,
          (p1.peek_next_token token_type.unknown).2.2.parse_identifier.2.1,
          (p1.peek_next_token token_type.unknown).2.2.parse_identifier.2.2.resuffix n s) := by
      rw [eT]
      exact eK
    have e0 : ((p1.resuffix n s).peek_next_token token_type.unknown).2.1 =
        (p1.peek_next_token token_type.unknown).2.1 := by rw [eT]
    have e2 : (((p1.resuffix n s).peek_next_token
          token_type.unknown).2.2.parse_identifier.2.2.peek_next_token
          ((p1.resuffix n s).peek_next_token token_type.unknown).2.1) =
        (((p1.peek_next_token token_type.unknown).2.2.parse_identifier.2.2.peek_next_token
            (p1.peek_next_token token_type.unknown).2.1).1,
          ((p1.peek_next_token token_type.unknown).2.2.parse_identifier.2.2.peek_next_token
            (p1.peek_next_token token_type.unknown).2.1).2.1,
          ((p1.peek_next_token token_type.unknown).2.2.parse_identifier.2.2.peek_next_token
            (p1.peek_next_token token_type.unknown).2.1).2.2.resuffix n s) := by
      rw [e1, e0]
      exact eX
    have e3 : (((p1.resuffix n s).peek_next_token
          token_type.unknown).2.2.parse_identifier.2.2.peek_next_token
          ((p1.resuffix n s).peek_next_token token_type.unknown).2.1).2.2.next.2 =
        ((p1.peek_next_token token_type.unknown).2.2.parse_identifier.2.2.peek_next_token
          (p1.peek_next_token token_type.unknown).2.1).2.2.next.2.resuffix n s := by
      rw [e2]
      dsimp only
      rw [eN]
    have := object_steps.entry (p1.resuffix n s) m (r.1, r.2.1, r.2.2.resuffix n s)
      (ih (by omega)) (by rw [eT]; exact ht1) (by rw [e0]; exact hkey)
      (by rw [e1]; exact hid) (by rw [e2]; exact ht2) (by rw [e2]; exact hcol)
      (by rw [e3]; exact hV) hok
    rw [e1, eT] at this
    exact this

end parser

end json5

namespace json5

namespace parser

/-- The root call of `parse_value` on a text whose first token is an opening bracket, once
the loop of the root array has returned without an error. -/
theorem root_array_value (e : env) (t : List Nat) (doc : document) (k : Nat) (Q : parser)
    (h1 : ((start t doc).peek_next_token token_type.unknown).1.failed = false)
    (h2 : ((start t doc).peek_next_token token_type.unknown).2.1 = token_type.array_begin)
    (hloop : parse_array_loop e k false (root_loop t doc true) = some (error.ok, Q)) :
    parse_value e (k + 1 + 1) (start t doc).doc.to_value (start t doc) =
      some (error.ok,
        { (Q.tobuilder.pop e).1 with
          loc := ((start t doc).peek_next_token token_type.unknown).2.2.loc },
        { Q with tobuilder := (Q.tobuilder.pop e).2 }) := by
  unfold root_loop at hloop
  dsimp only at hloop
  rw [if_pos rfl] at hloop
  rw [parse_value]
  generalize (start t doc).peek_next_token token_type.unknown = T at h1 h2 hloop ⊢
  obtain ⟨terr, tt, p1⟩ := T
  dsimp only at h1 h2 hloop ⊢
  subst h2
  rw [if_neg (ok_of_not_failed _ h1)]
  dsimp only
  rw [parse_array, hloop]
  dsimp only
  rw [if_neg (by decide)]

/-- The root call of `parse_value` on a text whose first token is an opening brace, once
the loop of the root object has returned without an error. -/
theorem root_object_value (e : env) (t : List Nat) (doc : document) (k : Nat) (Q : parser)
    (h1 : ((start t doc).peek_next_token token_type.unknown).1.failed = false)
    (h2 : ((start t doc).peek_next_token token_type.unknown).2.1 = token_type.object_begin)
    (hloop : parse_object_loop e k false (root_loop t doc false) = some (error.ok, Q)) :
    parse_value e (k + 1 + 1) (start t doc).doc.to_value (start t doc) =
      some (error.ok,
        { (Q.tobuilder.pop e).1 with
          loc := ((start t doc).peek_next_token token_type.unknown).2.2.loc },
        { Q with tobuilder := (Q.tobuilder.pop e).2 }) := by
  unfold root_loop at hloop
  dsimp only at hloop
  rw [if_neg (by decide)] at hloop
  rw [parse_value]
  generalize (start t doc).peek_next_token token_type.unknown = T at h1 h2 hloop ⊢
  obtain ⟨terr, tt, p1⟩ := T
  dsimp only at h1 h2 hloop ⊢
  subst h2
  rw [if_neg (ok_of_not_failed _ h1)]
  dsimp only
  rw [parse_object, hloop]
  dsimp only
  rw [if_neg (by decide)]

/-- Two texts whose root calls return the same value and leave the same document parse to
the same document. -/
theorem from_string_same_root (e : env) (doc : document) (t t' : List Nat) (d : document)
    (k1 k2 : Nat) (v1 : value) (q1 q2 : parser)
    (h : from_string e t doc = some (error.ok, d))
    (hval : parse_value e k1 (start t doc).doc.to_value (start t doc) = some (error.ok, v1, q1))
    (hval' : parse_value e k2 (start t' doc).doc.to_value (start t' doc) =
      some (error.ok, v1, q2))
    (hdoc : q2.doc = q1.doc) :
    from_string e t' doc = some (error.ok, d) := by
  obtain ⟨v, q, hpv, hv, hd⟩ := from_string_ok_root e t doc d h
  have m1 := parse_value_mono e _ (max k1 (3 * t.length + 1)) (le_max_left _ _) _ _ _ hval
  have m2 := parse_value_mono e _ (max k1 (3 * t.length + 1)) (le_max_right _ _) _ _ _ hpv
  rw [m1] at m2
  have heq : (error.ok, v1, q1) = (error.ok, v, q) := Option.some.inj m2
  have hv1 : v1 = v := by
    have := congrArg (fun x : error × value × parser => x.2.1) heq
    exact this
  have hq1 : q1 = q := by
    have := congrArg (fun x : error × value × parser => x.2.2) heq
    exact this
  subst hv1 hq1
  rw [from_string_of_root_ok e t' doc k2 v1 q2 hval' hv, hd, hdoc]

end parser

end json5

namespace json5

theorem resuffix_all_of_length (s l : List Nat) : resuffix l.length s l = s := by
  simp [resuffix]

theorem resuffix_append (body tail s : List Nat) :
    resuffix tail.length s (body ++ tail) = body ++ s := by
  simp [resuffix]

namespace parser

/-- The parser at the start of a text whose end is replaced, the text being non-empty before
and after. -/
theorem start_resuffix_tail (body tail s : List Nat) (doc : document) (ht : tail ≠ [])
    (hs : s ≠ []) :
    start (body ++ s) doc = (start (body ++ tail) doc).resuffix tail.length s := by
  unfold start parser.resuffix
  dsimp only
  rw [resuffix_append]
  have h1 : body ++ s ≠ [] := by simp [hs]
  have h2 : body ++ tail ≠ [] := by simp [ht]
  rw [if_pos h1, if_pos h2]

/-- The loop of the root container is entered at the same parser, up to the end of the
text, when the end of the text is replaced behind the opening bracket. -/
theorem root_loop_resuffix (body tail s : List Nat) (doc : document) (array : Bool)
    (ht : tail ≠ []) (hs : s ≠ [])
    (hlt : tail.length < (root_loop (body ++ tail) doc array).input.length + 1)
    (hne : ((start (body ++ tail) doc).peek_next_token token_type.unknown).2.2.input ≠ []) :
    ((start (body ++ s) doc).peek_next_token token_type.unknown).1 =
        ((start (body ++ tail) doc).peek_next_token token_type.unknown).1 ∧
      ((start (body ++ s) doc).peek_next_token token_type.unknown).2.1 =
        ((start (body ++ tail) doc).peek_next_token token_type.unknown).2.1 ∧
      ((start (body ++ s) doc).peek_next_token token_type.unknown).2.2.loc =
        ((start (body ++ tail) doc).peek_next_token token_type.unknown).2.2.loc ∧
      root_loop (body ++ s) doc array =
        (root_loop (body ++ tail) doc array).resuffix tail.length s := by
  have h0 : (root_loop (body ++ tail) doc array).input.length <
      ((start (body ++ tail) doc).peek_next_token token_type.unknown).2.2.input.length := by
    unfold root_loop
    exact next_shorter _ hne
  have hlt' : tail.length <
      ((start (body ++ tail) doc).peek_next_token token_type.unknown).2.2.input.length := by
    omega
  have eT := peek_next_token_resuffix tail.length s (start (body ++ tail) doc)
    token_type.unknown hlt'
  rw [← start_resuffix_tail body tail s doc ht hs] at eT
  refine ⟨by rw [eT], by rw [eT], by rw [eT]; rfl, ?_⟩
  unfold root_loop
  dsimp only
  rw [eT]
  dsimp only
  exact congrArg Prod.snd (resuffix_next
    { ((start (body ++ tail) doc).peek_next_token token_type.unknown).2.2 with
      tobuilder := if array = true then
        ((start (body ++ tail) doc).peek_next_token token_type.unknown).2.2.tobuilder.push_array
        else
        ((start (body ++ tail) doc).peek_next_token
          token_type.unknown).2.2.tobuilder.push_object }
    tail.length s hlt')

end parser

end json5

namespace json5

namespace parser

/-- An iteration of the array loop whose next token is the closing bracket. -/
theorem parse_array_loop_close (e : env) (c : Bool) (p : parser)
    (h1 : (p.peek_next_token token_type.unknown).1.failed = false)
    (h2 : (p.peek_next_token token_type.unknown).2.1 = token_type.array_end) :
    parse_array_loop e 1 c p =
      some (error.ok, (p.peek_next_token token_type.unknown).2.2.next.2) := by
  rw [parse_array_loop, if_neg (not_eof_of_token p _ h1)]
  dsimp only
  rw [if_neg (ok_of_not_failed _ h1), if_pos h2]

/-- An iteration of the object loop whose next token is the closing brace. -/
theorem parse_object_loop_close (e : env) (c : Bool) (p : parser)
    (h1 : (p.peek_next_token token_type.unknown).1.failed = false)
    (h2 : (p.peek_next_token token_type.unknown).2.1 = token_type.object_end) :
    parse_object_loop e 1 c p =
      some (error.ok, (p.peek_next_token token_type.unknown).2.2.next.2) := by
  rw [parse_object_loop, if_neg (not_eof_of_token p _ h1)]
  dsimp only
  rw [if_neg (ok_of_not_failed _ h1), h2, if_neg (by decide), if_pos rfl]

/-- The token met after a comma put in front of a closing bracket: the parser stands at the
comma, with the closing bracket `c` and `rest` behind it. -/
theorem after_inserted_comma (q : parser) (c : Nat) (rest : List Nat)
    (hc : token_start c = true) (hq : q.input = 44 :: c :: rest) :
    (q.next.2.peek_next_token token_type.unknown).1.failed = false ∧
    (q.next.2.peek_next_token token_type.unknown).2.1 = token_class token_type.unknown c ∧
    (q.next.2.peek_next_token token_type.unknown).2.2.tobuilder = q.tobuilder := by
  have hin : q.next.2.input = [] ++ c :: rest := by
    rw [next_cons q 44 (c :: rest) hq]
    rfl
  have h3 := (peek_next_token_tobuilder q.next.2 token_type.unknown).trans (next_tobuilder q)
  refine ⟨?_, ?_, h3⟩
  · rw [peek_next_token_spaces q.next.2 _ [] c rest hin (by simp) hc]
    rfl
  · rw [peek_next_token_spaces q.next.2 _ [] c rest hin (by simp) hc]

end parser

end json5

namespace json5

namespace parser

/-- A comma put in front of the closing bracket of a root array that ends after an element
changes nothing in the document that the text parses to. -/
theorem trailing_comma_array (e : env) (doc : document) (body rest : List Nat)
    (d : document) (h : from_string e (body ++ 93 :: rest) doc = some (error.ok, d))
    (hc : closes_array e doc body rest) :
    from_string e (body ++ 44 :: 93 :: rest) doc = some (error.ok, d) := by
  obtain ⟨h1, h2, p, hsteps, hp1, hp2, hp3⟩ := hc
  have hs : stops_number (44 :: 93 :: rest) := ⟨44, _, rfl, by decide⟩
  have hlenT : (p.peek_next_token token_type.unknown).2.2.input.length =
      (93 :: rest).length := by rw [hp3]
  have hpT := reads_length (peek_next_token_scans p token_type.unknown).1
  have hfr := array_steps_frame e false _ true p hsteps
  have hp0 := reads_length hfr.1
  have hne0 := token_state_nonempty (start (body ++ 93 :: rest) doc) token_type.unknown h1
    (by rw [h2]; decide)
  obtain ⟨r1, r2, r3, r4⟩ := root_loop_resuffix body (93 :: rest) (44 :: 93 :: rest) doc true
    (by simp) (by simp) (by omega) hne0
  -- the text with the comma
  have hst' := array_steps_resuffix e (93 :: rest).length (44 :: 93 :: rest) (by simp) hs
    false _ true p hsteps (by omega)
  have eB := peek_next_token_boundary (93 :: rest).length (93 :: rest) (by simp) p
    token_type.unknown hp1 hlenT (Or.inl hp2)
  have hstep2 := array_steps.comma (p.resuffix (93 :: rest).length (44 :: 93 :: rest)) hst'
    (by rw [eB]; rfl) (by rw [eB])
  rw [eB] at hstep2
  dsimp only at hstep2
  have hq : ((p.peek_next_token token_type.unknown).2.2.resuffix (93 :: rest).length
      (44 :: 93 :: rest)).input = 44 :: 93 :: rest := by
    rw [resuffix_input, ← hlenT, resuffix_all_of_length]
  obtain ⟨a1, a2, a3⟩ := after_inserted_comma _ 93 rest (by decide) hq
  have hloop2 := parse_array_loop_close e false _ a1 (by rw [a2]; decide)
  obtain ⟨k', hk'⟩ := array_steps_link e false _ false _ hstep2 1 _ hloop2
  rw [← r4] at hk'
  have hval' := root_array_value e (body ++ 44 :: 93 :: rest) doc k' _ (by rw [r1]; exact h1)
    (by rw [r2]; exact h2) hk'
  -- the text as it is
  have hloop1 := parse_array_loop_close e true p hp1 hp2
  obtain ⟨k, hk⟩ := array_steps_link e false _ true p hsteps 1 _ hloop1
  have hval := root_array_value e (body ++ 93 :: rest) doc k _ h1 h2 hk
  -- the two builders are the same
  have hb : (((p.peek_next_token token_type.unknown).2.2.resuffix (93 :: rest).length
      (44 :: 93 :: rest)).next.2.peek_next_token token_type.unknown).2.2.next.2.tobuilder =
      (p.peek_next_token token_type.unknown).2.2.next.2.tobuilder := by
    rw [next_tobuilder, a3, next_tobuilder]
    rfl
  rw [r3, hb] at hval'
  exact from_string_same_root e doc _ _ d _ _ _ _ _ h hval hval' rfl

/-- A comma put in front of the closing brace of a root object that ends after an entry
changes nothing in the document that the text parses to. -/
theorem trailing_comma_object (e : env) (doc : document) (body rest : List Nat)
    (d : document) (h : from_string e (body ++ 125 :: rest) doc = some (error.ok, d))
    (hc : closes_object e doc body rest) :
    from_string e (body ++ 44 :: 125 :: rest) doc = some (error.ok, d) := by
  obtain ⟨h1, h2, p, hsteps, hp1, hp2, hp3⟩ := hc
  have hs : stops_number (44 :: 125 :: rest) := ⟨44, _, rfl, by decide⟩
  have hlenT : (p.peek_next_token token_type.unknown).2.2.input.length =
      (125 :: rest).length := by rw [hp3]
  have hpT := reads_length (peek_next_token_scans p token_type.unknown).1
  have hfr := object_steps_frame e false _ true p hsteps
  have hp0 := reads_length hfr.1
  have hne0 := token_state_nonempty (start (body ++ 125 :: rest) doc) token_type.unknown h1
    (by rw [h2]; decide)
  obtain ⟨r1, r2, r3, r4⟩ := root_loop_resuffix body (125 :: rest) (44 :: 125 :: rest) doc
    false (by simp) (by simp) (by omega) hne0
  have hst' := object_steps_resuffix e (125 :: rest).length (44 :: 125 :: rest) (by simp) hs
    false _ true p hsteps (by omega)
  have eB := peek_next_token_boundary (125 :: rest).length (125 :: rest) (by simp) p
    token_type.unknown hp1 hlenT (Or.inr hp2)
  have hstep2 := object_steps.comma (p.resuffix (125 :: rest).length (44 :: 125 :: rest))
    hst' (by rw [eB]; rfl) (by rw [eB])
  rw [eB] at hstep2
  dsimp only at hstep2
  have hq : ((p.peek_next_token token_type.unknown).2.2.resuffix (125 :: rest).length
      (44 :: 125 :: rest)).input = 44 :: 125 :: rest := by
    rw [resuffix_input, ← hlenT, resuffix_all_of_length]
  obtain ⟨a1, a2, a3⟩ := after_inserted_comma _ 125 rest (by decide) hq
  have hloop2 := parse_object_loop_close e false _ a1 (by rw [a2]; decide)
  obtain ⟨k', hk'⟩ := object_steps_link e false _ false _ hstep2 1 _ hloop2
  rw [← r4] at hk'
  have hval' := root_object_value e (body ++ 44 :: 125 :: rest) doc k' _
    (by rw [r1]; exact h1) (by rw [r2]; exact h2) hk'
  have hloop1 := parse_object_loop_close e true p hp1 hp2
  obtain ⟨k, hk⟩ := object_steps_link e false _ true p hsteps 1 _ hloop1
  have hval := root_object_value e (body ++ 125 :: rest) doc k _ h1 h2 hk
  have hb : (((p.peek_next_token token_type.unknown).2.2.resuffix (125 :: rest).length
      (44 :: 125 :: rest)).next.2.peek_next_token token_type.unknown).2.2.next.2.tobuilder =
      (p.peek_next_token token_type.unknown).2.2.next.2.tobuilder := by
    rw [next_tobuilder, a3, next_tobuilder]
    rfl
  rw [r3, hb] at hval'
  exact from_string_same_root e doc _ _ d _ _ _ _ _ h hval hval' rfl

end parser

end json5

namespace json5

/-- C3, as it holds: one trailing comma is tolerated, a second one is not. The text
`[true,]` parses to an array of size 1, a non-empty container; with one more comma put
immediately before its closing bracket, `[true,,]`, it is rejected with a syntax error at
the second comma. -/
theorem from_string_second_comma_rejected :
    (∃ d a, from_string example_env (bytes "[true,]") example_doc = some (error.ok, d) ∧
      array_view.of_value example_env d d.to_value = some a ∧ a.size = 1) ∧
    (from_string example_env (bytes "[true,,]") example_doc).map Prod.fst =
      some ⟨error_kind.syntax_error, ⟨1, 7, 6⟩⟩ :=
  ⟨⟨_, _, rfl, rfl, rfl⟩, rfl⟩

/-- C3, amended: a trailing comma is tolerated after an element. Let a text parse without
error, its root array (object) being closed by the bracket (brace) that follows `body`,
which the loop meets after an element (an entry), not after a comma. Then the text with one
comma put immediately before that closing bracket parses without error too, and to the same
document, so to a container of the same size. -/
theorem from_string_trailing_comma (e : env) (doc : document) (body rest : List Nat)
    (d : document) :
    (from_string e (body ++ 93 :: rest) doc = some (error.ok, d) →
      parser.closes_array e doc body rest →
      from_string e (body ++ 44 :: 93 :: rest) doc = some (error.ok, d)) ∧
    (from_string e (body ++ 125 :: rest) doc = some (error.ok, d) →
      parser.closes_object e doc body rest →
      from_string e (body ++ 44 :: 125 :: rest) doc = some (error.ok, d)) :=
  ⟨parser.trailing_comma_array e doc body rest d,
    parser.trailing_comma_object e doc body rest d⟩

/-- The root object of the text `{a:1, b:2}` is closed after its second entry. -/
theorem example_closes_object :
    parser.closes_object example_env example_doc (bytes "\x7ba:1, b:2") [] := by
  have s1 := @parser.object_steps.entry example_env false
    (parser.root_loop (bytes "\x7ba:1, b:2\x7d") example_doc false)
    (parser.root_loop (bytes "\x7ba:1, b:2\x7d") example_doc false) 1 _
    parser.object_steps.start rfl (Or.inl rfl) rfl rfl rfl rfl rfl
  have s2 := parser.object_steps.comma _ s1 rfl rfl
  have s3 := parser.object_steps.entry _ 1 _ s2 rfl (Or.inl rfl) rfl rfl rfl rfl rfl
  exact ⟨rfl, rfl, _, s3, rfl, rfl, rfl⟩

/-- A result without an error is a result with the document it carries. -/
theorem result_of_no_error (r : Option (error × document))
    (h : r.map Prod.fst = some error.ok) :
    r = some (error.ok, match r with
      | some x => x.2
      | Option.none => example_doc) := by
  cases r with
  | none => cases h
  | some x =>
    obtain ⟨x1, x2⟩ := x
    simp only [Option.map_some', Option.some.injEq] at h
    subst h
    rfl

theorem from_string_trailing_comma_witness :
    bytes "\x7ba:1, b:2" ++ 44 :: 125 :: [] = bytes "\x7ba:1, b:2,\x7d" ∧
    from_string example_env (bytes "\x7ba:1, b:2" ++ 44 :: 125 :: []) example_doc =
      some (error.ok, two_entry_doc) ∧
    (object_view.of_value example_env two_entry_doc two_entry_doc.to_value).map
      object_view.size = some 2 :=
  ⟨by decide,
    (from_string_trailing_comma example_env example_doc (bytes "\x7ba:1, b:2") []
      two_entry_doc).2
      (result_of_no_error (from_string example_env (bytes "\x7ba:1, b:2\x7d") example_doc) rfl)
      example_closes_object,
    rfl⟩

end json5

namespace json5

/-! ## The type of a cell and the type predicates -/

theorem value.type_number_iff (v : value) : v.type = value_type.number ↔ v.is_number = true := by
  unfold value.type value.is_number
  rw [decide_eq_true_eq]
  by_cases h : v.data &&& mask_nanbits ≠ mask_nanbits
  · rw [if_pos h]; simp [h]
  · rw [if_neg h]
    constructor
    · intro hc
      split at hc
      · cases hc
      · split at hc
        · cases hc
        · split at hc
          · cases hc
          · split at hc <;> cases hc
    · intro hc; exact absurd hc h

theorem value.nanbits_of_tag (v : value) (t : Nat) (ht : t &&& mask_nanbits = mask_nanbits)
    (h : v.data &&& mask_type = t) : ¬ (v.data &&& mask_nanbits ≠ mask_nanbits) := by
  rw [nanbits_of_mask_type, h, ht]
  simp

theorem value.type_object_iff (v : value) : v.type = value_type.object ↔ v.is_object = true := by
  unfold value.type value.is_object
  rw [decide_eq_true_eq]
  constructor
  · intro hc
    by_cases h : v.data &&& mask_type = type_object
    · exact h
    · exfalso
      rw [if_neg h] at hc
      split at hc
      · cases hc
      · split at hc
        · cases hc
        · split at hc
          · cases hc
          · split at hc <;> cases hc
  · intro h
    rw [if_neg (value.nanbits_of_tag v _ (by decide) h), if_pos h]

theorem value.type_array_iff (v : value) : v.type = value_type.array ↔ v.is_array = true := by
  unfold value.type value.is_array
  rw [decide_eq_true_eq]
  constructor
  · intro hc
    by_cases h : v.data &&& mask_type = type_array
    · exact h
    · exfalso
      rw [if_neg h] at hc
      split at hc
      · cases hc
      · split at hc
        · cases hc
        · split at hc
          · cases hc
          · split at hc <;> cases hc
  · intro h
    rw [if_neg (value.nanbits_of_tag v _ (by decide) h), h, if_neg (by decide), if_pos rfl]

theorem value.type_string_iff (v : value) : v.type = value_type.string ↔ v.is_string = true := by
  unfold value.type value.is_string
  rw [decide_eq_true_eq]
  constructor
  · intro hc
    by_cases h : v.data &&& mask_type = type_string
    · exact h
    · exfalso
      rw [if_neg h] at hc
      split at hc
      · cases hc
      · split at hc
        · cases hc
        · split at hc
          · cases hc
          · split at hc <;> cases hc
  · intro h
    rw [if_neg (value.nanbits_of_tag v _ (by decide) h), h, if_neg (by decide),
      if_neg (by decide), if_pos rfl]

theorem value.type_boolean_iff (v : value) :
    v.type = value_type.boolean ↔ v.is_boolean = true := by
  unfold value.type value.is_boolean
  rw [decide_eq_true_eq]
  constructor
  · intro hc
    by_cases h : v.data = type_true ∨ v.data = type_false
    · exact h
    · exfalso
      rw [if_neg h] at hc
      split at hc
      · cases hc
      · split at hc
        · cases hc
        · split at hc
          · cases hc
          · split at hc <;> cases hc
  · intro h
    have hn : ¬ (v.data &&& mask_nanbits ≠ mask_nanbits) := by
      rcases h with h | h <;> rw [h] <;> decide
    have ho : ¬ (v.data &&& mask_type = type_object) := by
      rcases h with h | h <;> rw [h] <;> decide
    have ha : ¬ (v.data &&& mask_type = type_array) := by
      rcases h with h | h <;> rw [h] <;> decide
    have hs : ¬ (v.data &&& mask_type = type_string) := by
      rcases h with h | h <;> rw [h] <;> decide
    rw [if_neg hn, if_neg ho, if_neg ha, if_neg hs, if_pos h]

theorem value.type_of_is_null (v : value) (h : v.is_null = true) : v.type = value_type.null := by
  unfold value.is_null at h
  rw [decide_eq_true_eq] at h
  unfold value.type
  rw [h]
  decide

theorem value.type_cases (v : value) :
    v.type = value_type.null ∨ v.type = value_type.boolean ∨ v.type = value_type.number ∨
    v.type = value_type.string ∨ v.type = value_type.array ∨ v.type = value_type.object := by
  cases v.type <;> simp

/-- C39, where it fails: the cell that `new_string` makes for a string at offset 0, tagged
as a pending string, has the type null, and none of the six predicates holds for it. -/
theorem type_null_without_is_null :
    (builder.new_string 0).type = value_type.null ∧ (builder.new_string 0).is_null = false ∧
    (builder.new_string 0).is_boolean = false ∧ (builder.new_string 0).is_number = false ∧
    (builder.new_string 0).is_string = false ∧ (builder.new_string 0).is_array = false ∧
    (builder.new_string 0).is_object = false := by
  decide

/-- C39, as it holds: for every cell, `type()` agrees with `is_boolean`, `is_number`,
`is_string`, `is_array` and `is_object`; `is_null` implies that the type is null, the type
is null exactly when none of the five other predicates holds, and no two of the six
predicates hold together. -/
theorem type_agrees_with_predicates (v : value) :
    (v.type = value_type.boolean ↔ v.is_boolean = true) ∧
    (v.type = value_type.number ↔ v.is_number = true) ∧
    (v.type = value_type.string ↔ v.is_string = true) ∧
    (v.type = value_type.array ↔ v.is_array = true) ∧
    (v.type = value_type.object ↔ v.is_object = true) ∧
    (v.is_null = true → v.type = value_type.null) ∧
    (v.type = value_type.null ↔ (v.is_boolean = false ∧ v.is_number = false ∧
      v.is_string = false ∧ v.is_array = false ∧ v.is_object = false)) ∧
    ([v.is_null, v.is_boolean, v.is_number, v.is_string, v.is_array, v.is_object].count true
      ≤ 1) := by
  have hb := value.type_boolean_iff v
  have hn := value.type_number_iff v
  have hs := value.type_string_iff v
  have ha := value.type_array_iff v
  have ho := value.type_object_iff v
  have hz := value.type_of_is_null v
  refine ⟨hb, hn, hs, ha, ho, hz, ?_, ?_⟩
  · rcases value.type_cases v with h | h | h | h | h | h <;>
      rw [h] at hb hn hs ha ho ⊢ <;> simp at hb hn hs ha ho ⊢ <;> simp [hb, hn, hs, ha, ho]
  · cases h0 : v.is_null
    · rcases value.type_cases v with h | h | h | h | h | h <;>
        rw [h] at hb hn hs ha ho <;> simp at hb hn hs ha ho <;> simp [hb, hn, hs, ha, ho]
    · have h := hz h0
      rw [h] at hb hn hs ha ho
      simp at hb hn hs ha ho
      simp [hb, hn, hs, ha, ho]

theorem type_agrees_with_predicates_witness :
    value.null.is_null = true ∧ value.null.type = value_type.null ∧
    (value.null.type = value_type.number ↔ value.null.is_number = true) :=
  ⟨by decide, (type_agrees_with_predicates value.null).2.2.2.2.2.1 (by decide),
    (type_agrees_with_predicates value.null).2.1⟩

/-! ## A cell made from a double -/

theorem and_mask_nanbits_of_ge (x : Nat) (h : mask_nanbits ≤ x) (h64 : x < 2 ^ 64) :
    x &&& mask_nanbits = mask_nanbits := by
  have hm : mask_nanbits = 2 ^ 52 * 4095 := by decide
  obtain ⟨r, hr⟩ : ∃ r, x = 2 ^ 52 * 4095 + r := ⟨x - 2 ^ 52 * 4095, by rw [hm] at h; omega⟩
  have hr52 : r < 2 ^ 52 := by
    rw [hr] at h64
    norm_num at h64 ⊢
    omega
  rw [hr, Nat.mul_add_lt_is_or hr52, hm]
  apply Nat.eq_of_testBit_eq
  intro i
  rw [Nat.testBit_and, Nat.testBit_or]
  cases (2 ^ 52 * 4095).testBit i <;> simp

/-- C33, where it fails: the cell made from negative infinity is no number, its type is
null. -/
theorem of_double_negative_infinity :
    (value.of_double negative_infinity).is_number = false ∧
    (value.of_double negative_infinity).type = value_type.null := by
  decide

/-- C33, as it holds: the cell made from the 64 bits of a double is a number, and its type
is number, exactly when the double is not negative with all exponent bits set, that is
for every finite double, for positive infinity and for the NaNs whose sign bit is clear. -/
theorem of_double_is_number (bits : Nat) (h : bits < 2 ^ 64) :
    ((value.of_double bits).is_number = true ↔
      ¬ (double_sign bits = 1 ∧ double_exponent bits = 2047)) ∧
    ((value.of_double bits).type = value_type.number ↔
      ¬ (double_sign bits = 1 ∧ double_exponent bits = 2047)) := by
  have key : (value.of_double bits).is_number = true ↔
      ¬ (double_sign bits = 1 ∧ double_exponent bits = 2047) := by
    have hm : mask_nanbits = 18442240474082181120 := by decide
    have hiff : (double_sign bits = 1 ∧ double_exponent bits = 2047) ↔ mask_nanbits ≤ bits := by
      unfold double_sign double_exponent
      rw [hm]
      norm_num at h ⊢
      omega
    rw [hiff]
    unfold value.is_number value.of_double
    rw [decide_eq_true_eq]
    dsimp only
    constructor
    · intro hc hge
      exact hc (and_mask_nanbits_of_ge bits hge h)
    · intro hc heq
      apply hc
      rw [← heq]
      exact Nat.and_le_left
  exact ⟨key, (value.type_number_iff _).trans key⟩

theorem of_double_is_number_witness :
    positive_infinity < 2 ^ 64 ∧
    ((value.of_double positive_infinity).is_number = true ↔
      ¬ (double_sign positive_infinity = 1 ∧ double_exponent positive_infinity = 2047)) ∧
    (value.of_double positive_infinity).is_number = true :=
  ⟨by decide, (of_double_is_number positive_infinity (by decide)).1, by decide⟩

/-! ## A fresh document -/

/-- C31: a default-constructed document has an empty cell buffer, the document flag and
the type null, and `is_null()` returns false for it: `reset()` sets the flag in the root
cell and `is_null()` compares all 64 bits of the cell with the null tag. -/
theorem default_document_is_not_null (strings_data values_data : Nat) :
    (document.new strings_data values_data).to_value.is_null = false ∧
    (document.new strings_data values_data).to_value.type = value_type.null ∧
    (document.new strings_data values_data).to_value.is_document = true ∧
    (document.new strings_data values_data).values = [] ∧
    (document.new strings_data values_data).strings = [0] := by
  have h1 : (document.new strings_data values_data).to_value.data =
      type_null ||| mask_is_document := rfl
  refine ⟨?_, ?_, ?_, rfl, rfl⟩
  · unfold value.is_null
    rw [h1]
    decide
  · unfold value.type
    rw [h1]
    decide
  · unfold value.is_document
    rw [h1]
    decide

end json5

namespace json5

/-! ## The stack invariant of the builder -/

theorem add_to_back_sum (k : Nat) (cs : List Nat) (h : cs ≠ []) :
    (add_to_back k cs).sum = cs.sum + k := by
  induction cs with
  | nil => exact absurd rfl h
  | cons c cs ih =>
    cases cs with
    | nil => simp [add_to_back]
    | cons d ds =>
      have h1 := ih (by simp)
      have h2 : (add_to_back k (c :: d :: ds)).sum = c + (add_to_back k (d :: ds)).sum := by
        rw [add_to_back, List.sum_cons]
      rw [h2, h1]
      simp only [List.sum_cons]
      omega

theorem add_to_back_getLast (k : Nat) (cs : List Nat) :
    (add_to_back k cs).getLast? = cs.getLast?.map (fun c => c + k) := by
  induction cs with
  | nil => rfl
  | cons c cs ih =>
    cases cs with
    | nil => rfl
    | cons d ds =>
      rw [add_to_back, List.getLast?_cons_cons, ← ih]
      cases hds : add_to_back k (d :: ds) with
      | nil =>
        have := add_to_back_length k (d :: ds)
        rw [hds] at this
        simp at this
      | cons x xs => rw [List.getLast?_cons_cons]

theorem sum_dropLast (cs : List Nat) : cs.dropLast.sum + cs.getLastD 0 = cs.sum := by
  induction cs with
  | nil => rfl
  | cons c cs ih =>
    cases cs with
    | nil => simp [List.getLastD]
    | cons d ds =>
      have h : (c :: d :: ds).getLastD 0 = (d :: ds).getLastD 0 := by
        simp [List.getLastD]
      have h2 : (c :: d :: ds).dropLast.sum = c + (d :: ds).dropLast.sum := by
        rw [List.dropLast_cons₂, List.sum_cons]
      have h3 : (c :: d :: ds).sum = c + (d :: ds).sum := List.sum_cons
      rw [h, h2, h3]
      simp only [List.sum_cons] at ih ⊢
      omega

theorem builder.counts_ne_nil (b : builder) (hb : b.balanced) (hs : b.stack ≠ []) :
    b.counts ≠ [] := by
  intro hc
  have := hb.1
  rw [hc] at this
  exact hs (List.length_eq_zero.mp this)

theorem builder.balanced_pop (e : env) (b : builder) (hb : b.balanced) :
    (b.pop e).2.balanced := by
  have h1 := sum_dropLast b.counts
  have hlen : (b.pop e).2.stack.length = (b.pop e).2.counts.length ∧
      (b.pop e).2.counts.sum = (b.pop e).2.values.length := by
    unfold builder.pop
    dsimp only
    split
    · dsimp only
      refine ⟨?_, ?_⟩
      · rw [List.length_dropLast, List.length_dropLast, hb.1]
      · rw [List.length_take]
        have := hb.2
        omega
    · dsimp only
      refine ⟨?_, ?_⟩
      · rw [List.length_dropLast, List.length_dropLast, hb.1]
      · rw [List.length_take]
        have := hb.2
        omega
  exact hlen

/-- C38: the stack invariant of the builder. It holds for a fresh builder; `push_object`
and `push_array` keep it; and with a frame open, the item append (one value more, the last
count one higher), the keyed assignment (the key and the value slot more, the last count
two higher) and `pop()` keep it. -/
theorem builder_stack_invariant (e : env) (doc : document) (b : builder) (v : value)
    (keyOffset : Nat) (key : List Nat) :
    (builder.new doc).balanced ∧
    (b.balanced → b.push_object.balanced ∧ b.push_array.balanced) ∧
    (b.balanced → b.stack ≠ [] →
      ((b.append v).balanced ∧ (b.append v).values = b.values ++ [v] ∧
        (b.append v).counts.getLast? = b.counts.getLast?.map (fun c => c + 1)) ∧
      ((b.add_item v).balanced ∧ (b.add_item v).values = b.values ++ [v] ∧
        (b.add_item v).counts.getLast? = b.counts.getLast?.map (fun c => c + 1)) ∧
      ((b.set_at_offset keyOffset v).balanced ∧
        (b.set_at_offset keyOffset v).values =
          b.values ++ [builder.new_string keyOffset] ++ [v] ∧
        (b.set_at_offset keyOffset v).counts.getLast? =
          b.counts.getLast?.map (fun c => c + 2)) ∧
      ((b.set_at_key key v).balanced ∧
        (b.set_at_key key v).values.length = b.values.length + 2 ∧
        (b.set_at_key key v).counts.getLast? = b.counts.getLast?.map (fun c => c + 2)) ∧
      (b.pop e).2.balanced) := by
  refine ⟨⟨rfl, rfl⟩, ?_, ?_⟩
  · intro hb
    refine ⟨⟨?_, ?_⟩, ⟨?_, ?_⟩⟩
    · show (b.stack ++ [_]).length = (b.counts ++ [0]).length
      rw [List.length_append, List.length_append, hb.1]; rfl
    · show (b.counts ++ [0]).sum = b.values.length
      rw [List.sum_append, hb.2.symm]; rfl
    · show (b.stack ++ [_]).length = (b.counts ++ [0]).length
      rw [List.length_append, List.length_append, hb.1]; rfl
    · show (b.counts ++ [0]).sum = b.values.length
      rw [List.sum_append, hb.2.symm]; rfl
  · intro hb hs
    have hc := builder.counts_ne_nil b hb hs
    refine ⟨⟨⟨?_, ?_⟩, rfl, add_to_back_getLast 1 b.counts⟩,
      ⟨⟨?_, ?_⟩, rfl, add_to_back_getLast 1 b.counts⟩,
      ⟨⟨?_, ?_⟩, rfl, add_to_back_getLast 2 b.counts⟩,
      ⟨⟨?_, ?_⟩, ?_, add_to_back_getLast 2 b.counts⟩, builder.balanced_pop e b hb⟩
    · show b.stack.length = (add_to_back 1 b.counts).length
      rw [add_to_back_length, hb.1]
    · show (add_to_back 1 b.counts).sum = (b.values ++ [v]).length
      rw [add_to_back_sum 1 _ hc, List.length_append, hb.2]; rfl
    · show b.stack.length = (add_to_back 1 b.counts).length
      rw [add_to_back_length, hb.1]
    · show (add_to_back 1 b.counts).sum = (b.values ++ [v]).length
      rw [add_to_back_sum 1 _ hc, List.length_append, hb.2]; rfl
    · show b.stack.length = (add_to_back 2 b.counts).length
      rw [add_to_back_length, hb.1]
    · show (add_to_back 2 b.counts).sum = (b.values ++ [builder.new_string keyOffset] ++ [v]).length
      rw [add_to_back_sum 2 _ hc, List.length_append, List.length_append, hb.2]; rfl
    · show b.stack.length = (add_to_back 2 b.counts).length
      rw [add_to_back_length, hb.1]
    · show (add_to_back 2 b.counts).sum =
        (b.values ++ [builder.new_string b.doc.strings.length] ++ [v]).length
      rw [add_to_back_sum 2 _ hc, List.length_append, List.length_append, hb.2]; rfl
    · show (b.values ++ [builder.new_string b.doc.strings.length] ++ [v]).length =
        b.values.length + 2
      rw [List.length_append, List.length_append]; rfl

theorem builder_stack_invariant_witness :
    example_writer.balanced ∧ example_writer.stack ≠ [] ∧
    (example_writer.append (value.of_bool true)).balanced ∧
    ((example_writer.append (value.of_bool true)).pop example_env).2.balanced :=
  ⟨by decide, by decide,
    ((builder_stack_invariant example_env example_doc example_writer (value.of_bool true) 0
      []).2.2 (by decide) (by decide)).1.1,
    ((builder_stack_invariant example_env example_doc
      (example_writer.append (value.of_bool true)) (value.of_bool true) 0
      []).2.2 (by decide) (by decide)).2.2.2.2⟩

end json5

namespace json5

/-! ## The location of the cursor -/

theorem since_newline_append (cs : List Nat) (c : Nat) :
    since_newline (cs ++ [c]) = if c = 10 then 0 else since_newline cs + 1 := by
  unfold since_newline
  rw [List.reverse_append, List.reverse_singleton, List.singleton_append, List.takeWhile_cons]
  by_cases h : c = 10
  · simp [h]
  · simp [h]

theorem location.after_fields (loc : location) (c : Nat) :
    (loc.after c).offset = loc.offset + 1 ∧
    (loc.after c).line = loc.line + (if c = 10 then 1 else 0) ∧
    (loc.after c).column = (if c = 10 then 1 else loc.column + 1) := by
  unfold location.after
  by_cases h : c = 10 <;> simp [h]

theorem location.advance_fields (loc : location) (cs : List Nat) :
    (loc.advance cs).offset = loc.offset + cs.length ∧
    (loc.advance cs).line = loc.line + cs.count 10 ∧
    (loc.advance cs).column =
      (if 10 ∈ cs then 1 + since_newline cs else loc.column + cs.length) := by
  induction cs using List.reverseRecOn with
  | nil => simp [location.advance]
  | append_singleton cs c ih =>
    have hstep : loc.advance (cs ++ [c]) = (loc.advance cs).after c := by
      rw [location.advance_append]; rfl
    obtain ⟨h1, h2, h3⟩ := location.after_fields (loc.advance cs) c
    obtain ⟨i1, i2, i3⟩ := ih
    rw [hstep, h1, h2, h3, i1, i2, i3, since_newline_append, List.count_append]
    refine ⟨?_, ?_, ?_⟩
    · simp; omega
    · by_cases h : c = 10
      · simp [h]; omega
      · have : (c == 10) = false := by simpa using h
        simp [h, List.count_cons, this]
    · by_cases h : c = 10
      · simp [h]
      · have hc : ¬ (10 = c) := fun x => h x.symm
        by_cases hm : 10 ∈ cs
        · simp [h, hm]; omega
        · simp [h, hm, hc]; omega

namespace parser

theorem next_n_eq (n : Nat) (p : parser) (hn : n ≤ p.input.length) :
    p.next_n n = p.with_scan (p.input.take n) (p.input.drop n) [] := by
  induction n generalizing p with
  | zero =>
    show p = _
    rw [List.take_zero, List.drop_zero, with_scan_nil]
  | succ n ih =>
    cases hi : p.input with
    | nil => rw [hi] at hn; simp at hn
    | cons c rest =>
      rw [next_n, next_with_scan p c rest hi]
      dsimp only
      rw [ih _ (by rw [with_scan_input]; rw [hi] at hn; simpa using hn), with_scan_input,
        with_scan_with_scan]
      simp

end parser

/-- C34: the location of the cursor. On a text that is not empty, each of the first `n`
calls of `next()`, for `n` up to the length of the text, returns the byte it reads; after
them the offset is `n`, the line is one more than the number of newlines read, the column
is one more than the number of bytes read since the last newline (since the start when
there is none), the offset and the number of bytes left add up to the length of the text;
and at the end of the input `next()` returns -1 and leaves the parser as it is. -/
theorem next_tracks_location (str : List Nat) (doc : document) (n : Nat) (hne : str ≠ [])
    (hn : n ≤ str.length) :
    (∀ i (hi : i < n), ((parser.start str doc).next_n i).next.1 =
      ((str.get ⟨i, Nat.lt_of_lt_of_le hi hn⟩ : Nat) : Int)) ∧
    ((parser.start str doc).next_n n).loc.offset = n ∧
    ((parser.start str doc).next_n n).loc.line = 1 + (str.take n).count 10 ∧
    ((parser.start str doc).next_n n).loc.column = 1 + since_newline (str.take n) ∧
    ((parser.start str doc).next_n n).input = str.drop n ∧
    ((parser.start str doc).next_n n).loc.offset +
      ((parser.start str doc).next_n n).input.length = str.length ∧
    (∀ p : parser, p.eof = true → p.next = (-1, p)) := by
  have hloc : (parser.start str doc).loc = ⟨1, 1, 0⟩ := by
    show (if str ≠ [] then (⟨1, 1, 0⟩ : location) else ⟨0, 0, 0⟩) = _
    rw [if_pos hne]
  have hin : (parser.start str doc).input = str := rfl
  have hq : ∀ m, m ≤ str.length → (parser.start str doc).next_n m =
      (parser.start str doc).with_scan (str.take m) (str.drop m) [] := by
    intro m hm
    rw [parser.next_n_eq m _ (by rw [hin]; exact hm), hin]
  obtain ⟨h1, h2, h3⟩ := location.advance_fields ⟨1, 1, 0⟩ (str.take n)
  refine ⟨?_, ?_, ?_, ?_, ?_, ?_, ?_⟩
  · intro i hi
    have hil : i < str.length := Nat.lt_of_lt_of_le hi hn
    rw [hq i (by omega)]
    have hd : str.drop i = str.get ⟨i, hil⟩ :: str.drop (i + 1) := by
      rw [List.get_eq_getElem]
      exact List.drop_eq_getElem_cons hil
    rw [parser.next_with_scan _ (str.get ⟨i, hil⟩) (str.drop (i + 1))
      (by rw [parser.with_scan_input]; exact hd)]
  · rw [hq n hn, parser.with_scan_loc, hloc, h1, List.length_take]
    simp; exact hn
  · rw [hq n hn, parser.with_scan_loc, hloc, h2]
  · rw [hq n hn, parser.with_scan_loc, hloc, h3]
    by_cases hm : 10 ∈ str.take n
    · rw [if_pos hm]
    · rw [if_neg hm]
      unfold since_newline
      rw [List.takeWhile_eq_self_iff.mpr, List.length_reverse]
      intro c hc
      rw [List.mem_reverse] at hc
      simp only [decide_eq_true_eq]
      intro h10
      exact hm (h10 ▸ hc)
  · rw [hq n hn, parser.with_scan_input]
  · rw [hq n hn, parser.with_scan_loc, hloc, h1, parser.with_scan_input, List.length_take,
      List.length_drop]
    simp; omega
  · intro p hp
    exact parser.next_nil p ((parser.eof_iff p).mp hp)

theorem next_tracks_location_witness :
    bytes "a\nbc" ≠ [] ∧ 3 ≤ (bytes "a\nbc").length ∧
    ((parser.start (bytes "a\nbc") example_doc).next_n 3).loc = ⟨2, 2, 3⟩ ∧
    ((parser.start (bytes "a\nbc") example_doc).next_n 3).loc.column =
      1 + since_newline ((bytes "a\nbc").take 3) :=
  ⟨by decide, by decide, by decide,
    (next_tracks_location (bytes "a\nbc") example_doc 3 (by decide) (by decide)).2.2.2.1⟩

end json5

namespace json5

namespace parser

theorem parse_number_loop_eof (k : Nat) (buff : List Nat) (p : parser) (h : p.input = []) :
    parse_number_loop k buff p = (buff, p) := by
  cases k with
  | zero => rfl
  | succ k =>
    rw [parse_number_loop, if_pos (Or.inl ((eof_iff p).mpr h))]

theorem not_number_stop_peek (d : Nat) (t : List Nat) (hd : number_stop d = false) (p : parser)
    (h : p.input = d :: t) :
    ¬ ((p.peek > 0 ∧ p.peek ≤ 32) ∨ p.peek = 44 ∨ p.peek = 125 ∨ p.peek = 93) := by
  rw [peek_cons p d t h]
  simp only [number_stop, decide_eq_false_iff_not] at hd
  omega

/-- The loop of `parse_number` on a run of bytes none of which, from the second on, ends a
number, followed by the end of the input or by a byte that ends a number: it reads the run
up to the 256 bytes that the buffer holds. -/
theorem parse_number_loop_run (run : List Nat) :
    ∀ (c k : Nat) (buff : List Nat) (p : parser) (rest : List Nat),
      p.input = c :: run ++ rest → (c :: run).length ≤ k →
      (∀ b ∈ run, number_stop b = false) → (rest = [] ∨ stops_number rest) →
      parse_number_loop k buff p =
        (buff ++ (c :: run).take (256 - buff.length),
          p.with_scan ((c :: run).take (256 - buff.length))
            ((c :: run).drop (256 - buff.length) ++ rest) []) := by
  induction run with
  | nil =>
    intro c k buff p rest h hk _ hrest
    cases k with
    | zero => simp at hk
    | succ k =>
      rw [parse_number_loop]
      by_cases hb : buff.length < 256
      · have hne : ¬ (p.eof = true ∨ ¬ buff.length < 256) := by
          rw [eof_iff, h]; simp [hb]
        rw [if_neg hne, next_with_scan p c rest h]
        dsimp only
        rw [to_byte_cast]
        have ht : 256 - buff.length = (255 - buff.length) + 1 := by omega
        rw [ht, List.take_succ_cons, List.drop_succ_cons, List.take_nil, List.drop_nil]
        rcases hrest with hr | hr
        · subst hr
          have hp : (p.with_scan [c] [] []).peek = -1 := peek_nil _ rfl
          rw [hp, if_neg (by decide), parse_number_loop_eof k _ _ rfl]
          rfl
        · rw [if_pos (stops_number_peek rest hr _ rfl)]
          rfl
      · have hne : p.eof = true ∨ ¬ buff.length < 256 := Or.inr hb
        rw [if_pos hne]
        have ht : 256 - buff.length = 0 := by omega
        rw [ht, List.take_zero, List.drop_zero, List.append_nil, ← h, with_scan_nil]
  | cons d run ih =>
    intro c k buff p rest h hk hrun hrest
    cases k with
    | zero => simp at hk
    | succ k =>
      rw [parse_number_loop]
      by_cases hb : buff.length < 256
      · have hne : ¬ (p.eof = true ∨ ¬ buff.length < 256) := by
          rw [eof_iff, h]; simp [hb]
        rw [if_neg hne, next_with_scan p c (d :: run ++ rest) h]
        dsimp only
        rw [to_byte_cast,
          if_neg (not_number_stop_peek d (run ++ rest) (hrun d (List.mem_cons_self _ _)) _ rfl),
          ih d k (buff ++ [c]) _ rest rfl (by simpa using hk)
            (fun b hb => hrun b (List.mem_cons_of_mem _ hb)) hrest]
        have ht : 256 - buff.length = (256 - (buff ++ [c]).length) + 1 := by
          rw [List.length_append]; simp; omega
        rw [ht, List.take_succ_cons, List.drop_succ_cons, with_scan_with_scan]
        simp
      · have hne : p.eof = true ∨ ¬ buff.length < 256 := Or.inr hb
        rw [if_pos hne]
        have ht : 256 - buff.length = 0 := by omega
        rw [ht, List.take_zero, List.drop_zero, List.append_nil]
        have h' : p.input = [] ++ (c :: d :: run ++ rest) := h
        rw [← h, with_scan_nil]

end parser

set_option maxRecDepth 200000 in
/-- C35, where it fails: on the text of 257 zeros and a closing bracket, `parse_number`
stops after 256 bytes and leaves the last zero unread; the array of that number is
rejected, a comma being expected at the last zero. -/
theorem parse_number_stops_at_256 :
    ((parser.start (List.replicate 257 48 ++ [93]) example_doc).parse_number
      example_env 0).2.2.input = [48, 93] ∧
    (from_string example_env (91 :: (List.replicate 257 48 ++ [93])) example_doc).map Prod.fst =
      some ⟨error_kind.comma_expected, ⟨1, 258, 257⟩⟩ := by
  refine ⟨?_, ?_⟩
  · rfl
  · rfl

/-- C35, as it holds: at a byte `c` followed by a run of bytes that do not end a number and
then by the end of the input or by whitespace, a comma or a closing bracket, `parse_number`
reads `c` and the run up to 256 bytes in all, so all of them when they are at most 256; the
bytes read are what it converts. -/
theorem parse_number_consumes_run (e : env) (p : parser) (result c : Nat)
    (run rest : List Nat) (h : p.input = c :: run ++ rest)
    (hrun : ∀ b ∈ run, number_stop b = false) (hrest : rest = [] ∨ stops_number rest) :
    p.parse_number e result =
      (match e.from_chars ((c :: run).take 256) with
        | Option.none =>
          ((p.with_scan ((c :: run).take 256) ((c :: run).drop 256 ++ rest) []).make_error
            error_kind.syntax_error, result,
            p.with_scan ((c :: run).take 256) ((c :: run).drop 256 ++ rest) [])
        | some d =>
          (error.ok, d, p.with_scan ((c :: run).take 256) ((c :: run).drop 256 ++ rest) [])) ∧
    ((c :: run).length ≤ 256 →
      (p.parse_number e result).2.2 = p.with_scan (c :: run) rest []) := by
  have hl := parser.parse_number_loop_run run c p.input.length [] p rest h
    (by rw [h]; simp) hrun hrest
  have h0 : 256 - ([] : List Nat).length = 256 := rfl
  rw [h0, List.nil_append] at hl
  have h1 : p.parse_number e result =
      (match e.from_chars ((c :: run).take 256) with
        | Option.none =>
          ((p.with_scan ((c :: run).take 256) ((c :: run).drop 256 ++ rest) []).make_error
            error_kind.syntax_error, result,
            p.with_scan ((c :: run).take 256) ((c :: run).drop 256 ++ rest) [])
        | some d =>
          (error.ok, d,
            p.with_scan ((c :: run).take 256) ((c :: run).drop 256 ++ rest) [])) := by
    unfold parser.parse_number
    dsimp only
    rw [hl] <;> rfl
  refine ⟨h1, ?_⟩
  intro hlen
  rw [h1, List.take_of_length_le hlen, List.drop_of_length_le hlen, List.nil_append]
  cases e.from_chars (c :: run) <;> rfl

theorem parse_number_consumes_run_witness :
    (parser.start (bytes "12.5e3,7") example_doc).input = 49 :: bytes "2.5e3" ++ bytes ",7" ∧
    ((parser.start (bytes "12.5e3,7") example_doc).parse_number example_env 0).2.2.input =
      bytes ",7" :=
  ⟨rfl, congrArg parser.input ((parse_number_consumes_run example_env
    (parser.start (bytes "12.5e3,7") example_doc) 0 49 (bytes "2.5e3") (bytes ",7") rfl
    (by decide) (Or.inr ⟨44, [55], rfl, rfl⟩)).2 (by decide))⟩

end json5

namespace json5

/-! ## The slices of a name table -/

theorem skip_commas_zero (s : List Nat) : skip_commas s 0 = s := by
  cases s with
  | nil => rfl
  | cons c s => rw [skip_commas, if_pos rfl]

theorem skip_commas_no_comma (x : List Nat) (hx : ∀ c ∈ x, c ≠ 44) (n : Nat) (hn : 0 < n) :
    skip_commas x n = [] := by
  induction x with
  | nil => rfl
  | cons c x ih =>
    rw [skip_commas, if_neg (by omega), if_neg (hx c (List.mem_cons_self _ _))]
    exact ih (fun d hd => hx d (List.mem_cons_of_mem _ hd))

theorem skip_commas_past (x r : List Nat) (hx : ∀ c ∈ x, c ≠ 44) (n : Nat) :
    skip_commas (x ++ 44 :: r) (n + 1) = skip_commas r n := by
  induction x with
  | nil =>
    rw [List.nil_append, skip_commas, if_neg (by omega), if_pos rfl]
    rfl
  | cons c x ih =>
    rw [List.cons_append, skip_commas, if_neg (by omega),
      if_neg (hx c (List.mem_cons_self _ _))]
    exact ih (fun d hd => hx d (List.mem_cons_of_mem _ hd))

theorem is_space_ne_comma (w : Nat) (h : is_space w = true) : w ≠ 44 := by
  simp only [is_space, decide_eq_true_eq] at h
  omega

theorem name_entry.no_comma (n : name_entry) (h : n.ok) : ∀ c ∈ n.text, c ≠ 44 := by
  intro c hc
  unfold name_entry.text at hc
  rw [List.mem_append, List.mem_append] at hc
  rcases hc with (hc | hc) | hc
  · exact is_space_ne_comma c (h.1 c hc)
  · exact (h.2.2.1 c hc).2.2
  · exact is_space_ne_comma c (h.2.2.2 c hc)

theorem name_entry.no_zero (n : name_entry) (h : n.ok) : ∀ c ∈ n.text, c ≠ 0 := by
  intro c hc
  unfold name_entry.text at hc
  rw [List.mem_append, List.mem_append] at hc
  rcases hc with (hc | hc) | hc
  · have := h.1 c hc
    simp only [is_space, decide_eq_true_eq] at this
    omega
  · have := (h.2.2.1 c hc).1
    omega
  · have := h.2.2.2 c hc
    simp only [is_space, decide_eq_true_eq] at this
    omega

theorem name_table_no_zero (ns : List name_entry) (hok : ∀ n ∈ ns, n.ok) :
    ∀ c ∈ name_table ns, c ≠ 0 := by
  induction ns with
  | nil => intro c hc; cases hc
  | cons a ns ih =>
    cases ns with
    | nil =>
      intro c hc
      exact name_entry.no_zero a (hok a (List.mem_cons_self _ _)) c hc
    | cons b r =>
      intro c hc
      have ht : name_table (a :: b :: r) = a.text ++ 44 :: name_table (b :: r) := rfl
      rw [ht, List.mem_append, List.mem_cons] at hc
      rcases hc with hc | hc | hc
      · exact name_entry.no_zero a (hok a (List.mem_cons_self _ _)) c hc
      · omega
      · exact ih (fun n hn => hok n (List.mem_cons_of_mem _ hn)) c hc

theorem c_str_of_no_zero (s : List Nat) (h : ∀ c ∈ s, c ≠ 0) : c_str s = s := by
  unfold c_str
  rw [List.takeWhile_eq_self_iff]
  intro c hc
  simpa using h c hc

theorem skip_commas_table (ns : List name_entry) (hok : ∀ n ∈ ns, n.ok) (i : Nat) :
    skip_commas (name_table ns) i = name_table (ns.drop i) := by
  induction ns generalizing i with
  | nil => simp [name_table, comma_join, skip_commas]
  | cons a ns ih =>
    cases i with
    | zero => rw [skip_commas_zero, List.drop_zero]
    | succ i =>
      cases ns with
      | nil =>
        show skip_commas a.text (i + 1) = name_table ([].drop i)
        rw [skip_commas_no_comma _ (name_entry.no_comma a (hok a (List.mem_cons_self _ _))) _
          (by omega)]
        simp [name_table, comma_join]
      | cons b r =>
        have ht : name_table (a :: b :: r) = a.text ++ 44 :: name_table (b :: r) := rfl
        rw [ht, skip_commas_past _ _ (name_entry.no_comma a (hok a (List.mem_cons_self _ _))),
          ih (fun n hn => hok n (List.mem_cons_of_mem _ hn)), List.drop_succ_cons]

theorem name_table_head (a : name_entry) (ns : List name_entry) :
    ∃ tail, name_table (a :: ns) = a.text ++ tail ∧ (tail = [] ∨ ∃ t, tail = 44 :: t) := by
  cases ns with
  | nil => exact ⟨[], (List.append_nil _).symm, Or.inl rfl⟩
  | cons b r => exact ⟨44 :: name_table (b :: r), rfl, Or.inr ⟨_, rfl⟩⟩

theorem is_space_char_le_32 (w : Nat) (h : is_space w = true) : char_le_32 w = true := by
  simp only [is_space, decide_eq_true_eq] at h
  simp only [char_le_32, decide_eq_true_eq]
  omega

theorem name_byte_not_le_32 (c : Nat) (h : 32 < c ∧ c < 127 ∧ c ≠ 44) :
    (!char_le_32 c && decide (c ≠ 44)) = true := by
  have h1 : char_le_32 c = false := by
    simp only [char_le_32, decide_eq_false_iff_not]
    omega
  rw [h1]
  simp [h.2.2]

theorem takeWhile_run (f : Nat → Bool) (x t : List Nat) (hx : ∀ c ∈ x, f c = true)
    (ht : t = [] ∨ ∃ d r, t = d :: r ∧ f d = false) : (x ++ t).takeWhile f = x := by
  induction x with
  | nil =>
    rcases ht with ht | ⟨d, r, ht, hd⟩
    · rw [ht]; rfl
    · rw [ht, List.nil_append, List.takeWhile_cons, hd]
      rfl
  | cons c x ih =>
    rw [List.cons_append, List.takeWhile_cons, hx c (List.mem_cons_self _ _)]
    simp only [if_true]
    rw [ih (fun d hd => hx d (List.mem_cons_of_mem _ hd))]

theorem dropWhile_run (f : Nat → Bool) (x t : List Nat) (hx : ∀ c ∈ x, f c = true)
    (ht : t = [] ∨ ∃ d r, t = d :: r ∧ f d = false) : (x ++ t).dropWhile f = t := by
  induction x with
  | nil =>
    rcases ht with ht | ⟨d, r, ht, hd⟩
    · rw [ht]; rfl
    · rw [ht, List.nil_append, List.dropWhile_cons, hd]
      rfl
  | cons c x ih =>
    rw [List.cons_append, List.dropWhile_cons, hx c (List.mem_cons_self _ _)]
    simp only [if_true]
    exact ih (fun d hd => hx d (List.mem_cons_of_mem _ hd))

/-- The slice of a table that starts with a well-formed entry: the view starts at the name
and has its length. -/
theorem get_name_slice_head (a : name_entry) (ha : a.ok) (tail : List Nat)
    (ht : tail = [] ∨ ∃ t, tail = 44 :: t) :
    ((a.text ++ tail).dropWhile char_le_32) = a.name ++ (a.post ++ tail) ∧
    ((a.name ++ (a.post ++ tail)).takeWhile
      (fun c => !char_le_32 c && decide (c ≠ 44))) = a.name := by
  obtain ⟨hpre, hne, hname, hpost⟩ := ha
  obtain ⟨c, r, hcr⟩ := List.exists_cons_of_ne_nil hne
  have hc := hname c (by rw [hcr]; exact List.mem_cons_self _ _)
  refine ⟨?_, ?_⟩
  · unfold name_entry.text
    rw [List.append_assoc, List.append_assoc]
    apply dropWhile_run _ _ _ (fun w hw => is_space_char_le_32 w (hpre w hw))
    refine Or.inr ⟨c, r ++ (a.post ++ tail), by rw [hcr]; rfl, ?_⟩
    simp only [char_le_32, decide_eq_false_iff_not]
    omega
  · apply takeWhile_run _ _ _ (fun d hd => name_byte_not_le_32 d (hname d hd))
    cases hp : a.post with
    | nil =>
      rcases ht with ht | ⟨t, ht⟩
      · left; rw [ht]; rfl
      · right
        exact ⟨44, t, by rw [ht]; rfl, by simp⟩
    | cons w ws =>
      right
      refine ⟨w, ws ++ tail, rfl, ?_⟩
      have := is_space_char_le_32 w (hpost w (by rw [hp]; exact List.mem_cons_self _ _))
      rw [this]
      rfl

/-- C40: `get_name_slice` selects the name of index `i`. On the table of any number of
well-formed entries separated by commas, the view returned for an index below the number
of entries starts at the name of that entry inside the table and has the length of the
name, so that its characters are the name without the whitespace around it; for an index
from the number of entries on, the view is empty. -/
theorem get_name_slice_selects (ns : List name_entry) (hok : ∀ n ∈ ns, n.ok) (i : Nat) :
    (∀ h : i < ns.length,
      (get_name_slice (name_table ns) i).text = (ns.get ⟨i, h⟩).name ∧
      (get_name_slice (name_table ns) i).length = (ns.get ⟨i, h⟩).name.length ∧
      (∃ tail, (get_name_slice (name_table ns) i).data = (ns.get ⟨i, h⟩).name ++ tail) ∧
      (get_name_slice (name_table ns) i).data <:+ name_table ns) ∧
    (ns.length ≤ i → get_name_slice (name_table ns) i = ⟨[], 0⟩) := by
  have hskip : skip_commas (c_str (name_table ns)) i = name_table (ns.drop i) := by
    rw [c_str_of_no_zero _ (name_table_no_zero ns hok), skip_commas_table ns hok]
  refine ⟨?_, ?_⟩
  · intro h
    have hd : ns.drop i = ns.get ⟨i, h⟩ :: ns.drop (i + 1) := by
      rw [List.get_eq_getElem]
      exact List.drop_eq_getElem_cons h
    obtain ⟨tail, htab, htail⟩ := name_table_head (ns.get ⟨i, h⟩) (ns.drop (i + 1))
    obtain ⟨h1, h2⟩ := get_name_slice_head (ns.get ⟨i, h⟩) (hok _ (List.get_mem _ _ _)) tail htail
    have hsl : get_name_slice (name_table ns) i =
        ⟨(ns.get ⟨i, h⟩).name ++ ((ns.get ⟨i, h⟩).post ++ tail), (ns.get ⟨i, h⟩).name.length⟩ := by
      unfold get_name_slice
      dsimp only
      rw [hskip, hd, htab, h1, h2]
    have hsuf : (ns.get ⟨i, h⟩).name ++ ((ns.get ⟨i, h⟩).post ++ tail) <:+ name_table ns := by
      have s1 : skip_commas (name_table ns) i <:+ name_table ns := by
        have : ∀ (s : List Nat) (n : Nat), skip_commas s n <:+ s := by
          intro s
          induction s with
          | nil => intro n; exact List.suffix_refl _
          | cons c s ih =>
            intro n
            rw [skip_commas]
            split
            · exact List.suffix_refl _
            · split
              · exact (ih _).trans (List.suffix_cons _ _)
              · exact (ih _).trans (List.suffix_cons _ _)
        exact this _ _
      rw [skip_commas_table ns hok, hd, htab] at s1
      refine List.IsSuffix.trans ?_ s1
      unfold name_entry.text
      rw [List.append_assoc, List.append_assoc]
      exact List.suffix_append _ _
    rw [hsl]
    refine ⟨?_, rfl, ⟨_, rfl⟩, hsuf⟩
    show ((ns.get ⟨i, h⟩).name ++ _).take (ns.get ⟨i, h⟩).name.length = _
    rw [List.take_left']
    rfl
  · intro h
    unfold get_name_slice
    dsimp only
    rw [hskip, List.drop_of_length_le h]
    rfl

theorem get_name_slice_selects_witness :
    name_table [⟨[], bytes "red", [32]⟩, ⟨[32], bytes "green", []⟩] = bytes "red , green" ∧
    (get_name_slice (bytes "red , green") 1).text = bytes "green" ∧
    get_name_slice (bytes "red , green") 2 = ⟨[], 0⟩ :=
  ⟨by decide,
    ((get_name_slice_selects [⟨[], bytes "red", [32]⟩, ⟨[32], bytes "green", []⟩]
      (by
        intro n hn
        simp only [List.mem_cons, List.mem_singleton, List.not_mem_nil, or_false] at hn
        rcases hn with hn | hn <;> subst hn <;>
          exact ⟨by decide, by decide, by decide, by decide⟩) 1).1 (by decide)).1,
    (get_name_slice_selects [⟨[], bytes "red", [32]⟩, ⟨[32], bytes "green", []⟩]
      (by
        intro n hn
        simp only [List.mem_cons, List.mem_singleton, List.not_mem_nil, or_false] at hn
        rcases hn with hn | hn <;> subst hn <;>
          exact ⟨by decide, by decide, by decide, by decide⟩) 2).2 (by decide)⟩

end json5

namespace json5

/-! ## A string added from a view -/

theorem get?_length_append (a : List Nat) (c : Nat) (t : List Nat) :
    (a ++ c :: t).get? a.length = some c := by
  induction a with
  | nil => rfl
  | cons x a ih => exact ih

theorem builder.new_string_view_eq (b : builder) (data : List Nat) (n : Nat)
    (hd : ∀ x ∈ data, x ≠ 0) (hne : data ≠ []) :
    b.new_string_view ⟨data, n⟩ =
      (builder.new_string b.doc.strings.length,
        { b with doc := { b.doc with strings := b.doc.strings ++ data ++ [0] ++ [0] } }) := by
  unfold builder.new_string_view builder.string_buffer_add_str document.add_c_str
    document.alloc_string
  dsimp only
  rw [c_str_of_no_zero data hd, if_neg (by simpa using hne)]
  rfl

/-- C32, where the code departs from it: for a view of `s.length` characters whose data
goes on with the non-zero byte `c` before the terminating zero, `new_string` returns the
pending string at the offset at which the buffer stood and leaves the bytes in front of
it alone, and it copies the data up to the terminating zero, not the `s.length` characters
of the view: the byte behind the copy of `s` is `c`, not zero. For a view that ends at the
terminating zero, the byte behind the copy is zero. -/
theorem new_string_view_copies_past_view (b : builder) (s rest : List Nat) (c : Nat)
    (hs : ∀ x ∈ s, x ≠ 0) (hc : c ≠ 0) (hrest : ∀ x ∈ rest, x ≠ 0) :
    (b.new_string_view ⟨s ++ c :: rest, s.length⟩).1 =
      builder.new_string b.doc.strings.length ∧
    (b.new_string_view ⟨s ++ c :: rest, s.length⟩).2.doc.strings =
      b.doc.strings ++ s ++ c :: rest ++ [0, 0] ∧
    (b.new_string_view ⟨s ++ c :: rest, s.length⟩).2.doc.strings.get?
      (b.doc.strings.length + s.length) = some c ∧
    (b.new_string_view ⟨s, s.length⟩).2.doc.strings.get?
      (b.doc.strings.length + s.length) = some 0 := by
  have hd : ∀ x ∈ s ++ c :: rest, x ≠ 0 := by
    intro x hx
    rw [List.mem_append, List.mem_cons] at hx
    rcases hx with hx | hx | hx
    · exact hs x hx
    · rw [hx]; exact hc
    · exact hrest x hx
  have h1 := builder.new_string_view_eq b (s ++ c :: rest) s.length hd (by simp)
  have hstr : (b.new_string_view ⟨s ++ c :: rest, s.length⟩).2.doc.strings =
      b.doc.strings ++ s ++ c :: rest ++ [0, 0] := by
    rw [h1]
    simp
  refine ⟨by rw [h1], hstr, ?_, ?_⟩
  · rw [hstr, List.append_assoc (b.doc.strings ++ s), ← List.length_append]
    exact get?_length_append _ _ _
  · cases hsn : s with
    | nil =>
      show (b.doc.strings ++ [0]).get? (b.doc.strings.length + 0) = some 0
      simp
    | cons x xs =>
      rw [← hsn, builder.new_string_view_eq b s s.length hs (by rw [hsn]; simp)]
      show (b.doc.strings ++ s ++ [0] ++ [0]).get? (b.doc.strings.length + s.length) = some 0
      rw [List.append_assoc (b.doc.strings ++ s), ← List.length_append]
      exact get?_length_append _ _ _

theorem new_string_view_copies_past_view_witness :
    ((example_writer.new_string_view ⟨bytes "red, green", 3⟩).2.doc.strings =
      example_writer.doc.strings ++ bytes "red" ++ 44 :: bytes " green" ++ [0, 0]) ∧
    (example_writer.new_string_view ⟨bytes "red, green", 3⟩).2.doc.strings.get? (1 + 3) =
      some 44 :=
  ⟨(new_string_view_copies_past_view example_writer (bytes "red") (bytes " green") 44
      (by decide) (by decide) (by decide)).2.1,
    (new_string_view_copies_past_view example_writer (bytes "red") (bytes " green") 44
      (by decide) (by decide) (by decide)).2.2.1⟩

end json5

namespace json5

/-! ## The bounds of the loops are never what stops them -/

theorem ite_congr_eq {α : Type} (c : Prop) [Decidable c] (a a' b b' : α)
    (ha : c → a = a') (hb : ¬ c → b = b') :
    (if c then a else b) = (if c then a' else b') := by
  by_cases h : c
  · rw [if_pos h, if_pos h]; exact ha h
  · rw [if_neg h, if_neg h]; exact hb h

namespace parser

theorem next_length_le (p : parser) (n : Nat) (hne : p.input ≠ [])
    (h : p.input.length ≤ n + 1) : p.next.2.input.length ≤ n := by
  have := next_length p (List.length_pos.mpr hne)
  omega

theorem peek_next_token_loop_succ (n : Nat) :
    ∀ (pc : comment_type) (result : token_type) (p : parser), p.input.length ≤ n →
      peek_next_token_loop (n + 1) pc result p = peek_next_token_loop n pc result p := by
  induction n with
  | zero =>
    intro pc result p h
    have hi : p.input = [] := List.length_eq_zero.mp (Nat.le_zero.mp h)
    conv_lhs => rw [peek_next_token_loop, if_pos ((eof_iff p).mpr hi)]
    rfl
  | succ n ih =>
    intro pc result p h
    by_cases he : p.eof = true
    · rw [peek_next_token_loop, if_pos he]
      conv_rhs => rw [peek_next_token_loop, if_pos he]
    · have hne : p.input ≠ [] := fun hi => he ((eof_iff p).mpr hi)
      have hk1 := next_length_le p n hne h
      have ih1 : ∀ (pc : comment_type) (r : token_type) (q : parser), p.next.2.reads q →
          peek_next_token_loop (n + 1) pc r q = peek_next_token_loop n pc r q :=
        fun pc r q hq => ih pc r q (le_trans (reads_length hq) hk1)
      rw [peek_next_token_loop, if_neg he]
      conv_rhs => rw [peek_next_token_loop, if_neg he]
      dsimp only
      repeat (first
        | exact ih1 _ _ _ (reads_refl _)
        | exact ih1 _ _ _ (reads_next _)
        | (refine ite_congr_eq _ _ _ _ _ (fun _ => ?_) (fun _ => ?_))
        | rfl)

/-- The loop of `peek_next_token` does not depend on its bound, from the number of bytes
left on: every iteration that goes on has read a byte. -/
theorem peek_next_token_loop_bound (pc : comment_type) (result : token_type) (p : parser)
    (n : Nat) (h : p.input.length ≤ n) :
    peek_next_token_loop n pc result p = peek_next_token_loop p.input.length pc result p := by
  induction n with
  | zero =>
    have : p.input.length = 0 := Nat.le_zero.mp h
    rw [this]
  | succ n ih =>
    by_cases hn : p.input.length = n + 1
    · rw [hn]
    · rw [peek_next_token_loop_succ n pc result p (by omega)]
      exact ih (by omega)

theorem parse_number_loop_succ (n : Nat) :
    ∀ (buff : List Nat) (p : parser), p.input.length ≤ n →
      parse_number_loop (n + 1) buff p = parse_number_loop n buff p := by
  induction n with
  | zero =>
    intro buff p h
    have hi : p.input = [] := List.length_eq_zero.mp (Nat.le_zero.mp h)
    conv_lhs => rw [parse_number_loop, if_pos (Or.inl ((eof_iff p).mpr hi))]
    rfl
  | succ n ih =>
    intro buff p h
    by_cases he : p.eof = true ∨ ¬ buff.length < 256
    · rw [parse_number_loop, if_pos he]
      conv_rhs => rw [parse_number_loop, if_pos he]
    · have hne : p.input ≠ [] := fun hi => he (Or.inl ((eof_iff p).mpr hi))
      have hk1 := next_length_le p n hne h
      rw [parse_number_loop, if_neg he]
      conv_rhs => rw [parse_number_loop, if_neg he]
      dsimp only
      refine ite_congr_eq _ _ _ _ _ (fun _ => rfl) (fun _ => ?_)
      exact ih _ _ hk1

/-- The loop of `parse_number` does not depend on its bound, from the number of bytes left
on. -/
theorem parse_number_loop_bound (buff : List Nat) (p : parser) (n : Nat)
    (h : p.input.length ≤ n) :
    parse_number_loop n buff p = parse_number_loop p.input.length buff p := by
  induction n with
  | zero =>
    have : p.input.length = 0 := Nat.le_zero.mp h
    rw [this]
  | succ n ih =>
    by_cases hn : p.input.length = n + 1
    · rw [hn]
    · rw [parse_number_loop_succ n buff p (by omega)]
      exact ih (by omega)

theorem parse_identifier_loop_succ (n : Nat) :
    ∀ (p : parser), p.input.length ≤ n →
      parse_identifier_loop (n + 1) p = parse_identifier_loop n p := by
  induction n with
  | zero =>
    intro p h
    have hi : p.input = [] := List.length_eq_zero.mp (Nat.le_zero.mp h)
    conv_lhs => rw [parse_identifier_loop, if_pos ((eof_iff p).mpr hi)]
    rfl
  | succ n ih =>
    intro p h
    by_cases he : p.eof = true
    · rw [parse_identifier_loop, if_pos he]
      conv_rhs => rw [parse_identifier_loop, if_pos he]
    · have hne : p.input ≠ [] := fun hi => he ((eof_iff p).mpr hi)
      have hk1 := next_length_le p n hne h
      rw [parse_identifier_loop, if_neg he]
      conv_rhs => rw [parse_identifier_loop, if_neg he]
      dsimp only
      refine ite_congr_eq _ _ _ _ _ (fun _ => rfl) (fun _ => ?_)
      exact ih _ hk1

/-- The loop of `parse_identifier` does not depend on its bound, from the number of bytes
left on. -/
theorem parse_identifier_loop_bound (p : parser) (n : Nat) (h : p.input.length ≤ n) :
    parse_identifier_loop n p = parse_identifier_loop p.input.length p := by
  induction n with
  | zero =>
    have : p.input.length = 0 := Nat.le_zero.mp h
    rw [this]
  | succ n ih =>
    by_cases hn : p.input.length = n + 1
    · rw [hn]
    · rw [parse_identifier_loop_succ n p (by omega)]
      exact ih (by omega)

theorem parse_string_loop_succ (n : Nat) :
    ∀ (sq : Bool) (p : parser), p.input.length ≤ n →
      parse_string_loop (n + 1) sq p = parse_string_loop n sq p := by
  induction n with
  | zero =>
    intro sq p h
    have hi : p.input = [] := List.length_eq_zero.mp (Nat.le_zero.mp h)
    conv_lhs => rw [parse_string_loop, if_pos ((eof_iff p).mpr hi)]
    rfl
  | succ n ih =>
    intro sq p h
    by_cases he : p.eof = true
    · rw [parse_string_loop, if_pos he]
      conv_rhs => rw [parse_string_loop, if_pos he]
    · have hne : p.input ≠ [] := fun hi => he ((eof_iff p).mpr hi)
      have hk1 := next_length_le p n hne h
      have ih1 : ∀ (q : parser), p.next.2.reads q →
          parse_string_loop (n + 1) sq q = parse_string_loop n sq q :=
        fun q hq => ih sq q (le_trans (reads_length hq) hk1)
      rw [parse_string_loop, if_neg he]
      conv_rhs => rw [parse_string_loop, if_neg he]
      dsimp only
      repeat (first
        | exact ih1 _ (scans_add _ _).1
        | exact ih1 _ (reads_next _)
        | exact ih1 _ (scans_next_add _ _).1
        | (refine ite_congr_eq _ _ _ _ _ (fun _ => ?_) (fun _ => ?_))
        | (cases (read_hex (if p.next.2.peek = 120 then 2 else 4) [] p.next.2.next.2).1 <;>
            dsimp only)
        | exact ih1 _ (reads_trans (reads_next _)
            (scans_trans (read_hex_scans _ _ _) (scans_add_utf8 _ _)).1)
        | rfl)

/-- The loop of `parse_string` does not depend on its bound, from the number of bytes left
on. -/
theorem parse_string_loop_bound (sq : Bool) (p : parser) (n : Nat) (h : p.input.length ≤ n) :
    parse_string_loop n sq p = parse_string_loop p.input.length sq p := by
  induction n with
  | zero =>
    have : p.input.length = 0 := Nat.le_zero.mp h
    rw [this]
  | succ n ih =>
    by_cases hn : p.input.length = n + 1
    · rw [hn]
    · rw [parse_string_loop_succ n sq p (by omega)]
      exact ih (by omega)

end parser

end json5

namespace json5

namespace parser

/-- At every call that a run goes through, the open frames, one for each call of
`parse_value` that the call is nested in, are at most as many as the bytes read. -/
theorem on_spine_depth (e : env) (p0 : parser) (c : call) (hs : on_spine e p0 c) :
    c.state.stack.length + c.state.input.length ≤ p0.stack.length + p0.input.length := by
  induction hs with
  | root => exact Nat.le_refl _
  | object_begin result p _ hok htt ih =>
    have hne := token_state_nonempty p token_type.unknown hok (by rw [htt]; decide)
    have hst := stack_of_tobuilder (peek_next_token_tobuilder p token_type.unknown)
    have hr := reads_length (peek_next_token_scans p token_type.unknown).1
    have hn := next_length { (p.peek_next_token token_type.unknown).2.2 with
      tobuilder := (p.peek_next_token token_type.unknown).2.2.tobuilder.push_object }
      (List.length_pos.mpr hne)
    have hs2 := stack_of_tobuilder (next_tobuilder { (p.peek_next_token token_type.unknown).2.2
      with tobuilder := (p.peek_next_token token_type.unknown).2.2.tobuilder.push_object })
    have hs3 : ({ (p.peek_next_token token_type.unknown).2.2 with
        tobuilder := (p.peek_next_token token_type.unknown).2.2.tobuilder.push_object } :
        parser).stack.length = p.stack.length + 1 := by
      show ((p.peek_next_token token_type.unknown).2.2.stack ++ [_]).length = _
      rw [List.length_append, hst]
      rfl
    have hi : ({ (p.peek_next_token token_type.unknown).2.2 with
        tobuilder := (p.peek_next_token token_type.unknown).2.2.tobuilder.push_object } :
        parser).input = (p.peek_next_token token_type.unknown).2.2.input := rfl
    show (parser.next _).2.stack.length + (parser.next _).2.input.length ≤ _
    rw [hs2, hs3]
    rw [hi] at hn
    have ih' : p.stack.length + p.input.length ≤ p0.stack.length + p0.input.length := ih
    omega
  | array_begin result p _ hok htt ih =>
    have hne := token_state_nonempty p token_type.unknown hok (by rw [htt]; decide)
    have hst := stack_of_tobuilder (peek_next_token_tobuilder p token_type.unknown)
    have hr := reads_length (peek_next_token_scans p token_type.unknown).1
    have hn := next_length { (p.peek_next_token token_type.unknown).2.2 with
      tobuilder := (p.peek_next_token token_type.unknown).2.2.tobuilder.push_array }
      (List.length_pos.mpr hne)
    have hs2 := stack_of_tobuilder (next_tobuilder { (p.peek_next_token token_type.unknown).2.2
      with tobuilder := (p.peek_next_token token_type.unknown).2.2.tobuilder.push_array })
    have hs3 : ({ (p.peek_next_token token_type.unknown).2.2 with
        tobuilder := (p.peek_next_token token_type.unknown).2.2.tobuilder.push_array } :
        parser).stack.length = p.stack.length + 1 := by
      show ((p.peek_next_token token_type.unknown).2.2.stack ++ [_]).length = _
      rw [List.length_append, hst]
      rfl
    have hi : ({ (p.peek_next_token token_type.unknown).2.2 with
        tobuilder := (p.peek_next_token token_type.unknown).2.2.tobuilder.push_array } :
        parser).input = (p.peek_next_token token_type.unknown).2.2.input := rfl
    show (parser.next _).2.stack.length + (parser.next _).2.input.length ≤ _
    rw [hs2, hs3]
    rw [hi] at hn
    have ih' : p.stack.length + p.input.length ≤ p0.stack.length + p0.input.length := ih
    omega
  | array_comma p _ hok htt ih =>
    have hst := stack_of_tobuilder (peek_next_token_tobuilder p token_type.unknown)
    have hr := reads_length (peek_next_token_scans p token_type.unknown).1
    have hn := reads_length (reads_next (p.peek_next_token token_type.unknown).2.2)
    have hs2 := stack_of_tobuilder (next_tobuilder (p.peek_next_token token_type.unknown).2.2)
    show (parser.next _).2.stack.length + (parser.next _).2.input.length ≤ _
    rw [hs2, hst]
    have ih' : p.stack.length + p.input.length ≤ p0.stack.length + p0.input.length := ih
    omega
  | array_element p _ hok htt ih =>
    have hst := stack_of_tobuilder (peek_next_token_tobuilder p token_type.unknown)
    have hr := reads_length (peek_next_token_scans p token_type.unknown).1
    show (p.peek_next_token token_type.unknown).2.2.stack.length +
      (p.peek_next_token token_type.unknown).2.2.input.length ≤ _
    rw [hst]
    have ih' : p.stack.length + p.input.length ≤ p0.stack.length + p0.input.length := ih
    omega
  | array_next p n r _ hok htt hv hrok ih =>
    have hst := stack_of_tobuilder (peek_next_token_tobuilder p token_type.unknown)
    have hr := reads_length (peek_next_token_scans p token_type.unknown).1
    have hvn := parse_value_nests e n _ _ _ hv
    have h1 := reads_length hvn.reads
    have h2 := (hvn.frames (by simp [hrok])).1
    show r.2.2.stack.length + r.2.2.input.length ≤ _
    rw [h2, hst]
    have ih' : p.stack.length + p.input.length ≤ p0.stack.length + p0.input.length := ih
    omega
  | object_comma p _ hok htt ih =>
    have hst := stack_of_tobuilder (peek_next_token_tobuilder p token_type.unknown)
    have hr := reads_length (peek_next_token_scans p token_type.unknown).1
    have hn := reads_length (reads_next (p.peek_next_token token_type.unknown).2.2)
    have hs2 := stack_of_tobuilder (next_tobuilder (p.peek_next_token token_type.unknown).2.2)
    show (parser.next _).2.stack.length + (parser.next _).2.input.length ≤ _
    rw [hs2, hst]
    have ih' : p.stack.length + p.input.length ≤ p0.stack.length + p0.input.length := ih
    omega
  | object_value p _ hok htt hk ht2 hcol ih =>
    have hst := stack_of_tobuilder (peek_next_token_tobuilder p token_type.unknown)
    have hr := reads_length (peek_next_token_scans p token_type.unknown).1
    have hr2 := reads_length
      (parse_identifier_scans (p.peek_next_token token_type.unknown).2.2).1
    have hs2 := parse_identifier_stack (p.peek_next_token token_type.unknown).2.2
    have hr3 := reads_length (peek_next_token_scans
      (p.peek_next_token token_type.unknown).2.2.parse_identifier.2.2
      (p.peek_next_token token_type.unknown).2.1).1
    have hs3 := stack_of_tobuilder (peek_next_token_tobuilder
      (p.peek_next_token token_type.unknown).2.2.parse_identifier.2.2
      (p.peek_next_token token_type.unknown).2.1)
    have hr4 := reads_length (reads_next
      ((p.peek_next_token token_type.unknown).2.2.parse_identifier.2.2.peek_next_token
        (p.peek_next_token token_type.unknown).2.1).2.2)
    have hs4 := stack_of_tobuilder (next_tobuilder
      ((p.peek_next_token token_type.unknown).2.2.parse_identifier.2.2.peek_next_token
        (p.peek_next_token token_type.unknown).2.1).2.2)
    show (parser.next _).2.stack.length + (parser.next _).2.input.length ≤ _
    rw [hs4, hs3, hs2, hst]
    have ih' : p.stack.length + p.input.length ≤ p0.stack.length + p0.input.length := ih
    omega
  | object_next p n r _ hok htt hk ht2 hcol hv hrok ih =>
    have hst := stack_of_tobuilder (peek_next_token_tobuilder p token_type.unknown)
    have hr := reads_length (peek_next_token_scans p token_type.unknown).1
    have hr2 := reads_length
      (parse_identifier_scans (p.peek_next_token token_type.unknown).2.2).1
    have hs2 := parse_identifier_stack (p.peek_next_token token_type.unknown).2.2
    have hr3 := reads_length (peek_next_token_scans
      (p.peek_next_token token_type.unknown).2.2.parse_identifier.2.2
      (p.peek_next_token token_type.unknown).2.1).1
    have hs3 := stack_of_tobuilder (peek_next_token_tobuilder
      (p.peek_next_token token_type.unknown).2.2.parse_identifier.2.2
      (p.peek_next_token token_type.unknown).2.1)
    have hr4 := reads_length (reads_next
      ((p.peek_next_token token_type.unknown).2.2.parse_identifier.2.2.peek_next_token
        (p.peek_next_token token_type.unknown).2.1).2.2)
    have hs4 := stack_of_tobuilder (next_tobuilder
      ((p.peek_next_token token_type.unknown).2.2.parse_identifier.2.2.peek_next_token
        (p.peek_next_token token_type.unknown).2.1).2.2)
    have hvn := parse_value_nests e n _ _ _ hv
    have h1 := reads_length hvn.reads
    have h2 := (hvn.frames (by simp [hrok])).1
    show r.2.2.stack.length + r.2.2.input.length ≤ _
    rw [h2, hs4, hs3, hs2, hst]
    have ih' : p.stack.length + p.input.length ≤ p0.stack.length + p0.input.length := ih
    omega

end parser

/-- C36: the parser terminates on every text. The function `from_string` returns on every
text and document; `parse_value` returns within a depth of calls and loop iterations of
three times the number of bytes left plus one, whatever larger bound it is given, with the
same result; at every call that the run goes through, the open frames, one for each call
of `parse_value` that the call is nested in, are at most as many as the bytes read so far,
so the depth of the recursion is bounded by the length of the text; a call of `parse_value`
that succeeds has read at least one byte, so every
nested call and every iteration of the loops of `parse_object` and `parse_array` that goes
on starts with fewer bytes left; and the loops of `peek_next_token`, `parse_number`,
`parse_string` and `parse_identifier`, every iteration of which reads a byte or returns, do
not depend on their bound from the number of bytes left on. -/
theorem parser_terminates (e : env) (str : List Nat) (doc : document) :
    (∃ r, from_string e str doc = some r) ∧
    (∀ (result : value) (p : parser) (n : Nat), 3 * p.input.length + 1 ≤ n →
      ∃ r, parser.parse_value e (3 * p.input.length + 1) result p = some r ∧
        parser.parse_value e n result p = some r) ∧
    (∀ c, parser.on_spine e (parser.start str doc) c →
      c.state.stack.length + c.state.input.length ≤ str.length) ∧
    (∀ (result : value) (p : parser) (n : Nat) (r : error × value × parser),
      parser.parse_value e n result p = some r → r.1.failed = false →
      r.2.2.input.length < p.input.length) ∧
    (∀ (c : Bool) (p : parser) (n : Nat) (r : error × parser), p.stack ≠ [] →
      (parser.parse_object_loop e n c p = some r ∨ parser.parse_array_loop e n c p = some r) →
      r.1.failed = false → r.2.input.length < p.input.length) ∧
    (∀ (p : parser), p.input ≠ [] → p.next.2.input.length < p.input.length) ∧
    (∀ (p : parser) (n : Nat), p.input.length ≤ n →
      (∀ pc result, parser.peek_next_token_loop n pc result p =
        parser.peek_next_token_loop p.input.length pc result p) ∧
      (∀ buff, parser.parse_number_loop n buff p =
        parser.parse_number_loop p.input.length buff p) ∧
      (∀ sq, parser.parse_string_loop n sq p = parser.parse_string_loop p.input.length sq p) ∧
      parser.parse_identifier_loop n p = parser.parse_identifier_loop p.input.length p) := by
  refine ⟨?_, ?_, ?_, ?_, ?_, ?_, ?_⟩
  · exact Option.isSome_iff_exists.mp (parser.from_string_total e str doc)
  · intro result p n hn
    have h := (parser.total_all e (3 * p.input.length + 1)).1 result p (by omega) (by omega)
    obtain ⟨r, hr⟩ := Option.isSome_iff_exists.mp h
    exact ⟨r, hr, parser.parse_value_mono e _ n hn result p r hr⟩
  · intro c hc
    have := parser.on_spine_depth e _ c hc
    simpa [parser.start] using this
  · intro result p n r h hok
    exact (parser.parse_value_nests e n result p r h).shorter (by simp [hok])
  · intro c p n r hst h hok
    rcases h with h | h
    · exact ((parser.nests_all e n).2.2.1 c p r h hst).shorter (by simp [hok])
    · exact ((parser.nests_all e n).2.2.2.2 c p r h hst).shorter (by simp [hok])
  · intro p hne
    exact parser.next_shorter p hne
  · intro p n hn
    exact ⟨fun pc result => parser.peek_next_token_loop_bound pc result p n hn,
      fun buff => parser.parse_number_loop_bound buff p n hn,
      fun sq => parser.parse_string_loop_bound sq p n hn,
      parser.parse_identifier_loop_bound p n hn⟩

theorem parser_terminates_witness :
    (∃ r, from_string example_env (bytes "[[1], 2") example_doc = some r) ∧
    (∃ r, parser.parse_value example_env (3 * 7 + 1) value.null
        (parser.start (bytes "[[1], 2") example_doc) = some r ∧
      parser.parse_value example_env 100 value.null
        (parser.start (bytes "[[1], 2") example_doc) = some r) :=
  ⟨(parser_terminates example_env (bytes "[[1], 2") example_doc).1,
    (parser_terminates example_env (bytes "[[1], 2") example_doc).2.1 value.null
      (parser.start (bytes "[[1], 2") example_doc) 100 (by decide)⟩

end json5

namespace json5

/-! ## Children are flushed before their parents -/

end json5

namespace json5

end json5

namespace json5

/-- C2, where the code departs from it: the text `["a\u00e9b", "c"]` parses to an array of
size 2 whose second element reads back as `c`, and whose first element reads back as the
two bytes 61 C3, not as the bytes 61 C3 A9 62 that the string stands for:
`string_buffer_add_utf8` stores each byte of the encoding of the escape through
`document::operator+( char )`, which appends a zero after it, so the byte buffer holds
61 C3 00 A9 00 62 00 and the string ends at the first zero. -/
theorem from_string_hex_element_cut :
    ∃ doc1 a v0 v1, from_string example_env (bytes "[\"a\\u00e9b\", \"c\"]") example_doc =
        some (error.ok, doc1) ∧
      doc1.strings = [0, 97, 195, 0, 169, 0, 98, 0, 99, 0] ∧
      array_view.of_value example_env doc1 doc1.to_value = some a ∧ a.size = 2 ∧
      a.get example_env doc1 0 = some v0 ∧ v0.is_string = true ∧
      v0.get_c_str doc1 [] = some [97, 195] ∧
      a.get example_env doc1 1 = some v1 ∧ v1.is_string = true ∧
      v1.get_c_str doc1 [] = some [99] :=
  ⟨_, _, _, _, rfl, rfl, rfl, by decide, rfl, by decide, by decide, rfl, by decide, by decide⟩

/-- C5, where the code departs from it: with the comment `/***/` between the two commas of
`[1,/***/,2]`, or between the two elements of `[1 /***/ 2]`, or between the two commas of
an object, `from_string` fails with `unexpected_end` at the end of the text, not with
`syntax_error` or `comma_expected`: the tokenizer reads the byte after every star of a
block comment unseen, so the comment is never closed. With the comment `/* c */` in the
same places the errors are `syntax_error` at the second comma and `comma_expected` at the
second element, and a comma directly after the opening bracket is a `syntax_error`. -/
theorem from_string_comma_after_comment :
    (from_string example_env (bytes "[1,/***/,2]") example_doc).map Prod.fst =
      some ⟨error_kind.unexpected_end, ⟨1, 12, 11⟩⟩ ∧
    (from_string example_env (bytes "[1 /***/ 2]") example_doc).map Prod.fst =
      some ⟨error_kind.unexpected_end, ⟨1, 12, 11⟩⟩ ∧
    (from_string example_env (bytes "\x7ba:1,/***/,b:2\x7d") example_doc).map Prod.fst =
      some ⟨error_kind.unexpected_end, ⟨1, 16, 15⟩⟩ ∧
    (from_string example_env (bytes "[1,/* c */,2]") example_doc).map Prod.fst =
      some ⟨error_kind.syntax_error, ⟨1, 11, 10⟩⟩ ∧
    (from_string example_env (bytes "[1 /* c */ 2]") example_doc).map Prod.fst =
      some ⟨error_kind.comma_expected, ⟨1, 12, 11⟩⟩ ∧
    (from_string example_env (bytes "\x7ba:1,/* c */,b:2\x7d") example_doc).map Prod.fst =
      some ⟨error_kind.syntax_error, ⟨1, 13, 12⟩⟩ ∧
    (from_string example_env (bytes "[,1]") example_doc).map Prod.fst =
      some ⟨error_kind.syntax_error, ⟨1, 2, 1⟩⟩ :=
  ⟨rfl, rfl, rfl, rfl, rfl, rfl, rfl⟩

/-- The conversion to int of a NaN and of the infinities is INT_MIN, so that `read_enum`
matches none of them with the entries 0 and 1 of a table: the result is `invalid_enum`,
and `out` is as it was. -/
theorem read_enum_nan_invalid :
    int_of_double NAN = -2147483648 ∧ int_of_double positive_infinity = -2147483648 ∧
    int_of_double negative_infinity = -2147483648 ∧
    read_enum example_doc color_table (value.of_double NAN) 7 =
      some (⟨error_kind.invalid_enum, ⟨0, 0, 0⟩⟩, 7) ∧
    read_enum example_doc color_table (value.of_double positive_infinity) 7 =
      some (⟨error_kind.invalid_enum, ⟨0, 0, 0⟩⟩, 7) := by
  refine ⟨by decide, by decide, by decide, by decide, by decide⟩

end json5

namespace json5

/-! ## What a hex escape appends -/

theorem document.add_char_eq (doc : document) (ch : Nat) :
    doc.add_char ch =
      { doc with strings := doc.strings ++ (empty_document.add_char ch).strings } := by
  unfold document.add_char document.add_c_str document.alloc_string
  dsimp only
  by_cases h : (c_str [ch]).length = 0
  · rw [if_pos h, if_pos h]
    simp [empty_document]
  · rw [if_neg h, if_neg h]
    simp [empty_document]

theorem document.foldl_add_char_eq (bs : List Nat) :
    ∀ doc : document, bs.foldl document.add_char doc =
      { doc with strings := doc.strings ++ (bs.foldl document.add_char empty_document).strings } := by
  induction bs with
  | nil =>
    intro doc
    simp [empty_document]
  | cons b bs ih =>
    intro doc
    rw [List.foldl_cons, List.foldl_cons, ih (doc.add_char b), ih (empty_document.add_char b),
      document.add_char_eq doc b]
    simp

theorem builder.string_buffer_add_utf8_eq (b : builder) (ch : Nat) :
    b.string_buffer_add_utf8 ch =
      { b with doc := { b.doc with strings := b.doc.strings ++ utf8_added ch } } := by
  unfold utf8_added builder.string_buffer_add_utf8
  by_cases h1 : ch ≤ 0x7f
  · simp only [if_pos h1]
    rw [document.foldl_add_char_eq _ b.doc]
  simp only [if_neg h1]
  by_cases h2 : 0x80 ≤ ch ∧ ch ≤ 0x7ff
  · simp only [if_pos h2]
    rw [document.foldl_add_char_eq _ b.doc]
  simp only [if_neg h2]
  by_cases h3 : 0x800 ≤ ch ∧ ch ≤ 0xffff
  · simp only [if_pos h3]
    rw [document.foldl_add_char_eq _ b.doc]
  simp only [if_neg h3]
  by_cases h4 : 0x10000 ≤ ch ∧ ch ≤ 0x1fffff
  · simp only [if_pos h4]
    rw [document.foldl_add_char_eq _ b.doc]
  simp only [if_neg h4]
  by_cases h5 : 0x200000 ≤ ch ∧ ch ≤ 0x3ffffff
  · simp only [if_pos h5]
    rw [document.foldl_add_char_eq _ b.doc]
  simp only [if_neg h5]
  by_cases h6 : 0x4000000 ≤ ch ∧ ch ≤ 0x7fffffff
  · simp only [if_pos h6]
    rw [document.foldl_add_char_eq _ b.doc]
  simp only [if_neg h6]
  simp [empty_document]

namespace parser

theorem add_utf8_with_scan (p : parser) (ch : Nat) :
    ({ p with tobuilder := p.tobuilder.string_buffer_add_utf8 ch } : parser) =
      p.with_scan [] p.input (utf8_added ch) := by
  rw [builder.string_buffer_add_utf8_eq]
  simp [with_scan, location.advance]

/-- The loop of `read_hex` on as many bytes as it asks for, all of them accepted. -/
theorem read_hex_full (ds : List Nat) :
    ∀ (S : Nat) (code : List Nat) (p : parser) (tail : List Nat), p.input = ds ++ tail →
      ds.length = S → (∀ d ∈ ds, strchr hexChars (d : Int) = true) →
      read_hex S code p = (some (code ++ ds), p.with_scan ds tail []) := by
  induction ds with
  | nil =>
    intro S code p tail h hlen _
    have hS : S = 0 := by simpa using hlen.symm
    subst hS
    have h' : tail = p.input := by simpa using h.symm
    rw [h', with_scan_nil]
    simp [read_hex]
  | cons d ds ih =>
    intro S code p tail h hlen hd
    obtain ⟨S, rfl⟩ : ∃ k, S = k + 1 := ⟨S - 1, by simp at hlen; omega⟩
    rw [read_hex, next_with_scan p d (ds ++ tail) (by rw [h]; rfl)]
    dsimp only
    rw [hd d (List.mem_cons_self _ _), if_pos rfl, to_byte_cast,
      ih S _ _ tail rfl (by simpa using hlen) (fun x hx => hd x (List.mem_cons_of_mem _ hx)),
      with_scan_with_scan]
    simp

/-- One step of the loop of `parse_string` on a backslash followed by `v` or `f`: the two
bytes are read and nothing is added. -/
theorem parse_string_loop_skipped (n : Nat) (sq : Bool) (p : parser) (c : Nat)
    (rest : List Nat) (h : p.input = 92 :: c :: rest) (hc : c = 118 ∨ c = 102) :
    parse_string_loop (n + 1) sq p = parse_string_loop n sq (p.with_scan [92, c] rest []) := by
  rw [parse_string_loop, eof_cons p _ _ h, peek_cons p _ _ h]
  have h1 : ¬ ((sq = true ∧ ((92 : Nat) : Int) = 39) ∨ (sq = false ∧ ((92 : Nat) : Int) = 34)) := by
    cases sq <;> simp
  simp only [Bool.false_eq_true, if_false, if_neg h1]
  rw [next_with_scan p _ _ h]
  have hi : (p.with_scan [92] (c :: rest) []).input = c :: rest := rfl
  simp only [Nat.cast_ofNat, if_true, peek_cons _ _ _ hi]
  have hcc : ((c : Int) = 10 ∨ (c : Int) = 118 ∨ (c : Int) = 102) := by
    rcases hc with hc | hc <;> subst hc <;> simp
  rw [if_pos hcc, next_with_scan _ _ _ hi, with_scan_with_scan]
  rfl

/-- One step of the loop of `parse_string` on a hex escape. -/
theorem parse_string_loop_hex (n : Nat) (sq : Bool) (p : parser) (x : Nat)
    (ds tail : List Nat) (h : p.input = 92 :: x :: (ds ++ tail))
    (hx : (x = 120 ∧ ds.length = 2) ∨ (x = 117 ∧ ds.length = 4))
    (hd : ∀ d ∈ ds, strchr hexChars (d : Int) = true) :
    parse_string_loop (n + 1) sq p =
      parse_string_loop n sq
        (p.with_scan (92 :: x :: ds) tail (utf8_added (from_chars_hex ds 0 % 2 ^ 32))) := by
  rw [parse_string_loop, eof_cons p _ _ h, peek_cons p _ _ h]
  have h1 : ¬ ((sq = true ∧ ((92 : Nat) : Int) = 39) ∨ (sq = false ∧ ((92 : Nat) : Int) = 34)) := by
    cases sq <;> simp
  simp only [Bool.false_eq_true, if_false, if_neg h1]
  rw [next_with_scan p _ _ h]
  have hi : (p.with_scan [92] (x :: (ds ++ tail)) []).input = x :: (ds ++ tail) := rfl
  simp only [Nat.cast_ofNat, if_true, peek_cons _ _ _ hi]
  rw [next_with_scan _ _ _ hi, with_scan_with_scan]
  rcases hx with ⟨hx, hl⟩ | ⟨hx, hl⟩
  · subst hx
    have hrh := read_hex_full ds 2 [] (p.with_scan [92, 120] (ds ++ tail) [])
      tail rfl hl hd
    simp only [Nat.cast_ofNat, if_true]
    norm_num
    rw [hrh]
    dsimp only
    rw [add_utf8_with_scan, with_scan_with_scan, with_scan_input, with_scan_with_scan]
    simp
  · subst hx
    have hrh := read_hex_full ds 4 [] (p.with_scan [92, 117] (ds ++ tail) [])
      tail rfl hl hd
    simp only [Nat.cast_ofNat, if_true]
    norm_num
    rw [hrh]
    dsimp only
    rw [add_utf8_with_scan, with_scan_with_scan, with_scan_input, with_scan_with_scan]
    simp

end parser

end json5

namespace json5

theorem body_source_cons (it : body_item) (its : List body_item) :
    body_source (it :: its) = it.source ++ body_source its := by
  simp [body_source]

theorem body_decoded_cons (it : body_item) (its : List body_item) :
    body_decoded (it :: its) = it.decoded ++ body_decoded its := by
  simp [body_decoded]

namespace parser

/-- The loop of `parse_string` over well-formed pieces, hex escapes and the escapes `\v`
and `\f` included, whatever follows them. -/
theorem parse_string_loop_body (sq : Bool) (items : List body_item)
    (hok : ∀ it ∈ items, it.ok (if sq then 39 else 34)) (p : parser) (n : Nat)
    (tail : List Nat) (h : p.input = body_source items ++ tail)
    (hn : p.input.length ≤ n) :
    ∃ m, tail.length ≤ m ∧ parse_string_loop n sq p =
      parse_string_loop m sq (p.with_scan (body_source items) tail (body_decoded items)) := by
  induction items generalizing p n with
  | nil =>
    have h' : p.input = tail := by simpa [body_source] using h
    refine ⟨n, by rw [← h']; exact hn, ?_⟩
    have : p.with_scan (body_source []) tail (body_decoded []) = p := by
      rw [← h']
      simpa [body_source, body_decoded] using with_scan_nil p
    rw [this]
  | cons it its ih =>
    have hok' : ∀ it ∈ its, it.ok (if sq then 39 else 34) :=
      fun x hx => hok x (List.mem_cons_of_mem _ hx)
    have hit := hok it (List.mem_cons_self _ _)
    rw [body_source_cons] at h
    obtain ⟨m, rfl⟩ : ∃ m, n = m + 1 := by
      refine ⟨n - 1, ?_⟩
      have : 0 < p.input.length := by
        rw [h]
        cases it with
        | piece s => cases s <;> simp [body_item.source, str_item.source]
        | skipped c => simp [body_item.source]
        | hex x ds => simp [body_item.source]
      omega
    rw [body_source_cons, body_decoded_cons]
    cases it with
    | piece s =>
      cases s with
      | plain c =>
        have h' : p.input = c :: (body_source its ++ tail) := by
          simpa [body_item.source, str_item.source] using h
        have hit' : c ≠ 92 ∧ c ≠ (if sq then 39 else 34) := hit
        rw [parse_string_loop_plain m sq p c _ h' hit'.1 hit'.2]
        obtain ⟨k, hk, hr⟩ := ih hok' (p.with_scan [c] (body_source its ++ tail) [c]) m
          (by simp) (by rw [h'] at hn; simp at hn ⊢; omega)
        refine ⟨k, hk, ?_⟩
        rw [hr]
        simp [with_scan_with_scan, body_item.source, body_item.decoded, str_item.source,
          str_item.decoded]
      | escape c =>
        have h' : p.input = 92 :: c :: (body_source its ++ tail) := by
          simpa [body_item.source, str_item.source] using h
        have hit' : (simple_escape c).isSome = true := hit
        obtain ⟨b, hb⟩ := Option.isSome_iff_exists.mp hit'
        rw [parse_string_loop_escape m sq p c b _ h' hb]
        obtain ⟨k, hk, hr⟩ := ih hok' (p.with_scan [92, c] (body_source its ++ tail) [b]) m
          (by simp) (by rw [h'] at hn; simp at hn ⊢; omega)
        refine ⟨k, hk, ?_⟩
        rw [hr]
        simp [with_scan_with_scan, body_item.source, body_item.decoded, str_item.source,
          str_item.decoded, hb]
      | continuation =>
        have h' : p.input = 92 :: 10 :: (body_source its ++ tail) := by
          simpa [body_item.source, str_item.source] using h
        rw [parse_string_loop_continuation m sq p _ h']
        obtain ⟨k, hk, hr⟩ := ih hok' (p.with_scan [92, 10] (body_source its ++ tail) []) m
          (by simp) (by rw [h'] at hn; simp at hn ⊢; omega)
        refine ⟨k, hk, ?_⟩
        rw [hr]
        simp [with_scan_with_scan, body_item.source, body_item.decoded, str_item.source,
          str_item.decoded]
    | skipped c =>
      have h' : p.input = 92 :: c :: (body_source its ++ tail) := by
        simpa [body_item.source] using h
      have hit' : c = 118 ∨ c = 102 := hit
      rw [parse_string_loop_skipped m sq p c _ h' hit']
      obtain ⟨k, hk, hr⟩ := ih hok' (p.with_scan [92, c] (body_source its ++ tail) []) m
        (by simp) (by rw [h'] at hn; simp at hn ⊢; omega)
      refine ⟨k, hk, ?_⟩
      rw [hr]
      simp [with_scan_with_scan, body_item.source, body_item.decoded]
    | hex x ds =>
      have h' : p.input = 92 :: x :: (ds ++ (body_source its ++ tail)) := by
        simpa [body_item.source] using h
      have hit' : ((x = 120 ∧ ds.length = 2) ∨ (x = 117 ∧ ds.length = 4)) ∧
          ∀ d ∈ ds, strchr hexChars (d : Int) = true := hit
      rw [parse_string_loop_hex m sq p x ds _ h' hit'.1 hit'.2]
      obtain ⟨k, hk, hr⟩ := ih hok'
        (p.with_scan (92 :: x :: ds) (body_source its ++ tail)
          (utf8_added (from_chars_hex ds 0 % 2 ^ 32))) m
        (by simp) (by rw [h'] at hn; simp at hn ⊢; omega)
      refine ⟨k, hk, ?_⟩
      rw [hr]
      simp [with_scan_with_scan, body_item.source, body_item.decoded]

/-- The method `parse_string` on a quoted string whose body runs, after any well-formed
pieces, into a backslash that starts no escape. -/
theorem parse_string_body_rejected (sq : Bool) (items : List body_item)
    (hok : ∀ it ∈ items, it.ok (if sq then 39 else 34)) (p : parser) (tail : List Nat)
    (h : p.input = (if sq then 39 else 34) :: (body_source items ++ 92 :: tail))
    (hr : rejected_escape tail) :
    ∃ q, p.parse_string =
      (q.make_error error_kind.invalid_escape_seq, p.doc.strings.length, q) := by
  unfold parse_string
  dsimp only
  have hsq : decide (p.peek = 39) = sq := by
    rw [peek_cons p _ _ h]
    cases sq <;> simp
  rw [hsq, next_with_scan p _ _ h]
  dsimp only
  obtain ⟨m, hm, hpre⟩ := parse_string_loop_body sq items hok
    (p.with_scan [if sq then 39 else 34] (body_source items ++ 92 :: tail) [])
    (p.with_scan [if sq then 39 else 34] (body_source items ++ 92 :: tail) []).input.length
    (92 :: tail) rfl (le_refl _)
  obtain ⟨k, rfl⟩ : ∃ k, m = k + 1 := ⟨m - 1, by simp at hm; omega⟩
  obtain ⟨q, hq⟩ := parse_string_loop_rejected k sq
    ((p.with_scan [if sq then 39 else 34] (body_source items ++ 92 :: tail) []).with_scan
      (body_source items) (92 :: tail) (body_decoded items)) tail rfl hr
  rw [hpre, hq]
  refine ⟨q, ?_⟩
  simp [builder.string_buffer_offset, with_scan]

/-- The method `parse_value` in front of such a string. -/
theorem parse_value_body_rejected (e : env) (result : value) (sq : Bool) (ws : List Nat)
    (items : List body_item) (p : parser) (tail : List Nat)
    (hws : ∀ w ∈ ws, is_space w = true)
    (hok : ∀ it ∈ items, it.ok (if sq then 39 else 34))
    (h : p.input = ws ++ (if sq then 39 else 34) :: (body_source items ++ 92 :: tail))
    (hr : rejected_escape tail) :
    ∃ q, parse_value e 1 result p =
      some (q.make_error error_kind.invalid_escape_seq, result, q) := by
  have hst : token_start (if sq then 39 else 34) = true := by cases sq <;> decide
  have hcl : token_class token_type.unknown (if sq then 39 else 34) = token_type.string := by
    cases sq <;> decide
  rw [parse_value, peek_next_token_spaces p _ ws _ _ h hws hst]
  dsimp only
  rw [if_neg (by decide), hcl]
  dsimp only
  obtain ⟨q, hq⟩ := parse_string_body_rejected sq items hok
    (p.with_scan ws ((if sq then 39 else 34) :: (body_source items ++ 92 :: tail)) [])
    tail rfl hr
  rw [hq]
  refine ⟨q, ?_⟩
  rfl

/-- The whole of `parse_string` on a quoted string made of well-formed pieces, with input
left behind the closing quote: the bytes added are those of the pieces and the
terminating zero. -/
theorem parse_string_body (sq : Bool) (items : List body_item)
    (hok : ∀ it ∈ items, it.ok (if sq then 39 else 34)) (p : parser) (rest : List Nat)
    (h : p.input = (if sq then 39 else 34) :: (body_source items ++
      (if sq then 39 else 34) :: rest)) (hrest : rest ≠ []) :
    p.parse_string =
      (error.ok, p.doc.strings.length,
        p.with_scan ((if sq then 39 else 34) :: (body_source items ++
          [if sq then 39 else 34])) rest (body_decoded items ++ [0])) := by
  unfold parse_string
  dsimp only
  have hsq : decide (p.peek = 39) = sq := by
    rw [peek_cons p _ _ h]
    cases sq <;> simp
  rw [hsq, next_with_scan p _ _ h]
  dsimp only
  obtain ⟨m, hm, hpre⟩ := parse_string_loop_body sq items hok
    (p.with_scan [if sq then 39 else 34]
      (body_source items ++ (if sq then 39 else 34) :: rest) [])
    (p.with_scan [if sq then 39 else 34]
      (body_source items ++ (if sq then 39 else 34) :: rest) []).input.length
    ((if sq then 39 else 34) :: rest) rfl (le_refl _)
  obtain ⟨k, rfl⟩ : ∃ k, m = k + 1 := ⟨m - 1, by simp at hm; omega⟩
  rw [hpre, parse_string_loop_quote k sq _ rest rfl]
  dsimp only
  rw [with_scan_with_scan, with_scan_with_scan]
  have : (p.with_scan ([if sq then 39 else 34] ++ (body_source items ++
      [if sq then 39 else 34])) rest ([] ++ (body_decoded items ++ []))).eof = false := by
    simp [eof, hrest]
  rw [this]
  simp [add_with_scan, with_scan_with_scan, builder.string_buffer_offset, with_scan,
    location.advance]

end parser

/-- C10, amended. Take well-formed pieces of a string body: unescaped bytes, simple
escapes, line continuations, the escapes `\v` and `\f`, and hex escapes with all their
digits. Rejected escapes: let the run of `from_string` be about to parse a value, and let
what follows be whitespace, an opening quote, the pieces and then a backslash followed by
`tail`, where `tail` is empty, or starts with a byte other than newline, v, f, t, n, r, b,
backslash, apostrophe, quote, slash, 0, x and u, or is x with fewer than 2 (u with fewer
than 4) hexadecimal digits followed by the end of the input or by a byte that is neither a
hexadecimal digit nor zero. Then `from_string` returns `invalid_escape_seq`. Skipped
escapes: on the quoted string of the pieces, with input left behind it, `parse_string`
returns no error and adds exactly the bytes of the pieces and the terminating zero, where
a backslash followed by `v` or by `f` adds nothing, like a backslash followed by a
newline. -/
theorem from_string_invalid_escape (sq : Bool) (items : List body_item)
    (hok : ∀ it ∈ items, it.ok (if sq then 39 else 34)) :
    (∀ (e : env) (str : List Nat) (doc : document) (result : value) (p : parser)
        (ws tail : List Nat),
      parser.on_spine e (parser.start str doc) (parser.call.value result p) →
      p.input = ws ++ (if sq then 39 else 34) :: (body_source items ++ 92 :: tail) →
      (∀ w ∈ ws, is_space w = true) →
      rejected_escape tail →
      ∃ loc doc1, from_string e str doc =
        some (⟨error_kind.invalid_escape_seq, loc⟩, doc1)) ∧
    (∀ (P : parser) (rest : List Nat), rest ≠ [] →
      P.input = (if sq then 39 else 34) :: (body_source items ++
        (if sq then 39 else 34) :: rest) →
      P.parse_string =
        (error.ok, P.doc.strings.length,
          P.with_scan ((if sq then 39 else 34) :: (body_source items ++
            [if sq then 39 else 34])) rest (body_decoded items ++ [0]))) := by
  refine ⟨?_, ?_⟩
  · intro e str doc result p ws tail hs hin hws hr
    obtain ⟨q, hq⟩ := parser.parse_value_body_rejected e result sq ws items p tail hws hok
      hin hr
    obtain ⟨doc1, h1⟩ := parser.on_spine_error e str doc _
      (q.make_error error_kind.invalid_escape_seq) hs ⟨rfl, 1, result, q, hq⟩
    exact ⟨q.loc, doc1, h1⟩
  · intro P rest hrest hP
    exact parser.parse_string_body sq items hok P rest hP hrest

theorem from_string_invalid_escape_witness :
    (∃ loc doc1, from_string example_env (bytes "[\"\\v\\q\"]") example_doc =
      some (⟨error_kind.invalid_escape_seq, loc⟩, doc1)) ∧
    (∃ loc doc1, from_string example_env (bytes "[\"\\x41\\q\"]") example_doc =
      some (⟨error_kind.invalid_escape_seq, loc⟩, doc1)) ∧
    (∃ loc doc1, from_string example_env (bytes "\x7bk: 'a\\f\\u00e9\\x4g'\x7d")
        example_doc =
      some (⟨error_kind.invalid_escape_seq, loc⟩, doc1)) ∧
    (parser.start (bytes "\"a\\vb\\fc\"]") example_doc).parse_string.2.2.doc.strings =
      [0, 97, 98, 99, 0] :=
  ⟨(from_string_invalid_escape false [body_item.skipped 118]
      (by simp [body_item.ok])).1 example_env (bytes "[\"\\v\\q\"]") example_doc _ _ []
      (bytes "q\"]")
      (parser.on_spine.array_element _
        (parser.on_spine.array_begin _ _ parser.on_spine.root rfl rfl) rfl (by decide))
      rfl (by decide) (Or.inr (Or.inl ⟨113, bytes "\"]", rfl, by decide⟩)),
    (from_string_invalid_escape false [body_item.hex 120 [52, 49]]
      (by simp [body_item.ok]; decide)).1 example_env (bytes "[\"\\x41\\q\"]") example_doc
      _ _ [] (bytes "q\"]")
      (parser.on_spine.array_element _
        (parser.on_spine.array_begin _ _ parser.on_spine.root rfl rfl) rfl (by decide))
      rfl (by decide) (Or.inr (Or.inl ⟨113, bytes "\"]", rfl, by decide⟩)),
    (from_string_invalid_escape true
      [body_item.piece (str_item.plain 97), body_item.skipped 102,
        body_item.hex 117 [48, 48, 101, 57]]
      (by simp [body_item.ok, str_item.ok]; decide)).1 example_env
      (bytes "\x7bk: 'a\\f\\u00e9\\x4g'\x7d") example_doc _ _ (bytes " ") (bytes "x4g'\x7d")
      (parser.on_spine.object_value _
        (parser.on_spine.object_begin _ _ parser.on_spine.root rfl rfl)
        rfl (Or.inl rfl) rfl rfl rfl)
      rfl (by decide)
      (Or.inr (Or.inr ⟨120, [52], bytes "g'\x7d", rfl, Or.inl ⟨rfl, by decide⟩, by decide,
        Or.inr ⟨103, bytes "'\x7d", rfl, by decide, by decide⟩⟩)),
    congrArg (fun r : error × Nat × parser => r.2.2.doc.strings)
      ((from_string_invalid_escape false
        [body_item.piece (str_item.plain 97), body_item.skipped 118,
          body_item.piece (str_item.plain 98), body_item.skipped 102,
          body_item.piece (str_item.plain 99)]
        (by simp [body_item.ok, str_item.ok])).2
        (parser.start (bytes "\"a\\vb\\fc\"]") example_doc) (bytes "]") (by decide) rfl)⟩

end json5
